import Mathlib

/-!
The sparse LCSk / LCSk++ engine of fast-simple-lcsk.

A shallow embedding of `src/fast_simple_lcsk/lcsk.cc` and the properties of it that
the specification states.

Conventions of the embedding.

* C++ `int` is `Int` (no overflow is modelled); container sizes and indices are `Nat`.
  The block length `k` is a `Nat` (the specification asks for `k ≥ 1`).
* Every function that can hit an `assert` or read a vector outside its bounds returns
  an `Option`; `none` stands for the failed assertion / the out-of-range access.
* `std::string` is `List Char`.
* The per-row choice between the two query strategies compares floating-point
  logarithms; it is taken as a parameter `use_amortized : Nat → Nat → Bool` of the table
  size and the number of begin events, and every theorem holds for all such functions.
-/

namespace Lcsk

/-! ## Data model -/

/-- Modelled from the spec: `match_pair.h` is not part of the sources at hand. A value of
this type is a `std::shared_ptr<MatchPair>`: either `nullptr` or a node with the fields
`end_row`, `end_col`, `dp`, `prev` that the constructor calls
`MatchPair(end_row, end_col, dp, prev)` of `lcsk.cc` fill in. A node is never changed
once something else points to it, so sharing is modelled by value. -/
inductive MatchPair where
  | null : MatchPair
  | node (end_row end_col dp : Int) (prev : MatchPair) : MatchPair
deriving DecidableEq, Repr

/-- Field `end_row` of the node pointed to. -/
def MatchPair.end_row : MatchPair → Int
  | .null => 0
  | .node r _ _ _ => r

/-- Field `end_col` of the node pointed to. -/
def MatchPair.end_col : MatchPair → Int
  | .null => 0
  | .node _ c _ _ => c

/-- Field `dp` of the node pointed to. -/
def MatchPair.dp : MatchPair → Int
  | .null => 0
  | .node _ _ d _ => d

/-- Field `prev` of the node pointed to. -/
def MatchPair.prev : MatchPair → MatchPair
  | .null => .null
  | .node _ _ _ p => p

/-- A begin event `(row, col, nullptr)`; the pointer component is always null and is
left out. -/
abbrev BeginEvent := Int × Int

/-- An end event `(row, col, match_pair)`. -/
abbrev EndEvent := Int × Int × MatchPair

/-- Modelled from the spec: `match_events_queue.h` is not part of the sources at hand.
Two first-in first-out queues, one per kind of event (§4.2 of the spec). `AddBegin` and
`AddEnd` append at the back; `PopBegin(row, &e)` and `PopEnd(row, &e)` remove the front
event when its row is `row` and report `false` otherwise. -/
structure MatchEventsQueue where
  begin_events : List BeginEvent
  end_events : List EndEvent
deriving DecidableEq, Repr

/-- Operation `AddBegin` of the queue. -/
def MatchEventsQueue.AddBegin (q : MatchEventsQueue) (e : BeginEvent) : MatchEventsQueue :=
  { q with begin_events := q.begin_events ++ [e] }

/-- Operation `AddEnd` of the queue. -/
def MatchEventsQueue.AddEnd (q : MatchEventsQueue) (e : EndEvent) : MatchEventsQueue :=
  { q with end_events := q.end_events ++ [e] }

/-- The sentinel `MatchPair(-1, -1, 0, nullptr)` in slot 0 of the compressed table. -/
def sentinel : MatchPair := .node (-1) (-1) 0 .null

/-! ## FillLcskReconstruction -/

/-- The `for (ft = best; ft != nullptr; ft = ft->prev)` loop of `FillLcskReconstruction`;
`acc` is `lcsk_recon`. The `assert` of the `else` branch gives `none` when it fails. -/
def FillLcskReconstruction.loop (k : Nat) : MatchPair → List (Int × Int) → Option (List (Int × Int))
  | .null, acc => some acc
  | .node r c _ prev, acc =>
    if prev = .null ∨ (prev.end_row + k ≤ r ∧ prev.end_col + k ≤ c) then
      FillLcskReconstruction.loop k prev
        (acc ++ (List.range k).map (fun (t : Nat) => (r - (t : Int), c - (t : Int))))
    else if prev.end_row + 1 = r ∧ prev.end_col + 1 = c then
      FillLcskReconstruction.loop k prev (acc ++ [(r, c)])
    else none

/-- `FillLcskReconstruction(k, best)`. -/
def FillLcskReconstruction (k : Nat) (best : MatchPair) : Option (List (Int × Int)) :=
  (FillLcskReconstruction.loop k best []).map List.reverse

/-! ## Queries -/

/-- The inner `while` of `AmortizedRowQuery`: starting at `idx`, with `rest` the table
from slot `idx` on, step over the slots whose end column is below `j`. -/
def advanceThreshold (j : Int) : List MatchPair → Nat → Nat
  | [], idx => idx
  | x :: rest, idx => if x.end_col < j then advanceThreshold j rest (idx + 1) else idx

/-- The node a query makes for the begin event `(i, j)` from `prev_best`. -/
def makeMatchPair (k : Nat) (i j : Int) (prev_best : MatchPair) : MatchPair :=
  if prev_best.dp > 0 then .node (i + k - 1) (j + k - 1) (prev_best.dp + k) prev_best
  else .node (i + k - 1) (j + k - 1) k .null

/-- The `while (events.PopBegin(row, &event))` loop of `AmortizedRowQuery`. The first
list is the queue of begin events, `idx` is `curr_threshold_index`, `ends` the queue of
end events. Reading `compressed_table[curr_threshold_index - 1]` outside the table gives
`none`. -/
def AmortizedRowQuery.loop (k : Nat) (row : Int) (table : List MatchPair) :
    List BeginEvent → Nat → List EndEvent → Option (List BeginEvent × List EndEvent)
  | [], _, ends => some ([], ends)
  | (i, j) :: rest, idx, ends =>
    if i ≠ row then some ((i, j) :: rest, ends)
    else
      let idx1 := advanceThreshold j (table.drop idx) idx
      if idx1 = 0 then none
      else
        match table[idx1 - 1]? with
        | none => none
        | some prev_best =>
          AmortizedRowQuery.loop k row table rest idx1
            (ends ++ [(i + k - 1, j + k - 1, makeMatchPair k i j prev_best)])

/-- `AmortizedRowQuery(k, row, &events, &compressed_table)`. -/
def AmortizedRowQuery (k : Nat) (row : Int) (events : MatchEventsQueue)
    (table : List MatchPair) : Option MatchEventsQueue :=
  (AmortizedRowQuery.loop k row table events.begin_events 0 events.end_events).map
    (fun p => { begin_events := p.1, end_events := p.2 })

/-- `std::lower_bound(table.begin(), table.end(), dummy, CompareByCol)` with
`dummy.end_col = j`, as the usual halving search on the range of `len` slots starting at
`first`. The first argument bounds the number of halvings. -/
def lower_bound (table : List MatchPair) (j : Int) : Nat → Nat → Nat → Nat
  | 0, first, _ => first
  | fuel + 1, first, len =>
    if len = 0 then first
    else
      let half := len / 2
      let mid := first + half
      if (table.getD mid .null).end_col < j then
        lower_bound table j fuel (mid + 1) (len - half - 1)
      else lower_bound table j fuel first half

/-- The `while (events.PopBegin(row, &event))` loop of `ElementwiseRowQuery`. The
iterator `lower_bound(...) - 1` is dereferenced; when `lower_bound` returns `begin()`
that is an out-of-range read, `none`. -/
def ElementwiseRowQuery.loop (k : Nat) (row : Int) (table : List MatchPair) :
    List BeginEvent → List EndEvent → Option (List BeginEvent × List EndEvent)
  | [], ends => some ([], ends)
  | (i, j) :: rest, ends =>
    if i ≠ row then some ((i, j) :: rest, ends)
    else
      let pos := lower_bound table j table.length 0 table.length
      if pos = 0 then none
      else
        match table[pos - 1]? with
        | none => none
        | some prev_best =>
          ElementwiseRowQuery.loop k row table rest
            (ends ++ [(i + k - 1, j + k - 1, makeMatchPair k i j prev_best)])

/-- `ElementwiseRowQuery(k, row, &events, &compressed_table)`. -/
def ElementwiseRowQuery (k : Nat) (row : Int) (events : MatchEventsQueue)
    (table : List MatchPair) : Option MatchEventsQueue :=
  (ElementwiseRowQuery.loop k row table events.begin_events events.end_events).map
    (fun p => { begin_events := p.1, end_events := p.2 })

/-! ## RowUpdate -/

/-- The first `while` of the LCSk++ branch of `RowUpdate`: advance
`curr_continuation_index` over the nodes of the previous row whose end column is more
than one to the left of `c`. -/
def advanceContinuation (c : Int) : List MatchPair → Nat → Nat
  | [], idx => idx
  | x :: rest, idx => if x.end_col + 1 < c then advanceContinuation c rest (idx + 1) else idx

/-- The continuation test of `RowUpdate`: the node after the update of `dp` and `prev`. -/
def continueFrom (prev_row : List MatchPair) (idx : Nat) (match_pair_end : MatchPair) :
    MatchPair :=
  match prev_row[idx]? with
  | none => match_pair_end
  | some p =>
    if p.end_col + 1 = match_pair_end.end_col ∧ p.dp + 1 > match_pair_end.dp then
      .node match_pair_end.end_row match_pair_end.end_col (p.dp + 1) p
    else match_pair_end

/-- The loop `while (compressed_table.size() <= dp)` of `RowUpdate`, run `n` times: push
the placeholder `MatchPair(i+1, j+1, idx, nullptr)` with `idx` the current size. -/
def pushDummies (i j : Int) : Nat → List MatchPair → List MatchPair
  | 0, table => table
  | n + 1, table => pushDummies i j n (table ++ [.node (i + 1) (j + 1) table.length .null])

/-- The loop `for (idx = dp; idx > dp - k && j < table[idx]->end_col; --idx)` of
`RowUpdate`; the first argument is `idx - (dp - k)`, the number of slots still allowed. -/
def foldIntoTable (j : Int) (match_pair_end : MatchPair) :
    Nat → Int → List MatchPair → Option (List MatchPair)
  | 0, _, table => some table
  | n + 1, idx, table =>
    if idx < 0 then none
    else
      match table[idx.toNat]? with
      | none => none
      | some cur =>
        if j < cur.end_col then
          foldIntoTable j match_pair_end n (idx - 1) (table.set idx.toNat match_pair_end)
        else some table

/-- The `while (events.PopEnd(row, &event))` loop of `RowUpdate`. The first list is the
queue of end events; the result is the queue left over, the table and `curr_row`. -/
def RowUpdate.loop (k : Nat) (row : Int) (lcsk_plus : Bool) (prev_row : List MatchPair) :
    List EndEvent → List MatchPair → List MatchPair → Nat →
      Option (List EndEvent × List MatchPair × List MatchPair)
  | [], table, curr_row, _ => some ([], table, curr_row)
  | (i, j, match_pair_end) :: rest, table, curr_row, cidx =>
    if i ≠ row then some ((i, j, match_pair_end) :: rest, table, curr_row)
    else if lcsk_plus then
      let cidx1 := advanceContinuation match_pair_end.end_col (prev_row.drop cidx) cidx
      let mp := continueFrom prev_row cidx1 match_pair_end
      let dp := mp.dp
      let table1 := pushDummies i j (dp + 1 - (table.length : Int)).toNat table
      match foldIntoTable j mp k dp table1 with
      | none => none
      | some table2 => RowUpdate.loop k row lcsk_plus prev_row rest table2 (curr_row ++ [mp]) cidx1
    else
      if k = 0 then none
      else
        let idx := match_pair_end.dp / (k : Int)
        if idx = (table.length : Int) then
          RowUpdate.loop k row lcsk_plus prev_row rest (table ++ [match_pair_end]) curr_row cidx
        else if idx < 0 then none
        else
          match table[idx.toNat]? with
          | none => none
          | some cur =>
            if j < cur.end_col then
              RowUpdate.loop k row lcsk_plus prev_row rest (table.set idx.toNat match_pair_end)
                curr_row cidx
            else RowUpdate.loop k row lcsk_plus prev_row rest table curr_row cidx

/-- The state of the sweep of `LcskppSparseFastRealImpl`: `events`, `compressed_table`
and `prev_row_match_pairs`. -/
structure SweepState where
  events : MatchEventsQueue
  compressed_table : List MatchPair
  prev_row_match_pairs : List MatchPair
deriving DecidableEq, Repr

/-- `RowUpdate(k, row, &events, &compressed_table, &prev_row_match_pairs, lcsk_plus)`. -/
def RowUpdate (k : Nat) (row : Int) (lcsk_plus : Bool) (s : SweepState) : Option SweepState :=
  (RowUpdate.loop k row lcsk_plus s.prev_row_match_pairs s.events.end_events
      s.compressed_table [] 0).map
    (fun r => { events := { begin_events := s.events.begin_events, end_events := r.1 },
                compressed_table := r.2.1,
                prev_row_match_pairs := r.2.2 })

/-! ## LcskppSparseFastRealImpl -/

/-- The state before the first row: an empty queue, the table with the sentinel only, no
previous row. -/
def initialState : SweepState :=
  { events := { begin_events := [], end_events := [] },
    compressed_table := [sentinel],
    prev_row_match_pairs := [] }

/-- One iteration of the `for (row ...)` loop of `LcskppSparseFastRealImpl`. -/
def rowStep (use_amortized : Nat → Nat → Bool) (k : Nat) (lcsk_plus : Bool) (row : Int)
    (row_matches : List Int) (s : SweepState) : Option SweepState :=
  let events := row_matches.foldl (fun q col => q.AddBegin (row, col)) s.events
  let queried :=
    if use_amortized s.compressed_table.length row_matches.length then
      AmortizedRowQuery k row events s.compressed_table
    else ElementwiseRowQuery k row events s.compressed_table
  match queried with
  | none => none
  | some events1 => RowUpdate k row lcsk_plus { s with events := events1 }

/-- The `for (row ...)` loop of `LcskppSparseFastRealImpl` from row `row` on. -/
def sweep (use_amortized : Nat → Nat → Bool) (k : Nat) (lcsk_plus : Bool) :
    List (List Int) → Int → SweepState → Option SweepState
  | [], _, s => some s
  | row_matches :: rest, row, s =>
    match rowStep use_amortized k lcsk_plus row row_matches s with
    | none => none
    | some s1 => sweep use_amortized k lcsk_plus rest (row + 1) s1

/-- The choice of `best` at the end of `LcskppSparseFastRealImpl`. -/
def bestOf (table : List MatchPair) : Option MatchPair :=
  match table.getLast? with
  | none => none
  | some last => some (if last.end_row ≠ -1 then last else .null)

/-- `LcskppSparseFastRealImpl(k, lcsk_plus, matches)`; the argument `matches` is called
`match_rows` here. -/
def LcskppSparseFastRealImpl (use_amortized : Nat → Nat → Bool) (k : Nat) (lcsk_plus : Bool)
    (match_rows : List (List Int)) : Option (List (Int × Int)) :=
  match sweep use_amortized k lcsk_plus match_rows 0 initialState with
  | none => none
  | some s =>
    match bestOf s.compressed_table with
    | none => none
    | some best => FillLcskReconstruction k best

/-! ## Match source -/

/-- Whether the blocks of length `k` starting at `r` in `a` and at `c` in `b` both exist
and are equal. -/
def isBlockMatch (a b : List Char) (k r c : Nat) : Bool :=
  decide (r + k ≤ a.length ∧ c + k ≤ b.length ∧ (a.drop r).take k = (b.drop c).take k)

/-- Modelled from the spec: `match_maker.h` is not part of the sources at hand. The call
`GetNextMatches` for row `row` yields, in increasing order, every column `c` at which the
block of length `k` of `b` equals the block of length `k` of `a` at `row`. -/
def GetNextMatches (a b : List Char) (k row : Nat) : List Int :=
  List.map (fun (c : Nat) => (c : Int))
    ((List.range (b.length + 1)).filter (fun c => isBlockMatch a b k row c))

/-- The vector `rows_matches` that the first loop of `LcskppSparseFastImpl` builds, one
entry for each `row` in `0 .. a.size()`. -/
def rowsMatches (a b : List Char) (k : Nat) : List (List Int) :=
  (List.range (a.length + 1)).map (fun row => GetNextMatches a b k row)

/-- The vector `matches` that the first loop of `LcskppSparseFastImpl` builds. -/
def allMatches (a b : List Char) (k : Nat) : List (Int × Int) :=
  (List.range (a.length + 1)).flatMap
    (fun row => (GetNextMatches a b k row).map (fun col => ((row : Int), col)))

/-! ## Orders on pairs, sorting, merging -/

/-- The order `operator<` of `std::pair<int, int>`. -/
def pairLt (p q : Int × Int) : Prop := p.1 < q.1 ∨ (p.1 = q.1 ∧ p.2 < q.2)

instance : DecidableRel pairLt := fun p q => by unfold pairLt; exact inferInstance

/-- The order `!(q < p)` on pairs: lexicographic, not strict. -/
def pairLe (p q : Int × Int) : Prop := p.1 < q.1 ∨ (p.1 = q.1 ∧ p.2 ≤ q.2)

instance : DecidableRel pairLe := fun p q => by unfold pairLe; exact inferInstance

/-- The comparison of the lambda given to `sort` in the multistart branch, not strict:
by column, then by row. -/
def colRowLe (p q : Int × Int) : Prop := p.2 < q.2 ∨ (p.2 = q.2 ∧ p.1 ≤ q.1)

instance : DecidableRel colRowLe := fun p q => by unfold colRowLe; exact inferInstance

/-- `std::unique` followed by `erase`: of each run of equal neighbours the first stays. -/
def unique : List (Int × Int) → List (Int × Int)
  | [] => []
  | [x] => [x]
  | x :: y :: rest => if x = y then unique (y :: rest) else x :: unique (y :: rest)

/-- The merge step of `std::inplace_merge`: the front of the second range goes first
exactly when it is smaller than the front of the first range. The first argument bounds
the number of steps. -/
def mergeAux : Nat → List (Int × Int) → List (Int × Int) → List (Int × Int)
  | 0, xs, ys => xs ++ ys
  | _ + 1, [], ys => ys
  | _ + 1, xs, [] => xs
  | n + 1, x :: xs, y :: ys =>
    if pairLt y x then y :: mergeAux n (x :: xs) ys else x :: mergeAux n xs (y :: ys)

/-- `std::inplace_merge(recon.begin(), recon.begin() + middle, recon.end())` on the
concatenation of `xs` and `ys`. -/
def inplace_merge (xs ys : List (Int × Int)) : List (Int × Int) :=
  mergeAux (xs.length + ys.length) xs ys

/-! ## LcskppSparseFastImpl and LcskppSparseFast -/

/-- The enumeration `LcskppParams::Mode`. (`lcsk.cc` calls the third mode
`MULTISTART_2D_AGGRESSIVE`.) -/
inductive Mode where
  | SINGLESTART
  | MULTISTART_2D_LOGARITHMIC
  | MULTISTART_AGGRESSIVE
deriving DecidableEq, Repr

/-- The structure `LcskppParams` of `lcsk.h`, with its default values. -/
structure LcskppParams where
  lcsk_plus : Bool := true
  reverse : Bool := false
  mode : Mode := Mode.SINGLESTART
  k : Nat := 3
  aggressive_runs : Int := 3
deriving DecidableEq, Repr

/-- The loop that fills `normalised_matches`, a vector of `nrows` rows: every match is
pushed to the row of its first component. A row outside the vector gives `none`. -/
def normalise (nrows : Nat) (cm_matches : List (Int × Int)) : Option (List (List Int)) :=
  cm_matches.foldl
    (fun (acc : Option (List (List Int))) (m : Int × Int) =>
      match acc with
      | none => none
      | some rows =>
        if 0 ≤ m.1 ∧ m.1.toNat < rows.length then
          some (rows.modify (fun r => r ++ [m.2]) m.1.toNat)
        else none)
    (some (List.replicate nrows []))

/-- The inner loop `while (cm_matches.size())` of the multistart branch; the first
argument bounds the number of rounds, `recon` is the accumulated result. -/
def multistartInner (use_amortized : Nat → Nat → Bool) (k : Nat) (lcsk_plus : Bool)
    (nrows : Nat) : Nat → List (Int × Int) → List (Int × Int) → Option (List (Int × Int))
  | 0, _, recon => some recon
  | n + 1, cm_matches, recon =>
    if cm_matches = [] then some recon
    else
      match normalise nrows cm_matches with
      | none => none
      | some normalised_matches =>
        match LcskppSparseFastRealImpl use_amortized k lcsk_plus normalised_matches with
        | none => none
        | some new_recon =>
          multistartInner use_amortized k lcsk_plus nrows n
            (cm_matches.drop ((cm_matches.length + 1) / 2)) (recon ++ new_recon)

/-- The outer loop `while (matches.size())` of the multistart branch; the first argument
bounds the number of rounds. -/
def multistartOuter (use_amortized : Nat → Nat → Bool) (k : Nat) (lcsk_plus : Bool)
    (nrows : Nat) : Nat → List (Int × Int) → List (Int × Int) → Option (List (Int × Int))
  | 0, _, recon => some recon
  | n + 1, all, recon =>
    if all = [] then some recon
    else
      let cm_matches := all.insertionSort colRowLe
      match multistartInner use_amortized k lcsk_plus nrows cm_matches.length cm_matches
          recon with
      | none => none
      | some recon1 =>
        multistartOuter use_amortized k lcsk_plus nrows n
          (all.drop ((all.length + 1) / 2)) recon1

/-- `LcskppSparseFastImpl(a, b, k, lcsk_plus, mode)`. The failed `assert(false)` of the
aggressive mode is `none`. -/
def LcskppSparseFastImpl (use_amortized : Nat → Nat → Bool) (a b : List Char) (k : Nat)
    (lcsk_plus : Bool) (mode : Mode) : Option (List (Int × Int)) :=
  match mode with
  | Mode.SINGLESTART =>
    LcskppSparseFastRealImpl use_amortized k lcsk_plus (rowsMatches a b k)
  | Mode.MULTISTART_2D_LOGARITHMIC =>
    match multistartOuter use_amortized k lcsk_plus (a.length + 1)
        (allMatches a b k).length (allMatches a b k) [] with
    | none => none
    | some recon => some (unique (recon.insertionSort pairLe))
  | Mode.MULTISTART_AGGRESSIVE => none

/-- The column remapping `match.second = b_len - 1 - match.second` of `LcskppSparseFast`. -/
def remapColumns (b_len : Nat) (recon : List (Int × Int)) : List (Int × Int) :=
  recon.map (fun m => (m.1, (b_len : Int) - 1 - m.2))

/-- `LcskppSparseFast(a, b, params)`. -/
def LcskppSparseFast (use_amortized : Nat → Nat → Bool) (a b : List Char)
    (params : LcskppParams) : Option (List (Int × Int)) :=
  match LcskppSparseFastImpl use_amortized a b params.k params.lcsk_plus params.mode with
  | none => none
  | some recon =>
    if params.reverse then
      match LcskppSparseFastImpl use_amortized a b.reverse params.k params.lcsk_plus
          params.mode with
      | none => none
      | some recon_reverse => some (inplace_merge recon (remapColumns b.length recon_reverse))
    else some recon

/-! ## Notions used to state the properties of the sweep -/

/-- The end column of slot `s` of a table. -/
def colAt (table : List MatchPair) (s : Nat) : Int := (table.getD s .null).end_col

/-- End columns do not decrease along the table. -/
def MonoCols (table : List MatchPair) : Prop :=
  ∀ s t : Nat, s ≤ t → t < table.length → colAt table s ≤ colAt table t

/-- The number of leading slots of a table whose end column is below `j`. -/
def firstGE (j : Int) (table : List MatchPair) : Nat := advanceThreshold j table 0

/-- The node that a query for the begin event `(i, j)` makes from the table. -/
def queryNode (k : Nat) (table : List MatchPair) (i j : Int) : MatchPair :=
  makeMatchPair k i j (table.getD (firstGE j table - 1) .null)

/-- The end events that the queries for the columns `cols` of row `row` schedule. -/
def queryEvents (k : Nat) (table : List MatchPair) (row : Int) (cols : List Int) :
    List EndEvent :=
  cols.map (fun j => (row + k - 1, j + k - 1, queryNode k table row j))

/-- Every row of a match list is sorted by column and has no negative column. -/
def RowsSorted (match_rows : List (List Int)) : Prop :=
  ∀ row ∈ match_rows, row.Pairwise (fun x y => x ≤ y) ∧ ∀ j ∈ row, 0 ≤ j

instance (match_rows : List (List Int)) : Decidable (RowsSorted match_rows) := by
  unfold RowsSorted; exact inferInstance

/-- The position `(r, c)` is the end of the block of a match `(i, j)` of the match list:
`j` is a column of row `i`, and `(r, c) = (i + k - 1, j + k - 1)`. -/
def OnMatch (k : Nat) (match_rows : List (List Int)) (r c : Int) : Prop :=
  ∃ i : Nat, ∃ j : Int, j ∈ match_rows.getD i [] ∧ 0 ≤ j ∧ r = i + k - 1 ∧ c = j + k - 1

/-- A well-formed chain node: it ends a match of the list, and it has no parent and score
`k`, or a well-formed parent that ends at least `k` rows and columns before it and has
score `k` less, or a well-formed parent that ends exactly one row and one column before
it and has score one less. -/
def Good (k : Nat) (match_rows : List (List Int)) : MatchPair → Prop
  | .null => False
  | .node r c d prev =>
    OnMatch k match_rows r c ∧
    ((prev = .null ∧ d = k) ∨
     (Good k match_rows prev ∧ 0 < prev.dp ∧ prev.end_row + k ≤ r ∧ prev.end_col + k ≤ c ∧
        d = prev.dp + k) ∨
     (Good k match_rows prev ∧ 0 < prev.dp ∧ prev.end_row + 1 = r ∧ prev.end_col + 1 = c ∧
        d = prev.dp + 1))

/-- The pairs that `FillLcskReconstruction.loop` pushes for a chain, in the order pushed
(from the end of the chain backwards). -/
def pushed (k : Nat) : MatchPair → List (Int × Int)
  | .null => []
  | .node r c _ prev =>
    (if prev = .null ∨ (prev.end_row + k ≤ r ∧ prev.end_col + k ≤ c) then
      (List.range k).map (fun (t : Nat) => (r - (t : Int), c - (t : Int)))
    else [(r, c)]) ++ pushed k prev

/-- Strictly increasing in row and in column. -/
def pairInc (p q : Int × Int) : Prop := p.1 < q.1 ∧ p.2 < q.2

instance : DecidableRel pairInc := fun p q => by unfold pairInc; exact inferInstance

/-- The pair `p` lies on the block of a match of the list: `p = (i + t, j + t)` for a column
`j` of row `i` and some `t < k`. -/
def OnBlock (k : Nat) (match_rows : List (List Int)) (p : Int × Int) : Prop :=
  ∃ i : Nat, ∃ j : Int, ∃ t : Nat, j ∈ match_rows.getD i [] ∧ 0 ≤ j ∧ t < k ∧
    p = ((i : Int) + t, j + t)

/-- The invariant of the compressed table while rows below `rb` have matured: slot 0 is
the sentinel; every other slot holds a well-formed node that ends before row `rb`; in
LCSk++ mode the node of slot `s` has a score `d` with `s ≤ d`, slot `d` exists and ends
no later than the node; in LCSk mode the node of slot `s` has score `k * s`; end
columns do not decrease along the table. -/
structure TableInv (k : Nat) (lcsk_plus : Bool) (match_rows : List (List Int)) (rb : Int)
    (table : List MatchPair) : Prop where
  head : table[0]? = some sentinel
  good : ∀ (s : Nat) (N : MatchPair), 0 < s → table[s]? = some N →
    Good k match_rows N ∧ N.end_row < rb
  slotPlus : lcsk_plus = true → ∀ (s : Nat) (N : MatchPair), 0 < s → table[s]? = some N →
    (s : Int) ≤ N.dp ∧ N.dp < table.length ∧ colAt table N.dp.toNat ≤ N.end_col
  slotPlain : lcsk_plus = false → ∀ (s : Nat) (N : MatchPair), 0 < s → table[s]? = some N →
    N.dp = (k : Int) * s
  mono : MonoCols table

/-- What is known of an end event waiting in the queue: its node sits at the event
position, ends a match, has score `k` and no parent or a well-formed parent from the
table; and the slot its parent came from still ends before the block begins. -/
def Pending (k : Nat) (lcsk_plus : Bool) (match_rows : List (List Int))
    (table : List MatchPair) (e : EndEvent) : Prop :=
  ∃ d prev, e.2.2 = .node e.1 e.2.1 d prev ∧ OnMatch k match_rows e.1 e.2.1 ∧
    ((prev = .null ∧ d = k) ∨
     (Good k match_rows prev ∧ 0 < prev.dp ∧ prev.end_row + k ≤ e.1 ∧
        prev.end_col + k ≤ e.2.1 ∧ d = prev.dp + k)) ∧
    (lcsk_plus = true →
      0 ≤ d - k ∧ (d - k).toNat < table.length ∧ colAt table (d - k).toNat ≤ e.2.1 - k) ∧
    (lcsk_plus = false →
      ∃ s : Nat, d = (k : Int) * (s + 1) ∧ s < table.length ∧ colAt table s ≤ e.2.1 - k)

/-- What is known of the nodes of the previous row: each is well-formed, ends in row
`rb - 1`, and the slot of its score exists and ends no later than the node. -/
def PrevInv (k : Nat) (match_rows : List (List Int)) (rb : Int) (table : List MatchPair)
    (prev_row : List MatchPair) : Prop :=
  ∀ N ∈ prev_row, Good k match_rows N ∧ N.end_row = rb - 1 ∧ 0 < N.dp ∧
    N.dp < table.length ∧ colAt table N.dp.toNat ≤ N.end_col

/-- The invariant of the sweep before the row `row` is processed. -/
structure SweepInv (k : Nat) (lcsk_plus : Bool) (match_rows : List (List Int)) (row : Int)
    (s : SweepState) : Prop where
  begin_nil : s.events.begin_events = []
  table : TableInv k lcsk_plus match_rows row s.compressed_table
  pending : ∀ e ∈ s.events.end_events, Pending k lcsk_plus match_rows s.compressed_table e
  prevRow : PrevInv k match_rows row s.compressed_table s.prev_row_match_pairs

/-- Table `t2` extends table `t1`: it is at least as long, and no slot of `t1` ends later
in `t2`. -/
def TableLe (t1 t2 : List MatchPair) : Prop :=
  t1.length ≤ t2.length ∧ ∀ s, s < t1.length → colAt t2 s ≤ colAt t1 s

/-! ## The orders on pairs are total orders -/

instance : IsTotal (Int × Int) pairLe :=
  ⟨fun p q => by unfold pairLe; omega⟩

instance : IsTrans (Int × Int) pairLe :=
  ⟨fun p q r => by unfold pairLe; omega⟩

instance : IsTotal (Int × Int) colRowLe :=
  ⟨fun p q => by unfold colRowLe; omega⟩

instance : IsTrans (Int × Int) colRowLe :=
  ⟨fun p q r => by unfold colRowLe; omega⟩

instance : IsAntisymm (Int × Int) pairLe :=
  ⟨fun p q h1 h2 => by
    unfold pairLe at h1 h2
    exact Prod.ext (by omega) (by omega)⟩

/-! ## The passes of the multistart mode, as the specification describes them -/

/-- The successively halved lists: the list itself, then what is left after the first
half (rounded up) is discarded, and so on while something is left. The first argument
bounds the number of lists. -/
def halvings : Nat → List (Int × Int) → List (List (Int × Int))
  | 0, _ => []
  | n + 1, l =>
    match l with
    | [] => []
    | x :: rest => (x :: rest) :: halvings n ((x :: rest).drop (((x :: rest).length + 1) / 2))

/-- The match subsets on which the multistart mode runs the engine: for each of the
successively halved match lists, the successively halved lists of its sorting by column
and row. -/
def multistartSubsets (all : List (Int × Int)) : List (List (Int × Int)) :=
  (halvings all.length all).flatMap
    (fun m => halvings (m.insertionSort colRowLe).length (m.insertionSort colRowLe))

/-- The reconstruction of one engine pass on a subset of the matches, put into `nrows`
rows. -/
def passRecon (use_amortized : Nat → Nat → Bool) (k : Nat) (lcsk_plus : Bool) (nrows : Nat)
    (sub : List (Int × Int)) : Option (List (Int × Int)) :=
  match normalise nrows sub with
  | none => none
  | some rows => LcskppSparseFastRealImpl use_amortized k lcsk_plus rows

/-- The matches handed to the multistart loops are well-placed: rows within the vector of
rows, no negative column. -/
def ValidMatches (nrows : Nat) (cm : List (Int × Int)) : Prop :=
  ∀ m ∈ cm, 0 ≤ m.1 ∧ m.1.toNat < nrows ∧ 0 ≤ m.2

/-- The pair `p` lies on the block of a match of the two strings: `p = (i + t, j + t)` for
a match `(i, j)` that the match source yields and some `t < k`. -/
def OnStringBlock (a b : List Char) (k : Nat) (p : Int × Int) : Prop :=
  ∃ i j t : Nat, ((i : Int), (j : Int)) ∈ allMatches a b k ∧ t < k ∧
    p = ((i : Int) + t, (j : Int) + t)

/-! ## Scores: what the sweep computes -/

/-- What is asked of two functions `D` (the score of the best chain that ends with the
block ending at a position) and `B` (the best score of a chain that ends before a
position) for the sweep to compute them. For a match `(i, j)` of the list, with block end
`(i + k - 1, j + k - 1)`: `B i j` is the greatest `D` of a match whose block ends before
row `i` and before column `j` (0 when there is none); `D` of the match is `B i j + k`,
or, in LCSk++ mode when `(i - 1, j - 1)` is a match too, the greater of that and one more
than `D` of that match. -/
structure ScoreSpec (k : Nat) (lcsk_plus : Bool) (match_rows : List (List Int))
    (D B : Int → Int → Int) : Prop where
  B_nonneg : ∀ (i : Nat) (j : Int), j ∈ match_rows.getD i [] → 0 ≤ B i j
  B_upper : ∀ (i : Nat) (j : Int), j ∈ match_rows.getD i [] →
    ∀ (i2 : Nat) (j2 : Int), j2 ∈ match_rows.getD i2 [] → i2 + k ≤ i → j2 + k ≤ j →
      D ((i2 : Int) + k - 1) (j2 + k - 1) ≤ B i j
  B_attained : ∀ (i : Nat) (j : Int), j ∈ match_rows.getD i [] →
    B i j = 0 ∨ ∃ (i2 : Nat) (j2 : Int), j2 ∈ match_rows.getD i2 [] ∧ i2 + k ≤ i ∧
      j2 + k ≤ j ∧ D ((i2 : Int) + k - 1) (j2 + k - 1) = B i j
  D_fresh : ∀ (i : Nat) (j : Int), j ∈ match_rows.getD i [] →
    ¬ (lcsk_plus = true ∧ 1 ≤ i ∧ (j - 1) ∈ match_rows.getD (i - 1) []) →
      D ((i : Int) + k - 1) (j + k - 1) = B i j + k
  D_cont : ∀ (i : Nat) (j : Int), j ∈ match_rows.getD i [] → lcsk_plus = true → 1 ≤ i →
    (j - 1) ∈ match_rows.getD (i - 1) [] →
      D ((i : Int) + k - 1) (j + k - 1) =
        max (B i j + k) (D ((i : Int) + k - 2) (j + k - 2) + 1)

/-- Every node in a slot of the table other than slot 0 carries the score `D` of its
position. -/
def TableSem (D : Int → Int → Int) (table : List MatchPair) : Prop :=
  ∀ (s : Nat) (N : MatchPair), 0 < s → table[s]? = some N → N.dp = D N.end_row N.end_col

/-- The slot that belongs to the score `d` exists in the table and ends at or before
column `c`: slot `d` in LCSk++ mode; slot `d / k` in LCSk mode, where `d` is a multiple
of `k`. -/
def MaturedSlot (k : Nat) (lcsk_plus : Bool) (table : List MatchPair) (d c : Int) : Prop :=
  (lcsk_plus = true → d.toNat < table.length ∧ colAt table d.toNat ≤ c) ∧
  (lcsk_plus = false →
    (k : Int) ∣ d ∧ (d / (k : Int)).toNat < table.length ∧
      colAt table (d / (k : Int)).toNat ≤ c)

/-- The positions of the end events that wait in the queue for the matches of the rows
`lo, lo + 1, .., hi - 1`, in queue order. -/
def pendCoords (k : Nat) (match_rows : List (List Int)) (lo hi : Nat) : List (Int × Int) :=
  (List.range' lo (hi - lo)).flatMap
    (fun i => (match_rows.getD i []).map (fun (j : Int) => ((i : Int) + k - 1, j + k - 1)))

/-- The part of the invariant of the sweep that is about scores, before row `r0` is
processed: the nodes of the table and of the previous row carry the score `D`; every
match whose block ends before row `r0` has its slot; the previous row holds the nodes of
the matches of row `r0 - k` in column order; the queue holds the end events of the
matches of the rows `r0 + 1 - k .. r0 - 1`, each with score `B + k`. -/
structure SemInv (k : Nat) (lcsk_plus : Bool) (match_rows : List (List Int))
    (D B : Int → Int → Int) (r0 : Nat) (s : SweepState) : Prop where
  tableSem : TableSem D s.compressed_table
  matured : ∀ (i : Nat) (j : Int), j ∈ match_rows.getD i [] → i + k ≤ r0 →
    MaturedSlot k lcsk_plus s.compressed_table (D ((i : Int) + k - 1) (j + k - 1)) (j + k - 1)
  prevCols : lcsk_plus = true →
    s.prev_row_match_pairs.map MatchPair.end_col =
      (if k ≤ r0 then match_rows.getD (r0 - k) [] else []).map (fun (j : Int) => j + k - 1)
  prevSem : ∀ N ∈ s.prev_row_match_pairs, N.dp = D N.end_row N.end_col
  endCoords : s.events.end_events.map (fun e => (e.1, e.2.1)) =
    pendCoords k match_rows (r0 + 1 - k) r0
  endSem : ∀ e ∈ s.events.end_events, e.2.2.dp = B (e.1 - k + 1) (e.2.1 - k + 1) + k

/-- The number `best` is the greatest score `D` of a match whose block ends within the
rows of the match list, or 0 when there is no such match. -/
def IsBestScore (k : Nat) (match_rows : List (List Int)) (D : Int → Int → Int)
    (best : Int) : Prop :=
  (∀ (i : Nat) (j : Int), j ∈ match_rows.getD i [] → i + k ≤ match_rows.length →
    D ((i : Int) + k - 1) (j + k - 1) ≤ best) ∧
  (best = 0 ∨ ∃ (i : Nat) (j : Int), j ∈ match_rows.getD i [] ∧ i + k ≤ match_rows.length ∧
    D ((i : Int) + k - 1) (j + k - 1) = best)

/-! ## The quadratic reference dynamic programs -/

/-- The greatest number of a list, 0 for the empty list. -/
def maxList (l : List Nat) : Nat := l.foldr max 0

/-- The table of a dynamic program over prefix lengths `(i, j)` with
`dp[i][j] = max(dp[i-1][j], dp[i][j-1], ext)`: the value of cell `(i, j)` from the rows
`tab` above it and the cells `row` to the left of it in its row. The term `ext` reads the
table through the lookup function that it is given. -/
def dpCell (ext : (Nat → Nat → Nat) → Nat → Nat → Nat) (tab : List (List Nat))
    (row : List Nat) (i j : Nat) : Nat :=
  max (max ((tab.getD (i - 1) []).getD j 0) (row.getD (j - 1) 0))
    (ext (fun i2 j2 => (tab.getD i2 []).getD j2 0) i j)

/-- The cells `0 .. j` of row `i` of the table, for `i ≥ 1`: cell 0 is 0, each later cell
is computed from the rows above and the cells before it. -/
def dpRowUpTo (ext : (Nat → Nat → Nat) → Nat → Nat → Nat) (tab : List (List Nat)) (i : Nat) :
    Nat → List Nat
  | 0 => [0]
  | j + 1 => dpRowUpTo ext tab i j ++ [dpCell ext tab (dpRowUpTo ext tab i j) i (j + 1)]

/-- The rows `0 .. i` of the table with columns `0 .. m`: row 0 is all 0. -/
def dpTableUpTo (ext : (Nat → Nat → Nat) → Nat → Nat → Nat) (m : Nat) : Nat → List (List Nat)
  | 0 => [List.replicate (m + 1) 0]
  | i + 1 => dpTableUpTo ext m i ++ [dpRowUpTo ext (dpTableUpTo ext m i) (i + 1) m]

/-- The cell `dp[i][j]` of the table with columns `0 .. m`. -/
def dpAt (ext : (Nat → Nat → Nat) → Nat → Nat → Nat) (m i j : Nat) : Nat :=
  ((dpTableUpTo ext m i).getD i []).getD j 0

/-- The lengths `q ≥ k` of the common blocks that end at the prefix lengths `(i, j)`:
`a[i-q .. i) = b[j-q .. j)`. -/
def blockLengths (a b : List Char) (k i j : Nat) : List Nat :=
  (List.range' 1 (min i j)).filter
    (fun q => decide (k ≤ q) && isBlockMatch a b q (i - q) (j - q))

/-- The third term of the LCSk++ program: the best of `dp[i-q][j-q] + q` over the common
blocks of length `q ≥ k` that end at `(i, j)`; 0 when there is none. -/
def lcskppExt (a b : List Char) (k : Nat) (look : Nat → Nat → Nat) (i j : Nat) : Nat :=
  maxList ((blockLengths a b k i j).map (fun q => look (i - q) (j - q) + q))

/-- The third term of the LCSk program: `dp[i-k][j-k] + k` when a common block of length
`k` ends at `(i, j)`; 0 otherwise. -/
def lcskExt (a b : List Char) (k : Nat) (look : Nat → Nat → Nat) (i j : Nat) : Nat :=
  if k ≤ i ∧ k ≤ j ∧ isBlockMatch a b k (i - k) (j - k) = true then look (i - k) (j - k) + k
  else 0

/-- Modelled from the spec: `util/lcsk_testing.h` with `LcskppSparseSlow` is not part of
the sources at hand. The LCSk++ score of `a` and `b` as the quadratic reference dynamic
program computes it: `dp[i][j]`, the best total length of a chain of common substrings of
length at least `k` within `a[0 .. i)` and `b[0 .. j)`, is the greatest of `dp[i-1][j]`,
`dp[i][j-1]` and `dp[i-q][j-q] + q` over the common blocks of length `q ≥ k` that end at
`(i, j)`; the score is `dp[len(a)][len(b)]`. -/
def LcskppSlowScore (a b : List Char) (k : Nat) : Nat :=
  ((dpTableUpTo (lcskppExt a b k) b.length a.length).getD a.length []).getD b.length 0

/-- Modelled from the spec: `util/lcsk_testing.h` with `LcskSparseSlow` is not part of
the sources at hand. The plain LCSk score of `a` and `b` as the quadratic reference
dynamic program computes it: `dp[i][j]` is the greatest of `dp[i-1][j]`, `dp[i][j-1]`
and, when a common block of length `k` ends at `(i, j)`, `dp[i-k][j-k] + k`; the score is
`dp[len(a)][len(b)]`. -/
def LcskSlowScore (a b : List Char) (k : Nat) : Nat :=
  ((dpTableUpTo (lcskExt a b k) b.length a.length).getD a.length []).getD b.length 0

/-- The term `ext` of a dynamic program reads the table only in rows above row `i`. -/
def ExtLocal (ext : (Nat → Nat → Nat) → Nat → Nat → Nat) : Prop :=
  ∀ (look look2 : Nat → Nat → Nat) (i j : Nat),
    (∀ i2 j2, i2 < i → look i2 j2 = look2 i2 j2) → ext look i j = ext look2 i j

/-! ## Chains of common substrings -/

/-- A substring of `a` and of `b`: where it starts in `a`, where it starts in `b`, and
its length. -/
structure Block where
  row : Nat
  col : Nat
  len : Nat
deriving DecidableEq, Repr

/-- The block `x` ends in both strings before the block `y` starts. -/
def Block.before (x y : Block) : Prop :=
  x.row + x.len ≤ y.row ∧ x.col + x.len ≤ y.col

instance : DecidableRel Block.before := fun x y => by
  unfold Block.before
  exact inferInstance

/-- A chain of common substrings of `a` and `b`: every block has a length that `lenOk`
admits and is the same substring in `a` and in `b`, and the blocks are increasing and do
not overlap in either string. -/
def IsChain (a b : List Char) (lenOk : Nat → Bool) (ch : List Block) : Prop :=
  (∀ x ∈ ch, lenOk x.len = true ∧ isBlockMatch a b x.len x.row x.col = true) ∧
    ch.Pairwise Block.before

instance (a b : List Char) (lenOk : Nat → Bool) (ch : List Block) :
    Decidable (IsChain a b lenOk ch) := by
  unfold IsChain
  exact inferInstance

/-- The total length of a chain. -/
def chainScore (ch : List Block) : Nat := (ch.map Block.len).sum

/-- The number `v` is the greatest total length of a chain of common substrings of `a`
and `b` with lengths that `lenOk` admits: some chain has it, and no chain has more. -/
def IsChainOptimum (a b : List Char) (lenOk : Nat → Bool) (v : Nat) : Prop :=
  (∃ ch, IsChain a b lenOk ch ∧ chainScore ch = v) ∧
    ∀ ch, IsChain a b lenOk ch → chainScore ch ≤ v

/-! ## States and nodes met during the sweep -/

/-- The state of the sweep of `LcskppSparseFastRealImpl` after the first `n` rows of the
match list have been processed (query followed by `RowUpdate` for each row). -/
def sweepPrefix (use_amortized : Nat → Nat → Bool) (k : Nat) (lcsk_plus : Bool)
    (match_rows : List (List Int)) (n : Nat) : Option SweepState :=
  sweep use_amortized k lcsk_plus (match_rows.take n) 0 initialState

/-- The nodes on the parent chain of a node, the node itself first. -/
def chainNodes : MatchPair → List MatchPair
  | .null => []
  | .node r c d prev => .node r c d prev :: chainNodes prev

/-- The condition under which `FillLcskReconstruction` passes a node without failing its
assertion: the node has no parent, or its parent ends at least `k` rows and `k` columns
before it, or its parent ends exactly one row and one column before it. -/
def StepOk (k : Nat) (N : MatchPair) : Prop :=
  N.prev = .null ∨
  (N.prev.end_row + k ≤ N.end_row ∧ N.prev.end_col + k ≤ N.end_col) ∨
  (N.prev.end_row + 1 = N.end_row ∧ N.prev.end_col + 1 = N.end_col)

instance (k : Nat) (N : MatchPair) : Decidable (StepOk k N) := by
  unfold StepOk
  exact inferInstance

/-- The first half of an iteration of the `for (row ...)` loop of
`LcskppSparseFastRealImpl`: the begin events of the row are added to the queue, and the
query that the heuristic chooses runs. -/
def queryStep (use_amortized : Nat → Nat → Bool) (k : Nat) (row : Int)
    (row_matches : List Int) (s : SweepState) : Option MatchEventsQueue :=
  let events := row_matches.foldl (fun q col => q.AddBegin (row, col)) s.events
  if use_amortized s.compressed_table.length row_matches.length then
    AmortizedRowQuery k row events s.compressed_table
  else ElementwiseRowQuery k row events s.compressed_table

/-- The nodes that the loop of `RowUpdate` folds into the table for row `row`, in the
order of their end events: in LCSk++ mode each node as the continuation test leaves it,
in LCSk mode the node of the event. The last argument is `curr_continuation_index`. -/
def RowUpdate.folded (row : Int) (lcsk_plus : Bool) (prev_row : List MatchPair) :
    List EndEvent → Nat → List MatchPair
  | [], _ => []
  | (i, _, match_pair_end) :: rest, cidx =>
    if i ≠ row then []
    else if lcsk_plus then
      let cidx1 := advanceContinuation match_pair_end.end_col (prev_row.drop cidx) cidx
      continueFrom prev_row cidx1 match_pair_end ::
        RowUpdate.folded row lcsk_plus prev_row rest cidx1
    else match_pair_end :: RowUpdate.folded row lcsk_plus prev_row rest cidx

/-- The nodes matured (folded by an end event) while the sweep processes the given rows
from the given state, in the order in which they are folded. -/
def sweepMatured (use_amortized : Nat → Nat → Bool) (k : Nat) (lcsk_plus : Bool) :
    List (List Int) → Int → SweepState → List MatchPair
  | [], _, _ => []
  | row_matches :: rest, row, s =>
    match queryStep use_amortized k row row_matches s with
    | none => []
    | some events =>
      RowUpdate.folded row lcsk_plus s.prev_row_match_pairs events.end_events 0 ++
        (match RowUpdate k row lcsk_plus { s with events := events } with
         | none => []
         | some s1 => sweepMatured use_amortized k lcsk_plus rest (row + 1) s1)

/-- The nodes matured while the sweep processes the first `n` rows of the match list. -/
def maturedPrefix (use_amortized : Nat → Nat → Bool) (k : Nat) (lcsk_plus : Bool)
    (match_rows : List (List Int)) (n : Nat) : List MatchPair :=
  sweepMatured use_amortized k lcsk_plus (match_rows.take n) 0 initialState

/-- What holds of the scores in a table of the LCSk++ mode beyond `TableInv`: the node
of slot `s ≥ 1` has a score below `s + k`; scores do not decrease along the table; and
two slots that hold nodes of the same score hold the same node. -/
structure PlusInv (k : Nat) (table : List MatchPair) : Prop where
  upper : ∀ (s : Nat) (N : MatchPair), 0 < s → table[s]? = some N → N.dp < (s : Int) + k
  dpMono : ∀ (s t : Nat) (N M : MatchPair), s ≤ t → table[s]? = some N →
    table[t]? = some M → N.dp ≤ M.dp
  uniq : ∀ (s t : Nat) (N M : MatchPair), table[s]? = some N → table[t]? = some M →
    N.dp = M.dp → N = M

/-- How the table relates to the list `matured` of the nodes matured so far: every slot
other than slot 0 holds a matured node; in LCSk++ mode the slot of the score of a matured
node exists and ends no later than the node; in LCSk mode a matured node has a score
`k * s` with `s ≥ 1`, and slot `s` exists and ends no later than the node. -/
structure MaturedInv (k : Nat) (lcsk_plus : Bool) (matured : List MatchPair)
    (table : List MatchPair) : Prop where
  fromMatured : ∀ (s : Nat) (N : MatchPair), 0 < s → table[s]? = some N → N ∈ matured
  lowerPlus : lcsk_plus = true → ∀ X ∈ matured,
    0 < X.dp ∧ X.dp < table.length ∧ colAt table X.dp.toNat ≤ X.end_col
  lowerPlain : lcsk_plus = false → ∀ X ∈ matured,
    ∃ s : Nat, 0 < s ∧ X.dp = (k : Int) * s ∧ s < table.length ∧ colAt table s ≤ X.end_col

/-- What holds of the queue and of the previous row before row `r0` is processed: the
queue holds, in order, one end event for every match of the rows `r0 + 1 - k .. r0 - 1`,
at the end of its block; events at the same position carry the same node; the nodes of
the previous row are in column order, and two of them that end in the same column are the
same node. -/
structure QueueInv (k : Nat) (match_rows : List (List Int)) (r0 : Nat) (s : SweepState) :
    Prop where
  endCoords : s.events.end_events.map (fun e => (e.1, e.2.1)) =
    pendCoords k match_rows (r0 + 1 - k) r0
  nodeFun : ∀ e ∈ s.events.end_events, ∀ e2 ∈ s.events.end_events,
    e.1 = e2.1 → e.2.1 = e2.2.1 → e.2.2 = e2.2.2
  prevSorted : (s.prev_row_match_pairs.map MatchPair.end_col).Pairwise (fun x y => x ≤ y)
  prevUniq : ∀ P ∈ s.prev_row_match_pairs, ∀ P2 ∈ s.prev_row_match_pairs,
    P.end_col = P2.end_col → P = P2

/-- What is known, before row `r0` is processed, of the queue, of the scores along the
table and of the list `matured` of the nodes matured so far. -/
structure TraceInv (k : Nat) (lcsk_plus : Bool) (match_rows : List (List Int)) (r0 : Nat)
    (matured : List MatchPair) (s : SweepState) : Prop where
  queue : QueueInv k match_rows r0 s
  plusInv : lcsk_plus = true → PlusInv k s.compressed_table
  matured : MaturedInv k lcsk_plus matured s.compressed_table

/-! ## Reconstruction of a well-formed chain -/

theorem good_ne_null {k : Nat} {ms : List (List Int)} {N : MatchPair} (h : Good k ms N) :
    N ≠ .null := by
  intro hn
  subst hn
  exact h

theorem good_onMatch {k : Nat} {ms : List (List Int)} {N : MatchPair} (h : Good k ms N) :
    OnMatch k ms N.end_row N.end_col := by
  cases N with
  | null => exact absurd h (by simp [Good])
  | node r c d prev => exact h.1

theorem good_dp_pos {k : Nat} {ms : List (List Int)} (hk : 1 ≤ k) :
    ∀ {N : MatchPair}, Good k ms N → 0 < N.dp := by
  intro N h
  cases N with
  | null => exact absurd h (by simp [Good])
  | node r c d prev =>
    have hk' : (1 : Int) ≤ (k : Int) := by exact_mod_cast hk
    rcases h.2 with ⟨_, hd⟩ | ⟨_, hp, _, _, hd⟩ | ⟨_, hp, _, _, hd⟩ <;>
      simp only [MatchPair.dp] <;> omega

theorem good_end_nonneg {k : Nat} {ms : List (List Int)} (hk : 1 ≤ k) {N : MatchPair}
    (h : Good k ms N) : 0 ≤ N.end_row ∧ 0 ≤ N.end_col := by
  obtain ⟨i, j, _, hj, hr, hc⟩ := good_onMatch h
  have hk' : (1 : Int) ≤ (k : Int) := by exact_mod_cast hk
  constructor <;> omega

/-- On a well-formed chain the loop of `FillLcskReconstruction` never fails its assertion
and pushes exactly `pushed k N`. -/
theorem fill_loop_good {k : Nat} {ms : List (List Int)} :
    ∀ (N : MatchPair) (acc : List (Int × Int)), (N = .null ∨ Good k ms N) →
      FillLcskReconstruction.loop k N acc = some (acc ++ pushed k N) := by
  intro N
  induction N with
  | null => intro acc _; simp [FillLcskReconstruction.loop, pushed]
  | node r c d prev ih =>
    intro acc h
    have hg : Good k ms (.node r c d prev) := by
      rcases h with h | h
      · exact absurd h (by simp)
      · exact h
    have hprev : prev = .null ∨ Good k ms prev := by
      rcases hg.2 with ⟨h1, _⟩ | ⟨h1, _⟩ | ⟨h1, _⟩
      · exact Or.inl h1
      · exact Or.inr h1
      · exact Or.inr h1
    unfold FillLcskReconstruction.loop pushed
    by_cases hc : prev = .null ∨ (prev.end_row + k ≤ r ∧ prev.end_col + k ≤ c)
    · rw [if_pos hc, if_pos hc, ih _ hprev]
      simp [List.append_assoc]
    · rw [if_neg hc, if_neg hc]
      have hadj : prev.end_row + 1 = r ∧ prev.end_col + 1 = c := by
        rcases hg.2 with ⟨h1, _⟩ | ⟨_, _, h2, h3, _⟩ | ⟨_, _, h2, h3, _⟩
        · exact absurd (Or.inl h1) hc
        · exact absurd (Or.inr ⟨h2, h3⟩) hc
        · exact ⟨h2, h3⟩
      rw [if_pos hadj, ih _ hprev]
      simp [List.append_assoc]

theorem fill_good {k : Nat} {ms : List (List Int)} (N : MatchPair)
    (h : N = .null ∨ Good k ms N) :
    FillLcskReconstruction k N = some (pushed k N).reverse := by
  unfold FillLcskReconstruction
  rw [fill_loop_good N [] h]
  simp

/-- Every pushed pair of a well-formed chain lies on a block of the match list and is not
beyond the end of the chain. -/
theorem pushed_mem {k : Nat} {ms : List (List Int)} (hk : 1 ≤ k) :
    ∀ (N : MatchPair), Good k ms N → ∀ p ∈ pushed k N,
      p.1 ≤ N.end_row ∧ p.2 ≤ N.end_col ∧ OnBlock k ms p := by
  intro N
  induction N with
  | null => intro h; exact absurd h (by simp [Good])
  | node r c d prev ih =>
    intro hg p hp
    obtain ⟨i, j, hj, hj0, hr, hcc⟩ := hg.1
    have hk' : (1 : Int) ≤ (k : Int) := by exact_mod_cast hk
    simp only [pushed, List.mem_append] at hp
    simp only [MatchPair.end_row, MatchPair.end_col]
    rcases hp with hp | hp
    · by_cases hc : prev = .null ∨ (prev.end_row + k ≤ r ∧ prev.end_col + k ≤ c)
      · rw [if_pos hc] at hp
        simp only [List.mem_map, List.mem_range] at hp
        obtain ⟨t, ht, rfl⟩ := hp
        refine ⟨by simp, by simp, i, j, k - 1 - t, hj, hj0, by omega, ?_⟩
        have : ((k - 1 - t : Nat) : Int) = (k : Int) - 1 - t := by omega
        simp only [this, Prod.mk.injEq]
        constructor <;> omega
      · rw [if_neg hc] at hp
        simp only [List.mem_singleton] at hp
        subst hp
        refine ⟨le_refl _, le_refl _, i, j, k - 1, hj, hj0, by omega, ?_⟩
        have : ((k - 1 : Nat) : Int) = (k : Int) - 1 := by omega
        simp only [this, Prod.mk.injEq]
        constructor <;> omega
    · have hgp : Good k ms prev ∧ prev.end_row < r ∧ prev.end_col < c := by
        rcases hg.2 with ⟨h1, _⟩ | ⟨h1, _, h2, h3, _⟩ | ⟨h1, _, h2, h3, _⟩
        · subst h1; simp [pushed] at hp
        · exact ⟨h1, by omega, by omega⟩
        · exact ⟨h1, by omega, by omega⟩
      obtain ⟨h1, h2, h3⟩ := ih hgp.1 p hp
      exact ⟨by omega, by omega, h3⟩

/-- The pushed pairs of a well-formed chain decrease strictly in row and in column. -/
theorem pushed_pairwise {k : Nat} {ms : List (List Int)} (hk : 1 ≤ k) :
    ∀ (N : MatchPair), Good k ms N → (pushed k N).Pairwise (fun p q => pairInc q p) := by
  intro N
  induction N with
  | null => intro h; exact absurd h (by simp [Good])
  | node r c d prev ih =>
    intro hg
    have hk' : (1 : Int) ≤ (k : Int) := by exact_mod_cast hk
    simp only [pushed]
    rw [List.pairwise_append]
    refine ⟨?_, ?_, ?_⟩
    · split
      · rw [List.pairwise_map]
        refine List.Pairwise.imp ?_ (List.pairwise_lt_range k)
        intro s t hst
        simp only [pairInc]
        constructor <;> omega
      · simp
    · rcases hg.2 with ⟨h1, _⟩ | ⟨h1, _⟩ | ⟨h1, _⟩
      · subst h1; simp [pushed]
      · exact ih h1
      · exact ih h1
    · intro p hp q hq
      have hgp : Good k ms prev := by
        rcases hg.2 with ⟨h1, _⟩ | ⟨h1, _⟩ | ⟨h1, _⟩
        · subst h1; simp [pushed] at hq
        · exact h1
        · exact h1
      obtain ⟨hq1, hq2, _⟩ := pushed_mem hk prev hgp q hq
      by_cases hc : prev = .null ∨ (prev.end_row + k ≤ r ∧ prev.end_col + k ≤ c)
      · rw [if_pos hc] at hp
        simp only [List.mem_map, List.mem_range] at hp
        obtain ⟨t, ht, rfl⟩ := hp
        rcases hc with hc | hc
        · exact absurd hc (good_ne_null hgp)
        · simp only [pairInc]
          constructor <;> omega
      · rw [if_neg hc] at hp
        simp only [List.mem_singleton] at hp
        subst hp
        rcases hg.2 with ⟨h1, _⟩ | ⟨_, _, h2, h3, _⟩ | ⟨_, _, h2, h3, _⟩
        · exact absurd (Or.inl h1) hc
        · exact absurd (Or.inr ⟨h2, h3⟩) hc
        · simp only [pairInc]
          constructor <;> omega

/-- The number of pushed pairs of a well-formed chain is its score. -/
theorem pushed_length {k : Nat} {ms : List (List Int)} (hk : 1 ≤ k) :
    ∀ (N : MatchPair), Good k ms N → ((pushed k N).length : Int) = N.dp := by
  intro N
  induction N with
  | null => intro h; exact absurd h (by simp [Good])
  | node r c d prev ih =>
    intro hg
    have hk' : (1 : Int) ≤ (k : Int) := by exact_mod_cast hk
    simp only [pushed, List.length_append, MatchPair.dp]
    rcases hg.2 with ⟨h1, hd⟩ | ⟨h1, _, h2, h3, hd⟩ | ⟨h1, _, h2, h3, hd⟩
    · subst h1
      simp [pushed, hd]
    · have := ih h1
      rw [if_pos (Or.inr ⟨h2, h3⟩)]
      simp only [List.length_map, List.length_range]
      push_cast
      omega
    · have := ih h1
      by_cases hc : prev = .null ∨ (prev.end_row + k ≤ r ∧ prev.end_col + k ≤ c)
      · rw [if_pos hc]
        rcases hc with hc | hc
        · exact absurd hc (good_ne_null h1)
        · have : k = 1 := by omega
          subst this
          simp only [List.length_map, List.length_range]
          push_cast
          omega
      · rw [if_neg hc]
        simp only [List.length_singleton]
        push_cast
        omega

/-! ## The threshold pointer and the binary search -/

theorem advanceThreshold_add (j : Int) :
    ∀ (l : List MatchPair) (idx : Nat), advanceThreshold j l idx = idx + advanceThreshold j l 0 := by
  intro l
  induction l with
  | nil => intro idx; simp [advanceThreshold]
  | cons x xs ih =>
    intro idx
    simp only [advanceThreshold]
    split
    · rw [ih (idx + 1), ih (0 + 1)]; omega
    · simp

theorem firstGE_nil (j : Int) : firstGE j [] = 0 := rfl

theorem firstGE_cons (j : Int) (x : MatchPair) (xs : List MatchPair) :
    firstGE j (x :: xs) = if x.end_col < j then firstGE j xs + 1 else 0 := by
  unfold firstGE
  simp only [advanceThreshold]
  split
  · rw [advanceThreshold_add]; omega
  · rfl

theorem colAt_cons_zero (x : MatchPair) (xs : List MatchPair) : colAt (x :: xs) 0 = x.end_col := by
  simp [colAt]

theorem colAt_cons_succ (x : MatchPair) (xs : List MatchPair) (s : Nat) :
    colAt (x :: xs) (s + 1) = colAt xs s := by
  simp [colAt]

theorem firstGE_le_length (j : Int) : ∀ (T : List MatchPair), firstGE j T ≤ T.length := by
  intro T
  induction T with
  | nil => simp [firstGE_nil]
  | cons x xs ih =>
    rw [firstGE_cons]
    split
    · simp; exact ih
    · simp

theorem colAt_lt_of_lt_firstGE (j : Int) :
    ∀ (T : List MatchPair) (s : Nat), s < firstGE j T → colAt T s < j := by
  intro T
  induction T with
  | nil => intro s hs; simp [firstGE_nil] at hs
  | cons x xs ih =>
    intro s hs
    rw [firstGE_cons] at hs
    split at hs
    · cases s with
      | zero => rw [colAt_cons_zero]; assumption
      | succ s => rw [colAt_cons_succ]; exact ih s (by omega)
    · omega

theorem le_colAt_firstGE (j : Int) :
    ∀ (T : List MatchPair), firstGE j T < T.length → j ≤ colAt T (firstGE j T) := by
  intro T
  induction T with
  | nil => intro h; simp at h
  | cons x xs ih =>
    intro h
    rw [firstGE_cons] at h ⊢
    split
    · rename_i hx
      rw [if_pos hx] at h
      rw [colAt_cons_succ]
      exact ih (by simpa using h)
    · rw [colAt_cons_zero]; omega

theorem firstGE_mono (T : List MatchPair) {j j' : Int} (h : j ≤ j') :
    firstGE j T ≤ firstGE j' T := by
  induction T with
  | nil => simp [firstGE_nil]
  | cons x xs ih =>
    rw [firstGE_cons, firstGE_cons]
    by_cases h1 : x.end_col < j
    · rw [if_pos h1, if_pos (by omega)]; omega
    · rw [if_neg h1]; omega

/-- The pointer of the amortized query, advanced from any position not beyond the
threshold, stops at the threshold. -/
theorem advanceThreshold_drop (j : Int) :
    ∀ (T : List MatchPair) (p : Nat), p ≤ firstGE j T →
      advanceThreshold j (T.drop p) p = firstGE j T := by
  intro T
  induction T with
  | nil => intro p hp; simp [firstGE_nil] at hp; subst hp; rfl
  | cons x xs ih =>
    intro p hp
    cases p with
    | zero => rfl
    | succ p =>
      rw [firstGE_cons] at hp ⊢
      by_cases h1 : x.end_col < j
      · rw [if_pos h1] at hp ⊢
        simp only [List.drop_succ_cons]
        rw [advanceThreshold_add, ← ih p (by omega), advanceThreshold_add j _ p]
        omega
      · rw [if_neg h1] at hp; omega

theorem lt_firstGE_of_colAt_lt {T : List MatchPair} (hm : MonoCols T) {j : Int} {s : Nat}
    (hs : s < T.length) (h : colAt T s < j) : s < firstGE j T := by
  by_contra hcon
  have h1 : firstGE j T ≤ s := by omega
  have h2 : firstGE j T < T.length := by omega
  have h3 := le_colAt_firstGE j T h2
  have h4 := hm _ _ h1 hs
  omega

theorem firstGE_le_of_le_colAt {T : List MatchPair} {j : Int} {s : Nat}
    (h : j ≤ colAt T s) : firstGE j T ≤ s := by
  by_contra hcon
  have := colAt_lt_of_lt_firstGE j T s (by omega)
  omega

/-- On a table with non-decreasing end columns the halving search finds the threshold. -/
theorem lower_bound_eq {T : List MatchPair} (hm : MonoCols T) (j : Int) :
    ∀ (fuel first len : Nat), len ≤ fuel → first + len ≤ T.length →
      first ≤ firstGE j T → firstGE j T ≤ first + len →
      lower_bound T j fuel first len = firstGE j T := by
  intro fuel
  induction fuel with
  | zero =>
    intro first len h1 _ h3 h4
    simp only [lower_bound]
    omega
  | succ fuel ih =>
    intro first len h1 h2 h3 h4
    simp only [lower_bound]
    by_cases hl : len = 0
    · rw [if_pos hl]; omega
    · rw [if_neg hl]
      have hhalf : len / 2 < len := Nat.div_lt_self (by omega) (by omega)
      by_cases hc : (T.getD (first + len / 2) .null).end_col < j
      · rw [if_pos hc]
        have := lt_firstGE_of_colAt_lt hm (s := first + len / 2) (by omega) hc
        exact ih _ _ (by omega) (by omega) (by omega) (by omega)
      · rw [if_neg hc]
        have := firstGE_le_of_le_colAt (T := T) (j := j) (s := first + len / 2)
          (by unfold colAt; omega)
        exact ih _ _ (by omega) (by omega) (by omega) (by omega)

theorem lower_bound_table {T : List MatchPair} (hm : MonoCols T) (j : Int) :
    lower_bound T j T.length 0 T.length = firstGE j T :=
  lower_bound_eq hm j _ _ _ (le_refl _) (by omega) (by omega) (by simpa using firstGE_le_length j T)

theorem firstGE_pos {T : List MatchPair} (hh : T[0]? = some sentinel) {j : Int} (hj : 0 ≤ j) :
    1 ≤ firstGE j T := by
  cases T with
  | nil => simp at hh
  | cons x xs =>
    simp at hh
    subst hh
    rw [firstGE_cons, if_pos (by simp [sentinel, MatchPair.end_col]; omega)]
    omega

theorem getElem?_eq_getD {T : List MatchPair} {s : Nat} (h : s < T.length) :
    T[s]? = some (T.getD s .null) := by
  simp [List.getD, List.getElem?_eq_getElem h]

/-! ## The two query strategies in closed form -/

/-- The amortized query on a row of sorted, non-negative columns schedules
`queryEvents`. -/
theorem amortized_loop_eq (k : Nat) (row : Int) {T : List MatchPair}
    (hh : T[0]? = some sentinel) :
    ∀ (cols : List Int) (idx : Nat) (ends : List EndEvent),
      cols.Pairwise (fun x y => x ≤ y) → (∀ j ∈ cols, 0 ≤ j) →
      (∀ j ∈ cols, idx ≤ firstGE j T) →
      AmortizedRowQuery.loop k row T (cols.map (fun j => (row, j))) idx ends =
        some ([], ends ++ queryEvents k T row cols) := by
  intro cols
  induction cols with
  | nil => intro idx ends _ _ _; simp [AmortizedRowQuery.loop, queryEvents]
  | cons j rest ih =>
    intro idx ends hs hn hi
    simp only [List.map_cons, AmortizedRowQuery.loop, ne_eq, not_true_eq_false, if_false]
    rw [advanceThreshold_drop j T idx (hi j (by simp))]
    have hpos := firstGE_pos hh (hn j (by simp))
    have hle := firstGE_le_length j T
    rw [if_neg (by omega), getElem?_eq_getD (by omega)]
    simp only
    rw [ih _ _ (List.Pairwise.of_cons hs) (fun x hx => hn x (by simp [hx]))]
    · simp [queryEvents, queryNode]
    · intro x hx
      exact firstGE_mono T (List.rel_of_pairwise_cons hs hx)

/-- The elementwise query on a table with non-decreasing end columns schedules
`queryEvents`. -/
theorem elementwise_loop_eq (k : Nat) (row : Int) {T : List MatchPair}
    (hh : T[0]? = some sentinel) (hm : MonoCols T) :
    ∀ (cols : List Int) (ends : List EndEvent), (∀ j ∈ cols, 0 ≤ j) →
      ElementwiseRowQuery.loop k row T (cols.map (fun j => (row, j))) ends =
        some ([], ends ++ queryEvents k T row cols) := by
  intro cols
  induction cols with
  | nil => intro ends _; simp [ElementwiseRowQuery.loop, queryEvents]
  | cons j rest ih =>
    intro ends hn
    simp only [List.map_cons, ElementwiseRowQuery.loop, ne_eq, not_true_eq_false, if_false]
    rw [lower_bound_table hm j]
    have hpos := firstGE_pos hh (hn j (by simp))
    have hle := firstGE_le_length j T
    rw [if_neg (by omega), getElem?_eq_getD (by omega)]
    simp only
    rw [ih _ (fun x hx => hn x (by simp [hx]))]
    simp [queryEvents, queryNode]

theorem foldl_addBegin (row : Int) :
    ∀ (cols : List Int) (q : MatchEventsQueue),
      cols.foldl (fun q col => q.AddBegin (row, col)) q =
        { begin_events := q.begin_events ++ cols.map (fun j => (row, j)),
          end_events := q.end_events } := by
  intro cols
  induction cols with
  | nil => intro q; simp
  | cons j rest ih =>
    intro q
    rw [List.foldl_cons, ih]
    simp [MatchEventsQueue.AddBegin]

/-! ## Tables that grow -/

theorem colAt_eq_of_getElem? {T : List MatchPair} {s : Nat} {N : MatchPair}
    (h : T[s]? = some N) : colAt T s = N.end_col := by
  simp [colAt, h]

theorem colAt_congr {T T2 : List MatchPair} {s : Nat} (h : T2[s]? = T[s]?) :
    colAt T2 s = colAt T s := by
  simp [colAt, h]

theorem tableLe_refl (T : List MatchPair) : TableLe T T :=
  ⟨le_refl _, fun _ _ => le_refl _⟩

theorem tableLe_trans {T1 T2 T3 : List MatchPair} (h1 : TableLe T1 T2) (h2 : TableLe T2 T3) :
    TableLe T1 T3 :=
  ⟨le_trans h1.1 h2.1, fun s hs => le_trans (h2.2 s (lt_of_lt_of_le hs h1.1)) (h1.2 s hs)⟩

theorem pending_mono {k : Nat} {plus : Bool} {ms : List (List Int)} {T T2 : List MatchPair}
    {e : EndEvent} (hle : TableLe T T2) (h : Pending k plus ms T e) : Pending k plus ms T2 e := by
  obtain ⟨d, prev, h1, h2, h3, h4, h5⟩ := h
  refine ⟨d, prev, h1, h2, h3, ?_, ?_⟩
  · intro hp
    obtain ⟨a, b, c⟩ := h4 hp
    exact ⟨a, lt_of_lt_of_le b hle.1, le_trans (hle.2 _ b) c⟩
  · intro hp
    obtain ⟨s, a, b, c⟩ := h5 hp
    exact ⟨s, a, lt_of_lt_of_le b hle.1, le_trans (hle.2 _ b) c⟩

theorem prevInv_mono {k : Nat} {ms : List (List Int)} {rb : Int} {T T2 prev_row : List MatchPair}
    (hle : TableLe T T2) (h : PrevInv k ms rb T prev_row) : PrevInv k ms rb T2 prev_row := by
  intro N hN
  obtain ⟨a, b, c, d, e⟩ := h N hN
  have hd : N.dp.toNat < T.length := by omega
  exact ⟨a, b, c, by have := hle.1; omega, le_trans (hle.2 _ hd) e⟩

theorem tableInv_weaken {k : Nat} {plus : Bool} {ms : List (List Int)} {rb rb2 : Int}
    {T : List MatchPair} (h : TableInv k plus ms rb T) (hr : rb ≤ rb2) :
    TableInv k plus ms rb2 T :=
  ⟨h.head, fun s N hs hN => ⟨(h.good s N hs hN).1, lt_of_lt_of_le (h.good s N hs hN).2 hr⟩,
    h.slotPlus, h.slotPlain, h.mono⟩

/-! ## The query step -/

/-- The end event that a query schedules satisfies `Pending`. -/
theorem queryNode_pending {k : Nat} {plus : Bool} {ms : List (List Int)} {T : List MatchPair}
    (hk : 1 ≤ k) {r0 : Nat} (hT : TableInv k plus ms (r0 : Int) T) {j : Int}
    (hj : j ∈ ms.getD r0 []) (hj0 : 0 ≤ j) :
    Pending k plus ms T ((r0 : Int) + k - 1, j + k - 1, queryNode k T r0 j) := by
  have hk' : (1 : Int) ≤ (k : Int) := by exact_mod_cast hk
  have hpos := firstGE_pos hT.head hj0
  have hle := firstGE_le_length j T
  have hlt : firstGE j T - 1 < T.length := by omega
  have hget := getElem?_eq_getD hlt
  have hcol : colAt T (firstGE j T - 1) < j := colAt_lt_of_lt_firstGE j T _ (by omega)
  have hom : OnMatch k ms ((r0 : Int) + k - 1) (j + k - 1) := ⟨r0, j, hj, hj0, rfl, rfl⟩
  by_cases h0 : firstGE j T - 1 = 0
  · -- the sentinel is the best prior node
    have hs : T.getD (firstGE j T - 1) .null = sentinel := by
      have := hT.head
      rw [h0] at hget ⊢
      rw [hget] at this
      exact Option.some.inj this
    rw [h0] at hcol hlt
    refine ⟨k, .null, ?_, hom, Or.inl ⟨rfl, rfl⟩, ?_, ?_⟩
    · unfold queryNode
      rw [hs]
      simp [makeMatchPair, sentinel, MatchPair.dp]
    · intro _
      simp only [sub_self, Int.toNat_zero]
      exact ⟨le_refl _, hlt, by omega⟩
    · intro _
      exact ⟨0, by simp, hlt, by dsimp only; omega⟩
  · -- a node of the table is the best prior node
    obtain ⟨hg, hrow⟩ := hT.good _ _ (by omega) hget
    have hdp := good_dp_pos hk hg
    have hc := colAt_eq_of_getElem? hget
    refine ⟨(T.getD (firstGE j T - 1) .null).dp + k, T.getD (firstGE j T - 1) .null, ?_, hom,
      Or.inr ⟨hg, hdp, by dsimp only; omega, by dsimp only; omega, rfl⟩, ?_, ?_⟩
    · unfold queryNode makeMatchPair
      rw [if_pos hdp]
    · intro hp
      obtain ⟨a, b, c⟩ := hT.slotPlus hp _ _ (by omega) hget
      simp only [add_sub_cancel_right]
      exact ⟨by omega, by omega, by omega⟩
    · intro hp
      have := hT.slotPlain hp _ _ (by omega) hget
      refine ⟨firstGE j T - 1, ?_, hlt, by dsimp only; omega⟩
      rw [this]
      ring

theorem queryEvents_pending {k : Nat} {plus : Bool} {ms : List (List Int)} {T : List MatchPair}
    (hk : 1 ≤ k) {r0 : Nat} (hT : TableInv k plus ms (r0 : Int) T) {cols : List Int}
    (hc : ∀ j ∈ cols, j ∈ ms.getD r0 [] ∧ 0 ≤ j) :
    ∀ e ∈ queryEvents k T r0 cols, Pending k plus ms T e := by
  intro e he
  simp only [queryEvents, List.mem_map] at he
  obtain ⟨j, hj, rfl⟩ := he
  exact queryNode_pending hk hT (hc j hj).1 (hc j hj).2

/-! ## Placeholders and the fold of the LCSk++ branch -/

theorem pushDummies_eq (i j : Int) :
    ∀ (n : Nat) (T : List MatchPair),
      pushDummies i j n T =
        T ++ (List.range n).map
          (fun t => MatchPair.node (i + 1) (j + 1) ((T.length + t : Nat) : Int) .null) := by
  intro n
  induction n with
  | zero => intro T; simp [pushDummies]
  | succ n ih =>
    intro T
    simp only [pushDummies]
    rw [ih, List.range_succ_eq_map]
    simp only [List.append_assoc, List.singleton_append, List.map_cons, List.map_map,
      List.length_append, List.length_singleton]
    congr 2
    · simp
      intro a _
      omega

theorem pushDummies_length (i j : Int) (n : Nat) (T : List MatchPair) :
    (pushDummies i j n T).length = T.length + n := by
  rw [pushDummies_eq]; simp

theorem pushDummies_getElem?_old (i j : Int) (n : Nat) (T : List MatchPair) {s : Nat}
    (hs : s < T.length) : (pushDummies i j n T)[s]? = T[s]? := by
  rw [pushDummies_eq, List.getElem?_append_left hs]

theorem pushDummies_colAt_new (i j : Int) (n : Nat) (T : List MatchPair) {s : Nat}
    (hs : T.length ≤ s) (hs2 : s < T.length + n) : colAt (pushDummies i j n T) s = j + 1 := by
  rw [pushDummies_eq]
  unfold colAt
  rw [List.getD_eq_getElem?_getD, List.getElem?_append_right hs, List.getElem?_map,
    List.getElem?_range (by omega)]
  simp [MatchPair.end_col]

/-- The fold of the LCSk++ branch, started at slot `idx` with `n` slots allowed: it
succeeds, and for some `lo` it has put the node into the slots `lo + 1 .. idx`, all of
which ended after column `j`, and it stopped at `lo` because that slot ends at or before
`j`, unless it ran out of allowed slots. -/
theorem foldIntoTable_spec (j : Int) (mp : MatchPair) :
    ∀ (n idx : Nat) (T : List MatchPair), n ≤ idx → idx < T.length →
      ∃ (lo : Nat) (T2 : List MatchPair),
        foldIntoTable j mp n (idx : Int) T = some T2 ∧ idx - n ≤ lo ∧ lo ≤ idx ∧
        T2.length = T.length ∧
        (∀ s, T2[s]? = if lo < s ∧ s ≤ idx then some mp else T[s]?) ∧
        (∀ s, lo < s → s ≤ idx → j < colAt T s) ∧
        (idx - n < lo → colAt T lo ≤ j) := by
  intro n
  induction n with
  | zero =>
    intro idx T _ _
    refine ⟨idx, T, rfl, by omega, le_refl _, rfl, ?_, ?_, ?_⟩
    · intro s; rw [if_neg (by omega)]
    · intro s h1 h2; omega
    · intro h; omega
  | succ n ih =>
    intro idx T hn hidx
    have hget := getElem?_eq_getD hidx
    simp only [foldIntoTable]
    rw [if_neg (by omega), Int.toNat_ofNat, hget]
    simp only
    by_cases hc : j < (T.getD idx .null).end_col
    · rw [if_pos hc]
      have hcast : (idx : Int) - 1 = ((idx - 1 : Nat) : Int) := by omega
      rw [hcast]
      obtain ⟨lo, T2, h1, h2, h3, h4, h5, h6, h7⟩ :=
        ih (idx - 1) (T.set idx mp) (by omega) (by simp; omega)
      refine ⟨lo, T2, h1, by omega, by omega, by simpa using h4, ?_, ?_, ?_⟩
      · intro s
        rw [h5 s]
        by_cases hs : s = idx
        · subst hs
          rw [if_neg (by omega), if_pos (by omega)]
          simp [hidx]
        · rw [List.getElem?_set_ne (by omega)]
          by_cases hs2 : lo < s ∧ s ≤ idx - 1
          · rw [if_pos hs2, if_pos (by omega)]
          · rw [if_neg hs2, if_neg (by omega)]
      · intro s hs1 hs2
        by_cases hs : s = idx
        · subst hs; exact hc
        · have := h6 s hs1 (by omega)
          rwa [colAt_congr (List.getElem?_set_ne (by omega))] at this
      · intro hlo
        have := h7 (by omega)
        rwa [colAt_congr (List.getElem?_set_ne (by omega))] at this
    · rw [if_neg hc]
      refine ⟨idx, T, rfl, by omega, le_refl _, rfl, ?_, ?_, ?_⟩
      · intro s; rw [if_neg (by omega)]
      · intro s h1 h2; omega
      · intro _; unfold colAt; omega

/-! ## One end event, LCSk++ branch -/

theorem continueFrom_cases (prev_row : List MatchPair) (idx : Nat) (mp : MatchPair) :
    continueFrom prev_row idx mp = mp ∨
    ∃ p ∈ prev_row, p.end_col + 1 = mp.end_col ∧ p.dp + 1 > mp.dp ∧
      continueFrom prev_row idx mp = .node mp.end_row mp.end_col (p.dp + 1) p := by
  unfold continueFrom
  cases h : prev_row[idx]? with
  | none => exact Or.inl rfl
  | some p =>
    simp only
    by_cases hc : p.end_col + 1 = mp.end_col ∧ p.dp + 1 > mp.dp
    · rw [if_pos hc]
      exact Or.inr ⟨p, List.getElem?_mem h, hc.1, hc.2, rfl⟩
    · rw [if_neg hc]
      exact Or.inl rfl

/-- Folding a well-formed node into the table of the LCSk++ branch keeps the invariant of
the table, provided the slot `dp - k` exists and ends no later than the node. -/
theorem plus_fold_inv {k : Nat} {ms : List (List Int)} {rb : Int} {T : List MatchPair}
    (hk : 1 ≤ k) (hT : TableInv k true ms rb T) {mp : MatchPair} (i j : Int)
    (hg : Good k ms mp) (hr : mp.end_row < rb) (hc : mp.end_col = j)
    (hd1 : (k : Int) ≤ mp.dp) (hd2 : (mp.dp - k).toNat < T.length)
    (hd3 : colAt T (mp.dp - k).toNat ≤ j) :
    ∃ T2, foldIntoTable j mp k mp.dp (pushDummies i j (mp.dp + 1 - T.length).toNat T) = some T2 ∧
      TableInv k true ms rb T2 ∧ TableLe T T2 ∧ mp.dp < T2.length ∧
      colAt T2 mp.dp.toNat ≤ mp.end_col ∧
      ∀ (s : Nat) (N : MatchPair), T2[s]? = some N → N = mp ∨ T[s]? = some N := by
  have hk' : (1 : Int) ≤ (k : Int) := by exact_mod_cast hk
  obtain ⟨dn, hdn⟩ := Int.eq_ofNat_of_zero_le (show 0 ≤ mp.dp by omega)
  rw [hdn] at hd1 hd2 hd3 ⊢
  have hkdn : k ≤ dn := by exact_mod_cast hd1
  have hsub : ((dn : Int) - k).toNat = dn - k := by omega
  rw [hsub] at hd2 hd3
  have hn : ((dn : Int) + 1 - T.length).toNat = dn + 1 - T.length := by omega
  rw [hn, Int.toNat_ofNat]
  have hlen1 := pushDummies_length i j (dn + 1 - T.length) T
  obtain ⟨lo, T2, h1, h2, h3, h4, h5, h6, h7⟩ :=
    foldIntoTable_spec j mp k dn (pushDummies i j (dn + 1 - T.length) T) hkdn (by omega)
  -- the fold stops inside the old table
  have hlo : lo < T.length := by
    by_contra hcon
    have h8 := pushDummies_colAt_new i j (dn + 1 - T.length) T (s := lo) (by omega) (by omega)
    have h9 := h7 (by omega)
    omega
  have hold : ∀ s, s < T.length → (pushDummies i j (dn + 1 - T.length) T)[s]? = T[s]? :=
    fun s hs => pushDummies_getElem?_old i j _ T hs
  have hlocol : colAt T lo ≤ j := by
    by_cases hl : dn - k < lo
    · have := h7 hl
      rwa [colAt_congr (hold lo hlo)] at this
    · have : lo = dn - k := by omega
      rw [this]; exact hd3
  have hin : ∀ s, lo < s → s ≤ dn → T2[s]? = some mp := by
    intro s hs1 hs2
    rw [h5 s, if_pos ⟨hs1, hs2⟩]
  have hout : ∀ s, ¬(lo < s ∧ s ≤ dn) → s < T2.length → s < T.length ∧ T2[s]? = T[s]? := by
    intro s hs hs2
    have hs3 : s < T.length := by omega
    exact ⟨hs3, by rw [h5 s, if_neg hs, hold s hs3]⟩
  have hcolin : ∀ s, lo < s → s ≤ dn → colAt T2 s = j := by
    intro s hs1 hs2
    rw [colAt_eq_of_getElem? (hin s hs1 hs2), hc]
  have hcolold : ∀ s, lo < s → s ≤ dn → s < T.length → j < colAt T s := by
    intro s hs1 hs2 hs3
    have := h6 s hs1 hs2
    rwa [colAt_congr (hold s hs3)] at this
  have hle : TableLe T T2 := by
    refine ⟨by omega, ?_⟩
    intro s hs
    by_cases hs2 : lo < s ∧ s ≤ dn
    · rw [hcolin s hs2.1 hs2.2]
      exact le_of_lt (hcolold s hs2.1 hs2.2 hs)
    · rw [colAt_congr (hout s hs2 (by omega)).2]
  have hslot : colAt T2 dn ≤ mp.end_col := by
    by_cases hl : lo < dn
    · rw [hcolin dn hl (le_refl _), hc]
    · have : lo = dn := by omega
      rw [colAt_congr (hout dn (by omega) (by omega)).2, hc, ← this]
      exact hlocol
  have hprov : ∀ (s : Nat) (N : MatchPair), T2[s]? = some N → N = mp ∨ T[s]? = some N := by
    intro s N hN
    by_cases hs2 : lo < s ∧ s ≤ dn
    · rw [hin s hs2.1 hs2.2] at hN
      cases hN
      exact Or.inl rfl
    · have hs3 : s < T2.length := by
        by_contra hcon
        rw [List.getElem?_eq_none (by omega)] at hN
        cases hN
      rw [(hout s hs2 hs3).2] at hN
      exact Or.inr hN
  refine ⟨T2, h1, ?_, hle, by omega, hslot, hprov⟩
  refine ⟨?_, ?_, ?_, ?_, ?_⟩
  · rw [(hout 0 (by omega) (by omega)).2]; exact hT.head
  · intro s N hs hN
    by_cases hs2 : lo < s ∧ s ≤ dn
    · rw [hin s hs2.1 hs2.2] at hN
      cases hN
      exact ⟨hg, hr⟩
    · have hs3 : s < T2.length := by
        by_contra hcon
        rw [List.getElem?_eq_none (by omega)] at hN
        cases hN
      rw [(hout s hs2 hs3).2] at hN
      exact hT.good s N hs hN
  · intro _ s N hs hN
    by_cases hs2 : lo < s ∧ s ≤ dn
    · rw [hin s hs2.1 hs2.2] at hN
      cases hN
      rw [hdn, Int.toNat_ofNat]
      exact ⟨by omega, by omega, hslot⟩
    · have hs3 : s < T2.length := by
        by_contra hcon
        rw [List.getElem?_eq_none (by omega)] at hN
        cases hN
      rw [(hout s hs2 hs3).2] at hN
      obtain ⟨a, b, c⟩ := hT.slotPlus rfl s N hs hN
      have hb : N.dp.toNat < T.length := by omega
      exact ⟨a, by omega, le_trans (hle.2 _ hb) c⟩
  · intro h; cases h
  · intro s t hst ht
    by_cases hs2 : lo < s ∧ s ≤ dn
    · by_cases ht2 : lo < t ∧ t ≤ dn
      · rw [hcolin s hs2.1 hs2.2, hcolin t ht2.1 ht2.2]
      · obtain ⟨ht3, ht4⟩ := hout t ht2 ht
        rw [hcolin s hs2.1 hs2.2, colAt_congr ht4]
        have hdl : dn < T.length := by omega
        have h10 := hcolold dn (by omega) (le_refl _) hdl
        have h11 := hT.mono dn t (by omega) ht3
        omega
    · obtain ⟨hs3, hs4⟩ := hout s hs2 (by omega)
      by_cases ht2 : lo < t ∧ t ≤ dn
      · rw [hcolin t ht2.1 ht2.2, colAt_congr hs4]
        have h11 := hT.mono s lo (by omega) hlo
        omega
      · obtain ⟨ht3, ht4⟩ := hout t ht2 ht
        rw [colAt_congr hs4, colAt_congr ht4]
        exact hT.mono s t hst ht3

/-! ## One end event, LCSk branch -/

theorem plain_append_inv {k : Nat} {ms : List (List Int)} {rb : Int} {T : List MatchPair}
    (hT : TableInv k false ms rb T) {mp : MatchPair}
    (hg : Good k ms mp) (hr : mp.end_row < rb)
    (hd1 : mp.dp = (k : Int) * T.length) (hd3 : colAt T (T.length - 1) ≤ mp.end_col) :
    TableInv k false ms rb (T ++ [mp]) ∧ TableLe T (T ++ [mp]) ∧
      ∀ (s : Nat) (N : MatchPair), (T ++ [mp])[s]? = some N → N = mp ∨ T[s]? = some N := by
  have hpos : 0 < T.length := by
    have := hT.head
    by_contra hcon
    rw [List.getElem?_eq_none (by omega)] at this
    cases this
  have hold : ∀ s, s < T.length → (T ++ [mp])[s]? = T[s]? :=
    fun s hs => List.getElem?_append_left hs
  have hnew : (T ++ [mp])[T.length]? = some mp := by
    rw [List.getElem?_append_right (le_refl _)]; simp
  have hcases : ∀ s N, (T ++ [mp])[s]? = some N → (s < T.length ∧ T[s]? = some N) ∨
      (s = T.length ∧ N = mp) := by
    intro s N hN
    by_cases hs : s < T.length
    · rw [hold s hs] at hN; exact Or.inl ⟨hs, hN⟩
    · by_cases hs2 : s = T.length
      · subst hs2; rw [hnew] at hN; cases hN; exact Or.inr ⟨rfl, rfl⟩
      · rw [List.getElem?_eq_none (by simp; omega)] at hN; cases hN
  constructor
  · refine ⟨?_, ?_, ?_, ?_, ?_⟩
    · rw [hold 0 hpos]; exact hT.head
    · intro s N hs hN
      rcases hcases s N hN with ⟨_, h⟩ | ⟨_, h⟩
      · exact hT.good s N hs h
      · subst h; exact ⟨hg, hr⟩
    · intro h; cases h
    · intro _ s N hs hN
      rcases hcases s N hN with ⟨_, h⟩ | ⟨h1, h⟩
      · exact hT.slotPlain rfl s N hs h
      · subst h; subst h1; exact hd1
    · intro s t hst ht
      simp only [List.length_append, List.length_singleton] at ht
      by_cases ht2 : t < T.length
      · rw [colAt_congr (hold s (by omega)), colAt_congr (hold t ht2)]
        exact hT.mono s t hst ht2
      · have : t = T.length := by omega
        subst this
        rw [colAt_eq_of_getElem? hnew]
        by_cases hs2 : s < T.length
        · rw [colAt_congr (hold s hs2)]
          exact le_trans (hT.mono s (T.length - 1) (by omega) (by omega)) hd3
        · have : s = T.length := by omega
          subst this
          rw [colAt_eq_of_getElem? hnew]
  · refine ⟨⟨by simp, ?_⟩, ?_⟩
    · intro s hs
      rw [colAt_congr (hold s hs)]
    · intro s N hN
      rcases hcases s N hN with ⟨_, h⟩ | ⟨_, h⟩
      · exact Or.inr h
      · exact Or.inl h

theorem plain_set_inv {k : Nat} {ms : List (List Int)} {rb : Int} {T : List MatchPair}
    (hT : TableInv k false ms rb T) {mp : MatchPair}
    (hg : Good k ms mp) (hr : mp.end_row < rb) {s0 : Nat}
    (hd1 : mp.dp = (k : Int) * (s0 + 1 : Nat)) (hs0 : s0 + 1 < T.length)
    (hd3 : colAt T s0 ≤ mp.end_col) (hlt : mp.end_col < colAt T (s0 + 1)) :
    TableInv k false ms rb (T.set (s0 + 1) mp) ∧ TableLe T (T.set (s0 + 1) mp) ∧
      ∀ (s : Nat) (N : MatchPair), (T.set (s0 + 1) mp)[s]? = some N → N = mp ∨ T[s]? = some N := by
  have hold : ∀ s, s ≠ s0 + 1 → (T.set (s0 + 1) mp)[s]? = T[s]? :=
    fun s hs => List.getElem?_set_ne (by omega)
  have hnew : (T.set (s0 + 1) mp)[s0 + 1]? = some mp := by
    simp [hs0]
  constructor
  · refine ⟨?_, ?_, ?_, ?_, ?_⟩
    · rw [hold 0 (by omega)]; exact hT.head
    · intro s N hs hN
      by_cases hs2 : s = s0 + 1
      · subst hs2; rw [hnew] at hN; cases hN; exact ⟨hg, hr⟩
      · rw [hold s hs2] at hN; exact hT.good s N hs hN
    · intro h; cases h
    · intro _ s N hs hN
      by_cases hs2 : s = s0 + 1
      · subst hs2; rw [hnew] at hN; cases hN; exact hd1
      · rw [hold s hs2] at hN; exact hT.slotPlain rfl s N hs hN
    · intro s t hst ht
      simp only [List.length_set] at ht
      by_cases hs2 : s = s0 + 1
      · by_cases ht2 : t = s0 + 1
        · rw [hs2, ht2]
        · rw [hs2, colAt_eq_of_getElem? hnew, colAt_congr (hold t ht2)]
          have := hT.mono (s0 + 1) t (by omega) ht
          omega
      · by_cases ht2 : t = s0 + 1
        · rw [ht2, colAt_eq_of_getElem? hnew, colAt_congr (hold s hs2)]
          have := hT.mono s s0 (by omega) (by omega)
          omega
        · rw [colAt_congr (hold s hs2), colAt_congr (hold t ht2)]
          exact hT.mono s t hst ht
  · refine ⟨⟨by simp, ?_⟩, ?_⟩
    · intro s hs
      by_cases hs2 : s = s0 + 1
      · rw [hs2, colAt_eq_of_getElem? hnew]; omega
      · rw [colAt_congr (hold s hs2)]
    · intro s N hN
      by_cases hs2 : s = s0 + 1
      · subst hs2; rw [hnew] at hN; cases hN; exact Or.inl rfl
      · rw [hold s hs2] at hN; exact Or.inr hN

/-! ## The loop of RowUpdate -/

theorem rowUpdate_loop_skip (k : Nat) (row : Int) (plus : Bool) (prev_row : List MatchPair)
    (i j : Int) (mp : MatchPair) (rest : List EndEvent) (T cr : List MatchPair) (cidx : Nat)
    (h : i ≠ row) :
    RowUpdate.loop k row plus prev_row ((i, j, mp) :: rest) T cr cidx =
      some ((i, j, mp) :: rest, T, cr) := by
  rw [RowUpdate.loop, if_pos h]

theorem rowUpdate_loop_plus (k : Nat) (row : Int) (prev_row : List MatchPair)
    (j : Int) (mp : MatchPair) (rest : List EndEvent) (T cr : List MatchPair) (cidx : Nat) :
    RowUpdate.loop k row true prev_row ((row, j, mp) :: rest) T cr cidx =
      (foldIntoTable j
          (continueFrom prev_row (advanceContinuation mp.end_col (prev_row.drop cidx) cidx) mp) k
          (continueFrom prev_row (advanceContinuation mp.end_col (prev_row.drop cidx) cidx)
            mp).dp
          (pushDummies row j
            ((continueFrom prev_row (advanceContinuation mp.end_col (prev_row.drop cidx) cidx)
              mp).dp + 1 - (T.length : Int)).toNat T)).bind
        (fun T2 =>
          RowUpdate.loop k row true prev_row rest T2
            (cr ++ [continueFrom prev_row
              (advanceContinuation mp.end_col (prev_row.drop cidx) cidx) mp])
            (advanceContinuation mp.end_col (prev_row.drop cidx) cidx)) := by
  rw [RowUpdate.loop]
  simp only [ne_eq, not_true_eq_false, if_false, if_true]
  cases foldIntoTable j
      (continueFrom prev_row (advanceContinuation mp.end_col (prev_row.drop cidx) cidx) mp) k
      (continueFrom prev_row (advanceContinuation mp.end_col (prev_row.drop cidx) cidx) mp).dp
      (pushDummies row j
        ((continueFrom prev_row (advanceContinuation mp.end_col (prev_row.drop cidx) cidx)
          mp).dp + 1 - (T.length : Int)).toNat T) <;> rfl

theorem rowUpdate_loop_plain (k : Nat) (hk : k ≠ 0) (row : Int) (prev_row : List MatchPair)
    (j : Int) (mp : MatchPair) (rest : List EndEvent) (T cr : List MatchPair) (cidx : Nat) :
    RowUpdate.loop k row false prev_row ((row, j, mp) :: rest) T cr cidx =
      if mp.dp / (k : Int) = (T.length : Int) then
        RowUpdate.loop k row false prev_row rest (T ++ [mp]) cr cidx
      else if mp.dp / (k : Int) < 0 then none
      else
        (T[(mp.dp / (k : Int)).toNat]?).bind (fun cur =>
          if j < cur.end_col then
            RowUpdate.loop k row false prev_row rest (T.set (mp.dp / (k : Int)).toNat mp) cr cidx
          else RowUpdate.loop k row false prev_row rest T cr cidx) := by
  rw [RowUpdate.loop]
  simp only [ne_eq, not_true_eq_false, if_false, if_neg hk, Bool.false_eq_true]
  split
  · rfl
  · split
    · rfl
    · cases T[(mp.dp / (k : Int)).toNat]? <;> rfl

theorem pending_good {k : Nat} {plus : Bool} {ms : List (List Int)} {T : List MatchPair}
    {i j : Int} {mp : MatchPair} (h : Pending k plus ms T (i, j, mp)) :
    Good k ms mp ∧ mp.end_row = i ∧ mp.end_col = j ∧ (k : Int) ≤ mp.dp ∨ k = 0 := by
  obtain ⟨d, prev, h1, h2, h3, _, _⟩ := h
  by_cases hk : k = 0
  · exact Or.inr hk
  · left
    simp only at h1 h2 h3
    subst h1
    refine ⟨⟨h2, ?_⟩, rfl, rfl, ?_⟩
    · rcases h3 with h3 | h3
      · exact Or.inl h3
      · exact Or.inr (Or.inl h3)
    · simp only [MatchPair.dp]
      rcases h3 with ⟨_, h3⟩ | ⟨_, h4, _, _, h3⟩ <;> omega

/-- The loop of `RowUpdate` never fails and keeps the invariants of the table, of the
waiting end events and of the nodes of the current row. -/
theorem rowUpdate_loop_inv {k : Nat} {plus : Bool} {ms : List (List Int)} (hk : 1 ≤ k)
    {row : Int} {prev_row : List MatchPair} :
    ∀ (endq : List EndEvent) (T cr : List MatchPair) (cidx : Nat),
      TableInv k plus ms (row + 1) T → (∀ e ∈ endq, Pending k plus ms T e) →
      PrevInv k ms row T prev_row → PrevInv k ms (row + 1) T cr →
      ∃ rest T2 cr2, RowUpdate.loop k row plus prev_row endq T cr cidx = some (rest, T2, cr2) ∧
        TableInv k plus ms (row + 1) T2 ∧ (∀ e ∈ rest, Pending k plus ms T2 e) ∧
        PrevInv k ms (row + 1) T2 cr2 ∧ TableLe T T2 ∧ (plus = false → cr2 = cr) := by
  have hk' : (1 : Int) ≤ (k : Int) := by exact_mod_cast hk
  intro endq
  induction endq with
  | nil =>
    intro T cr cidx hT _ _ hcr
    exact ⟨[], T, cr, rfl, hT, by simp, hcr, tableLe_refl T, fun _ => rfl⟩
  | cons e rest ih =>
    intro T cr cidx hT hpend hprev hcr
    obtain ⟨i, j, mp⟩ := e
    by_cases hi : i ≠ row
    · exact ⟨(i, j, mp) :: rest, T, cr, rowUpdate_loop_skip k row plus prev_row i j mp rest T cr
        cidx hi, hT, hpend, hcr, tableLe_refl T, fun _ => rfl⟩
    · have hi' : i = row := not_not.mp hi
      subst hi'
      have hpe := hpend (i, j, mp) (by simp)
      have hprest : ∀ e ∈ rest, Pending k plus ms T e := fun e he => hpend e (by simp [he])
      obtain ⟨hg, hrow, hcol, hdk⟩ : Good k ms mp ∧ mp.end_row = i ∧ mp.end_col = j ∧
          (k : Int) ≤ mp.dp := by
        rcases pending_good hpe with h | h
        · exact h
        · omega
      obtain ⟨d, prev, hmp, hom, hpar, hsl1, hsl2⟩ := hpe
      simp only at hmp hom hpar hsl1 hsl2
      have hdp : mp.dp = d := by rw [hmp]; rfl
      cases plus with
      | true =>
        obtain ⟨hs1, hs2, hs3⟩ := hsl1 rfl
        rw [rowUpdate_loop_plus]
        generalize advanceContinuation mp.end_col (prev_row.drop cidx) cidx = cidx1
        -- the node after the continuation test
        have hpre : ∃ mp2, continueFrom prev_row cidx1 mp = mp2 ∧ Good k ms mp2 ∧
            mp2.end_row = i ∧ mp2.end_col = j ∧ (k : Int) ≤ mp2.dp ∧
            (mp2.dp - k).toNat < T.length ∧ colAt T (mp2.dp - k).toNat ≤ j := by
          rcases continueFrom_cases prev_row cidx1 mp with h | ⟨p, hp, hpc, hpd, h⟩
          · exact ⟨mp, h, hg, hrow, hcol, hdk, by rw [hdp]; exact hs2, by rw [hdp]; omega⟩
          · obtain ⟨hgp, hpr, hpdp, hplen, hpcol⟩ := hprev p hp
            refine ⟨_, h, ⟨?_, Or.inr (Or.inr ⟨hgp, hpdp, ?_, ?_, rfl⟩)⟩, ?_, ?_, ?_, ?_, ?_⟩
            · rw [hrow, hcol]; exact hom
            · omega
            · exact hpc
            · exact hrow
            · exact hcol
            · show (k : Int) ≤ p.dp + 1
              omega
            · show (p.dp + 1 - (k : Int)).toNat < T.length
              omega
            · show colAt T (p.dp + 1 - (k : Int)).toNat ≤ j
              have h1 : (p.dp + 1 - (k : Int)).toNat ≤ p.dp.toNat := by omega
              have h2 := hT.mono _ _ h1 (by omega)
              omega
        obtain ⟨mp2, hmp2, hg2, hr2, hc2, hd2, hl2, hcol2⟩ := hpre
        rw [hmp2]
        obtain ⟨T2, hf, hT2, hle, hlen2, hslot2, _⟩ :=
          plus_fold_inv hk hT i j hg2 (by omega) hc2 hd2 hl2 hcol2
        rw [hf, Option.some_bind]
        have hcr2 : PrevInv k ms (i + 1) T2 (cr ++ [mp2]) := by
          intro N hN
          rcases List.mem_append.mp hN with hN | hN
          · exact prevInv_mono hle hcr N hN
          · simp only [List.mem_singleton] at hN
            subst hN
            exact ⟨hg2, by omega, by omega, hlen2, hslot2⟩
        obtain ⟨rest2, T3, cr3, h1, h2, h3, h4, h5, h6⟩ :=
          ih T2 (cr ++ [mp2]) cidx1 hT2 (fun e he => pending_mono hle (hprest e he))
            (prevInv_mono hle hprev) hcr2
        exact ⟨rest2, T3, cr3, h1, h2, h3, h4, tableLe_trans hle h5, fun h => by cases h⟩
      | false =>
        obtain ⟨s0, hs1, hs2, hs3⟩ := hsl2 rfl
        rw [rowUpdate_loop_plain k (by omega)]
        have hidx : mp.dp / (k : Int) = ((s0 + 1 : Nat) : Int) := by
          rw [hdp, hs1]
          push_cast
          exact Int.mul_ediv_cancel_left _ (by omega)
        rw [hidx]
        by_cases hlen : ((s0 + 1 : Nat) : Int) = (T.length : Int)
        · rw [if_pos hlen]
          have hlen' : s0 + 1 = T.length := by exact_mod_cast hlen
          obtain ⟨hT2, hle, _⟩ := plain_append_inv hT hg (by omega)
            (by rw [hdp, hs1, ← hlen']; push_cast; ring)
            (by rw [← hlen', hcol]; simp only [Nat.add_sub_cancel]; omega)
          obtain ⟨rest2, T3, cr3, h1, h2, h3, h4, h5, h6⟩ :=
            ih (T ++ [mp]) cr cidx hT2 (fun e he => pending_mono hle (hprest e he))
              (prevInv_mono hle hprev) (prevInv_mono hle hcr)
          exact ⟨rest2, T3, cr3, h1, h2, h3, h4, tableLe_trans hle h5, h6⟩
        · rw [if_neg hlen, if_neg (by omega), Int.toNat_ofNat]
          have hlen' : s0 + 1 < T.length := by
            have : s0 + 1 ≠ T.length := fun h => hlen (by exact_mod_cast h)
            omega
          rw [getElem?_eq_getD hlen', Option.some_bind]
          by_cases hc : j < (T.getD (s0 + 1) .null).end_col
          · rw [if_pos hc]
            obtain ⟨hT2, hle, _⟩ := plain_set_inv hT hg (by omega)
              (by rw [hdp, hs1]; push_cast; ring) hlen'
              (by rw [hcol]; omega) (by rw [hcol]; exact hc)
            obtain ⟨rest2, T3, cr3, h1, h2, h3, h4, h5, h6⟩ :=
              ih (T.set (s0 + 1) mp) cr cidx hT2 (fun e he => pending_mono hle (hprest e he))
                (prevInv_mono hle hprev) (prevInv_mono hle hcr)
            exact ⟨rest2, T3, cr3, h1, h2, h3, h4, tableLe_trans hle h5, h6⟩
          · rw [if_neg hc]
            exact ih T cr cidx hT hprest hprev hcr

/-! ## One row of the sweep -/

/-- Under the invariant both query strategies give the same queue, so that a row step
is `RowUpdate` after the end events of `queryEvents` have been scheduled, whatever the
choice of strategy. -/
theorem rowStep_eq (use_amortized : Nat → Nat → Bool) (k : Nat) (plus : Bool) (row : Int)
    (cols : List Int) (s : SweepState) (hb : s.events.begin_events = [])
    (hh : s.compressed_table[0]? = some sentinel) (hm : MonoCols s.compressed_table)
    (hs : cols.Pairwise (fun x y => x ≤ y)) (hn : ∀ j ∈ cols, 0 ≤ j) :
    rowStep use_amortized k plus row cols s =
      RowUpdate k row plus
        { s with events :=
            { begin_events := [],
              end_events := s.events.end_events ++ queryEvents k s.compressed_table row cols } } := by
  unfold rowStep
  simp only [foldl_addBegin, hb, List.nil_append]
  have h1 : AmortizedRowQuery k row
      { begin_events := cols.map (fun j => (row, j)), end_events := s.events.end_events }
      s.compressed_table =
      some { begin_events := [],
             end_events := s.events.end_events ++ queryEvents k s.compressed_table row cols } := by
    unfold AmortizedRowQuery
    simp only
    rw [amortized_loop_eq k row hh cols 0 _ hs hn (fun _ _ => Nat.zero_le _)]
    rfl
  have h2 : ElementwiseRowQuery k row
      { begin_events := cols.map (fun j => (row, j)), end_events := s.events.end_events }
      s.compressed_table =
      some { begin_events := [],
             end_events := s.events.end_events ++ queryEvents k s.compressed_table row cols } := by
    unfold ElementwiseRowQuery
    simp only
    rw [elementwise_loop_eq k row hh hm cols _ hn]
    rfl
  rw [h1, h2]
  simp

/-- A row step never fails and keeps the invariant of the sweep. -/
theorem rowStep_inv (use_amortized : Nat → Nat → Bool) {k : Nat} {plus : Bool}
    {ms : List (List Int)} (hk : 1 ≤ k) {r0 : Nat} {cols : List Int} {s : SweepState}
    (hinv : SweepInv k plus ms (r0 : Int) s)
    (hs : cols.Pairwise (fun x y => x ≤ y))
    (hc : ∀ j ∈ cols, j ∈ ms.getD r0 [] ∧ 0 ≤ j) :
    ∃ s2, rowStep use_amortized k plus (r0 : Int) cols s = some s2 ∧
      SweepInv k plus ms ((r0 : Int) + 1) s2 ∧
      TableLe s.compressed_table s2.compressed_table := by
  rw [rowStep_eq use_amortized k plus r0 cols s hinv.begin_nil hinv.table.head hinv.table.mono hs
    (fun j hj => (hc j hj).2)]
  unfold RowUpdate
  simp only
  have hpend : ∀ e ∈ s.events.end_events ++ queryEvents k s.compressed_table (r0 : Int) cols,
      Pending k plus ms s.compressed_table e := by
    intro e he
    rcases List.mem_append.mp he with he | he
    · exact hinv.pending e he
    · exact queryEvents_pending hk hinv.table hc e he
  obtain ⟨rest, T2, cr2, h1, h2, h3, h4, h5, _⟩ :=
    @rowUpdate_loop_inv k plus ms hk (r0 : Int) s.prev_row_match_pairs _
      s.compressed_table [] 0 (tableInv_weaken hinv.table (by omega)) hpend hinv.prevRow
      (by intro N hN; simp at hN)
  rw [h1]
  exact ⟨_, rfl, ⟨rfl, h2, h3, h4⟩, h5⟩

/-! ## The sweep -/

theorem initialState_inv (k : Nat) (plus : Bool) (ms : List (List Int)) :
    SweepInv k plus ms 0 initialState := by
  refine ⟨rfl, ⟨rfl, ?_, ?_, ?_, ?_⟩, ?_, ?_⟩
  · intro s N hs hN
    simp only [initialState] at hN
    rw [List.getElem?_eq_none (by simp; omega)] at hN
    cases hN
  · intro _ s N hs hN
    simp only [initialState] at hN
    rw [List.getElem?_eq_none (by simp; omega)] at hN
    cases hN
  · intro _ s N hs hN
    simp only [initialState] at hN
    rw [List.getElem?_eq_none (by simp; omega)] at hN
    cases hN
  · intro s t hst ht
    simp only [initialState, List.length_singleton] at ht
    have h1 : t = 0 := by omega
    have h2 : s = 0 := by omega
    rw [h1, h2]
  · intro e he
    simp [initialState] at he
  · intro N hN
    simp [initialState] at hN

theorem drop_eq_cons {α : Type} {l : List α} {n : Nat} {x : α} {rest : List α}
    (h : l.drop n = x :: rest) : l[n]? = some x ∧ l.drop (n + 1) = rest := by
  constructor
  · have := List.getElem?_drop l n 0
    rw [h] at this
    simpa using this.symm
  · rw [← List.drop_drop 1 n l, h]
    rfl

/-- The sweep over the rows of a sorted match list never fails, keeps the invariant, and
does not depend on the choice of query strategy. -/
theorem sweep_inv (use_amortized : Nat → Nat → Bool) {k : Nat} {plus : Bool}
    {ms : List (List Int)} (hk : 1 ≤ k) (hms : RowsSorted ms) :
    ∀ (rest : List (List Int)) (r0 : Nat) (s : SweepState), ms.drop r0 = rest →
      SweepInv k plus ms (r0 : Int) s →
      ∃ s2, sweep use_amortized k plus rest (r0 : Int) s = some s2 ∧
        SweepInv k plus ms ((r0 + rest.length : Nat) : Int) s2 ∧
        sweep (fun _ _ => true) k plus rest (r0 : Int) s = some s2 := by
  intro rest
  induction rest with
  | nil =>
    intro r0 s _ hinv
    exact ⟨s, rfl, by simpa using hinv, rfl⟩
  | cons cols rest ih =>
    intro r0 s hdrop hinv
    obtain ⟨hget, hdrop2⟩ := drop_eq_cons hdrop
    have hmem : cols ∈ ms := List.getElem?_mem hget
    have hgetD : ms.getD r0 [] = cols := by simp [hget]
    have hc : ∀ j ∈ cols, j ∈ ms.getD r0 [] ∧ 0 ≤ j :=
      fun j hj => ⟨by rw [hgetD]; exact hj, (hms cols hmem).2 j hj⟩
    obtain ⟨s1, h1, h2, _⟩ := rowStep_inv use_amortized hk hinv (hms cols hmem).1 hc
    obtain ⟨s1', h1', _, _⟩ := rowStep_inv (fun _ _ => true) hk hinv (hms cols hmem).1 hc
    have heq : s1' = s1 := by
      rw [rowStep_eq _ _ _ _ _ _ hinv.begin_nil hinv.table.head hinv.table.mono (hms cols hmem).1
        (fun j hj => (hc j hj).2)] at h1 h1'
      rw [h1] at h1'
      exact (Option.some.inj h1').symm
    subst heq
    have h2' : SweepInv k plus ms ((r0 + 1 : Nat) : Int) s1' := by
      have : ((r0 + 1 : Nat) : Int) = (r0 : Int) + 1 := by push_cast; rfl
      rw [this]; exact h2
    obtain ⟨s2, h3, h4, h5⟩ := ih (r0 + 1) s1' hdrop2 h2'
    refine ⟨s2, ?_, ?_, ?_⟩
    · simp only [sweep, h1]
      have : ((r0 + 1 : Nat) : Int) = (r0 : Int) + 1 := by push_cast; rfl
      rw [← this]; exact h3
    · have : r0 + (cols :: rest).length = r0 + 1 + rest.length := by simp; omega
      rw [this]; exact h4
    · simp only [sweep, h1']
      have : ((r0 + 1 : Nat) : Int) = (r0 : Int) + 1 := by push_cast; rfl
      rw [← this]; exact h5

/-! ## The engine -/

/-- On a sorted match list the engine reconstructs from a well-formed chain (or from
nothing), whatever the choice of query strategy. -/
theorem engine_good (use_amortized : Nat → Nat → Bool) {k : Nat} (plus : Bool)
    {ms : List (List Int)} (hk : 1 ≤ k) (hms : RowsSorted ms) :
    ∃ s best, sweep use_amortized k plus ms 0 initialState = some s ∧
      SweepInv k plus ms (ms.length : Int) s ∧
      bestOf s.compressed_table = some best ∧ (best = .null ∨ Good k ms best) ∧
      LcskppSparseFastRealImpl use_amortized k plus ms = some (pushed k best).reverse ∧
      LcskppSparseFastRealImpl (fun _ _ => true) k plus ms = some (pushed k best).reverse := by
  obtain ⟨s, h1, h2, h3⟩ := sweep_inv use_amortized hk hms ms 0 initialState rfl
    (by simpa using initialState_inv k plus ms)
  simp only [Nat.zero_add] at h2
  have hpos : 0 < s.compressed_table.length := by
    have := h2.table.head
    by_contra hcon
    rw [List.getElem?_eq_none (by omega)] at this
    cases this
  have hlast : s.compressed_table.getLast? =
      some (s.compressed_table.getD (s.compressed_table.length - 1) .null) := by
    rw [List.getLast?_eq_getElem?, getElem?_eq_getD (by omega)]
  have hbest : ∃ best, bestOf s.compressed_table = some best ∧ (best = .null ∨ Good k ms best) := by
    unfold bestOf
    rw [hlast]
    simp only
    by_cases h0 : s.compressed_table.length - 1 = 0
    · have hsent : s.compressed_table.getD (s.compressed_table.length - 1) .null = sentinel := by
        have := h2.table.head
        rw [h0]
        rw [getElem?_eq_getD hpos] at this
        exact Option.some.inj this
      refine ⟨.null, ?_, Or.inl rfl⟩
      rw [hsent]
      simp [sentinel, MatchPair.end_row]
    · have hlt : s.compressed_table.length - 1 < s.compressed_table.length := by omega
      obtain ⟨hg, _⟩ := h2.table.good (s.compressed_table.length - 1) _ (by omega)
        (getElem?_eq_getD hlt)
      have := (good_end_nonneg hk hg).1
      refine ⟨_, ?_, Or.inr hg⟩
      rw [if_pos (by omega)]
  obtain ⟨best, hb1, hb2⟩ := hbest
  refine ⟨s, best, by simpa using h1, h2, hb1, hb2, ?_, ?_⟩
  · unfold LcskppSparseFastRealImpl
    have h1' : sweep use_amortized k plus ms 0 initialState = some s := by simpa using h1
    rw [h1']
    simp only [hb1]
    exact fill_good best hb2
  · unfold LcskppSparseFastRealImpl
    have h3' : sweep (fun _ _ => true) k plus ms 0 initialState = some s := by simpa using h3
    rw [h3']
    simp only [hb1]
    exact fill_good best hb2

/-! ## Inputs without any match -/

theorem rowStep_nil (use_amortized : Nat → Nat → Bool) (k : Nat) (plus : Bool) (row : Int) :
    rowStep use_amortized k plus row [] initialState = some initialState := by
  unfold rowStep
  cases use_amortized initialState.compressed_table.length ([] : List Int).length <;>
    simp [initialState, AmortizedRowQuery, AmortizedRowQuery.loop, ElementwiseRowQuery,
      ElementwiseRowQuery.loop, RowUpdate, RowUpdate.loop]

theorem sweep_all_nil (use_amortized : Nat → Nat → Bool) (k : Nat) (plus : Bool) :
    ∀ (rows : List (List Int)) (row : Int), (∀ r ∈ rows, r = []) →
      sweep use_amortized k plus rows row initialState = some initialState := by
  intro rows
  induction rows with
  | nil => intro row _; rfl
  | cons r rest ih =>
    intro row h
    have hr : r = [] := h r (by simp)
    subst hr
    simp only [sweep, rowStep_nil]
    exact ih (row + 1) (fun r hr => h r (by simp [hr]))

theorem engine_all_nil (use_amortized : Nat → Nat → Bool) (k : Nat) (plus : Bool)
    (rows : List (List Int)) (h : ∀ r ∈ rows, r = []) :
    LcskppSparseFastRealImpl use_amortized k plus rows = some [] := by
  unfold LcskppSparseFastRealImpl
  rw [sweep_all_nil use_amortized k plus rows 0 h]
  rfl

theorem isBlockMatch_false_of_short (a b : List Char) (k r c : Nat)
    (h : a.length < k ∨ b.length < k) : isBlockMatch a b k r c = false := by
  unfold isBlockMatch
  simp only [decide_eq_false_iff_not, not_and]
  intro h1 h2
  omega

theorem getNextMatches_nil_of_short (a b : List Char) (k row : Nat)
    (h : a.length < k ∨ b.length < k) : GetNextMatches a b k row = [] := by
  unfold GetNextMatches
  simp [isBlockMatch_false_of_short a b k row _ h]

theorem rowsMatches_nil_of_short (a b : List Char) (k : Nat)
    (h : a.length < k ∨ b.length < k) : ∀ r ∈ rowsMatches a b k, r = [] := by
  intro r hr
  simp only [rowsMatches, List.mem_map] at hr
  obtain ⟨row, _, rfl⟩ := hr
  exact getNextMatches_nil_of_short a b k row h

theorem allMatches_nil_of_short (a b : List Char) (k : Nat)
    (h : a.length < k ∨ b.length < k) : allMatches a b k = [] := by
  unfold allMatches
  simp [getNextMatches_nil_of_short a b k _ h]

theorem impl_nil_of_short (use_amortized : Nat → Nat → Bool) (a b : List Char) (k : Nat)
    (plus : Bool) (mode : Mode) (hm : mode ≠ Mode.MULTISTART_AGGRESSIVE)
    (h : a.length < k ∨ b.length < k) :
    LcskppSparseFastImpl use_amortized a b k plus mode = some [] := by
  cases mode with
  | SINGLESTART =>
    exact engine_all_nil use_amortized k plus _ (rowsMatches_nil_of_short a b k h)
  | MULTISTART_2D_LOGARITHMIC =>
    simp [LcskppSparseFastImpl, allMatches_nil_of_short a b k h, multistartOuter, unique]
  | MULTISTART_AGGRESSIVE => exact absurd rfl hm

/-! ## The match source -/

theorem mem_getNextMatches {a b : List Char} {k row : Nat} {j : Int} :
    j ∈ GetNextMatches a b k row ↔ ∃ c : Nat, (c : Int) = j ∧ isBlockMatch a b k row c = true := by
  unfold GetNextMatches
  simp only [List.mem_map, List.mem_filter, List.mem_range]
  constructor
  · rintro ⟨c, ⟨_, h⟩, rfl⟩
    exact ⟨c, rfl, h⟩
  · rintro ⟨c, rfl, h⟩
    refine ⟨c, ⟨?_, h⟩, rfl⟩
    unfold isBlockMatch at h
    simp only [decide_eq_true_eq] at h
    omega

theorem getNextMatches_sorted (a b : List Char) (k row : Nat) :
    (GetNextMatches a b k row).Pairwise (fun x y => x < y) := by
  unfold GetNextMatches
  rw [List.pairwise_map]
  refine List.Pairwise.imp ?_ (List.Pairwise.filter _ (List.pairwise_lt_range _))
  intro x y h
  exact_mod_cast h

theorem getNextMatches_nonneg (a b : List Char) (k row : Nat) :
    ∀ j ∈ GetNextMatches a b k row, 0 ≤ j := by
  intro j hj
  obtain ⟨c, rfl, _⟩ := mem_getNextMatches.mp hj
  exact Int.natCast_nonneg c

theorem rowsMatches_length (a b : List Char) (k : Nat) :
    (rowsMatches a b k).length = a.length + 1 := by
  simp [rowsMatches]

theorem rowsMatches_getD (a b : List Char) (k i : Nat) :
    (rowsMatches a b k).getD i [] = GetNextMatches a b k i := by
  unfold rowsMatches
  rw [List.getD_eq_getElem?_getD, List.getElem?_map]
  by_cases h : i < a.length + 1
  · rw [List.getElem?_range h]; rfl
  · rw [List.getElem?_eq_none (by simp; omega)]
    symm
    simp only [Option.map_none', Option.getD_none]
    unfold GetNextMatches
    rw [List.map_eq_nil_iff, List.filter_eq_nil_iff]
    intro c _
    unfold isBlockMatch
    simp only [decide_eq_true_eq, not_and]
    intro h1
    omega

theorem rowsSorted_rowsMatches (a b : List Char) (k : Nat) : RowsSorted (rowsMatches a b k) := by
  intro row hrow
  simp only [rowsMatches, List.mem_map] at hrow
  obtain ⟨r, _, rfl⟩ := hrow
  exact ⟨List.Pairwise.imp (fun h => le_of_lt h) (getNextMatches_sorted a b k r),
    getNextMatches_nonneg a b k r⟩

theorem mem_allMatches {a b : List Char} {k : Nat} {m : Int × Int} :
    m ∈ allMatches a b k ↔
      ∃ i c : Nat, m = ((i : Int), (c : Int)) ∧ isBlockMatch a b k i c = true := by
  unfold allMatches
  simp only [List.mem_flatMap, List.mem_range, List.mem_map]
  constructor
  · rintro ⟨i, _, j, hj, rfl⟩
    obtain ⟨c, rfl, hc⟩ := mem_getNextMatches.mp hj
    exact ⟨i, c, rfl, hc⟩
  · rintro ⟨i, c, rfl, hc⟩
    refine ⟨i, ?_, c, mem_getNextMatches.mpr ⟨c, rfl, hc⟩, rfl⟩
    unfold isBlockMatch at hc
    simp only [decide_eq_true_eq] at hc
    omega

/-- A block match is a match of every single position of the block. -/
theorem isBlockMatch_char {a b : List Char} {k r c : Nat} (h : isBlockMatch a b k r c = true)
    {t : Nat} (ht : t < k) :
    r + t < a.length ∧ c + t < b.length ∧ a[r + t]? = b[c + t]? := by
  unfold isBlockMatch at h
  simp only [decide_eq_true_eq] at h
  obtain ⟨h1, h2, h3⟩ := h
  refine ⟨by omega, by omega, ?_⟩
  have := congrArg (fun l => l[t]?) h3
  simp only [List.getElem?_take_of_lt ht, List.getElem?_drop] at this
  exact this

/-! ## Orders on pairs -/

theorem pairLt_of_pairLe_of_ne {p q : Int × Int} (h : pairLe p q) (hne : p ≠ q) : pairLt p q := by
  unfold pairLe at h
  unfold pairLt
  rcases h with h | ⟨h1, h2⟩
  · exact Or.inl h
  · right
    refine ⟨h1, lt_of_le_of_ne h2 ?_⟩
    intro h3
    exact hne (Prod.ext h1 h3)

theorem pairLt_trans {p q r : Int × Int} (h1 : pairLt p q) (h2 : pairLt q r) : pairLt p r := by
  unfold pairLt at *
  omega

theorem pairLe_of_pairInc {p q : Int × Int} (h : pairInc p q) : pairLe p q :=
  Or.inl h.1

/-! ## unique -/

theorem unique_cons_cons (x y : Int × Int) (rest : List (Int × Int)) :
    unique (x :: y :: rest) = if x = y then unique (y :: rest) else x :: unique (y :: rest) := by
  rw [unique]

theorem mem_unique {p : Int × Int} : ∀ {l : List (Int × Int)}, p ∈ unique l ↔ p ∈ l := by
  intro l
  induction l with
  | nil => simp [unique]
  | cons x rest ih =>
    cases rest with
    | nil => simp [unique]
    | cons y rest =>
      rw [unique_cons_cons]
      by_cases h : x = y
      · rw [if_pos h, ih]
        subst h
        simp
      · rw [if_neg h, List.mem_cons, ih, List.mem_cons (a := p) (b := x)]

theorem unique_head {x : Int × Int} {rest : List (Int × Int)} :
    ∀ p ∈ unique (x :: rest), p = x ∨ p ∈ rest := by
  intro p hp
  have := mem_unique.mp hp
  simpa using this

/-- After `std::unique` a sorted sequence is strictly increasing. -/
theorem unique_sorted : ∀ {l : List (Int × Int)}, l.Pairwise pairLe → (unique l).Pairwise pairLt := by
  intro l
  induction l with
  | nil => intro _; simp [unique]
  | cons x rest ih =>
    intro h
    cases rest with
    | nil => simp [unique]
    | cons y rest =>
      rw [unique_cons_cons]
      have hrest := List.Pairwise.of_cons h
      by_cases hxy : x = y
      · rw [if_pos hxy]; exact ih hrest
      · rw [if_neg hxy, List.pairwise_cons]
        refine ⟨?_, ih hrest⟩
        intro p hp
        have hxy' : pairLt x y :=
          pairLt_of_pairLe_of_ne (List.rel_of_pairwise_cons h (List.mem_cons_self _ _)) hxy
        rcases unique_head p hp with hp | hp
        · rw [hp]; exact hxy'
        · have h1 : pairLe y p := List.rel_of_pairwise_cons hrest hp
          unfold pairLt pairLe at *
          omega

/-! ## The merge -/

theorem mem_mergeAux {p : Int × Int} :
    ∀ (n : Nat) (xs ys : List (Int × Int)), p ∈ mergeAux n xs ys ↔ p ∈ xs ∨ p ∈ ys := by
  intro n
  induction n with
  | zero => intro xs ys; simp [mergeAux]
  | succ n ih =>
    intro xs ys
    cases xs with
    | nil => simp [mergeAux]
    | cons x xs =>
      cases ys with
      | nil => simp [mergeAux]
      | cons y ys =>
        simp only [mergeAux]
        split
        · rw [List.mem_cons, ih]
          simp only [List.mem_cons]
          tauto
        · rw [List.mem_cons, ih]
          simp only [List.mem_cons]
          tauto

theorem mem_inplace_merge {p : Int × Int} {xs ys : List (Int × Int)} :
    p ∈ inplace_merge xs ys ↔ p ∈ xs ∨ p ∈ ys :=
  mem_mergeAux _ xs ys

/-! ## The engine on a sorted match list -/

theorem engine_spec (use_amortized : Nat → Nat → Bool) {k : Nat} (plus : Bool)
    {ms : List (List Int)} (hk : 1 ≤ k) (hms : RowsSorted ms) :
    ∃ out, LcskppSparseFastRealImpl use_amortized k plus ms = some out ∧
      LcskppSparseFastRealImpl (fun _ _ => true) k plus ms = some out ∧
      out.Pairwise pairInc ∧ ∀ p ∈ out, OnBlock k ms p := by
  obtain ⟨_, best, _, _, _, hb, h1, h2⟩ := engine_good use_amortized plus hk hms
  refine ⟨_, h1, h2, ?_, ?_⟩
  · rw [List.pairwise_reverse]
    rcases hb with hb | hb
    · subst hb; simp [pushed]
    · exact pushed_pairwise hk best hb
  · intro p hp
    rw [List.mem_reverse] at hp
    rcases hb with hb | hb
    · subst hb; simp [pushed] at hp
    · exact (pushed_mem hk best hb p hp).2.2

/-! ## normalise -/

theorem normalise_fold_spec :
    ∀ (cm : List (Int × Int)) (rows0 : List (List Int)),
      (∀ m ∈ cm, 0 ≤ m.1 ∧ m.1.toNat < rows0.length) →
      ∃ rows,
        cm.foldl
          (fun (acc : Option (List (List Int))) (m : Int × Int) =>
            match acc with
            | none => none
            | some rows =>
              if 0 ≤ m.1 ∧ m.1.toNat < rows.length then
                some (rows.modify (fun r => r ++ [m.2]) m.1.toNat)
              else none)
          (some rows0) = some rows ∧
        rows.length = rows0.length ∧
        ∀ r : Nat, rows.getD r [] =
          rows0.getD r [] ++ (cm.filter (fun m => decide (m.1 = (r : Int)))).map Prod.snd := by
  intro cm
  induction cm with
  | nil => intro rows0 _; exact ⟨rows0, rfl, rfl, by simp⟩
  | cons m rest ih =>
    intro rows0 h
    have hm := h m (by simp)
    simp only [List.foldl_cons, if_pos hm]
    obtain ⟨rows, h1, h2, h3⟩ := ih (rows0.modify (fun r => r ++ [m.2]) m.1.toNat)
      (fun x hx => by simpa using h x (by simp [hx]))
    refine ⟨rows, h1, by simpa using h2, ?_⟩
    intro r
    rw [h3 r]
    simp only [List.getD_eq_getElem?_getD, List.getElem?_modify, List.filter_cons]
    by_cases hr : m.1 = (r : Int)
    · have hr2 : m.1.toNat = r := by omega
      have hlt : r < rows0.length := by omega
      simp [hr, hr2, List.getElem?_eq_getElem hlt]
    · have hr2 : m.1.toNat ≠ r := by omega
      simp [hr, hr2]

/-- The rows that `normalise` builds: row `r` holds the columns of the matches of row `r`
in the order in which they stand in the list. -/
theorem normalise_spec {nrows : Nat} {cm : List (Int × Int)}
    (h : ∀ m ∈ cm, 0 ≤ m.1 ∧ m.1.toNat < nrows) :
    ∃ rows, normalise nrows cm = some rows ∧ rows.length = nrows ∧
      ∀ r : Nat, rows.getD r [] = (cm.filter (fun m => decide (m.1 = (r : Int)))).map Prod.snd := by
  obtain ⟨rows, h1, h2, h3⟩ := normalise_fold_spec cm (List.replicate nrows [])
    (by simpa using h)
  refine ⟨rows, h1, by simpa using h2, ?_⟩
  intro r
  rw [h3 r]
  have : (List.replicate nrows ([] : List Int)).getD r [] = [] := by
    rw [List.getD_eq_getElem?_getD, List.getElem?_replicate]
    split <;> rfl
  rw [this, List.nil_append]

theorem normalise_rowsSorted {cm : List (Int × Int)} {rows : List (List Int)}
    (hrows : ∀ r : Nat, rows.getD r [] =
      (cm.filter (fun m => decide (m.1 = (r : Int)))).map Prod.snd)
    (hs : cm.Pairwise colRowLe) (hn : ∀ m ∈ cm, 0 ≤ m.2) : RowsSorted rows := by
  intro row hrow
  obtain ⟨r, hr⟩ := List.mem_iff_getElem?.mp hrow
  have hrow2 : row = rows.getD r [] := by simp [hr]
  rw [hrow2, hrows r]
  constructor
  · rw [List.pairwise_map]
    refine List.Pairwise.imp ?_ (List.Pairwise.filter _ hs)
    intro x y hxy
    unfold colRowLe at hxy
    omega
  · intro j hj
    simp only [List.mem_map, List.mem_filter] at hj
    obtain ⟨m, ⟨hm, _⟩, rfl⟩ := hj
    exact hn m hm

theorem normalise_mem {cm : List (Int × Int)} {rows : List (List Int)}
    (hrows : ∀ r : Nat, rows.getD r [] =
      (cm.filter (fun m => decide (m.1 = (r : Int)))).map Prod.snd)
    {i : Nat} {j : Int} : j ∈ rows.getD i [] ↔ ((i : Int), j) ∈ cm := by
  rw [hrows i]
  simp only [List.mem_map, List.mem_filter, decide_eq_true_eq]
  constructor
  · rintro ⟨m, ⟨hm, h1⟩, rfl⟩
    rw [← h1]; exact hm
  · intro h
    exact ⟨(i, j), ⟨h, rfl⟩, rfl⟩

/-- One engine pass of the multistart mode on a sorted list of well-placed matches. -/
theorem passRecon_spec (use_amortized : Nat → Nat → Bool) {k : Nat} (plus : Bool) (hk : 1 ≤ k)
    {nrows : Nat} {cm : List (Int × Int)} (hv : ValidMatches nrows cm)
    (hs : cm.Pairwise colRowLe) :
    ∃ rows out, normalise nrows cm = some rows ∧
      LcskppSparseFastRealImpl use_amortized k plus rows = some out ∧
      LcskppSparseFastRealImpl (fun _ _ => true) k plus rows = some out ∧
      passRecon use_amortized k plus nrows cm = some out ∧
      out.Pairwise pairInc ∧
      ∀ p ∈ out, ∃ (i : Nat) (j : Int) (t : Nat), ((i : Int), j) ∈ cm ∧ t < k ∧
        p = ((i : Int) + t, j + t) := by
  obtain ⟨rows, h1, h2, h3⟩ := @normalise_spec nrows cm
    (fun m hm => ⟨(hv m hm).1, (hv m hm).2.1⟩)
  have hrs := normalise_rowsSorted h3 hs (fun m hm => (hv m hm).2.2)
  obtain ⟨out, h4, h5, h6, h7⟩ := engine_spec use_amortized plus hk hrs
  refine ⟨rows, out, h1, h4, h5, ?_, h6, ?_⟩
  · unfold passRecon
    rw [h1]
    exact h4
  · intro p hp
    obtain ⟨i, j, t, hj, _, ht, hpe⟩ := h7 p hp
    exact ⟨i, j, t, (normalise_mem h3).mp hj, ht, hpe⟩

/-! ## The loops of the multistart mode -/

theorem halvings_suffix :
    ∀ (n : Nat) (l sub : List (Int × Int)), sub ∈ halvings n l → ∃ d, sub = l.drop d := by
  intro n
  induction n with
  | zero => intro l sub h; simp [halvings] at h
  | succ n ih =>
    intro l sub h
    cases l with
    | nil => simp [halvings] at h
    | cons x rest =>
      simp only [halvings, List.mem_cons] at h
      rcases h with h | h
      · exact ⟨0, by simp [h]⟩
      · obtain ⟨d, hd⟩ := ih _ _ h
        exact ⟨((x :: rest).length + 1) / 2 + d, by rw [hd, List.drop_drop]⟩

theorem validMatches_drop {nrows : Nat} {cm : List (Int × Int)} (h : ValidMatches nrows cm)
    (d : Nat) : ValidMatches nrows (cm.drop d) :=
  fun m hm => h m (List.mem_of_mem_drop hm)

/-- The inner loop of the multistart mode appends the reconstructions of the engine
passes on the successively halved lists. -/
theorem multistartInner_spec (use_amortized : Nat → Nat → Bool) {k : Nat} (plus : Bool)
    (hk : 1 ≤ k) (nrows : Nat) :
    ∀ (n : Nat) (cm recon : List (Int × Int)), ValidMatches nrows cm → cm.Pairwise colRowLe →
      ∃ out, multistartInner use_amortized k plus nrows n cm recon = some (recon ++ out) ∧
        multistartInner (fun _ _ => true) k plus nrows n cm recon = some (recon ++ out) ∧
        (∀ p, p ∈ out ↔ ∃ sub ∈ halvings n cm, ∃ rec,
          passRecon use_amortized k plus nrows sub = some rec ∧ p ∈ rec) ∧
        (∀ p ∈ out, ∃ (i : Nat) (j : Int) (t : Nat), ((i : Int), j) ∈ cm ∧ t < k ∧
          p = ((i : Int) + t, j + t)) := by
  intro n
  induction n with
  | zero =>
    intro cm recon _ _
    exact ⟨[], by simp [multistartInner], by simp [multistartInner], by simp [halvings],
      by simp⟩
  | succ n ih =>
    intro cm recon hv hs
    cases cm with
    | nil =>
      exact ⟨[], by simp [multistartInner], by simp [multistartInner], by simp [halvings],
        by simp⟩
    | cons x rest =>
      obtain ⟨rows, rec, h1, h2, h3, h4, _, h6⟩ := passRecon_spec use_amortized plus hk hv hs
      obtain ⟨out, g1, g2, g3, g4⟩ := ih ((x :: rest).drop (((x :: rest).length + 1) / 2))
        (recon ++ rec) (validMatches_drop hv _) (List.Pairwise.drop hs)
      refine ⟨rec ++ out, ?_, ?_, ?_, ?_⟩
      · simp only [multistartInner, if_neg (List.cons_ne_nil x rest), h1, h2]
        rw [g1, List.append_assoc]
      · simp only [multistartInner, if_neg (List.cons_ne_nil x rest), h1, h3]
        rw [g2, List.append_assoc]
      · intro p
        simp only [List.mem_append, halvings, List.mem_cons]
        constructor
        · rintro (hp | hp)
          · exact ⟨x :: rest, Or.inl rfl, rec, h4, hp⟩
          · obtain ⟨sub, hsub, r, hr, hpr⟩ := (g3 p).mp hp
            exact ⟨sub, Or.inr hsub, r, hr, hpr⟩
        · rintro ⟨sub, hsub | hsub, r, hr, hpr⟩
          · subst hsub
            rw [h4] at hr
            cases hr
            exact Or.inl hpr
          · exact Or.inr ((g3 p).mpr ⟨sub, hsub, r, hr, hpr⟩)
      · intro p hp
        rcases List.mem_append.mp hp with hp | hp
        · exact h6 p hp
        · obtain ⟨i, j, t, hm, ht, he⟩ := g4 p hp
          exact ⟨i, j, t, List.mem_of_mem_drop hm, ht, he⟩

/-- The outer loop of the multistart mode appends the results of the inner loop on the
successively halved match lists, each sorted by column and row. -/
theorem multistartOuter_spec (use_amortized : Nat → Nat → Bool) {k : Nat} (plus : Bool)
    (hk : 1 ≤ k) (nrows : Nat) :
    ∀ (n : Nat) (all recon : List (Int × Int)), ValidMatches nrows all →
      ∃ out, multistartOuter use_amortized k plus nrows n all recon = some (recon ++ out) ∧
        multistartOuter (fun _ _ => true) k plus nrows n all recon = some (recon ++ out) ∧
        (∀ p, p ∈ out ↔ ∃ m ∈ halvings n all,
          ∃ sub ∈ halvings (m.insertionSort colRowLe).length (m.insertionSort colRowLe),
          ∃ rec, passRecon use_amortized k plus nrows sub = some rec ∧ p ∈ rec) ∧
        (∀ p ∈ out, ∃ (i : Nat) (j : Int) (t : Nat), ((i : Int), j) ∈ all ∧ t < k ∧
          p = ((i : Int) + t, j + t)) := by
  intro n
  induction n with
  | zero =>
    intro all recon _
    exact ⟨[], by simp [multistartOuter], by simp [multistartOuter], by simp [halvings],
      by simp⟩
  | succ n ih =>
    intro all recon hv
    cases all with
    | nil =>
      exact ⟨[], by simp [multistartOuter], by simp [multistartOuter], by simp [halvings],
        by simp⟩
    | cons x rest =>
      have hvs : ValidMatches nrows ((x :: rest).insertionSort colRowLe) :=
        fun m hm => hv m ((List.mem_insertionSort colRowLe).mp hm)
      have hss : ((x :: rest).insertionSort colRowLe).Pairwise colRowLe :=
        List.sorted_insertionSort colRowLe (x :: rest)
      obtain ⟨out1, f1, f2, f3, f4⟩ := multistartInner_spec use_amortized plus hk nrows
        ((x :: rest).insertionSort colRowLe).length ((x :: rest).insertionSort colRowLe) recon
        hvs hss
      obtain ⟨out, g1, g2, g3, g4⟩ := ih ((x :: rest).drop (((x :: rest).length + 1) / 2))
        (recon ++ out1) (validMatches_drop hv _)
      refine ⟨out1 ++ out, ?_, ?_, ?_, ?_⟩
      · simp only [multistartOuter, if_neg (List.cons_ne_nil x rest), f1]
        rw [g1, List.append_assoc]
      · simp only [multistartOuter, if_neg (List.cons_ne_nil x rest), f2]
        rw [g2, List.append_assoc]
      · intro p
        simp only [List.mem_append, halvings, List.mem_cons]
        constructor
        · rintro (hp | hp)
          · obtain ⟨sub, hsub, r, hr, hpr⟩ := (f3 p).mp hp
            exact ⟨x :: rest, Or.inl rfl, sub, hsub, r, hr, hpr⟩
          · obtain ⟨m, hm, sub, hsub, r, hr, hpr⟩ := (g3 p).mp hp
            exact ⟨m, Or.inr hm, sub, hsub, r, hr, hpr⟩
        · rintro ⟨m, hm | hm, sub, hsub, r, hr, hpr⟩
          · subst hm
            exact Or.inl ((f3 p).mpr ⟨sub, hsub, r, hr, hpr⟩)
          · exact Or.inr ((g3 p).mpr ⟨m, hm, sub, hsub, r, hr, hpr⟩)
      · intro p hp
        rcases List.mem_append.mp hp with hp | hp
        · obtain ⟨i, j, t, hm, ht, he⟩ := f4 p hp
          exact ⟨i, j, t, (List.mem_insertionSort colRowLe).mp hm, ht, he⟩
        · obtain ⟨i, j, t, hm, ht, he⟩ := g4 p hp
          exact ⟨i, j, t, List.mem_of_mem_drop hm, ht, he⟩

/-! ## LcskppSparseFastImpl -/

theorem validMatches_allMatches (a b : List Char) (k : Nat) :
    ValidMatches (a.length + 1) (allMatches a b k) := by
  intro m hm
  obtain ⟨i, c, rfl, h⟩ := mem_allMatches.mp hm
  unfold isBlockMatch at h
  simp only [decide_eq_true_eq] at h
  refine ⟨Int.natCast_nonneg i, ?_, Int.natCast_nonneg c⟩
  simp only [Int.toNat_ofNat]
  omega

theorem onStringBlock_of_mem {a b : List Char} {k : Nat} {p : Int × Int}
    (h : ∃ (i : Nat) (j : Int) (t : Nat), ((i : Int), j) ∈ allMatches a b k ∧ t < k ∧
      p = ((i : Int) + t, j + t)) : OnStringBlock a b k p := by
  obtain ⟨i, j, t, hm, ht, he⟩ := h
  obtain ⟨i2, c, hic, hb⟩ := mem_allMatches.mp hm
  simp only [Prod.mk.injEq] at hic
  obtain ⟨h1, h2⟩ := hic
  subst h2
  exact ⟨i, c, t, hm, ht, he⟩

/-- The single-start mode: the result is strictly increasing in row and column and lies
on the blocks of matches. -/
theorem impl_single_spec (use_amortized : Nat → Nat → Bool) (a b : List Char) {k : Nat}
    (plus : Bool) (hk : 1 ≤ k) :
    ∃ recon, LcskppSparseFastImpl use_amortized a b k plus Mode.SINGLESTART = some recon ∧
      LcskppSparseFastImpl (fun _ _ => true) a b k plus Mode.SINGLESTART = some recon ∧
      recon.Pairwise pairInc ∧ ∀ p ∈ recon, OnStringBlock a b k p := by
  obtain ⟨out, h1, h2, h3, h4⟩ := engine_spec use_amortized plus hk (rowsSorted_rowsMatches a b k)
  refine ⟨out, h1, h2, h3, ?_⟩
  intro p hp
  obtain ⟨i, j, t, hj, _, ht, he⟩ := h4 p hp
  rw [rowsMatches_getD] at hj
  obtain ⟨c, rfl, hc⟩ := mem_getNextMatches.mp hj
  exact ⟨i, c, t, mem_allMatches.mpr ⟨i, c, rfl, hc⟩, ht, he⟩

/-- The multistart-logarithmic mode: the result is strictly increasing in the order of
pairs, it consists of the pairs of the reconstructions of the passes, and it lies on the
blocks of matches. -/
theorem impl_multistart_spec (use_amortized : Nat → Nat → Bool) (a b : List Char) {k : Nat}
    (plus : Bool) (hk : 1 ≤ k) :
    ∃ recon,
      LcskppSparseFastImpl use_amortized a b k plus Mode.MULTISTART_2D_LOGARITHMIC = some recon ∧
      LcskppSparseFastImpl (fun _ _ => true) a b k plus Mode.MULTISTART_2D_LOGARITHMIC =
        some recon ∧
      recon.Pairwise pairLt ∧
      (∀ p, p ∈ recon ↔ ∃ sub ∈ multistartSubsets (allMatches a b k), ∃ rec,
        passRecon use_amortized k plus (a.length + 1) sub = some rec ∧ p ∈ rec) ∧
      ∀ p ∈ recon, OnStringBlock a b k p := by
  obtain ⟨out, h1, h2, h3, h4⟩ := multistartOuter_spec use_amortized plus hk (a.length + 1)
    (allMatches a b k).length (allMatches a b k) [] (validMatches_allMatches a b k)
  simp only [List.nil_append] at h1 h2
  refine ⟨unique (out.insertionSort pairLe), ?_, ?_, ?_, ?_, ?_⟩
  · simp only [LcskppSparseFastImpl, h1]
  · simp only [LcskppSparseFastImpl, h2]
  · exact unique_sorted (List.sorted_insertionSort pairLe out)
  · intro p
    rw [mem_unique, List.mem_insertionSort, h3 p]
    unfold multistartSubsets
    simp only [List.mem_flatMap]
    constructor
    · rintro ⟨m, hm, sub, hsub, r, hr, hpr⟩
      exact ⟨sub, ⟨m, hm, hsub⟩, r, hr, hpr⟩
    · rintro ⟨sub, ⟨m, hm, hsub⟩, r, hr, hpr⟩
      exact ⟨m, hm, sub, hsub, r, hr, hpr⟩
  · intro p hp
    rw [mem_unique, List.mem_insertionSort] at hp
    exact onStringBlock_of_mem (h4 p hp)

/-! ## LcskppSparseFast -/

/-- In the two implemented modes `LcskppSparseFastImpl` returns a sequence sorted in the
order of pairs whose pairs lie on blocks of matches, whatever the query strategy. -/
theorem impl_spec (use_amortized : Nat → Nat → Bool) (a b : List Char) {k : Nat}
    (plus : Bool) (hk : 1 ≤ k) {mode : Mode} (hmode : mode ≠ Mode.MULTISTART_AGGRESSIVE) :
    ∃ recon, LcskppSparseFastImpl use_amortized a b k plus mode = some recon ∧
      LcskppSparseFastImpl (fun _ _ => true) a b k plus mode = some recon ∧
      recon.Pairwise pairLe ∧ ∀ p ∈ recon, OnStringBlock a b k p := by
  cases mode with
  | SINGLESTART =>
    obtain ⟨recon, h1, h2, h3, h4⟩ := impl_single_spec use_amortized a b plus hk
    exact ⟨recon, h1, h2, List.Pairwise.imp (fun h => pairLe_of_pairInc h) h3, h4⟩
  | MULTISTART_2D_LOGARITHMIC =>
    obtain ⟨recon, h1, h2, h3, _, h4⟩ := impl_multistart_spec use_amortized a b plus hk
    refine ⟨recon, h1, h2, List.Pairwise.imp ?_ h3, h4⟩
    intro p q h
    unfold pairLt at h
    unfold pairLe
    omega
  | MULTISTART_AGGRESSIVE => exact absurd rfl hmode

/-- The result of `LcskppSparseFast` does not depend on the choice of query strategy. -/
theorem fast_strategy_irrelevant (use_amortized : Nat → Nat → Bool) (a b : List Char)
    (params : LcskppParams) (hk : 1 ≤ params.k) :
    LcskppSparseFast use_amortized a b params = LcskppSparseFast (fun _ _ => true) a b params := by
  unfold LcskppSparseFast
  by_cases hmode : params.mode = Mode.MULTISTART_AGGRESSIVE
  · simp [LcskppSparseFastImpl, hmode]
  · obtain ⟨r1, h1, h2, _, _⟩ := impl_spec use_amortized a b params.lcsk_plus hk hmode
    obtain ⟨r2, h3, h4, _, _⟩ := impl_spec use_amortized a b.reverse params.lcsk_plus hk hmode
    rw [h1, h2, h3, h4]

theorem onStringBlock_char {a b : List Char} {k : Nat} {p : Int × Int}
    (h : OnStringBlock a b k p) :
    0 ≤ p.1 ∧ p.1 < a.length ∧ 0 ≤ p.2 ∧ p.2 < b.length ∧ a[p.1.toNat]? = b[p.2.toNat]? := by
  obtain ⟨i, j, t, hm, ht, rfl⟩ := h
  obtain ⟨i2, c, hic, hb⟩ := mem_allMatches.mp hm
  simp only [Prod.mk.injEq, Nat.cast_inj] at hic
  obtain ⟨h1, h2⟩ := hic
  subst h1 h2
  obtain ⟨g1, g2, g3⟩ := isBlockMatch_char hb ht
  have e1 : ((i : Int) + t).toNat = i + t := by omega
  have e2 : ((j : Int) + t).toNat = j + t := by omega
  simp only [e1, e2]
  exact ⟨by omega, by omega, by omega, by omega, g3⟩

/-- A pair of the reverse pass, after the remapping of its column, is a position at which
the two strings agree. -/
theorem onStringBlock_reverse_char {a b : List Char} {k : Nat} {p : Int × Int}
    (h : OnStringBlock a b.reverse k p) :
    0 ≤ p.1 ∧ p.1 < a.length ∧ 0 ≤ (b.length : Int) - 1 - p.2 ∧
      (b.length : Int) - 1 - p.2 < b.length ∧
      a[p.1.toNat]? = b[((b.length : Int) - 1 - p.2).toNat]? := by
  obtain ⟨h1, h2, h3, h4, h5⟩ := onStringBlock_char h
  rw [List.length_reverse] at h4
  refine ⟨h1, h2, by omega, by omega, ?_⟩
  rw [h5, List.getElem?_reverse (by omega)]
  congr 1
  omega

theorem mem_remapColumns {b_len : Nat} {recon : List (Int × Int)} {p : Int × Int} :
    p ∈ remapColumns b_len recon ↔ ∃ q ∈ recon, p = (q.1, (b_len : Int) - 1 - q.2) := by
  unfold remapColumns
  simp only [List.mem_map]
  constructor
  · rintro ⟨q, hq, rfl⟩; exact ⟨q, hq, rfl⟩
  · rintro ⟨q, hq, rfl⟩; exact ⟨q, hq, rfl⟩

/-! ## The merge of two sorted sequences -/

theorem mergeAux_perm :
    ∀ (n : Nat) (xs ys : List (Int × Int)), (mergeAux n xs ys).Perm (xs ++ ys) := by
  intro n
  induction n with
  | zero => intro xs ys; simp [mergeAux]
  | succ n ih =>
    intro xs ys
    cases xs with
    | nil => simp [mergeAux]
    | cons x xs =>
      cases ys with
      | nil => simp [mergeAux]
      | cons y ys =>
        simp only [mergeAux]
        split
        · refine (List.Perm.cons y (ih (x :: xs) ys)).trans ?_
          exact (@List.perm_middle _ y (x :: xs) ys).symm
        · exact List.Perm.cons x (ih xs (y :: ys))

theorem mergeAux_sorted :
    ∀ (n : Nat) (xs ys : List (Int × Int)), xs.length + ys.length ≤ n →
      xs.Pairwise pairLe → ys.Pairwise pairLe → (mergeAux n xs ys).Pairwise pairLe := by
  intro n
  induction n with
  | zero =>
    intro xs ys hn _ _
    have h1 : xs = [] := List.length_eq_zero.mp (by omega)
    have h2 : ys = [] := List.length_eq_zero.mp (by omega)
    subst h1 h2
    simp [mergeAux]
  | succ n ih =>
    intro xs ys hn hx hy
    cases xs with
    | nil => simpa [mergeAux] using hy
    | cons x xs =>
      cases ys with
      | nil => simpa [mergeAux] using hx
      | cons y ys =>
        simp only [mergeAux]
        simp only [List.length_cons] at hn
        split
        · rename_i hlt
          rw [List.pairwise_cons]
          refine ⟨?_, ih (x :: xs) ys (by simp only [List.length_cons]; omega) hx
            (List.Pairwise.of_cons hy)⟩
          intro p hp
          rcases (mem_mergeAux n (x :: xs) ys).mp hp with hp | hp
          · rcases List.mem_cons.mp hp with hp | hp
            · subst hp
              unfold pairLt at hlt; unfold pairLe; omega
            · have := List.rel_of_pairwise_cons hx hp
              unfold pairLt at hlt; unfold pairLe at this ⊢; omega
          · exact List.rel_of_pairwise_cons hy hp
        · rename_i hlt
          rw [List.pairwise_cons]
          refine ⟨?_, ih xs (y :: ys) (by simp only [List.length_cons]; omega)
            (List.Pairwise.of_cons hx) hy⟩
          intro p hp
          rcases (mem_mergeAux n xs (y :: ys)).mp hp with hp | hp
          · exact List.rel_of_pairwise_cons hx hp
          · have hxy : pairLe x y := by
              unfold pairLt at hlt; unfold pairLe; omega
            rcases List.mem_cons.mp hp with hp | hp
            · subst hp; exact hxy
            · have := List.rel_of_pairwise_cons hy hp
              unfold pairLe at this hxy ⊢; omega

/-- On two sorted sequences `inplace_merge` gives the sorted sequence of all their
elements. -/
theorem inplace_merge_sorted {xs ys : List (Int × Int)} (hx : xs.Pairwise pairLe)
    (hy : ys.Pairwise pairLe) :
    (inplace_merge xs ys).Pairwise pairLe ∧ (inplace_merge xs ys).Perm (xs ++ ys) ∧
      inplace_merge xs ys = (xs ++ ys).insertionSort pairLe := by
  have h1 := mergeAux_sorted (xs.length + ys.length) xs ys (le_refl _) hx hy
  have h2 := mergeAux_perm (xs.length + ys.length) xs ys
  refine ⟨h1, h2, ?_⟩
  exact List.eq_of_perm_of_sorted (h2.trans (List.perm_insertionSort pairLe (xs ++ ys)).symm) h1
    (List.sorted_insertionSort pairLe (xs ++ ys))

theorem remapColumns_sorted_of_inc {b_len : Nat} {recon : List (Int × Int)}
    (h : recon.Pairwise pairInc) : (remapColumns b_len recon).Pairwise pairLe := by
  unfold remapColumns
  rw [List.pairwise_map]
  refine List.Pairwise.imp ?_ h
  intro p q hpq
  exact Or.inl hpq.1

/-- In the single-start mode with the reverse pass the result is the sorted merge of the
forward result and the remapped result of the reverse pass. -/
theorem single_reverse_merge (use_amortized : Nat → Nat → Bool) (a b : List Char)
    (params : LcskppParams) (hk : 1 ≤ params.k) (hmode : params.mode = Mode.SINGLESTART)
    (hrev : params.reverse = true) :
    ∃ F R, LcskppSparseFastImpl use_amortized a b params.k params.lcsk_plus params.mode = some F ∧
      LcskppSparseFastImpl use_amortized a b.reverse params.k params.lcsk_plus params.mode =
        some R ∧
      LcskppSparseFast use_amortized a b params =
        some ((F ++ remapColumns b.length R).insertionSort pairLe) ∧
      ((F ++ remapColumns b.length R).insertionSort pairLe).Perm (F ++ remapColumns b.length R) ∧
      ((F ++ remapColumns b.length R).insertionSort pairLe).Pairwise pairLe := by
  obtain ⟨F, h1, _, h3, _⟩ := impl_single_spec use_amortized a b params.lcsk_plus hk
  obtain ⟨R, g1, _, g3, _⟩ := impl_single_spec use_amortized a b.reverse params.lcsk_plus hk
  rw [← hmode] at h1 g1
  refine ⟨F, R, h1, g1, ?_, List.perm_insertionSort pairLe _, List.sorted_insertionSort pairLe _⟩
  unfold LcskppSparseFast
  rw [h1, g1]
  simp only [hrev, if_true]
  rw [(inplace_merge_sorted (List.Pairwise.imp (fun h => pairLe_of_pairInc h) h3)
    (@remapColumns_sorted_of_inc b.length _ g3)).2.2]

/-! ## The continuation pointer -/

theorem advanceContinuation_eq (c : Int) :
    ∀ (l : List MatchPair) (idx : Nat),
      advanceContinuation c l idx = advanceThreshold (c - 1) l idx := by
  intro l
  induction l with
  | nil => intro idx; rfl
  | cons x rest ih =>
    intro idx
    simp only [advanceContinuation, advanceThreshold]
    by_cases h : x.end_col + 1 < c
    · rw [if_pos h, if_pos (by omega), ih]
    · rw [if_neg h, if_neg (by omega)]

/-- The pointer into the previous row, advanced from any position not beyond the first
node that ends at or after column `c - 1`, stops at that node. -/
theorem advanceContinuation_drop (c : Int) (L : List MatchPair) (idx : Nat)
    (h : idx ≤ firstGE (c - 1) L) :
    advanceContinuation c (L.drop idx) idx = firstGE (c - 1) L := by
  rw [advanceContinuation_eq]
  exact advanceThreshold_drop (c - 1) L idx h

theorem colAt_map_end_col (L : List MatchPair) (s : Nat) (h : s < L.length) :
    (L.map MatchPair.end_col)[s]? = some (colAt L s) := by
  rw [List.getElem?_map, getElem?_eq_getD h]
  rfl

theorem monoCols_of_pairwise {L : List MatchPair}
    (h : (L.map MatchPair.end_col).Pairwise (fun x y => x ≤ y)) : MonoCols L := by
  intro s t hst ht
  rcases Nat.eq_or_lt_of_le hst with heq | hlt
  · rw [heq]
  · have h1 := colAt_map_end_col L s (by omega)
    have h2 := colAt_map_end_col L t ht
    rw [List.pairwise_iff_getElem] at h
    have hs' : s < (L.map MatchPair.end_col).length := by simp; omega
    have ht' : t < (L.map MatchPair.end_col).length := by simp; omega
    have := h s t hs' ht' hlt
    rw [List.getElem?_eq_getElem hs'] at h1
    rw [List.getElem?_eq_getElem ht'] at h2
    rw [← Option.some.inj h1, ← Option.some.inj h2]
    exact this

/-- When some node of the sorted previous row ends at column `c - 1`, the pointer stops
at such a node. -/
theorem continuation_found {L : List MatchPair} (hm : MonoCols L) {c : Int}
    (h : (c - 1) ∈ L.map MatchPair.end_col) :
    ∃ p0, L[firstGE (c - 1) L]? = some p0 ∧ p0.end_col = c - 1 := by
  obtain ⟨t, ht⟩ := List.mem_iff_getElem?.mp h
  have htl : t < L.length := by
    by_contra hcon
    rw [List.getElem?_eq_none (by simp; omega)] at ht
    cases ht
  have hcol : colAt L t = c - 1 := by
    have := colAt_map_end_col L t htl
    rw [ht] at this
    exact (Option.some.inj this).symm
  have hle : firstGE (c - 1) L ≤ t := firstGE_le_of_le_colAt (by omega)
  have hlt : firstGE (c - 1) L < L.length := by omega
  refine ⟨L.getD (firstGE (c - 1) L) .null, getElem?_eq_getD hlt, ?_⟩
  have h1 := le_colAt_firstGE (c - 1) L hlt
  have h2 := hm _ _ hle htl
  unfold colAt at h1 h2 hcol
  omega

theorem continueFrom_absent {L : List MatchPair} {mp : MatchPair}
    (h : (mp.end_col - 1) ∉ L.map MatchPair.end_col) (idx : Nat) :
    continueFrom L idx mp = mp := by
  rcases continueFrom_cases L idx mp with h1 | ⟨p, hp, hpc, _, _⟩
  · exact h1
  · exfalso
    apply h
    rw [List.mem_map]
    exact ⟨p, hp, by omega⟩

theorem continueFrom_found {L : List MatchPair} {mp p0 : MatchPair} {idx : Nat}
    (h : L[idx]? = some p0) (hc : p0.end_col + 1 = mp.end_col) :
    (continueFrom L idx mp).dp = max mp.dp (p0.dp + 1) := by
  unfold continueFrom
  rw [h]
  simp only
  by_cases hd : p0.dp + 1 > mp.dp
  · rw [if_pos ⟨hc, hd⟩]
    show p0.dp + 1 = max mp.dp (p0.dp + 1)
    omega
  · rw [if_neg (fun hh => hd hh.2)]
    omega

/-- What the continuation test leaves is a node that can be folded into the table. -/
theorem continueFrom_pre {k : Nat} {ms : List (List Int)} {T prev_row : List MatchPair}
    (hk : 1 ≤ k) {i j : Int} {mp : MatchPair} (hT : TableInv k true ms (i + 1) T)
    (hpe : Pending k true ms T (i, j, mp)) (hprev : PrevInv k ms i T prev_row) (idx : Nat) :
    Good k ms (continueFrom prev_row idx mp) ∧ (continueFrom prev_row idx mp).end_row = i ∧
      (continueFrom prev_row idx mp).end_col = j ∧
      (k : Int) ≤ (continueFrom prev_row idx mp).dp ∧
      ((continueFrom prev_row idx mp).dp - k).toNat < T.length ∧
      colAt T ((continueFrom prev_row idx mp).dp - k).toNat ≤ j := by
  have hk' : (1 : Int) ≤ (k : Int) := by exact_mod_cast hk
  obtain ⟨hg, hrow, hcol, hdk⟩ : Good k ms mp ∧ mp.end_row = i ∧ mp.end_col = j ∧
      (k : Int) ≤ mp.dp := by
    rcases pending_good hpe with h | h
    · exact h
    · omega
  obtain ⟨d, prev, hmp, hom, hpar, hsl1, _⟩ := hpe
  simp only at hmp hom hpar hsl1
  have hdp : mp.dp = d := by rw [hmp]; rfl
  obtain ⟨hs1, hs2, hs3⟩ := hsl1 trivial
  rcases continueFrom_cases prev_row idx mp with h | ⟨p, hp, hpc, hpd, h⟩
  · rw [h]
    exact ⟨hg, hrow, hcol, hdk, by rw [hdp]; exact hs2, by rw [hdp]; omega⟩
  · obtain ⟨hgp, hpr, hpdp, hplen, hpcol⟩ := hprev p hp
    rw [h]
    refine ⟨⟨?_, Or.inr (Or.inr ⟨hgp, hpdp, ?_, ?_, rfl⟩)⟩, ?_, ?_, ?_, ?_, ?_⟩
    · rw [hrow, hcol]; exact hom
    · omega
    · exact hpc
    · exact hrow
    · exact hcol
    · show (k : Int) ≤ p.dp + 1
      omega
    · show (p.dp + 1 - (k : Int)).toNat < T.length
      omega
    · show colAt T (p.dp + 1 - (k : Int)).toNat ≤ j
      have h1 : (p.dp + 1 - (k : Int)).toNat ≤ p.dp.toNat := by omega
      have h2 := hT.mono _ _ h1 (by omega)
      omega

/-! ## Slots of matured matches -/

theorem maturedSlot_mono {k : Nat} {plus : Bool} {T T2 : List MatchPair} {d c : Int}
    (hle : TableLe T T2) (h : MaturedSlot k plus T d c) : MaturedSlot k plus T2 d c := by
  constructor
  · intro hp
    obtain ⟨h1, h2⟩ := h.1 hp
    exact ⟨lt_of_lt_of_le h1 hle.1, le_trans (hle.2 _ h1) h2⟩
  · intro hp
    obtain ⟨h0, h1, h2⟩ := h.2 hp
    exact ⟨h0, lt_of_lt_of_le h1 hle.1, le_trans (hle.2 _ h1) h2⟩

theorem tableSem_of_prov {D : Int → Int → Int} {T T2 : List MatchPair} {mp : MatchPair}
    (hT : TableSem D T) (hmp : mp.dp = D mp.end_row mp.end_col)
    (hprov : ∀ (s : Nat) (N : MatchPair), T2[s]? = some N → N = mp ∨ T[s]? = some N) :
    TableSem D T2 := by
  intro s N hs hN
  rcases hprov s N hN with h | h
  · rw [h]; exact hmp
  · exact hT s N hs h

/-- The score `D` of a match is at least `k`. -/
theorem scoreSpec_D_ge {k : Nat} {plus : Bool} {ms : List (List Int)} {D B : Int → Int → Int}
    (hS : ScoreSpec k plus ms D B) {i : Nat} {j : Int} (hj : j ∈ ms.getD i []) :
    (k : Int) ≤ D ((i : Int) + k - 1) (j + k - 1) := by
  have hB := hS.B_nonneg i j hj
  by_cases hc : plus = true ∧ 1 ≤ i ∧ (j - 1) ∈ ms.getD (i - 1) []
  · rw [hS.D_cont i j hj hc.1 hc.2.1 hc.2.2]
    have := le_max_left (B i j + k) (D ((i : Int) + k - 2) (j + k - 2) + 1)
    omega
  · rw [hS.D_fresh i j hj hc]
    omega

/-! ## The loop of RowUpdate computes the scores -/

theorem rowUpdate_loop_later (k : Nat) (row : Int) (plus : Bool) (prev_row : List MatchPair)
    (later : List EndEvent) (T cr : List MatchPair) (cidx : Nat)
    (hlater : ∀ e ∈ later.head?, e.1 ≠ row) :
    RowUpdate.loop k row plus prev_row later T cr cidx = some (later, T, cr) := by
  cases later with
  | nil => rfl
  | cons e rest =>
    obtain ⟨i, j, mp⟩ := e
    exact rowUpdate_loop_skip k row plus prev_row i j mp rest T cr cidx
      (hlater (i, j, mp) (by simp))

/-- The loop of `RowUpdate` on the end events of the matches of one row, followed by end
events of later rows: every event of the row is folded, its node gets the score `D`, and
the slot of that score ends at or before the node. -/
theorem rowUpdate_loop_sem {k : Nat} {plus : Bool} {ms : List (List Int)}
    {D B : Int → Int → Int} (hk : 1 ≤ k) (hS : ScoreSpec k plus ms D B) {r0 i0 : Nat}
    (hi0 : i0 + k = r0 + 1) {prev_row : List MatchPair} {laterq : List EndEvent}
    (hlater : ∀ e ∈ laterq.head?, e.1 ≠ (r0 : Int))
    (hprevCols : plus = true → prev_row.map MatchPair.end_col =
      (if 1 ≤ i0 then ms.getD (i0 - 1) [] else []).map (fun (j : Int) => j + k - 1))
    (hprevSem : ∀ N ∈ prev_row, N.dp = D N.end_row N.end_col)
    (hprevMono : plus = true → MonoCols prev_row) :
    ∀ (bcols : List Int) (batch : List EndEvent) (T cr : List MatchPair) (cidx : Nat),
      batch.map (fun e => (e.1, e.2.1)) = bcols.map (fun (j : Int) => ((r0 : Int), j + k - 1)) →
      (∀ j ∈ bcols, j ∈ ms.getD i0 []) → bcols.Pairwise (fun x y => x ≤ y) →
      TableInv k plus ms ((r0 : Int) + 1) T → (∀ e ∈ batch, Pending k plus ms T e) →
      (∀ e ∈ laterq, Pending k plus ms T e) →
      PrevInv k ms (r0 : Int) T prev_row → PrevInv k ms ((r0 : Int) + 1) T cr →
      (∀ e ∈ batch, e.2.2.dp = B (e.1 - k + 1) (e.2.1 - k + 1) + k) → TableSem D T →
      (∀ j ∈ bcols, cidx ≤ firstGE (j + k - 1 - 1) prev_row) →
      ∃ T2 cr2,
        RowUpdate.loop k (r0 : Int) plus prev_row (batch ++ laterq) T cr cidx =
          some (laterq, T2, cr2) ∧
        TableInv k plus ms ((r0 : Int) + 1) T2 ∧ (∀ e ∈ laterq, Pending k plus ms T2 e) ∧
        PrevInv k ms ((r0 : Int) + 1) T2 cr2 ∧ TableLe T T2 ∧ TableSem D T2 ∧
        (∀ j ∈ bcols, MaturedSlot k plus T2 (D (r0 : Int) (j + k - 1)) (j + k - 1)) ∧
        (plus = true →
          cr2.map MatchPair.end_col =
            cr.map MatchPair.end_col ++ bcols.map (fun (j : Int) => j + k - 1)) ∧
        (plus = false → cr2 = cr) ∧
        (∀ N ∈ cr2, N ∈ cr ∨ N.dp = D N.end_row N.end_col) := by
  have hk' : (1 : Int) ≤ (k : Int) := by exact_mod_cast hk
  have hi0' : (i0 : Int) + k = (r0 : Int) + 1 := by exact_mod_cast hi0
  intro bcols
  induction bcols with
  | nil =>
    intro batch T cr cidx hmap _ _ hT _ hpl _ hcr _ hsem _
    have hb : batch = [] := by simpa using hmap
    subst hb
    refine ⟨T, cr, ?_, hT, hpl, hcr, tableLe_refl T, hsem, by simp, by simp, fun _ => rfl,
      fun N hN => Or.inl hN⟩
    simpa using rowUpdate_loop_later k r0 plus prev_row laterq T cr cidx hlater
  | cons j bcols ih =>
    intro batch T cr cidx hmap hmem hsorted hT hpb hpl hprev hcr hbsem hsem hptr
    cases batch with
    | nil => simp at hmap
    | cons e batch =>
      obtain ⟨ei, ej, mp⟩ := e
      simp only [List.map_cons, List.cons.injEq, Prod.mk.injEq] at hmap
      obtain ⟨⟨he1, he2⟩, hmap2⟩ := hmap
      subst he1 he2
      have hjm : j ∈ ms.getD i0 [] := hmem j (by simp)
      have hpe := hpb ((r0 : Int), j + k - 1, mp) (by simp)
      have hdpB : mp.dp = B i0 j + k := by
        have := hbsem ((r0 : Int), j + k - 1, mp) (by simp)
        simp only at this
        rw [this]
        congr 2
        · omega
        · omega
      have hmem2 : ∀ x ∈ bcols, x ∈ ms.getD i0 [] := fun x hx => hmem x (by simp [hx])
      have hsorted2 := List.Pairwise.of_cons hsorted
      have hpb2 : ∀ e ∈ batch, Pending k plus ms T e := fun e he => hpb e (by simp [he])
      have hbsem2 : ∀ e ∈ batch, e.2.2.dp = B (e.1 - k + 1) (e.2.1 - k + 1) + k :=
        fun e he => hbsem e (by simp [he])
      obtain ⟨hg, hrow, hcol, hdk⟩ : Good k ms mp ∧ mp.end_row = (r0 : Int) ∧
          mp.end_col = j + k - 1 ∧ (k : Int) ≤ mp.dp := by
        rcases pending_good hpe with h | h
        · exact h
        · omega
      simp only [List.cons_append]
      cases plus with
      | true =>
        rw [rowUpdate_loop_plus]
        rw [hcol, advanceContinuation_drop (j + k - 1) prev_row cidx (hptr j (by simp))]
        obtain ⟨hg2, hr2, hc2, hd2, hl2, hcol2⟩ :=
          continueFrom_pre hk hT hpe hprev (firstGE (j + k - 1 - 1) prev_row)
        -- the node gets the score D
        have hdp2 : (continueFrom prev_row (firstGE (j + k - 1 - 1) prev_row) mp).dp =
            D (r0 : Int) (j + k - 1) := by
          by_cases hc : 1 ≤ i0 ∧ (j - 1) ∈ ms.getD (i0 - 1) []
          · have hin : (j + k - 1 - 1) ∈ prev_row.map MatchPair.end_col := by
              rw [hprevCols rfl, if_pos hc.1, List.mem_map]
              exact ⟨j - 1, hc.2, by omega⟩
            obtain ⟨p0, hp0, hp0c⟩ := continuation_found (hprevMono rfl) hin
            rw [continueFrom_found hp0 (by omega)]
            have hp0m : p0 ∈ prev_row := List.getElem?_mem hp0
            have hp0d := hprevSem p0 hp0m
            have hp0r := (hprev p0 hp0m).2.1
            have hD := hS.D_cont i0 j hjm rfl hc.1 hc.2
            have e1 : (i0 : Int) + k - 1 = (r0 : Int) := by omega
            have e2 : (i0 : Int) + k - 2 = (r0 : Int) - 1 := by omega
            have e3 : j + (k : Int) - 2 = j + k - 1 - 1 := by omega
            rw [e1, e2, e3] at hD
            rw [hD, hdpB, hp0d, hp0r, hp0c]
          · have hnot : (mp.end_col - 1) ∉ prev_row.map MatchPair.end_col := by
              rw [hprevCols rfl, hcol]
              intro hin
              rw [List.mem_map] at hin
              obtain ⟨j2, hj2, hj2e⟩ := hin
              by_cases h1 : 1 ≤ i0
              · rw [if_pos h1] at hj2
                have : j2 = j - 1 := by omega
                rw [this] at hj2
                exact hc ⟨h1, hj2⟩
              · rw [if_neg h1] at hj2
                simp at hj2
            rw [continueFrom_absent hnot]
            have hD := hS.D_fresh i0 j hjm (fun h => hc h.2)
            have e1 : (i0 : Int) + k - 1 = (r0 : Int) := by omega
            rw [e1] at hD
            rw [hD, hdpB]
        generalize continueFrom prev_row (firstGE (j + k - 1 - 1) prev_row) mp = mp2 at *
        obtain ⟨T2, hf, hT2, hle, hlen2, hslot2, hprov⟩ :=
          plus_fold_inv hk hT (r0 : Int) (j + k - 1) hg2 (by omega) hc2 hd2 hl2 hcol2
        rw [hf, Option.some_bind]
        have hsem2 : TableSem D T2 :=
          tableSem_of_prov hsem (by rw [hdp2, hr2, hc2]) hprov
        have hcr2 : PrevInv k ms ((r0 : Int) + 1) T2 (cr ++ [mp2]) := by
          intro N hN
          rcases List.mem_append.mp hN with hN | hN
          · exact prevInv_mono hle hcr N hN
          · simp only [List.mem_singleton] at hN
            subst hN
            exact ⟨hg2, by omega, by omega, hlen2, hslot2⟩
        obtain ⟨T3, cr3, g1, g2, g3, g4, g5, g6, g7, g8, _, g10⟩ :=
          ih batch T2 (cr ++ [mp2]) (firstGE (j + k - 1 - 1) prev_row) hmap2 hmem2 hsorted2 hT2
            (fun e he => pending_mono hle (hpb2 e he)) (fun e he => pending_mono hle (hpl e he))
            (prevInv_mono hle hprev) hcr2 hbsem2 hsem2
            (fun x hx => firstGE_mono prev_row (by
              have := List.rel_of_pairwise_cons hsorted hx
              omega))
        refine ⟨T3, cr3, g1, g2, g3, g4, tableLe_trans hle g5, g6, ?_, ?_,
          (fun h => by cases h), ?_⟩
        · intro x hx
          rcases List.mem_cons.mp hx with hx | hx
          · subst hx
            refine maturedSlot_mono g5 ⟨fun _ => ?_, (fun h => by cases h)⟩
            rw [← hdp2]
            exact ⟨by omega, by rw [hc2] at hslot2; exact hslot2⟩
          · exact g7 x hx
        · intro _
          rw [g8 rfl]
          simp [hc2]
        · intro N hN
          rcases g10 N hN with h | h
          · rcases List.mem_append.mp h with h | h
            · exact Or.inl h
            · simp only [List.mem_singleton] at h
              subst h
              right
              rw [hdp2, hr2, hc2]
          · exact Or.inr h
      | false =>
        obtain ⟨d, prev, hmp, hom, hpar, hsl1, hsl2⟩ := hpe
        simp only at hmp hom hpar hsl2
        have hdp : mp.dp = d := by rw [hmp]; rfl
        obtain ⟨s0, hs1, hs2, hs3⟩ := hsl2 trivial
        have hdpD : mp.dp = D (r0 : Int) (j + k - 1) := by
          have hD := hS.D_fresh i0 j hjm (fun h => by cases h.1)
          have e1 : (i0 : Int) + k - 1 = (r0 : Int) := by omega
          rw [e1] at hD
          rw [hD, hdpB]
        rw [rowUpdate_loop_plain k (by omega)]
        have hidx : mp.dp / (k : Int) = ((s0 + 1 : Nat) : Int) := by
          rw [hdp, hs1]
          push_cast
          exact Int.mul_ediv_cancel_left _ (by omega)
        have hdvd : (k : Int) ∣ D (r0 : Int) (j + k - 1) := by
          rw [← hdpD, hdp, hs1]
          exact Dvd.intro _ rfl
        rw [hidx]
        -- in each of the three cases the table after the event
        have hstep : ∃ T2,
            (if ((s0 + 1 : Nat) : Int) = (T.length : Int) then
              RowUpdate.loop k (r0 : Int) false prev_row (batch ++ laterq) (T ++ [mp]) cr cidx
            else if ((s0 + 1 : Nat) : Int) < 0 then none
            else
              (T[((s0 + 1 : Nat) : Int).toNat]?).bind (fun cur =>
                if j + k - 1 < cur.end_col then
                  RowUpdate.loop k (r0 : Int) false prev_row (batch ++ laterq)
                    (T.set ((s0 + 1 : Nat) : Int).toNat mp) cr cidx
                else RowUpdate.loop k (r0 : Int) false prev_row (batch ++ laterq) T cr cidx)) =
              RowUpdate.loop k (r0 : Int) false prev_row (batch ++ laterq) T2 cr cidx ∧
            TableInv k false ms ((r0 : Int) + 1) T2 ∧ TableLe T T2 ∧
            (∀ (s : Nat) (N : MatchPair), T2[s]? = some N → N = mp ∨ T[s]? = some N) ∧
            s0 + 1 < T2.length ∧ colAt T2 (s0 + 1) ≤ j + k - 1 := by
          by_cases hlen : ((s0 + 1 : Nat) : Int) = (T.length : Int)
          · rw [if_pos hlen]
            have hlen' : s0 + 1 = T.length := by exact_mod_cast hlen
            obtain ⟨hT2, hle, hprov⟩ := plain_append_inv hT hg (by omega)
              (by rw [hdp, hs1, ← hlen']; push_cast; ring)
              (by rw [← hlen', hcol]; simp only [Nat.add_sub_cancel]; omega)
            refine ⟨T ++ [mp], rfl, hT2, hle, hprov, by simp; omega, ?_⟩
            rw [hlen']
            have : (T ++ [mp])[T.length]? = some mp := by
              rw [List.getElem?_append_right (le_refl _)]; simp
            rw [colAt_eq_of_getElem? this, hcol]
          · rw [if_neg hlen, if_neg (by omega), Int.toNat_ofNat]
            have hlen' : s0 + 1 < T.length := by
              have : s0 + 1 ≠ T.length := fun h => hlen (by exact_mod_cast h)
              omega
            rw [getElem?_eq_getD hlen', Option.some_bind]
            by_cases hc : j + k - 1 < (T.getD (s0 + 1) .null).end_col
            · rw [if_pos hc]
              obtain ⟨hT2, hle, hprov⟩ := plain_set_inv hT hg (by omega)
                (by rw [hdp, hs1]; push_cast; ring) hlen'
                (by rw [hcol]; omega) (by rw [hcol]; exact hc)
              refine ⟨T.set (s0 + 1) mp, rfl, hT2, hle, hprov, by simpa using hlen', ?_⟩
              have : (T.set (s0 + 1) mp)[s0 + 1]? = some mp := by simp [hlen']
              rw [colAt_eq_of_getElem? this, hcol]
            · rw [if_neg hc]
              refine ⟨T, rfl, hT, tableLe_refl T, fun s N h => Or.inr h, hlen', ?_⟩
              unfold colAt
              omega
        obtain ⟨T2, hf, hT2, hle, hprov, hlen2, hslot2⟩ := hstep
        rw [hf]
        have hsem2 : TableSem D T2 :=
          tableSem_of_prov hsem (by rw [hdpD, hrow, hcol]) hprov
        obtain ⟨T3, cr3, g1, g2, g3, g4, g5, g6, g7, _, g9, g10⟩ :=
          ih batch T2 cr cidx hmap2 hmem2 hsorted2 hT2
            (fun e he => pending_mono hle (hpb2 e he)) (fun e he => pending_mono hle (hpl e he))
            (prevInv_mono hle hprev) (prevInv_mono hle hcr) hbsem2 hsem2
            (fun x hx => le_trans (hptr j (by simp)) (firstGE_mono prev_row (by
              have := List.rel_of_pairwise_cons hsorted hx
              omega)))
        refine ⟨T3, cr3, g1, g2, g3, g4, tableLe_trans hle g5, g6, ?_, (fun h => by cases h),
          g9, g10⟩
        intro x hx
        rcases List.mem_cons.mp hx with hx | hx
        · subst hx
          refine maturedSlot_mono g5 ⟨(fun h => by cases h), fun _ => ?_⟩
          have hq : D (r0 : Int) (x + k - 1) / (k : Int) = ((s0 + 1 : Nat) : Int) := by
            rw [← hdpD]; exact hidx
          rw [hq, Int.toNat_ofNat]
          exact ⟨hdvd, hlen2, hslot2⟩
        · exact g7 x hx

/-! ## The query computes the best prior score -/

theorem rowsSorted_getD {ms : List (List Int)} (hms : RowsSorted ms) (i : Nat) :
    (ms.getD i []).Pairwise (fun x y => x ≤ y) ∧ ∀ j ∈ ms.getD i [], 0 ≤ j := by
  by_cases h : i < ms.length
  · have hget : ms[i]? = some (ms.getD i []) := by
      simp [List.getD, List.getElem?_eq_getElem h]
    exact hms _ (List.getElem?_mem hget)
  · have : ms.getD i [] = [] := by
      rw [List.getD_eq_getElem?_getD, List.getElem?_eq_none (by omega)]
      rfl
    rw [this]
    simp

/-- The node that a query makes for a match `(r0, j)` has the score `B r0 j + k`: the
slot before the threshold holds the best score among the nodes that end before column
`j`. -/
theorem queryNode_dp {k : Nat} {plus : Bool} {ms : List (List Int)} {D B : Int → Int → Int}
    (hk : 1 ≤ k) (hS : ScoreSpec k plus ms D B) {r0 : Nat} {T : List MatchPair}
    (hT : TableInv k plus ms (r0 : Int) T) (hsem : TableSem D T)
    (hmat : ∀ (i : Nat) (j : Int), j ∈ ms.getD i [] → i + k ≤ r0 →
      MaturedSlot k plus T (D ((i : Int) + k - 1) (j + k - 1)) (j + k - 1))
    {j : Int} (hj : j ∈ ms.getD r0 []) (hj0 : 0 ≤ j) :
    (queryNode k T r0 j).dp = B r0 j + k := by
  have hk' : (1 : Int) ≤ (k : Int) := by exact_mod_cast hk
  have hpos := firstGE_pos hT.head hj0
  have hle := firstGE_le_length j T
  have hlt : firstGE j T - 1 < T.length := by omega
  have hget := getElem?_eq_getD hlt
  have hcol : colAt T (firstGE j T - 1) < j := colAt_lt_of_lt_firstGE j T _ (by omega)
  have hB0 := hS.B_nonneg r0 j hj
  -- the score of the node before the threshold is the best prior score
  have hP : (T.getD (firstGE j T - 1) .null).dp = B r0 j := by
    apply le_antisymm
    · by_cases h0 : firstGE j T - 1 = 0
      · have hs : T.getD (firstGE j T - 1) .null = sentinel := by
          have := hT.head
          rw [h0] at hget ⊢
          rw [hget] at this
          exact Option.some.inj this
        rw [hs]
        exact hB0
      · obtain ⟨hg, hrow⟩ := hT.good _ _ (by omega) hget
        obtain ⟨i2, j2, hj2, _, hr2, hc2⟩ := good_onMatch hg
        rw [hsem _ _ (by omega) hget, hr2, hc2]
        have hc := colAt_eq_of_getElem? hget
        exact hS.B_upper r0 j hj i2 j2 hj2 (by omega) (by omega)
    · rcases hS.B_attained r0 j hj with h | ⟨i2, j2, hj2, hi2, hjj, hD⟩
      · rw [h]
        by_cases h0 : firstGE j T - 1 = 0
        · have hs : T.getD (firstGE j T - 1) .null = sentinel := by
            have := hT.head
            rw [h0] at hget ⊢
            rw [hget] at this
            exact Option.some.inj this
          rw [hs]
          exact le_refl _
        · obtain ⟨hg, _⟩ := hT.good _ _ (by omega) hget
          exact le_of_lt (good_dp_pos hk hg)
      · have hm := hmat i2 j2 hj2 hi2
        rw [hD] at hm
        cases plus with
        | true =>
          obtain ⟨h1, h2⟩ := hm.1 rfl
          have h3 : (B r0 j).toNat < firstGE j T :=
            lt_firstGE_of_colAt_lt hT.mono h1 (by omega)
          by_cases h0 : firstGE j T - 1 = 0
          · have hs : T.getD (firstGE j T - 1) .null = sentinel := by
              have := hT.head
              rw [h0] at hget ⊢
              rw [hget] at this
              exact Option.some.inj this
            rw [hs]
            show B r0 j ≤ 0
            omega
          · obtain ⟨a, _, _⟩ := hT.slotPlus rfl _ _ (by omega) hget
            omega
        | false =>
          obtain ⟨h0d, h1, h2⟩ := hm.2 rfl
          have h3 : (B r0 j / (k : Int)).toNat < firstGE j T :=
            lt_firstGE_of_colAt_lt hT.mono h1 (by omega)
          obtain ⟨q, hq⟩ := h0d
          have hq2 : B r0 j / (k : Int) = q := by
            rw [hq]; exact Int.mul_ediv_cancel_left _ (by omega)
          rw [hq2] at h3
          by_cases h0 : firstGE j T - 1 = 0
          · have hs : T.getD (firstGE j T - 1) .null = sentinel := by
              have := hT.head
              rw [h0] at hget ⊢
              rw [hget] at this
              exact Option.some.inj this
            rw [hs, hq]
            show (k : Int) * q ≤ 0
            have : q ≤ 0 := by omega
            exact Int.mul_nonpos_of_nonneg_of_nonpos (by omega) this
          · have := hT.slotPlain rfl _ _ (by omega) hget
            rw [this, hq]
            apply Int.mul_le_mul_of_nonneg_left _ (by omega)
            omega
  unfold queryNode makeMatchPair
  by_cases hpos2 : (T.getD (firstGE j T - 1) .null).dp > 0
  · rw [if_pos hpos2]
    show (T.getD (firstGE j T - 1) .null).dp + k = B r0 j + k
    rw [hP]
  · rw [if_neg hpos2]
    show (k : Int) = B r0 j + k
    omega

/-! ## The positions that wait in the queue -/

theorem mem_pendCoords {k : Nat} {ms : List (List Int)} {lo hi : Nat} {p : Int × Int}
    (h : p ∈ pendCoords k ms lo hi) : ∃ i : Nat, lo ≤ i ∧ i < hi ∧ p.1 = (i : Int) + k - 1 := by
  unfold pendCoords at h
  simp only [List.mem_flatMap, List.mem_map, List.mem_range'_1] at h
  obtain ⟨i, ⟨h1, h2⟩, j, _, rfl⟩ := h
  exact ⟨i, h1, by omega, rfl⟩

theorem pendCoords_snoc (k : Nat) (ms : List (List Int)) {lo hi : Nat} (h : lo ≤ hi) :
    pendCoords k ms lo (hi + 1) =
      pendCoords k ms lo hi ++
        (ms.getD hi []).map (fun (j : Int) => ((hi : Int) + k - 1, j + k - 1)) := by
  unfold pendCoords
  have : hi + 1 - lo = (hi - lo) + 1 := by omega
  rw [this, List.range'_1_concat, List.flatMap_append]
  have : lo + (hi - lo) = hi := by omega
  simp [this]

theorem pendCoords_cons (k : Nat) (ms : List (List Int)) {lo hi : Nat} (h : lo < hi) :
    pendCoords k ms lo hi =
      (ms.getD lo []).map (fun (j : Int) => ((lo : Int) + k - 1, j + k - 1)) ++
        pendCoords k ms (lo + 1) hi := by
  unfold pendCoords
  have : hi - lo = (hi - (lo + 1)) + 1 := by omega
  rw [this, List.range'_succ]
  simp

theorem queryEvents_coords (k : Nat) (T : List MatchPair) (row : Int) (cols : List Int) :
    (queryEvents k T row cols).map (fun e => (e.1, e.2.1)) =
      cols.map (fun (j : Int) => (row + k - 1, j + k - 1)) := by
  unfold queryEvents
  simp [List.map_map, Function.comp]

/-! ## One row of the sweep computes the scores -/

/-- A row step keeps the part of the invariant that is about scores. -/
theorem rowStep_sem (use_amortized : Nat → Nat → Bool) {k : Nat} {plus : Bool}
    {ms : List (List Int)} {D B : Int → Int → Int} (hk : 1 ≤ k) (hS : ScoreSpec k plus ms D B)
    (hms : RowsSorted ms) {r0 : Nat} {s : SweepState}
    (hinv : SweepInv k plus ms (r0 : Int) s) (hsem : SemInv k plus ms D B r0 s) :
    ∃ s2, rowStep use_amortized k plus (r0 : Int) (ms.getD r0 []) s = some s2 ∧
      SweepInv k plus ms ((r0 : Int) + 1) s2 ∧ SemInv k plus ms D B (r0 + 1) s2 := by
  have hk' : (1 : Int) ≤ (k : Int) := by exact_mod_cast hk
  obtain ⟨hsorted, hnn⟩ := rowsSorted_getD hms r0
  obtain ⟨s2, h1, h2, _⟩ := rowStep_inv use_amortized hk hinv hsorted
    (fun j hj => ⟨hj, hnn j hj⟩)
  refine ⟨s2, h1, h2, ?_⟩
  rw [rowStep_eq use_amortized k plus r0 _ s hinv.begin_nil hinv.table.head hinv.table.mono
    hsorted hnn] at h1
  unfold RowUpdate at h1
  simp only at h1
  -- the queue after the queries
  have hcoords : (s.events.end_events ++
      queryEvents k s.compressed_table (r0 : Int) (ms.getD r0 [])).map (fun e => (e.1, e.2.1)) =
      pendCoords k ms (r0 + 1 - k) (r0 + 1) := by
    rw [List.map_append, hsem.endCoords, queryEvents_coords,
      pendCoords_snoc k ms (show r0 + 1 - k ≤ r0 by omega)]
  have hendsem : ∀ e ∈ s.events.end_events ++
      queryEvents k s.compressed_table (r0 : Int) (ms.getD r0 []),
      e.2.2.dp = B (e.1 - k + 1) (e.2.1 - k + 1) + k := by
    intro e he
    rcases List.mem_append.mp he with he | he
    · exact hsem.endSem e he
    · simp only [queryEvents, List.mem_map] at he
      obtain ⟨j, hj, rfl⟩ := he
      simp only
      have e1 : (r0 : Int) + k - 1 - k + 1 = (r0 : Int) := by omega
      have e2 : j + (k : Int) - 1 - k + 1 = j := by omega
      rw [e1, e2]
      exact queryNode_dp hk hS hinv.table hsem.tableSem hsem.matured hj (hnn j hj)
  have hpend : ∀ e ∈ s.events.end_events ++
      queryEvents k s.compressed_table (r0 : Int) (ms.getD r0 []),
      Pending k plus ms s.compressed_table e := by
    intro e he
    rcases List.mem_append.mp he with he | he
    · exact hinv.pending e he
    · exact queryEvents_pending hk hinv.table (fun j hj => ⟨hj, hnn j hj⟩) e he
  by_cases hcase : k ≤ r0 + 1
  · -- the end events of the matches of row r0 + 1 - k are folded
    have hi0 : (r0 + 1 - k) + k = r0 + 1 := by omega
    have hi0' : ((r0 + 1 - k : Nat) : Int) + k - 1 = (r0 : Int) := by omega
    rw [pendCoords_cons k ms (show r0 + 1 - k < r0 + 1 by omega)] at hcoords
    rw [hi0'] at hcoords
    generalize hq : s.events.end_events ++
      queryEvents k s.compressed_table (r0 : Int) (ms.getD r0 []) = endq at *
    have hsplit : endq = endq.take (ms.getD (r0 + 1 - k) []).length ++
        endq.drop (ms.getD (r0 + 1 - k) []).length := (List.take_append_drop _ _).symm
    have hbatch : (endq.take (ms.getD (r0 + 1 - k) []).length).map (fun e => (e.1, e.2.1)) =
        (ms.getD (r0 + 1 - k) []).map (fun (j : Int) => ((r0 : Int), j + k - 1)) := by
      rw [List.map_take, hcoords]
      have : (ms.getD (r0 + 1 - k) []).length =
          ((ms.getD (r0 + 1 - k) []).map (fun (j : Int) => ((r0 : Int), j + k - 1))).length := by
        simp
      rw [this, List.take_left]
    have hlaterc : (endq.drop (ms.getD (r0 + 1 - k) []).length).map (fun e => (e.1, e.2.1)) =
        pendCoords k ms (r0 + 1 - k + 1) (r0 + 1) := by
      rw [List.map_drop, hcoords]
      have : (ms.getD (r0 + 1 - k) []).length =
          ((ms.getD (r0 + 1 - k) []).map (fun (j : Int) => ((r0 : Int), j + k - 1))).length := by
        simp
      rw [this, List.drop_left]
    have hlater : ∀ e ∈ (endq.drop (ms.getD (r0 + 1 - k) []).length).head?,
        e.1 ≠ (r0 : Int) := by
      intro e he
      have hmem : e ∈ endq.drop (ms.getD (r0 + 1 - k) []).length := List.mem_of_mem_head? he
      have hm2 : (e.1, e.2.1) ∈ pendCoords k ms (r0 + 1 - k + 1) (r0 + 1) := by
        rw [← hlaterc]
        exact List.mem_map_of_mem (fun e => (e.1, e.2.1)) hmem
      obtain ⟨i, hi1, _, hi3⟩ := mem_pendCoords hm2
      simp only at hi3
      omega
    have hprevCols : plus = true → s.prev_row_match_pairs.map MatchPair.end_col =
        (if 1 ≤ r0 + 1 - k then ms.getD (r0 + 1 - k - 1) [] else []).map
          (fun (j : Int) => j + k - 1) := by
      intro hp
      rw [hsem.prevCols hp]
      by_cases h : k ≤ r0
      · rw [if_pos h, if_pos (by omega)]
        have : r0 + 1 - k - 1 = r0 - k := by omega
        rw [this]
      · rw [if_neg h, if_neg (by omega)]
    have hprevMono : plus = true → MonoCols s.prev_row_match_pairs := by
      intro hp
      apply monoCols_of_pairwise
      rw [hsem.prevCols hp, List.pairwise_map]
      split
      · refine List.Pairwise.imp ?_ (rowsSorted_getD hms (r0 - k)).1
        intro x y hxy
        omega
      · simp
    obtain ⟨T2, cr2, g1, g2, g3, g4, g5, g6, g7, g8, _, g10⟩ :=
      rowUpdate_loop_sem hk hS hi0 hlater hprevCols hsem.prevSem hprevMono
        (ms.getD (r0 + 1 - k) []) (endq.take (ms.getD (r0 + 1 - k) []).length)
        s.compressed_table [] 0 hbatch (fun j hj => hj) (rowsSorted_getD hms (r0 + 1 - k)).1
        (tableInv_weaken hinv.table (by omega))
        (fun e he => hpend e (List.mem_of_mem_take he))
        (fun e he => hpend e (List.mem_of_mem_drop he)) hinv.prevRow
        (by intro N hN; simp at hN)
        (fun e he => hendsem e (List.mem_of_mem_take he)) hsem.tableSem
        (fun _ _ => Nat.zero_le _)
    rw [← hsplit] at g1
    rw [g1] at h1
    simp only [Option.map_some', Option.some.injEq] at h1
    subst h1
    refine ⟨g6, ?_, ?_, ?_, ?_, ?_⟩
    · intro i j hj hi
      by_cases hold : i + k ≤ r0
      · exact maturedSlot_mono g5 (hsem.matured i j hj hold)
      · have hi2 : i = r0 + 1 - k := by omega
        subst hi2
        have := g7 j hj
        rw [← hi0'] at this
        exact this
    · intro hp
      simp only
      rw [g8 hp, if_pos hcase]
      simp
    · intro N hN
      rcases g10 N hN with h | h
      · simp at h
      · exact h
    · simp only
      rw [hlaterc]
      have : r0 + 1 + 1 - k = r0 + 1 - k + 1 := by omega
      rw [this]
    · intro e he
      exact hendsem e (List.mem_of_mem_drop he)
  · -- no end event is due yet
    generalize hq : s.events.end_events ++
      queryEvents k s.compressed_table (r0 : Int) (ms.getD r0 []) = endq at *
    have hlater : ∀ e ∈ endq.head?, e.1 ≠ (r0 : Int) := by
      intro e he
      have hmem : e ∈ endq := List.mem_of_mem_head? he
      have hm2 : (e.1, e.2.1) ∈ pendCoords k ms (r0 + 1 - k) (r0 + 1) := by
        rw [← hcoords]
        exact List.mem_map_of_mem (fun e => (e.1, e.2.1)) hmem
      obtain ⟨i, _, _, hi3⟩ := mem_pendCoords hm2
      simp only at hi3
      omega
    rw [rowUpdate_loop_later k r0 plus _ endq _ _ _ hlater] at h1
    simp only [Option.map_some', Option.some.injEq] at h1
    subst h1
    refine ⟨hsem.tableSem, ?_, ?_, ?_, ?_, hendsem⟩
    · intro i j _ hi
      omega
    · intro _
      simp only
      rw [if_neg hcase]
      rfl
    · intro N hN
      simp at hN
    · simp only
      rw [hcoords]
      have : r0 + 1 + 1 - k = r0 + 1 - k := by omega
      rw [this]

/-! ## The sweep computes the scores -/

theorem initialState_sem (k : Nat) (hk : 1 ≤ k) (plus : Bool) (ms : List (List Int))
    (D B : Int → Int → Int) : SemInv k plus ms D B 0 initialState := by
  refine ⟨?_, ?_, ?_, ?_, ?_, ?_⟩
  · intro s N hs hN
    simp only [initialState] at hN
    rw [List.getElem?_eq_none (by simp; omega)] at hN
    cases hN
  · intro i j _ hi
    omega
  · intro _
    simp only [initialState]
    rw [if_neg (by omega)]
    rfl
  · intro N hN
    simp [initialState] at hN
  · simp [initialState, pendCoords]
  · intro e he
    simp [initialState] at he

theorem sweep_sem (use_amortized : Nat → Nat → Bool) {k : Nat} {plus : Bool}
    {ms : List (List Int)} {D B : Int → Int → Int} (hk : 1 ≤ k) (hS : ScoreSpec k plus ms D B)
    (hms : RowsSorted ms) :
    ∀ (rest : List (List Int)) (r0 : Nat) (s : SweepState), ms.drop r0 = rest →
      SweepInv k plus ms (r0 : Int) s → SemInv k plus ms D B r0 s →
      ∃ s2, sweep use_amortized k plus rest (r0 : Int) s = some s2 ∧
        SweepInv k plus ms ((r0 + rest.length : Nat) : Int) s2 ∧
        SemInv k plus ms D B (r0 + rest.length) s2 := by
  intro rest
  induction rest with
  | nil =>
    intro r0 s _ hinv hsem
    exact ⟨s, rfl, by simpa using hinv, by simpa using hsem⟩
  | cons cols rest ih =>
    intro r0 s hdrop hinv hsem
    obtain ⟨hget, hdrop2⟩ := drop_eq_cons hdrop
    have hgetD : ms.getD r0 [] = cols := by simp [hget]
    obtain ⟨s1, h1, h2, h3⟩ := rowStep_sem use_amortized hk hS hms hinv hsem
    rw [hgetD] at h1
    have hcast : ((r0 + 1 : Nat) : Int) = (r0 : Int) + 1 := by push_cast; rfl
    obtain ⟨s2, g1, g2, g3⟩ := ih (r0 + 1) s1 hdrop2 (by rw [hcast]; exact h2) h3
    have hlen : r0 + (cols :: rest).length = r0 + 1 + rest.length := by simp; omega
    refine ⟨s2, ?_, by rw [hlen]; exact g2, by rw [hlen]; exact g3⟩
    simp only [sweep, h1]
    rw [← hcast]
    exact g1

/-- On a sorted match list, for score functions that satisfy `ScoreSpec`, the number of
pairs that the engine returns is the best score. -/
theorem engine_score (use_amortized : Nat → Nat → Bool) {k : Nat} {plus : Bool}
    {ms : List (List Int)} {D B : Int → Int → Int} (hk : 1 ≤ k) (hms : RowsSorted ms)
    (hS : ScoreSpec k plus ms D B) {best : Int} (hbest : IsBestScore k ms D best) :
    ∃ out, LcskppSparseFastRealImpl use_amortized k plus ms = some out ∧
      (out.length : Int) = best := by
  have hk' : (1 : Int) ≤ (k : Int) := by exact_mod_cast hk
  obtain ⟨s, h1, h2, h3⟩ := sweep_sem use_amortized hk hS hms ms 0 initialState rfl
    (by simpa using initialState_inv k plus ms) (initialState_sem k hk plus ms D B)
  simp only [Nat.zero_add] at h2 h3
  have h1' : sweep use_amortized k plus ms 0 initialState = some s := by simpa using h1
  have hpos : 0 < s.compressed_table.length := by
    have := h2.table.head
    by_contra hcon
    rw [List.getElem?_eq_none (by omega)] at this
    cases this
  have hlast : s.compressed_table.getLast? =
      some (s.compressed_table.getD (s.compressed_table.length - 1) .null) := by
    rw [List.getLast?_eq_getElem?, getElem?_eq_getD (by omega)]
  unfold LcskppSparseFastRealImpl
  rw [h1']
  simp only [bestOf, hlast]
  -- a matured match has its slot in the final table, which bounds its score
  have hbound : ∀ (i : Nat) (j : Int), j ∈ ms.getD i [] → i + k ≤ ms.length →
      (plus = true → D ((i : Int) + k - 1) (j + k - 1) ≤ (s.compressed_table.length : Int) - 1) ∧
      (plus = false →
        D ((i : Int) + k - 1) (j + k - 1) ≤ (k : Int) * ((s.compressed_table.length : Int) - 1)) := by
    intro i j hj hi
    have hm := h3.matured i j hj hi
    constructor
    · intro hp
      obtain ⟨a, _⟩ := hm.1 hp
      omega
    · intro hp
      obtain ⟨⟨q, hq⟩, a, _⟩ := hm.2 hp
      have hq2 : D ((i : Int) + k - 1) (j + k - 1) / (k : Int) = q := by
        rw [hq]; exact Int.mul_ediv_cancel_left _ (by omega)
      rw [hq2] at a
      rw [hq]
      apply Int.mul_le_mul_of_nonneg_left _ (by omega)
      omega
  by_cases h0 : s.compressed_table.length - 1 = 0
  · -- only the sentinel: no match has matured
    have hsent : s.compressed_table.getD (s.compressed_table.length - 1) .null = sentinel := by
      have := h2.table.head
      rw [h0]
      rw [getElem?_eq_getD hpos] at this
      exact Option.some.inj this
    rw [hsent]
    refine ⟨[], by simp [sentinel, MatchPair.end_row, FillLcskReconstruction,
      FillLcskReconstruction.loop], ?_⟩
    rcases hbest.2 with h | ⟨i, j, hj, hi, hD⟩
    · rw [h]; rfl
    · exfalso
      have hge := scoreSpec_D_ge hS hj
      have hb := hbound i j hj hi
      have hlen1 : (s.compressed_table.length : Int) - 1 = 0 := by omega
      cases plus with
      | true =>
        have := hb.1 rfl
        omega
      | false =>
        have := hb.2 rfl
        rw [hlen1] at this
        simp at this
        omega
  · have hlt : s.compressed_table.length - 1 < s.compressed_table.length := by omega
    have hget := getElem?_eq_getD hlt
    obtain ⟨hg, hrow⟩ := h2.table.good (s.compressed_table.length - 1) _ (by omega) hget
    have hnn := (good_end_nonneg hk hg).1
    rw [if_pos (by omega)]
    refine ⟨_, fill_good _ (Or.inr hg), ?_⟩
    rw [List.length_reverse, pushed_length hk _ hg]
    have hdpD := h3.tableSem _ _ (by omega) hget
    obtain ⟨i, j, hj, _, hr, hc⟩ := good_onMatch hg
    have hi : i + k ≤ ms.length := by omega
    have hle : (s.compressed_table.getD (s.compressed_table.length - 1) .null).dp ≤ best := by
      rw [hdpD, hr, hc]
      exact hbest.1 i j hj hi
    have hdpos := good_dp_pos hk hg
    apply le_antisymm hle
    rcases hbest.2 with h | ⟨i2, j2, hj2, hi2, hD⟩
    · omega
    · rw [← hD]
      have hb := hbound i2 j2 hj2 hi2
      cases plus with
      | true =>
        obtain ⟨a, _, _⟩ := h2.table.slotPlus rfl _ _ (by omega) hget
        have := hb.1 rfl
        omega
      | false =>
        have hN := h2.table.slotPlain rfl _ _ (by omega) hget
        have := hb.2 rfl
        rw [hN]
        have hc2 : ((s.compressed_table.length - 1 : Nat) : Int) =
            (s.compressed_table.length : Int) - 1 := by omega
        rw [hc2]
        exact this

/-! ## The table of a dynamic program -/

theorem dpRowUpTo_length (ext : (Nat → Nat → Nat) → Nat → Nat → Nat) (tab : List (List Nat))
    (i : Nat) : ∀ j, (dpRowUpTo ext tab i j).length = j + 1 := by
  intro j
  induction j with
  | zero => rfl
  | succ j ih => simp [dpRowUpTo, ih]

theorem dpRowUpTo_getElem?_le (ext : (Nat → Nat → Nat) → Nat → Nat → Nat)
    (tab : List (List Nat)) (i : Nat) :
    ∀ (j j2 : Nat), j2 ≤ j → (dpRowUpTo ext tab i j)[j2]? = (dpRowUpTo ext tab i j2)[j2]? := by
  intro j
  induction j with
  | zero => intro j2 h; have : j2 = 0 := by omega
            subst this; rfl
  | succ j ih =>
    intro j2 h
    rcases Nat.eq_or_lt_of_le h with heq | hlt
    · subst heq; rfl
    · simp only [dpRowUpTo]
      rw [List.getElem?_append_left (by rw [dpRowUpTo_length]; omega)]
      exact ih j2 (by omega)

theorem dpTableUpTo_length (ext : (Nat → Nat → Nat) → Nat → Nat → Nat) (m : Nat) :
    ∀ i, (dpTableUpTo ext m i).length = i + 1 := by
  intro i
  induction i with
  | zero => rfl
  | succ i ih => simp [dpTableUpTo, ih]

theorem dpTableUpTo_getElem?_le (ext : (Nat → Nat → Nat) → Nat → Nat → Nat) (m : Nat) :
    ∀ (i i2 : Nat), i2 ≤ i → (dpTableUpTo ext m i)[i2]? = (dpTableUpTo ext m i2)[i2]? := by
  intro i
  induction i with
  | zero => intro i2 h; have : i2 = 0 := by omega
            subst this; rfl
  | succ i ih =>
    intro i2 h
    rcases Nat.eq_or_lt_of_le h with heq | hlt
    · subst heq; rfl
    · simp only [dpTableUpTo]
      rw [List.getElem?_append_left (by rw [dpTableUpTo_length]; omega)]
      exact ih i2 (by omega)

/-- Reading row `i2 ≤ i` of the table built up to row `i` gives the cell of the table. -/
theorem dpTableUpTo_lookup (ext : (Nat → Nat → Nat) → Nat → Nat → Nat) (m i i2 j2 : Nat)
    (h : i2 ≤ i) : ((dpTableUpTo ext m i).getD i2 []).getD j2 0 = dpAt ext m i2 j2 := by
  unfold dpAt
  have h1 : (dpTableUpTo ext m i).getD i2 [] = (dpTableUpTo ext m i2).getD i2 [] := by
    simp only [List.getD_eq_getElem?_getD]
    rw [dpTableUpTo_getElem?_le ext m i i2 h]
  rw [h1]

theorem dpAt_zero_row (ext : (Nat → Nat → Nat) → Nat → Nat → Nat) (m j : Nat) :
    dpAt ext m 0 j = 0 := by
  unfold dpAt
  simp only [dpTableUpTo, List.getD_cons_zero]
  rw [List.getD_eq_getElem?_getD, List.getElem?_replicate]
  split <;> rfl

theorem dpAt_row (ext : (Nat → Nat → Nat) → Nat → Nat → Nat) (m i j : Nat) (hj : j ≤ m) :
    dpAt ext m (i + 1) j =
      ((dpRowUpTo ext (dpTableUpTo ext m i) (i + 1) j)[j]?).getD 0 := by
  unfold dpAt
  have h1 : (dpTableUpTo ext m (i + 1)).getD (i + 1) [] =
      dpRowUpTo ext (dpTableUpTo ext m i) (i + 1) m := by
    simp only [dpTableUpTo]
    rw [List.getD_eq_getElem?_getD,
      List.getElem?_append_right (by rw [dpTableUpTo_length]), dpTableUpTo_length]
    simp
  rw [h1, List.getD_eq_getElem?_getD, dpRowUpTo_getElem?_le ext _ _ m j hj]

theorem dpAt_zero_col (ext : (Nat → Nat → Nat) → Nat → Nat → Nat) (m i : Nat) :
    dpAt ext m i 0 = 0 := by
  cases i with
  | zero => exact dpAt_zero_row ext m 0
  | succ i =>
    rw [dpAt_row ext m i 0 (Nat.zero_le _)]
    rfl

/-- The recurrence of the table: `dp[i][j] = max(dp[i-1][j], dp[i][j-1], ext)`. -/
theorem dpAt_succ {ext : (Nat → Nat → Nat) → Nat → Nat → Nat} (hloc : ExtLocal ext)
    (m i j : Nat) (hj : j + 1 ≤ m) :
    dpAt ext m (i + 1) (j + 1) =
      max (max (dpAt ext m i (j + 1)) (dpAt ext m (i + 1) j))
        (ext (dpAt ext m) (i + 1) (j + 1)) := by
  rw [dpAt_row ext m i (j + 1) hj]
  simp only [dpRowUpTo]
  rw [List.getElem?_append_right (by rw [dpRowUpTo_length]), dpRowUpTo_length]
  simp only [Nat.sub_self, List.getElem?_cons_zero, Option.getD_some, dpCell,
    Nat.add_sub_cancel]
  rw [dpTableUpTo_lookup ext m i i (j + 1) (le_refl _)]
  have h2 : (dpRowUpTo ext (dpTableUpTo ext m i) (i + 1) j).getD j 0 = dpAt ext m (i + 1) j := by
    rw [dpAt_row ext m i j (by omega), List.getD_eq_getElem?_getD]
  rw [h2]
  congr 1
  apply hloc
  intro i2 j2 hi2
  exact dpTableUpTo_lookup ext m i i2 j2 (by omega)

theorem dpAt_mono_col {ext : (Nat → Nat → Nat) → Nat → Nat → Nat} (hloc : ExtLocal ext)
    (m i j : Nat) (hj : j + 1 ≤ m) : dpAt ext m i j ≤ dpAt ext m i (j + 1) := by
  cases i with
  | zero => rw [dpAt_zero_row, dpAt_zero_row]
  | succ i =>
    rw [dpAt_succ hloc m i j hj]
    omega

theorem dpAt_mono_row {ext : (Nat → Nat → Nat) → Nat → Nat → Nat} (hloc : ExtLocal ext)
    (m i j : Nat) (hj : j ≤ m) : dpAt ext m i j ≤ dpAt ext m (i + 1) j := by
  cases j with
  | zero => rw [dpAt_zero_col, dpAt_zero_col]
  | succ j =>
    rw [dpAt_succ hloc m i j hj]
    omega

theorem dpAt_mono {ext : (Nat → Nat → Nat) → Nat → Nat → Nat} (hloc : ExtLocal ext)
    (m : Nat) {i i2 j j2 : Nat} (hi : i ≤ i2) (hj : j ≤ j2) (hj2 : j2 ≤ m) :
    dpAt ext m i j ≤ dpAt ext m i2 j2 := by
  have h1 : dpAt ext m i j ≤ dpAt ext m i j2 := by
    induction j2 with
    | zero => have : j = 0 := by omega
              subst this; exact le_refl _
    | succ j2 ih =>
      rcases Nat.eq_or_lt_of_le hj with heq | hlt
      · subst heq; exact le_refl _
      · exact le_trans (ih (by omega) (by omega)) (dpAt_mono_col hloc m i j2 hj2)
  have h2 : dpAt ext m i j2 ≤ dpAt ext m i2 j2 := by
    induction i2 with
    | zero => have : i = 0 := by omega
              subst this; exact le_refl _
    | succ i2 ih =>
      rcases Nat.eq_or_lt_of_le hi with heq | hlt
      · subst heq; exact le_refl _
      · exact le_trans (ih (by omega)) (dpAt_mono_row hloc m i2 j2 hj2)
  exact le_trans h1 h2

/-- The third term of a cell is at most the cell. -/
theorem ext_le_dpAt {ext : (Nat → Nat → Nat) → Nat → Nat → Nat} (hloc : ExtLocal ext)
    (m : Nat) {i j : Nat} (hi : 1 ≤ i) (hj1 : 1 ≤ j) (hj : j ≤ m) :
    ext (dpAt ext m) i j ≤ dpAt ext m i j := by
  obtain ⟨i2, rfl⟩ : ∃ i2, i = i2 + 1 := ⟨i - 1, by omega⟩
  obtain ⟨j2, rfl⟩ : ∃ j2, j = j2 + 1 := ⟨j - 1, by omega⟩
  rw [dpAt_succ hloc m i2 j2 hj]
  omega

/-- A cell is 0 or the third term of a cell that is not below and not right of it. -/
theorem dpAt_attained {ext : (Nat → Nat → Nat) → Nat → Nat → Nat} (hloc : ExtLocal ext)
    (m : Nat) :
    ∀ (i j : Nat), j ≤ m → dpAt ext m i j = 0 ∨
      ∃ i2 j2, 1 ≤ i2 ∧ i2 ≤ i ∧ 1 ≤ j2 ∧ j2 ≤ j ∧ ext (dpAt ext m) i2 j2 = dpAt ext m i j := by
  intro i
  induction i with
  | zero => intro j _; exact Or.inl (dpAt_zero_row ext m j)
  | succ i ihi =>
    intro j
    induction j with
    | zero => intro _; exact Or.inl (dpAt_zero_col ext m (i + 1))
    | succ j ihj =>
      intro hj
      have hrec := dpAt_succ hloc m i j hj
      rcases Nat.lt_or_ge (max (dpAt ext m i (j + 1)) (dpAt ext m (i + 1) j))
          (ext (dpAt ext m) (i + 1) (j + 1)) with h | h
      · right
        refine ⟨i + 1, j + 1, by omega, le_refl _, by omega, le_refl _, ?_⟩
        rw [hrec]; omega
      · rcases Nat.le_total (dpAt ext m i (j + 1)) (dpAt ext m (i + 1) j) with h2 | h2
        · have heq : dpAt ext m (i + 1) (j + 1) = dpAt ext m (i + 1) j := by rw [hrec]; omega
          rcases ihj (by omega) with h3 | ⟨i2, j2, a, b, c, d, e⟩
          · left; rw [heq]; exact h3
          · right; exact ⟨i2, j2, a, b, c, by omega, by rw [heq]; exact e⟩
        · have heq : dpAt ext m (i + 1) (j + 1) = dpAt ext m i (j + 1) := by rw [hrec]; omega
          rcases ihi (j + 1) hj with h3 | ⟨i2, j2, a, b, c, d, e⟩
          · left; rw [heq]; exact h3
          · right; exact ⟨i2, j2, a, by omega, c, d, by rw [heq]; exact e⟩

/-! ## maxList -/

theorem maxList_nil : maxList [] = 0 := rfl

theorem maxList_cons (x : Nat) (l : List Nat) : maxList (x :: l) = max x (maxList l) := rfl

theorem le_maxList : ∀ {l : List Nat} {x : Nat}, x ∈ l → x ≤ maxList l := by
  intro l
  induction l with
  | nil => intro x h; simp at h
  | cons y l ih =>
    intro x h
    rw [maxList_cons]
    rcases List.mem_cons.mp h with h | h
    · subst h; exact le_max_left _ _
    · exact le_trans (ih h) (le_max_right _ _)

theorem maxList_le : ∀ {l : List Nat} {v : Nat}, (∀ x ∈ l, x ≤ v) → maxList l ≤ v := by
  intro l
  induction l with
  | nil => intro v _; exact Nat.zero_le _
  | cons y l ih =>
    intro v h
    rw [maxList_cons]
    exact max_le (h y (by simp)) (ih (fun x hx => h x (by simp [hx])))

theorem maxList_mem : ∀ {l : List Nat}, l ≠ [] → maxList l ∈ l := by
  intro l
  induction l with
  | nil => intro h; exact absurd rfl h
  | cons y l ih =>
    intro _
    rw [maxList_cons]
    by_cases hl : l = []
    · subst hl
      simp [maxList_nil]
    · rcases Nat.le_total y (maxList l) with h | h
      · rw [max_eq_right h]
        exact List.mem_cons_of_mem _ (ih hl)
      · rw [max_eq_left h]
        exact List.mem_cons_self _ _

/-! ## Common blocks -/

/-- A block match, position by position. -/
theorem isBlockMatch_iff {a b : List Char} {q r c : Nat} :
    isBlockMatch a b q r c = true ↔
      r + q ≤ a.length ∧ c + q ≤ b.length ∧ ∀ t, t < q → a[r + t]? = b[c + t]? := by
  unfold isBlockMatch
  simp only [decide_eq_true_eq]
  constructor
  · rintro ⟨h1, h2, h3⟩
    refine ⟨h1, h2, fun t ht => ?_⟩
    have := congrArg (fun l => l[t]?) h3
    simpa only [List.getElem?_take_of_lt ht, List.getElem?_drop] using this
  · rintro ⟨h1, h2, h3⟩
    refine ⟨h1, h2, ?_⟩
    apply List.ext_getElem?
    intro t
    by_cases ht : t < q
    · rw [List.getElem?_take_of_lt ht, List.getElem?_take_of_lt ht, List.getElem?_drop,
        List.getElem?_drop]
      exact h3 t ht
    · rw [List.getElem?_eq_none (by simp; omega), List.getElem?_eq_none (by simp; omega)]

/-- The last `k` positions of a common block are a common block. -/
theorem isBlockMatch_suffix {a b : List Char} {q r c k : Nat}
    (h : isBlockMatch a b q r c = true) (hk : k ≤ q) :
    isBlockMatch a b k (r + q - k) (c + q - k) = true := by
  rw [isBlockMatch_iff] at h ⊢
  obtain ⟨h1, h2, h3⟩ := h
  refine ⟨by omega, by omega, fun t ht => ?_⟩
  have := h3 (q - k + t) (by omega)
  have e1 : r + q - k + t = r + (q - k + t) := by omega
  have e2 : c + q - k + t = c + (q - k + t) := by omega
  rw [e1, e2]
  exact this

/-- The first `q` positions of a common block of length `q + 1` are a common block. -/
theorem isBlockMatch_init {a b : List Char} {q r c : Nat}
    (h : isBlockMatch a b (q + 1) r c = true) : isBlockMatch a b q r c = true := by
  rw [isBlockMatch_iff] at h ⊢
  obtain ⟨h1, h2, h3⟩ := h
  exact ⟨by omega, by omega, fun t ht => h3 t (by omega)⟩

/-- A common block followed by a position at which the strings agree is a common
block. -/
theorem isBlockMatch_snoc {a b : List Char} {q r c : Nat}
    (h : isBlockMatch a b q r c = true) (h1 : r + q < a.length) (h2 : c + q < b.length)
    (h3 : a[r + q]? = b[c + q]?) : isBlockMatch a b (q + 1) r c = true := by
  rw [isBlockMatch_iff] at h ⊢
  obtain ⟨_, _, g3⟩ := h
  refine ⟨by omega, by omega, fun t ht => ?_⟩
  rcases Nat.lt_or_ge t q with h | h
  · exact g3 t h
  · have : t = q := by omega
    subst this
    exact h3

theorem mem_blockLengths {a b : List Char} {k i j q : Nat} :
    q ∈ blockLengths a b k i j ↔
      1 ≤ q ∧ q ≤ i ∧ q ≤ j ∧ k ≤ q ∧ isBlockMatch a b q (i - q) (j - q) = true := by
  unfold blockLengths
  simp only [List.mem_filter, List.mem_range'_1, Bool.and_eq_true, decide_eq_true_eq]
  constructor
  · rintro ⟨⟨h1, h2⟩, h3, h4⟩
    exact ⟨h1, by omega, by omega, h3, h4⟩
  · rintro ⟨h1, h2, h3, h4, h5⟩
    exact ⟨⟨h1, by omega⟩, h4, h5⟩

/-! ## The third terms read rows above only -/

theorem extLocal_lcskppExt (a b : List Char) (k : Nat) : ExtLocal (lcskppExt a b k) := by
  intro look look2 i j h
  unfold lcskppExt
  congr 1
  apply List.map_congr_left
  intro q hq
  obtain ⟨h1, h2, _⟩ := mem_blockLengths.mp hq
  rw [h (i - q) (j - q) (by omega)]

theorem extLocal_lcskExt (a b : List Char) {k : Nat} (hk : 1 ≤ k) : ExtLocal (lcskExt a b k) := by
  intro look look2 i j h
  unfold lcskExt
  split
  · rename_i hc
    rw [h (i - k) (j - k) (by omega)]
  · rfl

/-! ## The best chain that ends with a given block, LCSk++ -/

/-- For a match `(i, c)` that does not continue a match `(i - 1, c - 1)`, the third term
of cell `(i + k, c + k)` is `dp[i][c] + k`. -/
theorem lcskppExt_fresh {a b : List Char} {k : Nat} (hk : 1 ≤ k) (look : Nat → Nat → Nat)
    {i c : Nat} (hm : isBlockMatch a b k i c = true)
    (hno : ¬ (1 ≤ i ∧ 1 ≤ c ∧ isBlockMatch a b k (i - 1) (c - 1) = true)) :
    lcskppExt a b k look (i + k) (c + k) = look i c + k := by
  unfold lcskppExt
  apply le_antisymm
  · apply maxList_le
    intro x hx
    simp only [List.mem_map] at hx
    obtain ⟨q, hq, rfl⟩ := hx
    obtain ⟨h1, h2, h3, h4, h5⟩ := mem_blockLengths.mp hq
    rcases Nat.eq_or_lt_of_le h4 with heq | hlt
    · subst heq
      simp
    · exfalso
      apply hno
      obtain ⟨q2, rfl⟩ : ∃ q2, q = q2 + 1 := ⟨q - 1, by omega⟩
      have h6 := isBlockMatch_suffix (isBlockMatch_init h5) (show k ≤ q2 by omega)
      have e1 : i + k - (q2 + 1) + q2 - k = i - 1 := by omega
      have e2 : c + k - (q2 + 1) + q2 - k = c - 1 := by omega
      rw [e1, e2] at h6
      exact ⟨by omega, by omega, h6⟩
  · apply le_maxList
    simp only [List.mem_map]
    refine ⟨k, mem_blockLengths.mpr ⟨hk, by omega, by omega, le_refl _, ?_⟩, by simp⟩
    simpa using hm

/-- For a match `(i, c)` that continues a match `(i - 1, c - 1)`, the third term of cell
`(i + k, c + k)` is the greater of `dp[i][c] + k` and one more than the third term of cell
`(i + k - 1, c + k - 1)`. -/
theorem lcskppExt_cont {a b : List Char} {k : Nat} (hk : 1 ≤ k) (look : Nat → Nat → Nat)
    {i c : Nat} (hm : isBlockMatch a b k i c = true) (hi : 1 ≤ i) (hc : 1 ≤ c)
    (hprev : isBlockMatch a b k (i - 1) (c - 1) = true) :
    lcskppExt a b k look (i + k) (c + k) =
      max (look i c + k) (lcskppExt a b k look (i + k - 1) (c + k - 1) + 1) := by
  have hmi := isBlockMatch_iff.mp hm
  apply le_antisymm
  · unfold lcskppExt
    apply maxList_le
    intro x hx
    simp only [List.mem_map] at hx
    obtain ⟨q, hq, rfl⟩ := hx
    obtain ⟨h1, h2, h3, h4, h5⟩ := mem_blockLengths.mp hq
    rcases Nat.eq_or_lt_of_le h4 with heq | hlt
    · subst heq
      simp
    · obtain ⟨q2, rfl⟩ : ∃ q2, q = q2 + 1 := ⟨q - 1, by omega⟩
      apply le_trans _ (le_max_right _ _)
      have hmem : q2 ∈ blockLengths a b k (i + k - 1) (c + k - 1) := by
        refine mem_blockLengths.mpr ⟨by omega, by omega, by omega, by omega, ?_⟩
        have := isBlockMatch_init h5
        have e1 : i + k - 1 - q2 = i + k - (q2 + 1) := by omega
        have e2 : c + k - 1 - q2 = c + k - (q2 + 1) := by omega
        rw [e1, e2]
        exact this
      have := le_maxList (List.mem_map_of_mem
        (fun q => look (i + k - 1 - q) (c + k - 1 - q) + q) hmem)
      have e1 : i + k - 1 - q2 = i + k - (q2 + 1) := by omega
      have e2 : c + k - 1 - q2 = c + k - (q2 + 1) := by omega
      simp only [e1, e2] at this
      omega
  · apply max_le
    · unfold lcskppExt
      apply le_maxList
      simp only [List.mem_map]
      refine ⟨k, mem_blockLengths.mpr ⟨hk, by omega, by omega, le_refl _, ?_⟩, by simp⟩
      simpa using hm
    · have hne : blockLengths a b k (i + k - 1) (c + k - 1) ≠ [] := by
        intro hnil
        have : k ∈ blockLengths a b k (i + k - 1) (c + k - 1) := by
          refine mem_blockLengths.mpr ⟨hk, by omega, by omega, le_refl _, ?_⟩
          have e1 : i + k - 1 - k = i - 1 := by omega
          have e2 : c + k - 1 - k = c - 1 := by omega
          rw [e1, e2]
          exact hprev
        rw [hnil] at this
        simp at this
      have hne2 : (blockLengths a b k (i + k - 1) (c + k - 1)).map
          (fun q => look (i + k - 1 - q) (c + k - 1 - q) + q) ≠ [] := by
        simpa using hne
      have hmem := maxList_mem hne2
      simp only [List.mem_map] at hmem
      obtain ⟨q, hq, hqe⟩ := hmem
      obtain ⟨h1, h2, h3, h4, h5⟩ := mem_blockLengths.mp hq
      have hstep : q + 1 ∈ blockLengths a b k (i + k) (c + k) := by
        refine mem_blockLengths.mpr ⟨by omega, by omega, by omega, by omega, ?_⟩
        have e1 : i + k - (q + 1) = i + k - 1 - q := by omega
        have e2 : c + k - (q + 1) = c + k - 1 - q := by omega
        rw [e1, e2]
        apply isBlockMatch_snoc h5 (by omega) (by omega)
        have := hmi.2.2 (k - 1) (by omega)
        have e3 : i + k - 1 - q + q = i + (k - 1) := by omega
        have e4 : c + k - 1 - q + q = c + (k - 1) := by omega
        rw [e3, e4]
        exact this
      have := le_maxList (List.mem_map_of_mem
        (fun q => look (i + k - q) (c + k - q) + q) hstep)
      have e1 : i + k - (q + 1) = i + k - 1 - q := by omega
      have e2 : c + k - (q + 1) = c + k - 1 - q := by omega
      simp only [e1, e2] at this
      unfold lcskppExt
      omega

/-- A third term that is not 0 belongs to a cell at which a common block of length `k`
ends. -/
theorem lcskppExt_pos {a b : List Char} {k : Nat} (look : Nat → Nat → Nat) {i j : Nat}
    (h : lcskppExt a b k look i j ≠ 0) :
    k ≤ i ∧ k ≤ j ∧ isBlockMatch a b k (i - k) (j - k) = true := by
  unfold lcskppExt at h
  have hne : blockLengths a b k i j ≠ [] := by
    intro hnil
    rw [hnil] at h
    exact h rfl
  obtain ⟨q, hq⟩ := List.exists_mem_of_ne_nil _ hne
  obtain ⟨h1, h2, h3, h4, h5⟩ := mem_blockLengths.mp hq
  have := isBlockMatch_suffix h5 h4
  have e1 : i - q + q - k = i - k := by omega
  have e2 : j - q + q - k = j - k := by omega
  rw [e1, e2] at this
  exact ⟨by omega, by omega, this⟩

/-! ## The reference tables satisfy the score specification -/

/-- A match of the match source is a common block. -/
theorem mem_rowsMatches_getD {a b : List Char} {k i : Nat} {j : Int}
    (h : j ∈ (rowsMatches a b k).getD i []) :
    ∃ c : Nat, (c : Int) = j ∧ isBlockMatch a b k i c = true := by
  rw [rowsMatches_getD] at h
  exact mem_getNextMatches.mp h

theorem rowsMatches_getD_mem {a b : List Char} {k i c : Nat}
    (h : isBlockMatch a b k i c = true) : (c : Int) ∈ (rowsMatches a b k).getD i [] := by
  rw [rowsMatches_getD]
  exact mem_getNextMatches.mpr ⟨c, rfl, h⟩

/-- The table of a dynamic program `dp[i][j] = max(dp[i-1][j], dp[i][j-1], ext)` whose
third term follows the rules of the chains of blocks gives functions `D` (the third term
at the cell after the end of a block) and `B` (the table at the start of a block) that
satisfy the score specification of the sweep, and the last cell of the table is the best
score. -/
theorem dp_scoreSpec {a b : List Char} {k : Nat} (hk : 1 ≤ k) (plus : Bool)
    {ext : (Nat → Nat → Nat) → Nat → Nat → Nat} (hloc : ExtLocal ext)
    (hpos : ∀ i j, ext (dpAt ext b.length) i j ≠ 0 →
      k ≤ i ∧ k ≤ j ∧ isBlockMatch a b k (i - k) (j - k) = true)
    (hfresh : ∀ i c, isBlockMatch a b k i c = true →
      ¬ (plus = true ∧ 1 ≤ i ∧ 1 ≤ c ∧ isBlockMatch a b k (i - 1) (c - 1) = true) →
      ext (dpAt ext b.length) (i + k) (c + k) = dpAt ext b.length i c + k)
    (hcont : ∀ i c, isBlockMatch a b k i c = true → plus = true → 1 ≤ i → 1 ≤ c →
      isBlockMatch a b k (i - 1) (c - 1) = true →
      ext (dpAt ext b.length) (i + k) (c + k) =
        max (dpAt ext b.length i c + k) (ext (dpAt ext b.length) (i + k - 1) (c + k - 1) + 1)) :
    ScoreSpec k plus (rowsMatches a b k)
        (fun r c => ((ext (dpAt ext b.length) (r + 1).toNat (c + 1).toNat : Nat) : Int))
        (fun i j => ((dpAt ext b.length i.toNat j.toNat : Nat) : Int)) ∧
      IsBestScore k (rowsMatches a b k)
        (fun r c => ((ext (dpAt ext b.length) (r + 1).toNat (c + 1).toNat : Nat) : Int))
        ((dpAt ext b.length a.length b.length : Nat) : Int) := by
  have e1 : ∀ (i : Nat), (((i : Int) + (k : Int) - 1 + 1)).toNat = i + k := by
    intro i; omega
  have e2 : ∀ (i : Nat), (1 ≤ i) → (((i : Int) + (k : Int) - 2 + 1)).toNat = i + k - 1 := by
    intro i hi; omega
  have e3 : ∀ (i : Nat), ((i : Int)).toNat = i := by
    intro i; omega
  have hupper : ∀ (i2 c2 i c : Nat), isBlockMatch a b k i2 c2 = true → i2 + k ≤ i →
      c2 + k ≤ c → c ≤ b.length →
      ext (dpAt ext b.length) (i2 + k) (c2 + k) ≤ dpAt ext b.length i c := by
    intro i2 c2 i c hm hi hc hcb
    exact le_trans (ext_le_dpAt hloc b.length (by omega) (by omega) (by omega))
      (dpAt_mono hloc b.length hi hc hcb)
  have hatt : ∀ (i c : Nat), c ≤ b.length → dpAt ext b.length i c = 0 ∨
      ∃ (i2 c2 : Nat), isBlockMatch a b k i2 c2 = true ∧ i2 + k ≤ i ∧ c2 + k ≤ c ∧
        ext (dpAt ext b.length) (i2 + k) (c2 + k) = dpAt ext b.length i c := by
    intro i c hcb
    rcases Nat.eq_zero_or_pos (dpAt ext b.length i c) with h0 | h0
    · exact Or.inl h0
    · right
      rcases dpAt_attained hloc b.length i c hcb with h | ⟨i2, j2, h1, h2, h3, h4, h5⟩
      · omega
      · obtain ⟨g1, g2, g3⟩ := hpos i2 j2 (by omega)
        refine ⟨i2 - k, j2 - k, g3, by omega, by omega, ?_⟩
        rw [Nat.sub_add_cancel g1, Nat.sub_add_cancel g2]
        exact h5
  refine ⟨⟨?_, ?_, ?_, ?_, ?_⟩, ?_, ?_⟩
  · intro i j _
    exact Int.ofNat_nonneg _
  · intro i j hj i2 j2 hj2 hi hjj
    obtain ⟨c, rfl, hc⟩ := mem_rowsMatches_getD hj
    obtain ⟨c2, rfl, hc2⟩ := mem_rowsMatches_getD hj2
    have hb := (isBlockMatch_iff.mp hc).2.1
    simp only [e1, e3]
    exact_mod_cast hupper i2 c2 i c hc2 hi (by omega) (by omega)
  · intro i j hj
    obtain ⟨c, rfl, hc⟩ := mem_rowsMatches_getD hj
    have hb := (isBlockMatch_iff.mp hc).2.1
    simp only [e3]
    rcases hatt i c (by omega) with h | ⟨i2, c2, h1, h2, h3, h4⟩
    · left
      exact_mod_cast h
    · right
      refine ⟨i2, (c2 : Int), rowsMatches_getD_mem h1, h2, by omega, ?_⟩
      simp only [e1]
      exact_mod_cast h4
  · intro i j hj hno
    obtain ⟨c, rfl, hc⟩ := mem_rowsMatches_getD hj
    simp only [e1, e3]
    have := hfresh i c hc (by
      rintro ⟨h1, h2, h3, h4⟩
      apply hno
      refine ⟨h1, h2, ?_⟩
      have := rowsMatches_getD_mem h4
      have e : ((c - 1 : Nat) : Int) = (c : Int) - 1 := by omega
      rw [e] at this
      exact this)
    exact_mod_cast this
  · intro i j hj hp hi hprev
    obtain ⟨c, rfl, hc⟩ := mem_rowsMatches_getD hj
    obtain ⟨c2, hc2e, hc2⟩ := mem_rowsMatches_getD hprev
    have hc1 : 1 ≤ c := by omega
    have hc2' : c2 = c - 1 := by omega
    subst hc2'
    simp only [e1, e3, e2 i hi, e2 c hc1]
    have := hcont i c hc hp hi hc1 hc2
    rw [this]
    push_cast
    rfl
  · intro i j hj _
    obtain ⟨c, rfl, hc⟩ := mem_rowsMatches_getD hj
    obtain ⟨h1, h2, _⟩ := isBlockMatch_iff.mp hc
    simp only [e1]
    exact_mod_cast hupper i c a.length b.length hc h1 h2 (le_refl _)
  · rcases hatt a.length b.length (le_refl _) with h | ⟨i2, c2, h1, h2, h3, h4⟩
    · left
      exact_mod_cast h
    · right
      refine ⟨i2, (c2 : Int), rowsMatches_getD_mem h1, ?_, ?_⟩
      · rw [rowsMatches_length]; omega
      · simp only [e1]
        exact_mod_cast h4

/-- The single-start engine on the match source returns as many pairs as the last cell of
such a table says. -/
theorem fast_length_eq_dp (use_amortized : Nat → Nat → Bool) {a b : List Char} {k : Nat}
    (hk : 1 ≤ k) (plus : Bool)
    {ext : (Nat → Nat → Nat) → Nat → Nat → Nat} (hloc : ExtLocal ext)
    (hpos : ∀ i j, ext (dpAt ext b.length) i j ≠ 0 →
      k ≤ i ∧ k ≤ j ∧ isBlockMatch a b k (i - k) (j - k) = true)
    (hfresh : ∀ i c, isBlockMatch a b k i c = true →
      ¬ (plus = true ∧ 1 ≤ i ∧ 1 ≤ c ∧ isBlockMatch a b k (i - 1) (c - 1) = true) →
      ext (dpAt ext b.length) (i + k) (c + k) = dpAt ext b.length i c + k)
    (hcont : ∀ i c, isBlockMatch a b k i c = true → plus = true → 1 ≤ i → 1 ≤ c →
      isBlockMatch a b k (i - 1) (c - 1) = true →
      ext (dpAt ext b.length) (i + k) (c + k) =
        max (dpAt ext b.length i c + k) (ext (dpAt ext b.length) (i + k - 1) (c + k - 1) + 1)) :
    ∃ recon,
      LcskppSparseFast use_amortized a b
        { k := k, lcsk_plus := plus, mode := Mode.SINGLESTART, reverse := false } = some recon ∧
      recon.length = dpAt ext b.length a.length b.length := by
  obtain ⟨hS, hB⟩ := dp_scoreSpec hk plus hloc hpos hfresh hcont
  obtain ⟨out, h1, h2⟩ := engine_score use_amortized hk (rowsSorted_rowsMatches a b k) hS hB
  refine ⟨out, ?_, by exact_mod_cast h2⟩
  simp only [LcskppSparseFast, LcskppSparseFastImpl, h1]
  rfl

/-- The hypotheses of the table theorem for the LCSk++ program. -/
theorem lcskpp_length (use_amortized : Nat → Nat → Bool) (a b : List Char) {k : Nat}
    (hk : 1 ≤ k) :
    ∃ recon,
      LcskppSparseFast use_amortized a b
        { k := k, lcsk_plus := true, mode := Mode.SINGLESTART, reverse := false } = some recon ∧
      recon.length = LcskppSlowScore a b k := by
  apply fast_length_eq_dp use_amortized hk true (extLocal_lcskppExt a b k)
  · intro i j h
    exact lcskppExt_pos _ h
  · intro i c hm hno
    exact lcskppExt_fresh hk _ hm (fun h => hno ⟨rfl, h⟩)
  · intro i c hm _ hi hc hprev
    exact lcskppExt_cont hk _ hm hi hc hprev

/-- The hypotheses of the table theorem for the LCSk program. -/
theorem lcsk_length (use_amortized : Nat → Nat → Bool) (a b : List Char) {k : Nat}
    (hk : 1 ≤ k) :
    ∃ recon,
      LcskppSparseFast use_amortized a b
        { k := k, lcsk_plus := false, mode := Mode.SINGLESTART, reverse := false } = some recon ∧
      recon.length = LcskSlowScore a b k := by
  apply fast_length_eq_dp use_amortized hk false (extLocal_lcskExt a b hk)
  · intro i j h
    unfold lcskExt at h
    split at h
    · assumption
    · exact absurd rfl h
  · intro i c hm _
    unfold lcskExt
    rw [if_pos]
    · simp
    · refine ⟨by omega, by omega, ?_⟩
      simpa using hm
  · intro i c _ hp
    cases hp

/-! ## The reference tables compute the best chain -/

theorem chainScore_nil : chainScore [] = 0 := rfl

theorem lcskppExt_eq (a b : List Char) (k : Nat) (look : Nat → Nat → Nat) (i j : Nat) :
    lcskppExt a b k look i j =
      maxList ((blockLengths a b k i j).map (fun q => look (i - q) (j - q) + q)) := rfl

theorem chainScore_snoc (ch : List Block) (x : Block) :
    chainScore (ch ++ [x]) = chainScore ch + x.len := by
  simp [chainScore]

/-- Every cell of the table is the total length of a chain that ends within the cell. -/
theorem dp_chain_attained {a b : List Char} {lenOk : Nat → Bool}
    {ext : (Nat → Nat → Nat) → Nat → Nat → Nat} (hloc : ExtLocal ext)
    (hlen : ∀ q, lenOk q = true → 1 ≤ q)
    (hsound : ∀ i j, ext (dpAt ext b.length) i j ≠ 0 →
      ∃ q, lenOk q = true ∧ q ≤ i ∧ q ≤ j ∧ isBlockMatch a b q (i - q) (j - q) = true ∧
        ext (dpAt ext b.length) i j = dpAt ext b.length (i - q) (j - q) + q) :
    ∀ (n i j : Nat), i ≤ n → j ≤ b.length →
      ∃ ch, IsChain a b lenOk ch ∧ (∀ x ∈ ch, x.row + x.len ≤ i ∧ x.col + x.len ≤ j) ∧
        chainScore ch = dpAt ext b.length i j := by
  intro n
  induction n with
  | zero =>
    intro i j hi _
    have : i = 0 := by omega
    subst this
    refine ⟨[], ⟨by simp, List.Pairwise.nil⟩, by simp, ?_⟩
    rw [dpAt_zero_row]; rfl
  | succ n ih =>
    intro i j hi hj
    rcases Nat.eq_zero_or_pos (dpAt ext b.length i j) with h0 | h0
    · refine ⟨[], ⟨by simp, List.Pairwise.nil⟩, by simp, ?_⟩
      rw [h0]; rfl
    · rcases dpAt_attained hloc b.length i j hj with h | ⟨i2, j2, h1, h2, h3, h4, h5⟩
      · omega
      · obtain ⟨q, g1, g2, g3, g4, g5⟩ := hsound i2 j2 (by omega)
        have hq := hlen q g1
        obtain ⟨ch0, c1, c2, c3⟩ := ih (i2 - q) (j2 - q) (by omega) (by omega)
        refine ⟨ch0 ++ [⟨i2 - q, j2 - q, q⟩], ⟨?_, ?_⟩, ?_, ?_⟩
        · intro x hx
          rcases List.mem_append.mp hx with hx | hx
          · exact c1.1 x hx
          · rw [List.mem_singleton] at hx
            subst hx
            exact ⟨g1, g4⟩
        · rw [List.pairwise_append]
          refine ⟨c1.2, List.pairwise_singleton _ _, ?_⟩
          intro x hx y hy
          rw [List.mem_singleton] at hy
          subst hy
          exact c2 x hx
        · intro x hx
          rcases List.mem_append.mp hx with hx | hx
          · have := c2 x hx
            omega
          · rw [List.mem_singleton] at hx
            subst hx
            show i2 - q + q ≤ i ∧ j2 - q + q ≤ j
            omega
        · rw [chainScore_snoc, c3]
          show dpAt ext b.length (i2 - q) (j2 - q) + q = _
          omega

/-- No chain that ends within a cell is longer than the cell says. -/
theorem dp_chain_upper {a b : List Char} {lenOk : Nat → Bool}
    {ext : (Nat → Nat → Nat) → Nat → Nat → Nat} (hloc : ExtLocal ext)
    (hlen : ∀ q, lenOk q = true → 1 ≤ q)
    (hcomplete : ∀ r c q, lenOk q = true → isBlockMatch a b q r c = true →
      dpAt ext b.length r c + q ≤ ext (dpAt ext b.length) (r + q) (c + q)) :
    ∀ (ch : List Block), IsChain a b lenOk ch → ∀ (i j : Nat), j ≤ b.length →
      (∀ x ∈ ch, x.row + x.len ≤ i ∧ x.col + x.len ≤ j) →
      chainScore ch ≤ dpAt ext b.length i j := by
  intro ch
  induction ch using List.reverseRecOn with
  | nil =>
    intro _ i j _ _
    rw [chainScore_nil]
    exact Nat.zero_le _
  | append_singleton ch0 x ih =>
    intro hch i j hj hend
    obtain ⟨hx1, hx2⟩ := hch.1 x (by simp)
    have hq := hlen _ hx1
    have hxe := hend x (by simp)
    have hpw := List.pairwise_append.mp hch.2
    have h0 : IsChain a b lenOk ch0 :=
      ⟨fun y hy => hch.1 y (List.mem_append_left _ hy), hpw.1⟩
    have hb := (isBlockMatch_iff.mp hx2).2.1
    have h1 := ih h0 x.row x.col (by omega)
      (fun y hy => hpw.2.2 y hy x (List.mem_singleton_self x))
    have h2 := hcomplete x.row x.col x.len hx1 hx2
    have h3 := ext_le_dpAt hloc b.length (show 1 ≤ x.row + x.len by omega)
      (show 1 ≤ x.col + x.len by omega) (show x.col + x.len ≤ b.length by omega)
    have h4 := dpAt_mono hloc b.length hxe.1 hxe.2 hj
    rw [chainScore_snoc]
    omega

/-- The last cell of the table is the greatest total length of a chain. -/
theorem dp_chain_optimum {a b : List Char} {lenOk : Nat → Bool}
    {ext : (Nat → Nat → Nat) → Nat → Nat → Nat} (hloc : ExtLocal ext)
    (hlen : ∀ q, lenOk q = true → 1 ≤ q)
    (hsound : ∀ i j, ext (dpAt ext b.length) i j ≠ 0 →
      ∃ q, lenOk q = true ∧ q ≤ i ∧ q ≤ j ∧ isBlockMatch a b q (i - q) (j - q) = true ∧
        ext (dpAt ext b.length) i j = dpAt ext b.length (i - q) (j - q) + q)
    (hcomplete : ∀ r c q, lenOk q = true → isBlockMatch a b q r c = true →
      dpAt ext b.length r c + q ≤ ext (dpAt ext b.length) (r + q) (c + q)) :
    IsChainOptimum a b lenOk (dpAt ext b.length a.length b.length) := by
  constructor
  · obtain ⟨ch, h1, _, h3⟩ := dp_chain_attained hloc hlen hsound a.length a.length b.length
      (le_refl _) (le_refl _)
    exact ⟨ch, h1, h3⟩
  · intro ch hch
    apply dp_chain_upper hloc hlen hcomplete ch hch a.length b.length (le_refl _)
    intro x hx
    obtain ⟨_, h⟩ := hch.1 x hx
    obtain ⟨h1, h2, _⟩ := isBlockMatch_iff.mp h
    exact ⟨h1, h2⟩

/-- The LCSk++ reference program computes the greatest total length of a chain of common
substrings of length at least `k`. -/
theorem lcskppSlowScore_optimum (a b : List Char) {k : Nat} (hk : 1 ≤ k) :
    IsChainOptimum a b (fun q => decide (k ≤ q)) (LcskppSlowScore a b k) := by
  apply dp_chain_optimum (extLocal_lcskppExt a b k)
  · intro q hq
    simp only [decide_eq_true_eq] at hq
    omega
  · intro i j h
    have hne : (blockLengths a b k i j).map
        (fun q => dpAt (lcskppExt a b k) b.length (i - q) (j - q) + q) ≠ [] := by
      intro hnil
      apply h
      rw [lcskppExt_eq, hnil]
      rfl
    have hmem := maxList_mem hne
    simp only [List.mem_map] at hmem
    obtain ⟨q, hq, hqe⟩ := hmem
    obtain ⟨h1, h2, h3, h4, h5⟩ := mem_blockLengths.mp hq
    refine ⟨q, by simpa using h4, h2, h3, h5, ?_⟩
    rw [lcskppExt_eq]
    exact hqe.symm
  · intro r c q hq hm
    simp only [decide_eq_true_eq] at hq
    rw [lcskppExt_eq]
    have hmem : q ∈ blockLengths a b k (r + q) (c + q) := by
      refine mem_blockLengths.mpr ⟨by omega, by omega, by omega, hq, ?_⟩
      simpa using hm
    have := le_maxList (List.mem_map_of_mem
      (fun q2 => dpAt (lcskppExt a b k) b.length (r + q - q2) (c + q - q2) + q2) hmem)
    simpa using this

/-- The LCSk reference program computes the greatest total length of a chain of common
blocks of length `k`. -/
theorem lcskSlowScore_optimum (a b : List Char) {k : Nat} (hk : 1 ≤ k) :
    IsChainOptimum a b (fun q => decide (q = k)) (LcskSlowScore a b k) := by
  apply dp_chain_optimum (extLocal_lcskExt a b hk)
  · intro q hq
    simp only [decide_eq_true_eq] at hq
    omega
  · intro i j h
    unfold lcskExt at h ⊢
    split at h
    · rename_i hc
      refine ⟨k, by simp, hc.1, hc.2.1, hc.2.2, ?_⟩
      rw [if_pos hc]
    · exact absurd rfl h
  · intro r c q hq hm
    simp only [decide_eq_true_eq] at hq
    subst hq
    unfold lcskExt
    rw [if_pos]
    · simp
    · refine ⟨by omega, by omega, ?_⟩
      simpa using hm

/-- A chain of blocks of length `k` has total length `k` times the number of its
blocks. -/
theorem chainScore_eq_mul {a b : List Char} {k : Nat} {ch : List Block}
    (h : IsChain a b (fun q => decide (q = k)) ch) : chainScore ch = k * ch.length := by
  have : ∀ x ∈ ch, x.len = k := by
    intro x hx
    simpa using (h.1 x hx).1
  clear h
  induction ch with
  | nil => simp [chainScore]
  | cons x ch ih =>
    have hx := this x (by simp)
    have := ih (fun y hy => this y (by simp [hy]))
    simp only [chainScore, List.map_cons, List.sum_cons, List.length_cons] at this ⊢
    rw [this, hx]
    ring

/-! ## The sweep over a prefix of the rows -/

theorem rowsSorted_take {ms : List (List Int)} (hms : RowsSorted ms) (n : Nat) :
    RowsSorted (ms.take n) :=
  fun row hrow => hms row (List.mem_of_mem_take hrow)

/-- The sweep over a list of rows is the sweep over its first part followed by the sweep
over the rest. -/
theorem sweep_append (use_amortized : Nat → Nat → Bool) (k : Nat) (plus : Bool) :
    ∀ (l1 l2 : List (List Int)) (row : Int) (s : SweepState),
      sweep use_amortized k plus (l1 ++ l2) row s =
        (sweep use_amortized k plus l1 row s).bind
          (fun s1 => sweep use_amortized k plus l2 (row + l1.length) s1) := by
  intro l1
  induction l1 with
  | nil => intro l2 row s; simp [sweep]
  | cons x l1 ih =>
    intro l2 row s
    simp only [List.cons_append, sweep]
    cases h : rowStep use_amortized k plus row x s with
    | none => rfl
    | some s1 =>
      simp only
      rw [show l1.append l2 = l1 ++ l2 from rfl, ih]
      have : row + 1 + (l1.length : Int) = row + ((x :: l1).length : Int) := by
        simp only [List.length_cons]; push_cast; ring
      rw [this]

/-- The state after the first `n` rows is the state from which the sweep goes on over the
remaining rows. -/
theorem sweep_eq_prefix_bind (use_amortized : Nat → Nat → Bool) (k : Nat) (plus : Bool)
    (ms : List (List Int)) (n : Nat) :
    sweep use_amortized k plus ms 0 initialState =
      (sweepPrefix use_amortized k plus ms n).bind
        (fun s => sweep use_amortized k plus (ms.drop n) ((ms.take n).length : Int) s) := by
  unfold sweepPrefix
  have := sweep_append use_amortized k plus (ms.take n) (ms.drop n) 0 initialState
  rw [List.take_append_drop] at this
  rw [this]
  simp

/-- After any prefix of the rows of a sorted match list the sweep has not failed, its
state satisfies the invariant, and it is the same for every choice of query strategy. -/
theorem sweepPrefix_inv (use_amortized : Nat → Nat → Bool) {k : Nat} (plus : Bool)
    {ms : List (List Int)} (hk : 1 ≤ k) (hms : RowsSorted ms) (n : Nat) :
    ∃ s, sweepPrefix use_amortized k plus ms n = some s ∧
      SweepInv k plus (ms.take n) ((ms.take n).length : Int) s ∧
      sweepPrefix (fun _ _ => true) k plus ms n = some s := by
  obtain ⟨s, h1, h2, h3⟩ := sweep_inv use_amortized hk (rowsSorted_take hms n) (ms.take n) 0
    initialState rfl (by simpa using initialState_inv k plus (ms.take n))
  simp only [Nat.zero_add] at h2
  exact ⟨s, by simpa [sweepPrefix] using h1, h2, by simpa [sweepPrefix] using h3⟩

/-- The state after any prefix of the rows does not depend on the choice of strategy. -/
theorem sweepPrefix_strategy (ua ua2 : Nat → Nat → Bool) {k : Nat} (plus : Bool)
    {ms : List (List Int)} (hk : 1 ≤ k) (hms : RowsSorted ms) (n : Nat) :
    sweepPrefix ua k plus ms n = sweepPrefix ua2 k plus ms n := by
  obtain ⟨s, h1, _, h3⟩ := sweepPrefix_inv ua plus hk hms n
  obtain ⟨s2, g1, _, g3⟩ := sweepPrefix_inv ua2 plus hk hms n
  rw [h1, g1, ← h3, g3]

/-! ## Chains -/

theorem good_chain_stepOk {k : Nat} {ms : List (List Int)} :
    ∀ (N : MatchPair), Good k ms N → ∀ M ∈ chainNodes N, StepOk k M ∧ Good k ms M := by
  intro N
  induction N with
  | null => intro h; exact absurd h (by simp [Good])
  | node r c d prev ih =>
    intro hg M hM
    simp only [chainNodes, List.mem_cons] at hM
    rcases hM with hM | hM
    · subst hM
      refine ⟨?_, hg⟩
      rcases hg.2 with ⟨h, _⟩ | ⟨_, _, h1, h2, _⟩ | ⟨_, _, h1, h2, _⟩
      · exact Or.inl h
      · exact Or.inr (Or.inl ⟨h1, h2⟩)
      · exact Or.inr (Or.inr ⟨h1, h2⟩)
    · rcases hg.2 with ⟨h, _⟩ | ⟨hp, _⟩ | ⟨hp, _⟩
      · simp only [h, chainNodes] at hM
        simp at hM
      · exact ih hp M hM
      · exact ih hp M hM

theorem sentinel_not_good {k : Nat} {ms : List (List Int)} (hk : 1 ≤ k) :
    ¬ Good k ms sentinel := by
  intro h
  have := (good_end_nonneg hk h).1
  simp only [sentinel, MatchPair.end_row] at this
  omega

/-! ## The shape of one fold of the LCSk++ branch -/

/-- The fold of the LCSk++ branch puts the node into the slots `lo + 1 .. dp` for some
`lo` with `dp - k ≤ lo ≤ dp` inside the old table; these slots ended after column `j`,
slot `lo` ends at or before column `j`, and no other slot changes. -/
theorem plus_fold_shape {k : Nat} {T : List MatchPair} {mp : MatchPair} (i j : Int)
    (hd1 : (k : Int) ≤ mp.dp) (hd2 : (mp.dp - k).toNat < T.length)
    (hd3 : colAt T (mp.dp - k).toNat ≤ j) :
    ∃ (dn lo : Nat) (T2 : List MatchPair), mp.dp = (dn : Int) ∧
      foldIntoTable j mp k mp.dp (pushDummies i j (mp.dp + 1 - T.length).toNat T) = some T2 ∧
      dn - k ≤ lo ∧ lo ≤ dn ∧ lo < T.length ∧ T.length ≤ T2.length ∧ dn < T2.length ∧
      colAt T lo ≤ j ∧
      (∀ s, lo < s → s ≤ dn → T2[s]? = some mp) ∧
      (∀ s, ¬(lo < s ∧ s ≤ dn) → T2[s]? = T[s]?) ∧
      (∀ s, lo < s → s ≤ dn → s < T.length → j < colAt T s) := by
  obtain ⟨dn, hdn⟩ := Int.eq_ofNat_of_zero_le (show 0 ≤ mp.dp by omega)
  rw [hdn] at hd1 hd2 hd3 ⊢
  have hkdn : k ≤ dn := by exact_mod_cast hd1
  have hsub : ((dn : Int) - k).toNat = dn - k := by omega
  rw [hsub] at hd2 hd3
  have hn : ((dn : Int) + 1 - T.length).toNat = dn + 1 - T.length := by omega
  rw [hn]
  have hlen1 := pushDummies_length i j (dn + 1 - T.length) T
  obtain ⟨lo, T2, h1, h2, h3, h4, h5, h6, h7⟩ :=
    foldIntoTable_spec j mp k dn (pushDummies i j (dn + 1 - T.length) T) hkdn (by omega)
  have hlo : lo < T.length := by
    by_contra hcon
    have h8 := @pushDummies_colAt_new i j (dn + 1 - T.length) T lo (by omega) (by omega)
    have h9 := h7 (by omega)
    omega
  have hold : ∀ s, s < T.length → (pushDummies i j (dn + 1 - T.length) T)[s]? = T[s]? :=
    fun s hs => pushDummies_getElem?_old i j _ T hs
  have hlocol : colAt T lo ≤ j := by
    by_cases hl : dn - k < lo
    · have := h7 hl
      rwa [colAt_congr (hold lo hlo)] at this
    · have : lo = dn - k := by omega
      rw [this]; exact hd3
  refine ⟨dn, lo, T2, rfl, h1, h2, h3, hlo, by omega, by omega, hlocol, ?_, ?_, ?_⟩
  · intro s hs1 hs2
    rw [h5 s, if_pos ⟨hs1, hs2⟩]
  · intro s hs
    rw [h5 s, if_neg hs]
    by_cases hs3 : s < T.length
    · exact hold s hs3
    · rw [List.getElem?_eq_none (by omega), List.getElem?_eq_none (by omega)]
  · intro s hs1 hs2 hs3
    have := h6 s hs1 hs2
    rwa [colAt_congr (hold s hs3)] at this

/-- In a table of the LCSk++ mode the slots from the slot of a node up to the slot of
its score all end in the column of the node. -/
theorem colAt_eq_upto_dp {k : Nat} {ms : List (List Int)} {rb : Int} {T : List MatchPair}
    (hT : TableInv k true ms rb T) {s : Nat} {N : MatchPair} (hs : 0 < s)
    (hN : T[s]? = some N) {t : Nat} (h1 : s ≤ t) (h2 : (t : Int) ≤ N.dp) :
    colAt T t = N.end_col := by
  obtain ⟨a, b, c⟩ := hT.slotPlus rfl s N hs hN
  have hd : N.dp.toNat < T.length := by omega
  have ht : t < T.length := by omega
  have e1 := hT.mono s t h1 ht
  have e2 := hT.mono t N.dp.toNat (by omega) hd
  rw [colAt_eq_of_getElem? hN] at e1
  omega

theorem getElem?_lt_length {T : List MatchPair} {s : Nat} {N : MatchPair}
    (h : T[s]? = some N) : s < T.length := by
  by_contra hcon
  rw [List.getElem?_eq_none (by omega)] at h
  cases h

theorem tableInv_dp_nonneg {k : Nat} {plus : Bool} {ms : List (List Int)} {rb : Int}
    {T : List MatchPair} (hk : 1 ≤ k) (hT : TableInv k plus ms rb T) {s : Nat}
    {N : MatchPair} (hN : T[s]? = some N) : (s = 0 ∧ N = sentinel) ∨ (0 < s ∧ 0 < N.dp) := by
  rcases Nat.eq_zero_or_pos s with h0 | h0
  · subst h0
    rw [hT.head] at hN
    exact Or.inl ⟨rfl, (Option.some.inj hN).symm⟩
  · exact Or.inr ⟨h0, good_dp_pos hk (hT.good s N h0 hN).1⟩

/-- Folding a node into the table of the LCSk++ branch keeps what is known of the scores
along the table and of the matured nodes. -/
theorem plus_fold_trace {k : Nat} {ms : List (List Int)} {rb : Int} {T : List MatchPair}
    (hk : 1 ≤ k) (hT : TableInv k true ms rb T) {mp : MatchPair} (i j : Int)
    (hc : mp.end_col = j)
    (hd1 : (k : Int) ≤ mp.dp) (hd2 : (mp.dp - k).toNat < T.length)
    (hd3 : colAt T (mp.dp - k).toNat ≤ j) {G : List MatchPair}
    (hP : PlusInv k T) (hG : MaturedInv k true G T) {T2 : List MatchPair}
    (hf : foldIntoTable j mp k mp.dp (pushDummies i j (mp.dp + 1 - T.length).toNat T) =
      some T2) (hle : TableLe T T2) (hslot : colAt T2 mp.dp.toNat ≤ mp.end_col) :
    PlusInv k T2 ∧ MaturedInv k true (G ++ [mp]) T2 := by
  have hk' : (1 : Int) ≤ (k : Int) := by exact_mod_cast hk
  obtain ⟨dn, lo, T2', hdn, hf', h2, h3, hlo, hlen, hdlen, hlocol, hin, hout, hcolold⟩ :=
    @plus_fold_shape k T mp i j hd1 hd2 hd3
  rw [hf] at hf'
  have hT2 : T2' = T2 := (Option.some.inj hf').symm
  subst hT2
  have hcase : ∀ (s : Nat) (N : MatchPair), T2'[s]? = some N →
      (lo < s ∧ s ≤ dn ∧ N = mp) ∨ (¬(lo < s ∧ s ≤ dn) ∧ T[s]? = some N) := by
    intro s N hN
    by_cases hs : lo < s ∧ s ≤ dn
    · rw [hin s hs.1 hs.2] at hN
      exact Or.inl ⟨hs.1, hs.2, (Option.some.inj hN).symm⟩
    · rw [hout s hs] at hN
      exact Or.inr ⟨hs, hN⟩
  -- an old node below the range with a score of at least `dn` makes the range empty
  have hbelow : ∀ (s : Nat) (N : MatchPair), s ≤ lo → T[s]? = some N → lo < dn →
      N.dp < dn := by
    intro s N hs hN hne
    by_contra hcon
    rcases tableInv_dp_nonneg hk hT hN with ⟨_, h0⟩ | ⟨h0, _⟩
    · rw [h0] at hcon
      simp only [sentinel, MatchPair.dp] at hcon
      omega
    · have e1 := colAt_eq_upto_dp hT h0 hN (show s ≤ dn by omega) (by omega)
      have hdl : dn < T.length := by
        obtain ⟨_, b, _⟩ := hT.slotPlus rfl s N h0 hN
        omega
      have e2 := hcolold dn hne (le_refl _) hdl
      have e3 := hT.mono s lo hs hlo
      rw [colAt_eq_of_getElem? hN] at e3
      omega
  refine ⟨⟨?_, ?_, ?_⟩, ⟨?_, ?_, ?_⟩⟩
  · intro s N hs hN
    rcases hcase s N hN with ⟨a, b, c⟩ | ⟨_, c⟩
    · rw [c, hdn]; omega
    · exact hP.upper s N hs c
  · intro s t N M hst hN hM
    rcases hcase s N hN with ⟨a, b, c⟩ | ⟨a, c⟩
    · rcases hcase t M hM with ⟨a2, b2, c2⟩ | ⟨a2, c2⟩
      · rw [c, c2]
      · have ht0 : 0 < t := by omega
        obtain ⟨e1, _, _⟩ := hT.slotPlus rfl t M ht0 c2
        rw [c, hdn]
        omega
    · rcases hcase t M hM with ⟨a2, b2, c2⟩ | ⟨a2, c2⟩
      · have := hbelow s N (by omega) c (by omega)
        rw [c2, hdn]
        omega
      · exact hP.dpMono s t N M hst c c2
  · intro s t N M hN hM hdp
    rcases hcase s N hN with ⟨a, b, c⟩ | ⟨a, c⟩
    · rcases hcase t M hM with ⟨a2, b2, c2⟩ | ⟨a2, c2⟩
      · rw [c, c2]
      · exfalso
        rw [c, hdn] at hdp
        by_cases ht : t ≤ lo
        · have := hbelow t M ht c2 (by omega)
          omega
        · have ht0 : 0 < t := by omega
          obtain ⟨e1, _, _⟩ := hT.slotPlus rfl t M ht0 c2
          omega
    · rcases hcase t M hM with ⟨a2, b2, c2⟩ | ⟨a2, c2⟩
      · exfalso
        rw [c2, hdn] at hdp
        by_cases hs : s ≤ lo
        · have := hbelow s N hs c (by omega)
          omega
        · have hs0 : 0 < s := by omega
          obtain ⟨e1, _, _⟩ := hT.slotPlus rfl s N hs0 c
          omega
      · exact hP.uniq s t N M c c2 hdp
  · intro s N hs hN
    rcases hcase s N hN with ⟨_, _, c⟩ | ⟨_, c⟩
    · rw [c]; simp
    · exact List.mem_append_left _ (hG.fromMatured s N hs c)
  · intro _ X hX
    rcases List.mem_append.mp hX with hX | hX
    · obtain ⟨a, b, c⟩ := hG.lowerPlus rfl X hX
      have hb : X.dp.toNat < T.length := by omega
      exact ⟨a, by have := hle.1; omega, le_trans (hle.2 _ hb) c⟩
    · rw [List.mem_singleton] at hX
      subst hX
      exact ⟨by omega, by omega, hslot⟩
  · intro h; cases h

/-- In LCSk mode the scores along the table are `k * slot`. -/
theorem plain_dp_eq {k : Nat} {ms : List (List Int)} {rb : Int} {T : List MatchPair}
    (hT : TableInv k false ms rb T) {s : Nat} {N : MatchPair} (hN : T[s]? = some N) :
    N.dp = (k : Int) * s := by
  rcases Nat.eq_zero_or_pos s with h0 | h0
  · subst h0
    rw [hT.head] at hN
    rw [← Option.some.inj hN]
    simp [sentinel, MatchPair.dp]
  · exact hT.slotPlain rfl s N h0 hN

/-! ## The nodes folded by the loop of RowUpdate -/

theorem folded_skip (row : Int) (plus : Bool) (prev_row : List MatchPair) (i j : Int)
    (mp : MatchPair) (rest : List EndEvent) (cidx : Nat) (h : i ≠ row) :
    RowUpdate.folded row plus prev_row ((i, j, mp) :: rest) cidx = [] := by
  rw [RowUpdate.folded, if_pos h]

theorem folded_plus (row : Int) (prev_row : List MatchPair) (j : Int)
    (mp : MatchPair) (rest : List EndEvent) (cidx : Nat) :
    RowUpdate.folded row true prev_row ((row, j, mp) :: rest) cidx =
      continueFrom prev_row (advanceContinuation mp.end_col (prev_row.drop cidx) cidx) mp ::
        RowUpdate.folded row true prev_row rest
          (advanceContinuation mp.end_col (prev_row.drop cidx) cidx) := by
  rw [RowUpdate.folded]
  simp

theorem folded_plain (row : Int) (prev_row : List MatchPair) (j : Int)
    (mp : MatchPair) (rest : List EndEvent) (cidx : Nat) :
    RowUpdate.folded row false prev_row ((row, j, mp) :: rest) cidx =
      mp :: RowUpdate.folded row false prev_row rest cidx := by
  rw [RowUpdate.folded]
  simp

/-- One end event of the LCSk branch keeps what is known of the matured nodes. -/
theorem plain_step_trace {k : Nat} {T T2 : List MatchPair} {mp : MatchPair} {G : List MatchPair}
    (hG : MaturedInv k false G T) (hle : TableLe T T2)
    (hprov : ∀ (s : Nat) (N : MatchPair), T2[s]? = some N → N = mp ∨ T[s]? = some N)
    {s0 : Nat} (hd : mp.dp = (k : Int) * (s0 + 1 : Nat)) (hlen : s0 + 1 < T2.length)
    (hcol : colAt T2 (s0 + 1) ≤ mp.end_col) :
    MaturedInv k false (G ++ [mp]) T2 := by
  refine ⟨?_, (fun h => by cases h), ?_⟩
  · intro s N hs hN
    rcases hprov s N hN with h | h
    · rw [h]; simp
    · exact List.mem_append_left _ (hG.fromMatured s N hs h)
  · intro _ X hX
    rcases List.mem_append.mp hX with hX | hX
    · obtain ⟨s, a, b, c, d⟩ := hG.lowerPlain rfl X hX
      exact ⟨s, a, b, lt_of_lt_of_le c hle.1, le_trans (hle.2 _ c) d⟩
    · rw [List.mem_singleton] at hX
      subst hX
      exact ⟨s0 + 1, by omega, hd, hlen, hcol⟩

/-- The loop of `RowUpdate` keeps what is known of the scores along the table and of the
matured nodes, the nodes that it folds being added to the matured nodes. -/
theorem rowUpdate_loop_trace {k : Nat} {plus : Bool} {ms : List (List Int)} (hk : 1 ≤ k)
    {row : Int} {prev_row : List MatchPair} :
    ∀ (endq : List EndEvent) (T cr : List MatchPair) (cidx : Nat) (G : List MatchPair),
      TableInv k plus ms (row + 1) T → (∀ e ∈ endq, Pending k plus ms T e) →
      PrevInv k ms row T prev_row → PrevInv k ms (row + 1) T cr →
      (plus = true → PlusInv k T) → MaturedInv k plus G T →
      ∀ (rest : List EndEvent) (T2 cr2 : List MatchPair),
        RowUpdate.loop k row plus prev_row endq T cr cidx = some (rest, T2, cr2) →
        (plus = true → PlusInv k T2) ∧
          MaturedInv k plus (G ++ RowUpdate.folded row plus prev_row endq cidx) T2 := by
  have hk' : (1 : Int) ≤ (k : Int) := by exact_mod_cast hk
  intro endq
  induction endq with
  | nil =>
    intro T cr cidx G hT _ _ hcr hP hG rest T2 cr2 hloop
    simp only [RowUpdate.loop, Option.some.injEq, Prod.mk.injEq] at hloop
    obtain ⟨_, h2, _⟩ := hloop
    subst h2
    simp only [RowUpdate.folded, List.append_nil]
    exact ⟨hP, hG⟩
  | cons e rest ih =>
    intro T cr cidx G hT hpend hprev hcr hP hG rest0 T0 cr0 hloop
    obtain ⟨i, j, mp⟩ := e
    by_cases hi : i ≠ row
    · rw [rowUpdate_loop_skip k row plus prev_row i j mp rest T cr cidx hi] at hloop
      simp only [Option.some.injEq, Prod.mk.injEq] at hloop
      obtain ⟨_, h2, _⟩ := hloop
      subst h2
      rw [folded_skip row plus prev_row i j mp rest cidx hi, List.append_nil]
      exact ⟨hP, hG⟩
    · have hi' : i = row := not_not.mp hi
      subst hi'
      have hpe := hpend (i, j, mp) (by simp)
      have hprest : ∀ e ∈ rest, Pending k plus ms T e := fun e he => hpend e (by simp [he])
      obtain ⟨hg, hrow, hcol, hdk⟩ : Good k ms mp ∧ mp.end_row = i ∧ mp.end_col = j ∧
          (k : Int) ≤ mp.dp := by
        rcases pending_good hpe with h | h
        · exact h
        · omega
      cases plus with
      | true =>
        rw [rowUpdate_loop_plus] at hloop
        rw [folded_plus]
        generalize advanceContinuation mp.end_col (prev_row.drop cidx) cidx = cidx1 at hloop ⊢
        obtain ⟨hg2, hr2, hc2, hd2, hl2, hcol2⟩ := continueFrom_pre hk hT hpe hprev cidx1
        generalize continueFrom prev_row cidx1 mp = mp2 at hloop hg2 hr2 hc2 hd2 hl2 hcol2 ⊢
        obtain ⟨T2, hf, hT2, hle, hlen2, hslot2, _⟩ :=
          plus_fold_inv hk hT i j hg2 (by omega) hc2 hd2 hl2 hcol2
        rw [hf, Option.some_bind] at hloop
        obtain ⟨hP2, hG2⟩ := plus_fold_trace hk hT i j hc2 hd2 hl2 hcol2 (hP rfl) hG hf hle hslot2
        have hcr2 : PrevInv k ms (i + 1) T2 (cr ++ [mp2]) := by
          intro N hN
          rcases List.mem_append.mp hN with hN | hN
          · exact prevInv_mono hle hcr N hN
          · simp only [List.mem_singleton] at hN
            subst hN
            exact ⟨hg2, by omega, by omega, hlen2, hslot2⟩
        have := ih T2 (cr ++ [mp2]) cidx1 (G ++ [mp2]) hT2
          (fun e he => pending_mono hle (hprest e he)) (prevInv_mono hle hprev) hcr2
          (fun _ => hP2) hG2 rest0 T0 cr0 hloop
        rw [List.append_assoc, List.singleton_append] at this
        exact this
      | false =>
        obtain ⟨d, prev, hmp, hom, hpar, hsl1, hsl2⟩ := hpe
        simp only at hmp hom hpar hsl1 hsl2
        have hdp : mp.dp = d := by rw [hmp]; rfl
        obtain ⟨s0, hs1, hs2, hs3⟩ := hsl2 trivial
        rw [rowUpdate_loop_plain k (by omega)] at hloop
        rw [folded_plain]
        have hidx : mp.dp / (k : Int) = ((s0 + 1 : Nat) : Int) := by
          rw [hdp, hs1]
          push_cast
          exact Int.mul_ediv_cancel_left _ (by omega)
        have hdp2 : mp.dp = (k : Int) * (s0 + 1 : Nat) := by
          rw [hdp, hs1]; push_cast; ring
        rw [hidx] at hloop
        by_cases hlen : ((s0 + 1 : Nat) : Int) = (T.length : Int)
        · rw [if_pos hlen] at hloop
          have hlen' : s0 + 1 = T.length := by exact_mod_cast hlen
          obtain ⟨hT2, hle, hprov⟩ := plain_append_inv hT hg (by omega)
            (by rw [hdp, hs1, ← hlen']; push_cast; ring)
            (by rw [← hlen', hcol]; simp only [Nat.add_sub_cancel]; omega)
          have hG2 : MaturedInv k false (G ++ [mp]) (T ++ [mp]) := by
            apply plain_step_trace hG hle hprov hdp2
            · simp; omega
            · rw [hlen']
              have : (T ++ [mp])[T.length]? = some mp := by
                rw [List.getElem?_append_right (le_refl _)]; simp
              rw [colAt_eq_of_getElem? this]
          have := ih (T ++ [mp]) cr cidx (G ++ [mp]) hT2
            (fun e he => pending_mono hle (hprest e he))
            (prevInv_mono hle hprev) (prevInv_mono hle hcr) (fun h => by cases h) hG2
            rest0 T0 cr0 hloop
          rw [List.append_assoc, List.singleton_append] at this
          exact this
        · rw [if_neg hlen, if_neg (by omega), Int.toNat_ofNat] at hloop
          have hlen' : s0 + 1 < T.length := by
            have : s0 + 1 ≠ T.length := fun h => hlen (by exact_mod_cast h)
            omega
          rw [getElem?_eq_getD hlen', Option.some_bind] at hloop
          by_cases hc : j < (T.getD (s0 + 1) .null).end_col
          · rw [if_pos hc] at hloop
            obtain ⟨hT2, hle, hprov⟩ := plain_set_inv hT hg (by omega)
              (by rw [hdp, hs1]; push_cast; ring) hlen'
              (by rw [hcol]; omega) (by rw [hcol]; exact hc)
            have hG2 : MaturedInv k false (G ++ [mp]) (T.set (s0 + 1) mp) := by
              apply plain_step_trace hG hle hprov hdp2
              · simp; omega
              · have : (T.set (s0 + 1) mp)[s0 + 1]? = some mp := by simp [hlen']
                rw [colAt_eq_of_getElem? this]
            have := ih (T.set (s0 + 1) mp) cr cidx (G ++ [mp]) hT2
              (fun e he => pending_mono hle (hprest e he))
              (prevInv_mono hle hprev) (prevInv_mono hle hcr) (fun h => by cases h) hG2
              rest0 T0 cr0 hloop
            rw [List.append_assoc, List.singleton_append] at this
            exact this
          · rw [if_neg hc] at hloop
            have hG2 : MaturedInv k false (G ++ [mp]) T := by
              apply plain_step_trace hG (tableLe_refl T) (fun s N h => Or.inr h) hdp2 hlen'
              rw [hcol]
              unfold colAt
              omega
            have := ih T cr cidx (G ++ [mp]) hT hprest hprev hcr (fun h => by cases h) hG2
              rest0 T0 cr0 hloop
            rw [List.append_assoc, List.singleton_append] at this
            exact this

/-! ## The two halves of a row step -/

theorem rowStep_bind (use_amortized : Nat → Nat → Bool) (k : Nat) (plus : Bool) (row : Int)
    (cols : List Int) (s : SweepState) :
    rowStep use_amortized k plus row cols s =
      (queryStep use_amortized k row cols s).bind
        (fun ev => RowUpdate k row plus { s with events := ev }) := by
  unfold rowStep queryStep
  simp only
  cases h : (if use_amortized s.compressed_table.length cols.length = true then
      AmortizedRowQuery k row (cols.foldl (fun q col => q.AddBegin (row, col)) s.events)
        s.compressed_table
    else ElementwiseRowQuery k row (cols.foldl (fun q col => q.AddBegin (row, col)) s.events)
        s.compressed_table) <;> rfl

/-- Under the invariant the query step schedules the end events of `queryEvents`,
whatever the choice of strategy. -/
theorem queryStep_eq (use_amortized : Nat → Nat → Bool) (k : Nat) (row : Int)
    (cols : List Int) (s : SweepState) (hb : s.events.begin_events = [])
    (hh : s.compressed_table[0]? = some sentinel) (hm : MonoCols s.compressed_table)
    (hs : cols.Pairwise (fun x y => x ≤ y)) (hn : ∀ j ∈ cols, 0 ≤ j) :
    queryStep use_amortized k row cols s =
      some { begin_events := [],
             end_events := s.events.end_events ++ queryEvents k s.compressed_table row cols } := by
  unfold queryStep
  simp only [foldl_addBegin, hb, List.nil_append]
  have h1 : AmortizedRowQuery k row
      { begin_events := cols.map (fun j => (row, j)), end_events := s.events.end_events }
      s.compressed_table =
      some { begin_events := [],
             end_events := s.events.end_events ++ queryEvents k s.compressed_table row cols } := by
    unfold AmortizedRowQuery
    simp only
    rw [amortized_loop_eq k row hh cols 0 _ hs hn (fun _ _ => Nat.zero_le _)]
    rfl
  have h2 : ElementwiseRowQuery k row
      { begin_events := cols.map (fun j => (row, j)), end_events := s.events.end_events }
      s.compressed_table =
      some { begin_events := [],
             end_events := s.events.end_events ++ queryEvents k s.compressed_table row cols } := by
    unfold ElementwiseRowQuery
    simp only
    rw [elementwise_loop_eq k row hh hm cols _ hn]
    rfl
  rw [h1, h2]
  simp

/-! ## What the loop of RowUpdate pops and collects -/

/-- The loop of `RowUpdate` pops the leading end events of the row, and in LCSk++ mode it
collects the nodes that it folds as the current row. -/
theorem rowUpdate_loop_shape (k : Nat) (row : Int) (plus : Bool) (prev_row : List MatchPair) :
    ∀ (endq : List EndEvent) (T cr : List MatchPair) (cidx : Nat) (rest : List EndEvent)
      (T2 cr2 : List MatchPair),
      RowUpdate.loop k row plus prev_row endq T cr cidx = some (rest, T2, cr2) →
      rest = endq.dropWhile (fun e => decide (e.1 = row)) ∧
      (plus = true → cr2 = cr ++ RowUpdate.folded row true prev_row endq cidx) ∧
      (plus = false → cr2 = cr) := by
  intro endq
  induction endq with
  | nil =>
    intro T cr cidx rest T2 cr2 h
    simp only [RowUpdate.loop, Option.some.injEq, Prod.mk.injEq] at h
    obtain ⟨h1, _, h3⟩ := h
    subst h1 h3
    simp [RowUpdate.folded]
  | cons e endq ih =>
    intro T cr cidx rest T2 cr2 h
    obtain ⟨i, j, mp⟩ := e
    by_cases hi : i ≠ row
    · rw [rowUpdate_loop_skip k row plus prev_row i j mp endq T cr cidx hi] at h
      simp only [Option.some.injEq, Prod.mk.injEq] at h
      obtain ⟨h1, _, h3⟩ := h
      subst h1 h3
      rw [folded_skip row true prev_row i j mp endq cidx hi]
      simp [List.dropWhile, hi]
    · have hi' : i = row := not_not.mp hi
      subst hi'
      have hdw : ((i, j, mp) :: endq).dropWhile (fun e => decide (e.1 = i)) =
          endq.dropWhile (fun e => decide (e.1 = i)) := by
        simp [List.dropWhile]
      rw [hdw]
      cases plus with
      | true =>
        rw [rowUpdate_loop_plus] at h
        rw [folded_plus]
        generalize advanceContinuation mp.end_col (prev_row.drop cidx) cidx = cidx1 at h ⊢
        generalize continueFrom prev_row cidx1 mp = mp2 at h ⊢
        cases hf : foldIntoTable j mp2 k mp2.dp
            (pushDummies i j (mp2.dp + 1 - (T.length : Int)).toNat T) with
        | none => rw [hf] at h; cases h
        | some T1 =>
          rw [hf, Option.some_bind] at h
          obtain ⟨a, b, c⟩ := ih T1 (cr ++ [mp2]) cidx1 rest T2 cr2 h
          refine ⟨a, fun _ => ?_, fun hh => by cases hh⟩
          rw [b rfl, List.append_assoc, List.singleton_append]
      | false =>
        by_cases hk : k = 0
        · rw [RowUpdate.loop] at h
          simp [hk] at h
        · rw [rowUpdate_loop_plain k hk] at h
          refine ⟨?_, (fun hh => by cases hh), fun _ => ?_⟩
          · split at h
            · exact (ih _ _ _ _ _ _ h).1
            · split at h
              · cases h
              · cases hg : T[(mp.dp / (k : Int)).toNat]? with
                | none => rw [hg] at h; cases h
                | some cur =>
                  rw [hg, Option.some_bind] at h
                  split at h
                  · exact (ih _ _ _ _ _ _ h).1
                  · exact (ih _ _ _ _ _ _ h).1
          · split at h
            · exact (ih _ _ _ _ _ _ h).2.2 rfl
            · split at h
              · cases h
              · cases hg : T[(mp.dp / (k : Int)).toNat]? with
                | none => rw [hg] at h; cases h
                | some cur =>
                  rw [hg, Option.some_bind] at h
                  split at h
                  · exact (ih _ _ _ _ _ _ h).2.2 rfl
                  · exact (ih _ _ _ _ _ _ h).2.2 rfl

/-- In LCSk mode the folded nodes are the nodes of the popped events. -/
theorem folded_plain_eq (row : Int) (prev_row : List MatchPair) :
    ∀ (endq : List EndEvent) (cidx : Nat),
      RowUpdate.folded row false prev_row endq cidx =
        (endq.takeWhile (fun e => decide (e.1 = row))).map (fun e => e.2.2) := by
  intro endq
  induction endq with
  | nil => intro cidx; rfl
  | cons e endq ih =>
    intro cidx
    obtain ⟨i, j, mp⟩ := e
    by_cases hi : i ≠ row
    · rw [folded_skip row false prev_row i j mp endq cidx hi]
      simp [List.takeWhile, hi]
    · have hi' : i = row := not_not.mp hi
      subst hi'
      rw [folded_plain, ih]
      simp [List.takeWhile]

/-- In LCSk++ mode, when the popped events come in column order, every folded node is
what the continuation test makes of the node of its event at the first node of the
previous row that ends at or after the column before it. -/
theorem folded_plus_eq (row : Int) (prev_row : List MatchPair) :
    ∀ (endq : List EndEvent) (cidx : Nat),
      ((endq.takeWhile (fun e => decide (e.1 = row))).map
        (fun e => e.2.2.end_col)).Pairwise (fun x y => x ≤ y) →
      (∀ e ∈ endq.takeWhile (fun e => decide (e.1 = row)),
        cidx ≤ firstGE (e.2.2.end_col - 1) prev_row) →
      RowUpdate.folded row true prev_row endq cidx =
        (endq.takeWhile (fun e => decide (e.1 = row))).map
          (fun e => continueFrom prev_row (firstGE (e.2.2.end_col - 1) prev_row) e.2.2) := by
  intro endq
  induction endq with
  | nil => intro cidx _ _; rfl
  | cons e endq ih =>
    intro cidx hs hp
    obtain ⟨i, j, mp⟩ := e
    by_cases hi : i ≠ row
    · rw [folded_skip row true prev_row i j mp endq cidx hi]
      simp [List.takeWhile, hi]
    · have hi' : i = row := not_not.mp hi
      subst hi'
      have htw : ((i, j, mp) :: endq).takeWhile (fun e => decide (e.1 = i)) =
          (i, j, mp) :: endq.takeWhile (fun e => decide (e.1 = i)) := by
        simp [List.takeWhile]
      rw [htw] at hs hp ⊢
      rw [folded_plus]
      have h0 := hp (i, j, mp) (by simp)
      simp only at h0
      rw [advanceContinuation_drop mp.end_col prev_row cidx h0]
      simp only [List.map_cons, List.pairwise_cons] at hs
      rw [ih (firstGE (mp.end_col - 1) prev_row) hs.2]
      · rfl
      · intro e he
        apply firstGE_mono
        have := hs.1 e.2.2.end_col (List.mem_map_of_mem (fun e => e.2.2.end_col) he)
        omega

/-! ## Leading events of a row -/

theorem takeWhile_batch {row : Int} :
    ∀ (batch later : List EndEvent), (∀ e ∈ batch, e.1 = row) →
      (∀ e ∈ later.head?, e.1 ≠ row) →
      (batch ++ later).takeWhile (fun e => decide (e.1 = row)) = batch ∧
      (batch ++ later).dropWhile (fun e => decide (e.1 = row)) = later := by
  intro batch
  induction batch with
  | nil =>
    intro later _ hl
    cases later with
    | nil => simp
    | cons e later =>
      have := hl e (by simp)
      simp [List.takeWhile, List.dropWhile, this]
  | cons e batch ih =>
    intro later hb hl
    have he := hb e (by simp)
    obtain ⟨a, b⟩ := ih later (fun x hx => hb x (by simp [hx])) hl
    simp only [List.cons_append, List.takeWhile, List.dropWhile, he, decide_True]
    exact ⟨by rw [show batch.append later = batch ++ later from rfl, a],
      by rw [show batch.append later = batch ++ later from rfl, b]⟩

theorem continueFrom_end (prev_row : List MatchPair) (idx : Nat) (mp : MatchPair) :
    (continueFrom prev_row idx mp).end_row = mp.end_row ∧
      (continueFrom prev_row idx mp).end_col = mp.end_col := by
  rcases continueFrom_cases prev_row idx mp with h | ⟨p, _, _, _, h⟩
  · rw [h]; exact ⟨rfl, rfl⟩
  · rw [h]; exact ⟨rfl, rfl⟩

/-! ## The queue around a row step -/

/-- The queue after the queries of row `r0`: one end event for every match of the rows
`r0 + 1 - k .. r0`, and events at the same position carry the same node. -/
theorem queue_after_query {k : Nat} (hk : 1 ≤ k) {ms : List (List Int)} {r0 : Nat}
    {s : SweepState} (hq : QueueInv k ms r0 s) :
    (s.events.end_events ++
        queryEvents k s.compressed_table (r0 : Int) (ms.getD r0 [])).map
        (fun e => (e.1, e.2.1)) = pendCoords k ms (r0 + 1 - k) (r0 + 1) ∧
    ∀ e ∈ s.events.end_events ++ queryEvents k s.compressed_table (r0 : Int) (ms.getD r0 []),
      ∀ e2 ∈ s.events.end_events ++
          queryEvents k s.compressed_table (r0 : Int) (ms.getD r0 []),
        e.1 = e2.1 → e.2.1 = e2.2.1 → e.2.2 = e2.2.2 := by
  have hcoords : (s.events.end_events ++
      queryEvents k s.compressed_table (r0 : Int) (ms.getD r0 [])).map (fun e => (e.1, e.2.1)) =
      pendCoords k ms (r0 + 1 - k) (r0 + 1) := by
    rw [List.map_append, hq.endCoords, queryEvents_coords,
      pendCoords_snoc k ms (show r0 + 1 - k ≤ r0 by omega)]
  refine ⟨hcoords, ?_⟩
  have hold : ∀ e ∈ s.events.end_events, e.1 < (r0 : Int) + k - 1 := by
    intro e he
    have hm : (e.1, e.2.1) ∈ pendCoords k ms (r0 + 1 - k) r0 := by
      rw [← hq.endCoords]
      exact List.mem_map_of_mem (fun e => (e.1, e.2.1)) he
    obtain ⟨i, _, hi2, hi3⟩ := mem_pendCoords hm
    simp only at hi3
    omega
  have hnew : ∀ e ∈ queryEvents k s.compressed_table (r0 : Int) (ms.getD r0 []),
      e.1 = (r0 : Int) + k - 1 ∧
        e.2.2 = queryNode k s.compressed_table r0 (e.2.1 - k + 1) := by
    intro e he
    simp only [queryEvents, List.mem_map] at he
    obtain ⟨j, _, rfl⟩ := he
    simp only
    refine ⟨trivial, ?_⟩
    have : j + (k : Int) - 1 - k + 1 = j := by omega
    rw [this]
  intro e he e2 he2 h1 h2
  rcases List.mem_append.mp he with he | he
  · rcases List.mem_append.mp he2 with he2 | he2
    · exact hq.nodeFun e he e2 he2 h1 h2
    · have := hold e he
      have := (hnew e2 he2).1
      omega
  · rcases List.mem_append.mp he2 with he2 | he2
    · have := hold e2 he2
      have := (hnew e he).1
      omega
    · rw [(hnew e he).2, (hnew e2 he2).2, h2]

/-- A queue that holds one end event for every match of the rows `r0 + 1 - k .. r0`
starts with the events of row `r0`, which are those of the matches of row
`r0 + 1 - k`, and goes on with events of later rows. -/
theorem queue_split {k : Nat} (hk : 1 ≤ k) {ms : List (List Int)} {r0 : Nat}
    {q : List EndEvent}
    (hcoords : q.map (fun e => (e.1, e.2.1)) = pendCoords k ms (r0 + 1 - k) (r0 + 1)) :
    (q.takeWhile (fun e => decide (e.1 = (r0 : Int)))).map (fun e => (e.1, e.2.1)) =
        (if k ≤ r0 + 1 then ms.getD (r0 + 1 - k) [] else []).map
          (fun (j : Int) => ((r0 : Int), j + k - 1)) ∧
      (q.dropWhile (fun e => decide (e.1 = (r0 : Int)))).map (fun e => (e.1, e.2.1)) =
        pendCoords k ms (r0 + 1 + 1 - k) (r0 + 1) ∧
      ∃ n, q.dropWhile (fun e => decide (e.1 = (r0 : Int))) = q.drop n ∧
        q.takeWhile (fun e => decide (e.1 = (r0 : Int))) = q.take n := by
  by_cases hcase : k ≤ r0 + 1
  · have hi0' : ((r0 + 1 - k : Nat) : Int) + k - 1 = (r0 : Int) := by omega
    rw [pendCoords_cons k ms (show r0 + 1 - k < r0 + 1 by omega)] at hcoords
    rw [hi0'] at hcoords
    have hsplit : q = q.take (ms.getD (r0 + 1 - k) []).length ++
        q.drop (ms.getD (r0 + 1 - k) []).length := (List.take_append_drop _ _).symm
    have hbatch : (q.take (ms.getD (r0 + 1 - k) []).length).map (fun e => (e.1, e.2.1)) =
        (ms.getD (r0 + 1 - k) []).map (fun (j : Int) => ((r0 : Int), j + k - 1)) := by
      rw [List.map_take, hcoords]
      have : (ms.getD (r0 + 1 - k) []).length =
          ((ms.getD (r0 + 1 - k) []).map (fun (j : Int) => ((r0 : Int), j + k - 1))).length := by
        simp
      rw [this, List.take_left]
    have hlaterc : (q.drop (ms.getD (r0 + 1 - k) []).length).map (fun e => (e.1, e.2.1)) =
        pendCoords k ms (r0 + 1 - k + 1) (r0 + 1) := by
      rw [List.map_drop, hcoords]
      have : (ms.getD (r0 + 1 - k) []).length =
          ((ms.getD (r0 + 1 - k) []).map (fun (j : Int) => ((r0 : Int), j + k - 1))).length := by
        simp
      rw [this, List.drop_left]
    have hlater : ∀ e ∈ (q.drop (ms.getD (r0 + 1 - k) []).length).head?,
        e.1 ≠ (r0 : Int) := by
      intro e he
      have hmem : e ∈ q.drop (ms.getD (r0 + 1 - k) []).length := List.mem_of_mem_head? he
      have hm2 : (e.1, e.2.1) ∈ pendCoords k ms (r0 + 1 - k + 1) (r0 + 1) := by
        rw [← hlaterc]
        exact List.mem_map_of_mem (fun e => (e.1, e.2.1)) hmem
      obtain ⟨i, hi1, _, hi3⟩ := mem_pendCoords hm2
      simp only at hi3
      omega
    have hbrow : ∀ e ∈ q.take (ms.getD (r0 + 1 - k) []).length, e.1 = (r0 : Int) := by
      intro e he
      have hm2 : (e.1, e.2.1) ∈ (ms.getD (r0 + 1 - k) []).map
          (fun (j : Int) => ((r0 : Int), j + k - 1)) := by
        rw [← hbatch]
        exact List.mem_map_of_mem (fun e => (e.1, e.2.1)) he
      simp only [List.mem_map, Prod.mk.injEq] at hm2
      obtain ⟨_, _, h, _⟩ := hm2
      exact h.symm
    obtain ⟨a, b⟩ := takeWhile_batch _ _ hbrow hlater
    rw [← hsplit] at a b
    rw [a, b, if_pos hcase]
    have e1 : r0 + 1 + 1 - k = r0 + 1 - k + 1 := by omega
    rw [e1]
    exact ⟨hbatch, hlaterc, _, rfl, rfl⟩
  · have hlater : ∀ e ∈ q.head?, e.1 ≠ (r0 : Int) := by
      intro e he
      have hmem : e ∈ q := List.mem_of_mem_head? he
      have hm2 : (e.1, e.2.1) ∈ pendCoords k ms (r0 + 1 - k) (r0 + 1) := by
        rw [← hcoords]
        exact List.mem_map_of_mem (fun e => (e.1, e.2.1)) hmem
      obtain ⟨i, _, _, hi3⟩ := mem_pendCoords hm2
      simp only at hi3
      omega
    obtain ⟨a, b⟩ := takeWhile_batch [] q (by simp) hlater
    simp only [List.nil_append] at a b
    rw [a, b, if_neg hcase, hcoords]
    have e1 : r0 + 1 + 1 - k = r0 + 1 - k := by omega
    rw [e1]
    exact ⟨rfl, rfl, 0, by simp, by simp⟩

theorem pending_node {k : Nat} {plus : Bool} {ms : List (List Int)} {T : List MatchPair}
    {e : EndEvent} (h : Pending k plus ms T e) :
    e.2.2.end_row = e.1 ∧ e.2.2.end_col = e.2.1 := by
  obtain ⟨d, prev, h1, _⟩ := h
  rw [h1]
  exact ⟨rfl, rfl⟩

/-! ## One row of the sweep, with the queue and the matured nodes -/

/-- A row step on a state that satisfies the invariants: the query step schedules
`queryEvents`, `RowUpdate` pops the leading events of the row, which are those of the
matches of row `r0 + 1 - k`, and the invariants hold again, the folded nodes being added
to the matured nodes. In LCSk++ mode the new previous row consists, in order, of what the
continuation test makes of the nodes of the popped events. -/
theorem rowStep_trace (use_amortized : Nat → Nat → Bool) {k : Nat} {plus : Bool}
    {ms : List (List Int)} (hk : 1 ≤ k) (hms : RowsSorted ms) {r0 : Nat} {s : SweepState}
    {G : List MatchPair} (hinv : SweepInv k plus ms (r0 : Int) s)
    (htr : TraceInv k plus ms r0 G s) :
    ∃ s2,
      queryStep use_amortized k (r0 : Int) (ms.getD r0 []) s =
        some { begin_events := [],
               end_events := s.events.end_events ++
                 queryEvents k s.compressed_table (r0 : Int) (ms.getD r0 []) } ∧
      RowUpdate k (r0 : Int) plus
        { s with events :=
            { begin_events := [],
              end_events := s.events.end_events ++
                queryEvents k s.compressed_table (r0 : Int) (ms.getD r0 []) } } = some s2 ∧
      rowStep use_amortized k plus (r0 : Int) (ms.getD r0 []) s = some s2 ∧
      SweepInv k plus ms ((r0 : Int) + 1) s2 ∧
      TraceInv k plus ms (r0 + 1)
        (G ++ RowUpdate.folded (r0 : Int) plus s.prev_row_match_pairs
          (s.events.end_events ++
            queryEvents k s.compressed_table (r0 : Int) (ms.getD r0 [])) 0) s2 ∧
      (∀ e ∈ (s.events.end_events ++
            queryEvents k s.compressed_table (r0 : Int) (ms.getD r0 [])).takeWhile
            (fun e => decide (e.1 = (r0 : Int))),
          Pending k plus ms s.compressed_table e) ∧
      ((s.events.end_events ++
            queryEvents k s.compressed_table (r0 : Int) (ms.getD r0 [])).takeWhile
            (fun e => decide (e.1 = (r0 : Int)))).map (fun e => (e.1, e.2.1)) =
          (if k ≤ r0 + 1 then ms.getD (r0 + 1 - k) [] else []).map
            (fun (j : Int) => ((r0 : Int), j + k - 1)) ∧
      (plus = true → s2.prev_row_match_pairs =
        ((s.events.end_events ++
            queryEvents k s.compressed_table (r0 : Int) (ms.getD r0 [])).takeWhile
            (fun e => decide (e.1 = (r0 : Int)))).map
          (fun e => continueFrom s.prev_row_match_pairs
            (firstGE (e.2.1 - 1) s.prev_row_match_pairs) e.2.2)) := by
  have hk' : (1 : Int) ≤ (k : Int) := by exact_mod_cast hk
  obtain ⟨hsorted, hnn⟩ := rowsSorted_getD hms r0
  have hqs := queryStep_eq use_amortized k (r0 : Int) (ms.getD r0 []) s hinv.begin_nil
    hinv.table.head hinv.table.mono hsorted hnn
  obtain ⟨s2, h1, h2, _⟩ := rowStep_inv use_amortized hk hinv hsorted
    (fun j hj => ⟨hj, hnn j hj⟩)
  have hru := h1
  rw [rowStep_bind, hqs, Option.some_bind] at hru
  obtain ⟨hc, hnf⟩ := queue_after_query hk htr.queue
  obtain ⟨hb, hl, n, hdn, htn⟩ := queue_split hk hc
  have hpend : ∀ e ∈ s.events.end_events ++
      queryEvents k s.compressed_table (r0 : Int) (ms.getD r0 []),
      Pending k plus ms s.compressed_table e := by
    intro e he
    rcases List.mem_append.mp he with he | he
    · exact hinv.pending e he
    · exact queryEvents_pending hk hinv.table (fun j hj => ⟨hj, hnn j hj⟩) e he
  generalize hq : s.events.end_events ++
    queryEvents k s.compressed_table (r0 : Int) (ms.getD r0 []) = q at *
  have hbp : ∀ e ∈ q.takeWhile (fun e => decide (e.1 = (r0 : Int))),
      Pending k plus ms s.compressed_table e := by
    intro e he
    rw [htn] at he
    exact hpend e (List.mem_of_mem_take he)
  -- the columns of the popped events
  have hbcols : (q.takeWhile (fun e => decide (e.1 = (r0 : Int)))).map (fun e => e.2.1) =
      (if k ≤ r0 + 1 then ms.getD (r0 + 1 - k) [] else []).map (fun (j : Int) => j + k - 1) := by
    have := congrArg (List.map Prod.snd) hb
    simpa [List.map_map, Function.comp] using this
  have hbsorted : ((q.takeWhile (fun e => decide (e.1 = (r0 : Int)))).map
      (fun e => e.2.1)).Pairwise (fun x y => x ≤ y) := by
    rw [hbcols, List.pairwise_map]
    split
    · refine List.Pairwise.imp ?_ (rowsSorted_getD hms (r0 + 1 - k)).1
      intro x y hxy
      omega
    · simp
  have hbnode : (q.takeWhile (fun e => decide (e.1 = (r0 : Int)))).map
      (fun e => e.2.2.end_col) =
      (q.takeWhile (fun e => decide (e.1 = (r0 : Int)))).map (fun e => e.2.1) := by
    apply List.map_congr_left
    intro e he
    exact (pending_node (hbp e he)).2
  have hfold : RowUpdate.folded (r0 : Int) true s.prev_row_match_pairs q 0 =
      (q.takeWhile (fun e => decide (e.1 = (r0 : Int)))).map
        (fun e => continueFrom s.prev_row_match_pairs
          (firstGE (e.2.1 - 1) s.prev_row_match_pairs) e.2.2) := by
    rw [folded_plus_eq (r0 : Int) s.prev_row_match_pairs q 0 (by rw [hbnode]; exact hbsorted)
      (fun _ _ => Nat.zero_le _)]
    apply List.map_congr_left
    intro e he
    rw [(pending_node (hbp e he)).2]
  unfold RowUpdate at hru
  simp only at hru
  cases hloop : RowUpdate.loop k (r0 : Int) plus s.prev_row_match_pairs q
      s.compressed_table [] 0 with
  | none => rw [hloop] at hru; cases hru
  | some r =>
    obtain ⟨rest, T2, cr2⟩ := r
    rw [hloop] at hru
    simp only [Option.map_some', Option.some.injEq] at hru
    obtain ⟨t1, t2⟩ := rowUpdate_loop_trace hk q s.compressed_table [] 0 G
      (tableInv_weaken hinv.table (by omega)) hpend hinv.prevRow
      (by intro N hN; simp at hN) htr.plusInv htr.matured rest T2 cr2 hloop
    obtain ⟨g1, g2, g3⟩ := rowUpdate_loop_shape k (r0 : Int) plus s.prev_row_match_pairs q
      s.compressed_table [] 0 rest T2 cr2 hloop
    have hprev2 : plus = true → cr2 =
        (q.takeWhile (fun e => decide (e.1 = (r0 : Int)))).map
          (fun e => continueFrom s.prev_row_match_pairs
            (firstGE (e.2.1 - 1) s.prev_row_match_pairs) e.2.2) := by
      intro hp
      rw [g2 hp, List.nil_append, hfold]
    refine ⟨s2, hqs, ?_, h1, h2, ?_, hbp, hb, ?_⟩
    · unfold RowUpdate
      simp only
      rw [hloop]
      simp only [Option.map_some', Option.some.injEq]
      exact hru
    · subst hru
      refine ⟨⟨?_, ?_, ?_, ?_⟩, t1, t2⟩
      · simp only
        rw [g1, hl]
      · simp only
        intro e he e2 he2
        rw [g1, hdn] at he he2
        exact hnf e (List.mem_of_mem_drop he) e2 (List.mem_of_mem_drop he2)
      · simp only
        cases plus with
        | true =>
          rw [hprev2 rfl, List.map_map]
          have : (MatchPair.end_col ∘ fun (e : EndEvent) =>
              continueFrom s.prev_row_match_pairs
                (firstGE (e.2.1 - 1) s.prev_row_match_pairs) e.2.2) =
              fun e => e.2.2.end_col := by
            funext e
            exact (continueFrom_end _ _ _).2
          rw [this, hbnode]
          exact hbsorted
        | false =>
          rw [g3 rfl]
          simp
      · simp only
        cases plus with
        | true =>
          rw [hprev2 rfl]
          intro P hP P2 hP2 hcol
          simp only [List.mem_map] at hP hP2
          obtain ⟨e, he, rfl⟩ := hP
          obtain ⟨e2, he2, rfl⟩ := hP2
          rw [(continueFrom_end _ _ _).2, (continueFrom_end _ _ _).2,
            (pending_node (hbp e he)).2, (pending_node (hbp e2 he2)).2] at hcol
          have hr1 : e.1 = (r0 : Int) := by
            have := List.mem_takeWhile_imp he
            simpa using this
          have hr2 : e2.1 = (r0 : Int) := by
            have := List.mem_takeWhile_imp he2
            simpa using this
          have hm1 : e ∈ q := by rw [htn] at he; exact List.mem_of_mem_take he
          have hm2 : e2 ∈ q := by rw [htn] at he2; exact List.mem_of_mem_take he2
          rw [hnf e hm1 e2 hm2 (by rw [hr1, hr2]) hcol, hcol]
        | false =>
          rw [g3 rfl]
          intro P hP
          simp at hP
    · intro hp
      subst hru
      exact hprev2 hp

/-! ## The sweep, with the queue and the matured nodes -/

theorem initialState_trace (k : Nat) (plus : Bool) (ms : List (List Int)) :
    TraceInv k plus ms 0 [] initialState := by
  have hnone : ∀ (s : Nat) (N : MatchPair), initialState.compressed_table[s]? = some N →
      s = 0 ∧ N = sentinel := by
    intro s N hN
    simp only [initialState] at hN
    cases s with
    | zero => simp at hN; exact ⟨rfl, hN.symm⟩
    | succ s => simp at hN
  refine ⟨⟨?_, ?_, ?_, ?_⟩, fun _ => ⟨?_, ?_, ?_⟩, ⟨?_, ?_, ?_⟩⟩
  · simp [initialState, pendCoords]
  · intro e he
    simp [initialState] at he
  · simp [initialState]
  · intro P hP
    simp [initialState] at hP
  · intro s N hs hN
    have := (hnone s N hN).1
    omega
  · intro s t N M _ hN hM
    rw [(hnone s N hN).2, (hnone t M hM).2]
  · intro s t N M hN hM _
    rw [(hnone s N hN).2, (hnone t M hM).2]
  · intro s N hs hN
    have := (hnone s N hN).1
    omega
  · intro _ X hX
    simp at hX
  · intro _ X hX
    simp at hX

/-- The sweep over the next rows of a sorted match list never fails and keeps the
invariants, the nodes that it folds being added to the matured nodes. -/
theorem sweep_trace (use_amortized : Nat → Nat → Bool) {k : Nat} {plus : Bool}
    {ms : List (List Int)} (hk : 1 ≤ k) (hms : RowsSorted ms) :
    ∀ (rest tail : List (List Int)) (r0 : Nat) (s : SweepState) (G : List MatchPair),
      ms.drop r0 = rest ++ tail → SweepInv k plus ms (r0 : Int) s → TraceInv k plus ms r0 G s →
      ∃ s2, sweep use_amortized k plus rest (r0 : Int) s = some s2 ∧
        SweepInv k plus ms ((r0 + rest.length : Nat) : Int) s2 ∧
        TraceInv k plus ms (r0 + rest.length)
          (G ++ sweepMatured use_amortized k plus rest (r0 : Int) s) s2 := by
  intro rest
  induction rest with
  | nil =>
    intro tail r0 s G _ hinv htr
    refine ⟨s, rfl, by simpa using hinv, ?_⟩
    simp only [sweepMatured, List.append_nil, List.length_nil, Nat.add_zero]
    exact htr
  | cons cols rest ih =>
    intro tail r0 s G hdrop hinv htr
    rw [List.cons_append] at hdrop
    obtain ⟨hget, hdrop2⟩ := drop_eq_cons hdrop
    have hgetD : ms.getD r0 [] = cols := by simp [hget]
    obtain ⟨s1, q1, q2, q3, q4, q5, _⟩ := rowStep_trace use_amortized hk hms hinv htr
    rw [hgetD] at q1 q2 q3 q5
    have hcast : ((r0 + 1 : Nat) : Int) = (r0 : Int) + 1 := by push_cast; rfl
    have q4' : SweepInv k plus ms ((r0 + 1 : Nat) : Int) s1 := by rw [hcast]; exact q4
    obtain ⟨s2, h3, h4, h5⟩ := ih tail (r0 + 1) s1 _ hdrop2 q4' q5
    refine ⟨s2, ?_, ?_, ?_⟩
    · simp only [sweep, q3]
      rw [← hcast]; exact h3
    · have : r0 + (cols :: rest).length = r0 + 1 + rest.length := by simp; omega
      rw [this]; exact h4
    · have e1 : r0 + (cols :: rest).length = r0 + 1 + rest.length := by simp; omega
      rw [e1]
      simp only [sweepMatured, q1, q2]
      rw [← hcast, ← List.append_assoc]
      exact h5

/-- After the first `n` rows of a sorted match list the sweep has not failed and its
state satisfies the invariants with the matured nodes of these rows. -/
theorem sweepPrefix_trace (use_amortized : Nat → Nat → Bool) {k : Nat} (plus : Bool)
    {ms : List (List Int)} (hk : 1 ≤ k) (hms : RowsSorted ms) (n : Nat) :
    ∃ s, sweepPrefix use_amortized k plus ms n = some s ∧
      SweepInv k plus ms (((ms.take n).length : Nat) : Int) s ∧
      TraceInv k plus ms (ms.take n).length (maturedPrefix use_amortized k plus ms n) s := by
  obtain ⟨s, h1, h2, h3⟩ := sweep_trace use_amortized hk hms (ms.take n) (ms.drop n) 0
    initialState [] (by simp) (by simpa using initialState_inv k plus ms)
    (initialState_trace k plus ms)
  simp only [Nat.zero_add, List.nil_append] at h2 h3
  exact ⟨s, by simpa [sweepPrefix] using h1, h2, by simpa [maturedPrefix] using h3⟩

/-- The state after `n + 1` rows is the state after `n` rows followed by the step of
row `n`. -/
theorem sweepPrefix_succ (use_amortized : Nat → Nat → Bool) (k : Nat) (plus : Bool)
    (ms : List (List Int)) {n : Nat} (hn : n < ms.length) :
    sweepPrefix use_amortized k plus ms (n + 1) =
      (sweepPrefix use_amortized k plus ms n).bind
        (fun s => rowStep use_amortized k plus (n : Int) (ms.getD n []) s) := by
  unfold sweepPrefix
  have h1 : ms.take (n + 1) = ms.take n ++ [ms.getD n []] := by
    rw [List.take_succ, List.getElem?_eq_getElem hn]
    simp [List.getD, List.getElem?_eq_getElem hn]
  rw [h1, sweep_append]
  have h2 : (ms.take n).length = n := by simp; omega
  congr 1
  funext s
  simp only [sweep, h2, Int.zero_add]
  cases rowStep use_amortized k plus (n : Int) (ms.getD n []) s <;> rfl

/-! ## The node before the threshold is the best prior node -/

/-- Scores do not decrease along the table, and two slots with the same score hold the
same node, in both modes. -/
theorem table_dp_mono_uniq {k : Nat} {plus : Bool} {ms : List (List Int)} {rb : Int}
    {T : List MatchPair} (hk : 1 ≤ k) (hT : TableInv k plus ms rb T)
    (hP : plus = true → PlusInv k T) {s t : Nat} {N M : MatchPair}
    (hN : T[s]? = some N) (hM : T[t]? = some M) :
    (s ≤ t → N.dp ≤ M.dp) ∧ (N.dp = M.dp → N = M) := by
  cases plus with
  | true => exact ⟨fun h => (hP rfl).dpMono s t N M h hN hM, (hP rfl).uniq s t N M hN hM⟩
  | false =>
    have e1 := plain_dp_eq hT hN
    have e2 := plain_dp_eq hT hM
    have hk' : (0 : Int) < (k : Int) := by exact_mod_cast hk
    constructor
    · intro h
      rw [e1, e2]
      have : (s : Int) ≤ (t : Int) := by exact_mod_cast h
      exact Int.mul_le_mul_of_nonneg_left this (le_of_lt hk')
    · intro h
      rw [e1, e2] at h
      have : (s : Int) = (t : Int) := by
        have := Int.eq_of_mul_eq_mul_left (ne_of_gt hk') h
        exact this
      have hst : s = t := by exact_mod_cast this
      subst hst
      rw [hN] at hM
      exact Option.some.inj hM

/-- The node that a query makes for column `j ≥ 0`: its parent is the node `P` of the
last slot that ends before column `j`, which has the greatest score among the nodes of
the table that end before column `j` and is the only one with that score, and its score
is `P.dp + k`; unless `P` is the sentinel, the only node that ends before column `j`, in
which case the node has no parent and score `k`. -/
theorem queryNode_best {k : Nat} {plus : Bool} {ms : List (List Int)} {rb : Int}
    {T : List MatchPair} (hk : 1 ≤ k) (hT : TableInv k plus ms rb T)
    (hP : plus = true → PlusInv k T) (row : Int) {j : Int} (hj : 0 ≤ j) :
    ∃ P, P ∈ T ∧ P.end_col < j ∧
      (∀ X ∈ T, X.end_col < j → X.dp ≤ P.dp ∧ (X.dp = P.dp → X = P)) ∧
      ((0 < P.dp ∧ queryNode k T row j = .node (row + k - 1) (j + k - 1) (P.dp + k) P) ∨
       (P = sentinel ∧ (∀ X ∈ T, X.end_col < j → X = sentinel) ∧
          queryNode k T row j = .node (row + k - 1) (j + k - 1) k .null)) := by
  have hpos := firstGE_pos hT.head hj
  have hle := firstGE_le_length j T
  have hlt : firstGE j T - 1 < T.length := by omega
  have hget := getElem?_eq_getD hlt
  have hcol : colAt T (firstGE j T - 1) < j := colAt_lt_of_lt_firstGE j T _ (by omega)
  have hbest : ∀ X ∈ T, X.end_col < j →
      X.dp ≤ (T.getD (firstGE j T - 1) .null).dp ∧
        (X.dp = (T.getD (firstGE j T - 1) .null).dp → X = T.getD (firstGE j T - 1) .null) := by
    intro X hX hXc
    obtain ⟨s, hs⟩ := List.mem_iff_getElem?.mp hX
    have hsl := getElem?_lt_length hs
    have hs2 : s < firstGE j T :=
      lt_firstGE_of_colAt_lt hT.mono hsl (by rw [colAt_eq_of_getElem? hs]; exact hXc)
    obtain ⟨a, b⟩ := table_dp_mono_uniq hk hT hP hs hget
    exact ⟨a (by omega), b⟩
  refine ⟨T.getD (firstGE j T - 1) .null, List.getElem?_mem hget, hcol, hbest, ?_⟩
  unfold queryNode makeMatchPair
  by_cases hd : (T.getD (firstGE j T - 1) .null).dp > 0
  · left
    rw [if_pos hd]
    exact ⟨hd, rfl⟩
  · right
    rw [if_neg hd]
    have hsent : T.getD (firstGE j T - 1) .null = sentinel := by
      rcases tableInv_dp_nonneg hk hT hget with ⟨_, h⟩ | ⟨_, h⟩
      · exact h
      · omega
    refine ⟨hsent, ?_, rfl⟩
    intro X hX hXc
    rw [← hsent]
    apply (hbest X hX hXc).2
    obtain ⟨s, hs⟩ := List.mem_iff_getElem?.mp hX
    have h1 := (hbest X hX hXc).1
    rcases tableInv_dp_nonneg hk hT hs with ⟨_, h⟩ | ⟨_, h⟩
    · rw [h, hsent]
    · omega

/-! ## The continuation test finds the adjacent predecessor -/

/-- What the continuation test makes of the node of an end event `e` at the first node
of the previous row that ends at or after the column before it. -/
theorem continuation_node {k : Nat} {ms : List (List Int)} {T prev_row : List MatchPair}
    {rb : Int}
    (hsorted : (prev_row.map MatchPair.end_col).Pairwise (fun x y => x ≤ y))
    (huniq : ∀ P ∈ prev_row, ∀ P2 ∈ prev_row, P.end_col = P2.end_col → P = P2)
    (hprev : PrevInv k ms rb T prev_row) {e : EndEvent} (hpe : Pending k true ms T e) :
    (∀ P ∈ prev_row, P.end_col = e.2.1 - 1 →
      (continueFrom prev_row (firstGE (e.2.1 - 1) prev_row) e.2.2).dp =
          max e.2.2.dp (P.dp + 1) ∧
        (P.dp + 1 > e.2.2.dp →
          (continueFrom prev_row (firstGE (e.2.1 - 1) prev_row) e.2.2).prev = P) ∧
        (P.dp + 1 ≤ e.2.2.dp →
          continueFrom prev_row (firstGE (e.2.1 - 1) prev_row) e.2.2 = e.2.2) ∧
        (2 ≤ k →
          ((continueFrom prev_row (firstGE (e.2.1 - 1) prev_row) e.2.2).prev = P ↔
            P.dp + 1 > e.2.2.dp))) ∧
    ((∀ P ∈ prev_row, P.end_col ≠ e.2.1 - 1) →
      continueFrom prev_row (firstGE (e.2.1 - 1) prev_row) e.2.2 = e.2.2) := by
  obtain ⟨_, hcol⟩ := pending_node hpe
  constructor
  · intro P hP hPc
    have hmem : (e.2.2.end_col - 1) ∈ prev_row.map MatchPair.end_col := by
      rw [hcol, ← hPc]
      exact List.mem_map_of_mem _ hP
    obtain ⟨p0, hp0, hp0c⟩ := continuation_found (monoCols_of_pairwise hsorted) hmem
    rw [hcol] at hp0 hp0c
    have hPp : P = p0 := huniq P hP p0 (List.getElem?_mem hp0) (by rw [hPc, hp0c])
    subst hPp
    have hadj : P.end_col + 1 = e.2.2.end_col := by rw [hcol]; omega
    have hgt : P.dp + 1 > e.2.2.dp →
        continueFrom prev_row (firstGE (e.2.1 - 1) prev_row) e.2.2 =
          .node e.2.2.end_row e.2.2.end_col (P.dp + 1) P := by
      intro h
      unfold continueFrom
      rw [hp0]
      simp only
      rw [if_pos ⟨hadj, h⟩]
    have hle : P.dp + 1 ≤ e.2.2.dp →
        continueFrom prev_row (firstGE (e.2.1 - 1) prev_row) e.2.2 = e.2.2 := by
      intro h
      unfold continueFrom
      rw [hp0]
      simp only
      rw [if_neg (fun hh => by omega)]
    refine ⟨continueFrom_found hp0 hadj, ?_, hle, ?_⟩
    · intro h
      rw [hgt h]
      rfl
    · intro hk2
      constructor
      · intro hpar
        by_contra hcon
        rw [hle (by omega)] at hpar
        obtain ⟨d, prev, h1, _, h3, _, _⟩ := hpe
        rw [h1] at hpar
        have hpp : prev = P := hpar
        subst hpp
        obtain ⟨hg, _⟩ := hprev prev hP
        rcases h3 with ⟨h3, _⟩ | ⟨_, _, _, h3, _⟩
        · exact good_ne_null hg h3
        · have hk2' : (2 : Int) ≤ (k : Int) := by exact_mod_cast hk2
          omega
      · intro h
        rw [hgt h]
        rfl
  · intro h
    apply continueFrom_absent
    intro hmem
    rw [List.mem_map] at hmem
    obtain ⟨P, hP, hPc⟩ := hmem
    exact h P hP (by rw [hPc, hcol])

/-! ## The first pass of the multistart mode is the single-start run -/

theorem filter_row_flatMap (G : Nat → List Int) (r : Nat) :
    ∀ (l : List Nat),
      ((l.flatMap (fun row => (G row).map (fun col => ((row : Int), col)))).filter
        (fun m => decide (m.1 = (r : Int)))).map Prod.snd =
      (l.filter (fun x => decide (x = r))).flatMap G := by
  intro l
  induction l with
  | nil => rfl
  | cons x l ih =>
    rw [List.flatMap_cons, List.filter_append, List.map_append, ih]
    by_cases hx : x = r
    · subst hx
      have h1 : ((G x).map (fun col => ((x : Int), col))).filter
          (fun m => decide (m.1 = (x : Int))) = (G x).map (fun col => ((x : Int), col)) := by
        rw [List.filter_eq_self]
        intro m hm
        simp only [List.mem_map] at hm
        obtain ⟨c, _, rfl⟩ := hm
        simp
      rw [h1, List.map_map]
      have h2 : (Prod.snd ∘ fun (col : Int) => ((x : Int), col)) = id := by
        funext c; rfl
      rw [h2, List.map_id]
      simp [List.filter_cons]
    · have h1 : ((G x).map (fun col => ((x : Int), col))).filter
          (fun m => decide (m.1 = (r : Int))) = [] := by
        rw [List.filter_eq_nil_iff]
        intro m hm
        simp only [List.mem_map] at hm
        obtain ⟨c, _, rfl⟩ := hm
        simp only [decide_eq_true_eq]
        intro h
        exact hx (by exact_mod_cast h)
      rw [h1]
      simp [List.filter_cons, hx]

theorem filter_eq_range (r : Nat) :
    ∀ (n : Nat), (List.range n).filter (fun x => decide (x = r)) = if r < n then [r] else [] := by
  intro n
  induction n with
  | zero => simp
  | succ n ih =>
    rw [List.range_succ, List.filter_append, ih]
    by_cases h1 : r < n
    · rw [if_pos h1, if_pos (by omega)]
      have : n ≠ r := by omega
      simp [List.filter_cons, this]
    · rw [if_neg h1]
      by_cases h2 : r = n
      · subst h2
        simp [List.filter_cons]
      · rw [if_neg (by omega)]
        have : n ≠ r := fun h => h2 h.symm
        simp [List.filter_cons, this]

/-- The matches of row `r` among all matches, in order, are the columns that the match
source yields for row `r`. -/
theorem allMatches_filter_row (a b : List Char) (k : Nat) {r : Nat} (hr : r < a.length + 1) :
    ((allMatches a b k).filter (fun m => decide (m.1 = (r : Int)))).map Prod.snd =
      GetNextMatches a b k r := by
  unfold allMatches
  rw [filter_row_flatMap (GetNextMatches a b k) r, filter_eq_range, if_pos hr]
  simp

/-- The rows that the multistart mode builds from all matches sorted by column and row
are the rows of the match source, those that the single-start mode uses. -/
theorem normalise_sorted_allMatches (a b : List Char) (k : Nat) :
    normalise (a.length + 1) ((allMatches a b k).insertionSort colRowLe) =
      some (rowsMatches a b k) := by
  have hperm := List.perm_insertionSort colRowLe (allMatches a b k)
  have hsort := List.sorted_insertionSort colRowLe (allMatches a b k)
  have hvalid : ∀ m ∈ (allMatches a b k).insertionSort colRowLe,
      0 ≤ m.1 ∧ m.1.toNat < a.length + 1 := by
    intro m hm
    obtain ⟨h1, h2, _⟩ := validMatches_allMatches a b k m (hperm.mem_iff.mp hm)
    exact ⟨h1, h2⟩
  obtain ⟨rows, h1, h2, h3⟩ := normalise_spec hvalid
  rw [h1]
  congr 1
  apply List.ext_getElem?
  intro r
  by_cases hr : r < a.length + 1
  · have e1 : rows[r]? = some (rows.getD r []) := by
      simp [List.getD, List.getElem?_eq_getElem (show r < rows.length by omega)]
    have e2 : (rowsMatches a b k)[r]? = some ((rowsMatches a b k).getD r []) := by
      have := rowsMatches_length a b k
      simp [List.getD, List.getElem?_eq_getElem (show r < (rowsMatches a b k).length by omega)]
    rw [e1, e2, h3 r, rowsMatches_getD, ← allMatches_filter_row a b k hr]
    congr 1
    apply List.eq_of_perm_of_sorted (r := fun (x y : Int) => x ≤ y)
    · exact (hperm.filter _).map _
    · have hrs := normalise_rowsSorted h3 hsort
        (fun m hm => (validMatches_allMatches a b k m (hperm.mem_iff.mp hm)).2.2)
      have hmem : rows.getD r [] ∈ rows := by
        apply List.getElem?_mem (n := r)
        exact e1
      have := (hrs _ hmem).1
      rw [h3 r] at this
      exact this
    · rw [allMatches_filter_row a b k hr]
      exact List.Pairwise.imp (fun h => le_of_lt h) (getNextMatches_sorted a b k r)
  · rw [List.getElem?_eq_none (by omega),
      List.getElem?_eq_none (by rw [rowsMatches_length]; omega)]

theorem mem_halvings_self {l : List (Int × Int)} (h : l ≠ []) : l ∈ halvings l.length l := by
  cases l with
  | nil => exact absurd rfl h
  | cons x rest => simp [halvings]

/-- The list of all matches sorted by column and row is the first subset on which the
multistart mode runs the engine, when there is a match at all. -/
theorem sorted_mem_multistartSubsets {all : List (Int × Int)} (h : all ≠ []) :
    all.insertionSort colRowLe ∈ multistartSubsets all := by
  unfold multistartSubsets
  rw [List.mem_flatMap]
  refine ⟨all, mem_halvings_self h, mem_halvings_self ?_⟩
  intro hnil
  have := (List.perm_insertionSort colRowLe all).length_eq
  rw [hnil] at this
  exact h (List.length_eq_zero.mp this.symm)

/-- Every pair of the single-start result is in the multistart result. -/
theorem single_subset_multistart (use_amortized : Nat → Nat → Bool) (a b : List Char)
    {k : Nat} (plus : Bool) (hk : 1 ≤ k) :
    ∃ single multi,
      LcskppSparseFastImpl use_amortized a b k plus Mode.SINGLESTART = some single ∧
      LcskppSparseFastImpl use_amortized a b k plus Mode.MULTISTART_2D_LOGARITHMIC =
        some multi ∧
      passRecon use_amortized k plus (a.length + 1)
        ((allMatches a b k).insertionSort colRowLe) = some single ∧
      ∀ p ∈ single, p ∈ multi := by
  obtain ⟨single, h1, _, _, h4⟩ := impl_single_spec use_amortized a b plus hk
  obtain ⟨multi, g1, _, _, g4, _⟩ := impl_multistart_spec use_amortized a b plus hk
  have hpass : passRecon use_amortized k plus (a.length + 1)
      ((allMatches a b k).insertionSort colRowLe) = some single := by
    unfold passRecon
    rw [normalise_sorted_allMatches]
    exact h1
  refine ⟨single, multi, h1, g1, hpass, ?_⟩
  intro p hp
  by_cases hall : allMatches a b k = []
  · exfalso
    obtain ⟨i, j, t, hm, _⟩ := h4 p hp
    rw [hall] at hm
    simp at hm
  · exact (g4 p).mpr ⟨_, sorted_mem_multistartSubsets hall, single, hpass, hp⟩

/-! ## The table after each end event -/

/-- The loop of `RowUpdate` on a queue that starts with events of the row: the loop
on these first events, then the loop on the rest from the table, the current row and
the continuation pointer reached. So the loop on the first `m` events of the row gives
the table after `m` complete end events. -/
theorem rowUpdate_loop_append (k : Nat) (row : Int) (plus : Bool) (prev_row : List MatchPair) :
    ∀ (l1 l2 : List EndEvent) (T cr : List MatchPair) (cidx : Nat), (∀ e ∈ l1, e.1 = row) →
      RowUpdate.loop k row plus prev_row (l1 ++ l2) T cr cidx =
        (RowUpdate.loop k row plus prev_row l1 T cr cidx).bind
          (fun r => RowUpdate.loop k row plus prev_row l2 r.2.1 r.2.2
            (l1.foldl (fun c e =>
              if plus then advanceContinuation e.2.2.end_col (prev_row.drop c) c else c)
              cidx)) := by
  intro l1
  induction l1 with
  | nil =>
    intro l2 T cr cidx _
    simp [RowUpdate.loop]
  | cons e l1 ih =>
    intro l2 T cr cidx hrow
    obtain ⟨i, j, mp⟩ := e
    have hi : i = row := hrow (i, j, mp) (by simp)
    subst hi
    have hrest : ∀ e ∈ l1, e.1 = i := fun e he => hrow e (by simp [he])
    rw [List.cons_append, List.foldl_cons]
    cases plus with
    | true =>
      rw [rowUpdate_loop_plus, rowUpdate_loop_plus]
      simp only [if_true]
      generalize advanceContinuation mp.end_col (prev_row.drop cidx) cidx = cidx1
      generalize continueFrom prev_row cidx1 mp = mp2
      cases foldIntoTable j mp2 k mp2.dp
          (pushDummies i j (mp2.dp + 1 - (T.length : Int)).toNat T) with
      | none => rfl
      | some T1 =>
        simp only [Option.some_bind]
        exact ih l2 T1 (cr ++ [mp2]) cidx1 hrest
    | false =>
      simp only [Bool.false_eq_true, if_false]
      by_cases hk : k = 0
      · rw [RowUpdate.loop, RowUpdate.loop]
        simp [hk]
      · rw [rowUpdate_loop_plain k hk, rowUpdate_loop_plain k hk]
        split
        · exact ih l2 _ cr cidx hrest
        · split
          · rfl
          · cases T[(mp.dp / (k : Int)).toNat]? with
            | none => rfl
            | some cur =>
              simp only [Option.some_bind]
              split
              · exact ih l2 _ cr cidx hrest
              · exact ih l2 _ cr cidx hrest

/-- The fold of the LCSk++ branch leaves no placeholder: the table becomes just long
enough for the slot of the score of the node, and every slot that the old table did not
have holds the node. -/
theorem plus_fold_no_placeholder {k : Nat} {T : List MatchPair} {mp : MatchPair} (i j : Int)
    (hd1 : (k : Int) ≤ mp.dp) (hd2 : (mp.dp - k).toNat < T.length)
    (hd3 : colAt T (mp.dp - k).toNat ≤ j) :
    ∃ T2, foldIntoTable j mp k mp.dp (pushDummies i j (mp.dp + 1 - T.length).toNat T) =
        some T2 ∧
      T2.length = max T.length (mp.dp.toNat + 1) ∧
      ∀ s, T.length ≤ s → s < T2.length → T2[s]? = some mp := by
  obtain ⟨dn, lo, T2, hdn, hf, h2, h3, hlo, hlen, hdlen, hlocol, hin, hout, hcolold⟩ :=
    @plus_fold_shape k T mp i j hd1 hd2 hd3
  have hkdn : k ≤ dn := by omega
  obtain ⟨lo2, T3, g1, _, _, g4, _⟩ :=
    foldIntoTable_spec j mp k dn (pushDummies i j (dn + 1 - T.length) T) hkdn
      (by rw [pushDummies_length]; omega)
  have hn : (mp.dp + 1 - (T.length : Int)).toNat = dn + 1 - T.length := by omega
  rw [hn, hdn] at hf
  rw [hf] at g1
  have hT : T3 = T2 := (Option.some.inj g1).symm
  subst hT
  rw [pushDummies_length] at g4
  have hlen2 : T3.length = max T.length (mp.dp.toNat + 1) := by
    rw [g4, hdn, Int.toNat_ofNat]
    omega
  refine ⟨T3, by rw [hn, hdn]; exact hf, hlen2, ?_⟩
  intro s hs1 hs2
  apply hin s (by omega)
  rw [hlen2, hdn, Int.toNat_ofNat] at hs2
  omega

/-- The table after the first `m` end events of a queue of pending events, in LCSk++
mode: the loop does not fail, slot 0 holds the sentinel, every other slot `i` holds a
node that is matured by then, has a score from `i` to `i + k - 1` and ends in a row up
to the current one, and the last slot holds a node whose score is its index. -/
theorem rowUpdate_take_window {k : Nat} {ms : List (List Int)} (hk : 1 ≤ k) {row : Int}
    {prev_row T : List MatchPair} {endq : List EndEvent} {G : List MatchPair}
    (hT : TableInv k true ms (row + 1) T) (hpend : ∀ e ∈ endq, Pending k true ms T e)
    (hprev : PrevInv k ms row T prev_row) (hP : PlusInv k T) (hG : MaturedInv k true G T)
    (m : Nat) :
    ∃ rest T2 cr2,
      RowUpdate.loop k row true prev_row (endq.take m) T [] 0 = some (rest, T2, cr2) ∧
      T2[0]? = some sentinel ∧
      (∀ (i : Nat), 1 ≤ i → i < T2.length →
        ∃ N, T2[i]? = some N ∧
          N ∈ G ++ RowUpdate.folded row true prev_row (endq.take m) 0 ∧
          (i : Int) ≤ N.dp ∧ N.dp ≤ (i : Int) + k - 1 ∧ N.end_row ≤ row) ∧
      ∃ L, T2.getLast? = some L ∧ L.dp = (T2.length : Int) - 1 := by
  have hpend2 : ∀ e ∈ endq.take m, Pending k true ms T e :=
    fun e he => hpend e (List.mem_of_mem_take he)
  obtain ⟨rest, T2, cr2, h1, h2, _, _, _, _⟩ :=
    @rowUpdate_loop_inv k true ms hk row prev_row (endq.take m) T [] 0 hT hpend2 hprev
      (by intro N hN; simp at hN)
  obtain ⟨t1, t2⟩ := rowUpdate_loop_trace hk (endq.take m) T [] 0 G hT hpend2 hprev
    (by intro N hN; simp at hN) (fun _ => hP) hG rest T2 cr2 h1
  have hpos : 0 < T2.length := getElem?_lt_length h2.head
  refine ⟨rest, T2, cr2, h1, h2.head, ?_, ?_⟩
  · intro i hi hlen
    have hget := getElem?_eq_getD hlen
    have hup := (t1 rfl).upper i _ hi hget
    have hgood := (h2.good i _ hi hget).2
    exact ⟨_, hget, t2.fromMatured i _ hi hget, (h2.slotPlus rfl i _ hi hget).1, by omega,
      by omega⟩
  · have hlast : T2.getLast? = some (T2.getD (T2.length - 1) .null) := by
      rw [List.getLast?_eq_getElem?, getElem?_eq_getD (by omega)]
    refine ⟨_, hlast, ?_⟩
    have hget := getElem?_eq_getD (show T2.length - 1 < T2.length by omega)
    rcases Nat.eq_zero_or_pos (T2.length - 1) with h0 | h0
    · rw [h0] at hget ⊢
      rw [h2.head] at hget
      rw [← Option.some.inj hget]
      simp only [sentinel, MatchPair.dp]
      omega
    · obtain ⟨a, b, _⟩ := h2.slotPlus rfl _ _ h0 hget
      omega

/-! ## The properties of the specification -/

/-- C3: for every `k ≥ 1`, both variants, every choice of query strategy and every match
list whose rows are sorted by column and have no negative column, the single-pass engine
`LcskppSparseFastRealImpl` returns a sequence of pairs, and from each pair to the next
both the row and the column increase strictly. -/
theorem single_pass_strictly_increasing (use_amortized : Nat → Nat → Bool) (k : Nat)
    (lcsk_plus : Bool) (match_rows : List (List Int)) (hk : 1 ≤ k)
    (hrows : RowsSorted match_rows) :
    ∃ recon, LcskppSparseFastRealImpl use_amortized k lcsk_plus match_rows = some recon ∧
      recon.Chain' pairInc := by
  obtain ⟨_, best, _, _, _, hb, hout, _⟩ := engine_good use_amortized lcsk_plus hk hrows
  refine ⟨_, hout, List.Pairwise.chain' ?_⟩
  rw [List.pairwise_reverse]
  rcases hb with hb | hb
  · subst hb; simp [pushed]
  · exact pushed_pairwise hk best hb

theorem single_pass_strictly_increasing_witness :
    RowsSorted [[0], [1], [], [], [5], [], []] ∧
    ∃ recon, LcskppSparseFastRealImpl (fun _ _ => true) 3 true
        [[0], [1], [], [], [5], [], []] = some recon ∧ recon.Chain' pairInc :=
  ⟨by decide, single_pass_strictly_increasing (fun _ _ => true) 3 true
    [[0], [1], [], [], [5], [], []] (by decide) (by decide)⟩

/-- C7: in the aggressive multistart mode `LcskppSparseFast` returns no sequence of pairs
at all, for all strings and all other parameters: the call ends in the failed
`assert(false)`. -/
theorem aggressive_mode_fails (use_amortized : Nat → Nat → Bool) (a b : List Char)
    (params : LcskppParams) (hmode : params.mode = Mode.MULTISTART_AGGRESSIVE) :
    LcskppSparseFast use_amortized a b params = none ∧
      ∀ recon, LcskppSparseFast use_amortized a b params ≠ some recon := by
  have h : LcskppSparseFast use_amortized a b params = none := by
    unfold LcskppSparseFast LcskppSparseFastImpl
    rw [hmode]
  exact ⟨h, fun recon hr => by rw [h] at hr; cases hr⟩

theorem aggressive_mode_fails_witness :
    LcskppSparseFast (fun _ _ => true) "AABB".toList "AABB".toList
        { mode := Mode.MULTISTART_AGGRESSIVE } = none ∧
      ∀ recon, LcskppSparseFast (fun _ _ => true) "AABB".toList "AABB".toList
        { mode := Mode.MULTISTART_AGGRESSIVE } ≠ some recon :=
  aggressive_mode_fails (fun _ _ => true) "AABB".toList "AABB".toList
    { mode := Mode.MULTISTART_AGGRESSIVE } rfl

/-- C8: on the strings of `LcskppMultistartAggressiveTest`, with `k = 3`, the aggressive
multistart mode and `aggressive_runs = 3`, `LcskppSparseFast` ends in the failed
`assert(false)`; it does not return the 26 pairs that the test expects. -/
theorem aggressive_test_fails (use_amortized : Nat → Nat → Bool) :
    LcskppSparseFast use_amortized "AABBxCCCxxDDDxxEEFFxFFGGFBBB".toList
        "AABByDDDyyCCCyyFFGGFEEFFyBBByyAABB".toList
        { k := 3, mode := Mode.MULTISTART_AGGRESSIVE, aggressive_runs := 3 } = none ∧
    LcskppSparseFast use_amortized "AABBxCCCxxDDDxxEEFFxFFGGFBBB".toList
        "AABByDDDyyCCCyyFFGGFEEFFyBBByyAABB".toList
        { k := 3, mode := Mode.MULTISTART_AGGRESSIVE, aggressive_runs := 3 } ≠
      some [(0, 0), (0, 30), (1, 1), (1, 31), (2, 2), (2, 32), (3, 3), (3, 33),
        (5, 10), (6, 11), (7, 12), (10, 5), (11, 6), (12, 7),
        (15, 20), (16, 21), (17, 22), (18, 23),
        (20, 15), (21, 16), (22, 17), (23, 18), (24, 19),
        (25, 25), (26, 26), (27, 27)] := by
  have h : LcskppSparseFast use_amortized "AABBxCCCxxDDDxxEEFFxFFGGFBBB".toList
        "AABByDDDyyCCCyyFFGGFEEFFyBBByyAABB".toList
        { k := 3, mode := Mode.MULTISTART_AGGRESSIVE, aggressive_runs := 3 } = none := rfl
  exact ⟨h, by rw [h]; exact fun hc => by cases hc⟩

/-- C9, as stated, fails: with both strings empty and the aggressive multistart mode the
call does not return the empty sequence, it ends in the failed `assert(false)`. -/
theorem degenerate_input_aggressive_fails :
    LcskppSparseFast (fun _ _ => true) [] [] { k := 1, mode := Mode.MULTISTART_AGGRESSIVE } ≠
      some [] := by
  decide

/-- C9, amended: for all strings `a`, `b` and every `k ≥ 1`, if `a` is empty, or `b` is
empty, or `k > min(len(a), len(b))`, then in the single-start and in the
multistart-logarithmic mode `LcskppSparseFast` returns the empty sequence, for both
variants, with and without the reverse pass and for every choice of query strategy. -/
theorem degenerate_input_empty (use_amortized : Nat → Nat → Bool) (a b : List Char)
    (params : LcskppParams) (hk : 1 ≤ params.k)
    (hmode : params.mode ≠ Mode.MULTISTART_AGGRESSIVE)
    (hdeg : a = [] ∨ b = [] ∨ params.k > min a.length b.length) :
    LcskppSparseFast use_amortized a b params = some [] := by
  have hshort : a.length < params.k ∨ b.length < params.k := by
    rcases hdeg with h | h | h
    · subst h; left; simpa using hk
    · subst h; right; simpa using hk
    · rcases Nat.lt_or_ge a.length params.k with h1 | h1
      · exact Or.inl h1
      · right
        have : min a.length b.length = b.length ∨ min a.length b.length = a.length := by
          rcases Nat.le_total a.length b.length with h2 | h2
          · right; exact Nat.min_eq_left h2
          · left; exact Nat.min_eq_right h2
        omega
  unfold LcskppSparseFast
  rw [impl_nil_of_short use_amortized a b params.k params.lcsk_plus params.mode hmode hshort]
  simp only
  split
  · rw [impl_nil_of_short use_amortized a b.reverse params.k params.lcsk_plus params.mode hmode
      (by simpa using hshort)]
    rfl
  · rfl

theorem degenerate_input_empty_witness :
    LcskppSparseFast (fun _ _ => false) "ab".toList "abab".toList
      { k := 3, mode := Mode.MULTISTART_2D_LOGARITHMIC, reverse := true } = some [] :=
  degenerate_input_empty (fun _ _ => false) "ab".toList "abab".toList
    { k := 3, mode := Mode.MULTISTART_2D_LOGARITHMIC, reverse := true }
    (by decide) (by decide) (by decide)

/-- C4: for all strings `a`, `b`, every `k ≥ 1`, both variants, the single-start and the
multistart-logarithmic mode, with and without the reverse pass and for every choice of
query strategy, `LcskppSparseFast` returns a sequence, and every returned pair `(r, c)`
satisfies `0 ≤ r < len(a)`, `0 ≤ c < len(b)` and `a[r] = b[c]`; without the reverse pass
`(r, c) = (i + t, j + t)` for a match `(i, j)` fed to the engine, which is a common block
of length `k`, and some `t < k`. -/
theorem returned_pairs_on_matches (use_amortized : Nat → Nat → Bool) (a b : List Char)
    (params : LcskppParams) (hk : 1 ≤ params.k)
    (hmode : params.mode ≠ Mode.MULTISTART_AGGRESSIVE) :
    ∃ recon, LcskppSparseFast use_amortized a b params = some recon ∧
      ∀ p ∈ recon, 0 ≤ p.1 ∧ p.1 < a.length ∧ 0 ≤ p.2 ∧ p.2 < b.length ∧
        a[p.1.toNat]? = b[p.2.toNat]? ∧
        (params.reverse = false →
          ∃ i j t : Nat, ((i : Int), (j : Int)) ∈ allMatches a b params.k ∧
            isBlockMatch a b params.k i j = true ∧ t < params.k ∧
            p = ((i : Int) + t, (j : Int) + t)) := by
  obtain ⟨F, h1, _, _, h4⟩ := impl_spec use_amortized a b params.lcsk_plus hk hmode
  obtain ⟨R, g1, _, _, g4⟩ := impl_spec use_amortized a b.reverse params.lcsk_plus hk hmode
  unfold LcskppSparseFast
  rw [h1, g1]
  have hF : ∀ p ∈ F, 0 ≤ p.1 ∧ p.1 < a.length ∧ 0 ≤ p.2 ∧ p.2 < b.length ∧
      a[p.1.toNat]? = b[p.2.toNat]? := fun p hp => onStringBlock_char (h4 p hp)
  cases hrev : params.reverse with
  | true =>
    refine ⟨_, rfl, ?_⟩
    intro p hp
    rcases mem_inplace_merge.mp hp with hp | hp
    · obtain ⟨e1, e2, e3, e4, e5⟩ := hF p hp
      exact ⟨e1, e2, e3, e4, e5, fun h => by cases h⟩
    · obtain ⟨q, hq, rfl⟩ := mem_remapColumns.mp hp
      obtain ⟨e1, e2, e3, e4, e5⟩ := onStringBlock_reverse_char (g4 q hq)
      exact ⟨e1, e2, e3, e4, e5, fun h => by cases h⟩
  | false =>
    refine ⟨F, rfl, ?_⟩
    intro p hp
    obtain ⟨e1, e2, e3, e4, e5⟩ := hF p hp
    refine ⟨e1, e2, e3, e4, e5, fun _ => ?_⟩
    obtain ⟨i, j, t, hm, ht, he⟩ := h4 p hp
    obtain ⟨i2, c, hic, hb⟩ := mem_allMatches.mp hm
    simp only [Prod.mk.injEq, Nat.cast_inj] at hic
    obtain ⟨hi, hj⟩ := hic
    subst hi hj
    exact ⟨i, j, t, hm, hb, ht, he⟩

set_option maxRecDepth 1000000 in
theorem returned_pairs_on_matches_witness :
    (1 ≤ ({ reverse := true } : LcskppParams).k ∧
      ({ reverse := true } : LcskppParams).mode ≠ Mode.MULTISTART_AGGRESSIVE) ∧
    ∃ recon, LcskppSparseFast (fun _ _ => true) "actgXxxCCCTT".toList "yyyactgTTCCCz".toList
        { reverse := true } = some recon ∧
      ∀ p ∈ recon, 0 ≤ p.1 ∧ p.1 < "actgXxxCCCTT".toList.length ∧ 0 ≤ p.2 ∧
        p.2 < "yyyactgTTCCCz".toList.length ∧
        "actgXxxCCCTT".toList[p.1.toNat]? = "yyyactgTTCCCz".toList[p.2.toNat]? ∧
        (({ reverse := true } : LcskppParams).reverse = false →
          ∃ i j t : Nat, ((i : Int), (j : Int)) ∈
              allMatches "actgXxxCCCTT".toList "yyyactgTTCCCz".toList
                ({ reverse := true } : LcskppParams).k ∧
            isBlockMatch "actgXxxCCCTT".toList "yyyactgTTCCCz".toList
              ({ reverse := true } : LcskppParams).k i j = true ∧
            t < ({ reverse := true } : LcskppParams).k ∧
            p = ((i : Int) + t, (j : Int) + t)) :=
  ⟨by decide, returned_pairs_on_matches (fun _ _ => true) "actgXxxCCCTT".toList
    "yyyactgTTCCCz".toList { reverse := true } (by decide) (by decide)⟩

/-- C5: with `a = "a"`, `b = "aa"`, `k = 1`, the multistart-logarithmic mode and the
reverse pass, `LcskppSparseFast` returns `(0,0), (0,1), (0,1), (0,0)` for every choice of
query strategy, which is not sorted by `(row, col)`: among the pairs of row 0 the column
decreases. -/
theorem multistart_reverse_unsorted (use_amortized : Nat → Nat → Bool) :
    LcskppSparseFast use_amortized "a".toList "aa".toList
        { k := 1, mode := Mode.MULTISTART_2D_LOGARITHMIC, reverse := true } =
      some [(0, 0), (0, 1), (0, 1), (0, 0)] ∧
    ¬ [((0 : Int), (0 : Int)), (0, 1), (0, 1), (0, 0)].Pairwise pairLe := by
  refine ⟨?_, by decide⟩
  rw [fast_strategy_irrelevant use_amortized _ _ _ (by decide)]
  decide

/-- C6: with `a = "AAA"`, `b = "AAAxAAA"`, `k = 3` and the multistart-logarithmic mode,
for every choice of query strategy: the forward result `F` and the remapped result `R'`
of the pass on the reversed `b` are as listed, and with the reverse pass
`LcskppSparseFast` returns a sequence that is not the `(row, col)`-sorted merge of `F`
and `R'` and is not sorted. -/
theorem multistart_reverse_not_sorted_merge (use_amortized : Nat → Nat → Bool) :
    LcskppSparseFast use_amortized "AAA".toList "AAAxAAA".toList
        { k := 3, mode := Mode.MULTISTART_2D_LOGARITHMIC, reverse := false } =
      some [(0, 0), (0, 4), (1, 1), (1, 5), (2, 2), (2, 6)] ∧
    (LcskppSparseFast use_amortized "AAA".toList "AAAxAAA".toList.reverse
        { k := 3, mode := Mode.MULTISTART_2D_LOGARITHMIC, reverse := false }).map
        (remapColumns "AAAxAAA".toList.length) =
      some [(0, 6), (0, 2), (1, 5), (1, 1), (2, 4), (2, 0)] ∧
    LcskppSparseFast use_amortized "AAA".toList "AAAxAAA".toList
        { k := 3, mode := Mode.MULTISTART_2D_LOGARITHMIC, reverse := true } =
      some [(0, 0), (0, 4), (0, 6), (0, 2), (1, 1), (1, 5), (1, 5), (1, 1), (2, 2), (2, 4),
        (2, 0), (2, 6)] ∧
    [((0 : Int), (0 : Int)), (0, 4), (0, 6), (0, 2), (1, 1), (1, 5), (1, 5), (1, 1), (2, 2),
        (2, 4), (2, 0), (2, 6)] ≠
      ([((0 : Int), (0 : Int)), (0, 4), (1, 1), (1, 5), (2, 2), (2, 6)] ++
        [(0, 6), (0, 2), (1, 5), (1, 1), (2, 4), (2, 0)]).insertionSort pairLe ∧
    ¬ [((0 : Int), (0 : Int)), (0, 4), (0, 6), (0, 2), (1, 1), (1, 5), (1, 5), (1, 1), (2, 2),
        (2, 4), (2, 0), (2, 6)].Pairwise pairLe := by
  refine ⟨?_, ?_, ?_, by decide, by decide⟩
  · rw [fast_strategy_irrelevant use_amortized _ _ _ (by decide)]
    decide
  · rw [fast_strategy_irrelevant use_amortized _ _ _ (by decide)]
    decide
  · rw [fast_strategy_irrelevant use_amortized _ _ _ (by decide)]
    decide

/-- The strings of `LcskppReverseTest` with `k = 3` and the reverse pass give exactly the
19 pairs that the test expects, for every choice of query strategy. -/
theorem reverse_test_expected (use_amortized : Nat → Nat → Bool) :
    LcskppSparseFast use_amortized "actgXxxCCCTTxxxXxtaacctxXxxGGAAz".toList
        "yyyactgYYyAAGGyytaacctYyyTTCCCz".toList { k := 3, reverse := true } =
      some [(0, 3), (1, 4), (2, 5), (3, 6), (7, 29), (8, 28), (9, 27), (10, 26), (11, 25),
        (17, 16), (18, 17), (19, 18), (20, 19), (21, 20), (22, 21),
        (27, 13), (28, 12), (29, 11), (30, 10)] := by
  rw [fast_strategy_irrelevant use_amortized _ _ _ (by decide)]
  decide

/-- The strings of `LcskppMultistartTest` with `k = 3` in the multistart-logarithmic
mode give exactly the 27 pairs that the test expects, for every choice of query
strategy. -/
theorem multistart_test_expected (use_amortized : Nat → Nat → Bool) :
    LcskppSparseFast use_amortized "AAAbbbBBBcccAAAdddCCCeeeBBBfffAAA".toList
        "AAAbbbBBBcccAAAdddCCC".toList { k := 3, mode := Mode.MULTISTART_2D_LOGARITHMIC } =
      some [(0, 0), (1, 1), (2, 2), (3, 3), (4, 4), (5, 5), (6, 6), (7, 7), (8, 8), (9, 9),
        (10, 10), (11, 11), (12, 12), (13, 13), (14, 14), (15, 15), (16, 16), (17, 17),
        (18, 18), (19, 19), (20, 20), (24, 6), (25, 7), (26, 8), (30, 12), (31, 13),
        (32, 14)] := by
  rw [fast_strategy_irrelevant use_amortized _ _ _ (by decide)]
  decide

/-- C10: for all strings `a`, `b`, every `k ≥ 1`, both variants and every choice of query
strategy, in the multistart-logarithmic mode without the reverse pass `LcskppSparseFast`
returns a sequence that increases strictly in the order of pairs by `(row, col)`, from
each pair to the next and hence between any two positions, so that no pair occurs twice;
and a pair is in it exactly when it is in the reconstruction of the engine pass on one of
the successively halved match subsets. -/
theorem multistart_sorted_dedup_union (use_amortized : Nat → Nat → Bool) (a b : List Char)
    (params : LcskppParams) (hk : 1 ≤ params.k)
    (hmode : params.mode = Mode.MULTISTART_2D_LOGARITHMIC) (hrev : params.reverse = false) :
    ∃ recon, LcskppSparseFast use_amortized a b params = some recon ∧
      recon.Chain' pairLt ∧ recon.Pairwise pairLt ∧ recon.Nodup ∧
      ∀ p, p ∈ recon ↔ ∃ sub ∈ multistartSubsets (allMatches a b params.k), ∃ rec,
        passRecon use_amortized params.k params.lcsk_plus (a.length + 1) sub = some rec ∧
          p ∈ rec := by
  obtain ⟨recon, h1, _, h3, h4, _⟩ := impl_multistart_spec use_amortized a b params.lcsk_plus hk
  refine ⟨recon, ?_, List.Pairwise.chain' h3, h3, ?_, h4⟩
  · unfold LcskppSparseFast
    rw [hmode, h1]
    simp [hrev]
  · refine List.Pairwise.imp ?_ h3
    intro p q hpq heq
    subst heq
    unfold pairLt at hpq
    omega

set_option maxRecDepth 1000000 in
theorem multistart_sorted_dedup_union_witness :
    LcskppSparseFast (fun _ _ => true) "AAAbbbBBBcccAAAdddCCCeeeBBBfffAAA".toList
        "AAAbbbBBBcccAAAdddCCC".toList { k := 3, mode := Mode.MULTISTART_2D_LOGARITHMIC } =
      some [(0, 0), (1, 1), (2, 2), (3, 3), (4, 4), (5, 5), (6, 6), (7, 7), (8, 8), (9, 9),
        (10, 10), (11, 11), (12, 12), (13, 13), (14, 14), (15, 15), (16, 16), (17, 17),
        (18, 18), (19, 19), (20, 20), (24, 6), (25, 7), (26, 8), (30, 12), (31, 13),
        (32, 14)] ∧
    ∃ recon, LcskppSparseFast (fun _ _ => true) "AAAbbbBBBcccAAAdddCCCeeeBBBfffAAA".toList
        "AAAbbbBBBcccAAAdddCCC".toList { k := 3, mode := Mode.MULTISTART_2D_LOGARITHMIC } =
        some recon ∧
      recon.Chain' pairLt ∧ recon.Pairwise pairLt ∧ recon.Nodup ∧
      ∀ p, p ∈ recon ↔
        ∃ sub ∈ multistartSubsets (allMatches "AAAbbbBBBcccAAAdddCCCeeeBBBfffAAA".toList
            "AAAbbbBBBcccAAAdddCCC".toList 3),
          ∃ rec, passRecon (fun _ _ => true) 3 true
            ("AAAbbbBBBcccAAAdddCCCeeeBBBfffAAA".toList.length + 1) sub = some rec ∧ p ∈ rec :=
  ⟨by decide, multistart_sorted_dedup_union (fun _ _ => true)
    "AAAbbbBBBcccAAAdddCCCeeeBBBfffAAA".toList "AAAbbbBBBcccAAAdddCCC".toList
    { k := 3, mode := Mode.MULTISTART_2D_LOGARITHMIC } (by decide) rfl rfl⟩

/-- The strings `"ABCDExBCD"` and `"ABCDEBCD"` with `k = 3`: the single-start engine
returns 8 pairs in LCSk++ mode and 6 pairs in LCSk mode, and the reference programs give
the scores 8 and 6. -/
theorem score_agreement_example :
    LcskppSparseFast (fun _ _ => true) "ABCDExBCD".toList "ABCDEBCD".toList
        { k := 3, lcsk_plus := true, mode := Mode.SINGLESTART, reverse := false } =
      some [(0, 0), (1, 1), (2, 2), (3, 3), (4, 4), (6, 5), (7, 6), (8, 7)] ∧
    LcskppSlowScore "ABCDExBCD".toList "ABCDEBCD".toList 3 = 8 ∧
    LcskppSparseFast (fun _ _ => true) "ABCDExBCD".toList "ABCDEBCD".toList
        { k := 3, lcsk_plus := false, mode := Mode.SINGLESTART, reverse := false } =
      some [(0, 0), (1, 1), (2, 2), (6, 5), (7, 6), (8, 7)] ∧
    LcskSlowScore "ABCDExBCD".toList "ABCDEBCD".toList 3 = 6 := by
  decide

/-- C1: LCSk++ score agreement. For all strings `a`, `b` and every `k ≥ 1`, in
single-start mode with `lcsk_plus = true` and `reverse = false`, on the matches of the
match source and for every choice of query strategy, `LcskppSparseFast` returns a
sequence whose number of pairs is the score of the quadratic reference program, and that
score is the greatest total length of a chain of common substrings, each of length at
least `k`, increasing and non-overlapping in both strings. -/
theorem lcskpp_score_agreement (use_amortized : Nat → Nat → Bool) (a b : List Char) (k : Nat)
    (hk : 1 ≤ k) :
    ∃ recon,
      LcskppSparseFast use_amortized a b
        { k := k, lcsk_plus := true, mode := Mode.SINGLESTART, reverse := false } = some recon ∧
      recon.length = LcskppSlowScore a b k ∧
      IsChainOptimum a b (fun q => decide (k ≤ q)) (LcskppSlowScore a b k) := by
  obtain ⟨recon, h1, h2⟩ := lcskpp_length use_amortized a b hk
  exact ⟨recon, h1, h2, lcskppSlowScore_optimum a b hk⟩

theorem lcskpp_score_agreement_witness :
    1 ≤ 3 ∧
    ∃ recon,
      LcskppSparseFast (fun _ _ => true) "ABCDExBCD".toList "ABCDEBCD".toList
        { k := 3, lcsk_plus := true, mode := Mode.SINGLESTART, reverse := false } = some recon ∧
      recon.length = LcskppSlowScore "ABCDExBCD".toList "ABCDEBCD".toList 3 ∧
      IsChainOptimum "ABCDExBCD".toList "ABCDEBCD".toList (fun q => decide (3 ≤ q))
        (LcskppSlowScore "ABCDExBCD".toList "ABCDEBCD".toList 3) :=
  ⟨by decide,
    lcskpp_score_agreement (fun _ _ => true) "ABCDExBCD".toList "ABCDEBCD".toList 3
      (by decide)⟩

/-- C2: LCSk score agreement. For all strings `a`, `b` and every `k ≥ 1`, in single-start
mode with `lcsk_plus = false` and `reverse = false`, on the matches of the match source
and for every choice of query strategy, `LcskppSparseFast` returns a sequence whose
number of pairs is the score of the quadratic reference program, and that number is `k`
times the greatest number `n` of common blocks of length `k` that can be chained so that
each block starts after the previous block ends in both strings. -/
theorem lcsk_score_agreement (use_amortized : Nat → Nat → Bool) (a b : List Char) (k : Nat)
    (hk : 1 ≤ k) :
    ∃ recon,
      LcskppSparseFast use_amortized a b
        { k := k, lcsk_plus := false, mode := Mode.SINGLESTART, reverse := false } =
        some recon ∧
      recon.length = LcskSlowScore a b k ∧
      ∃ n, recon.length = k * n ∧
        (∃ ch, IsChain a b (fun q => decide (q = k)) ch ∧ ch.length = n) ∧
        ∀ ch, IsChain a b (fun q => decide (q = k)) ch → ch.length ≤ n := by
  obtain ⟨recon, h1, h2⟩ := lcsk_length use_amortized a b hk
  obtain ⟨⟨ch0, g1, g2⟩, g3⟩ := lcskSlowScore_optimum a b hk
  refine ⟨recon, h1, h2, ch0.length, ?_, ⟨ch0, g1, rfl⟩, ?_⟩
  · rw [h2, ← g2, chainScore_eq_mul g1]
  · intro ch hch
    have := g3 ch hch
    rw [chainScore_eq_mul hch, ← g2, chainScore_eq_mul g1] at this
    exact Nat.le_of_mul_le_mul_left this hk

theorem lcsk_score_agreement_witness :
    1 ≤ 3 ∧
    ∃ recon,
      LcskppSparseFast (fun _ _ => true) "ABCDExBCD".toList "ABCDEBCD".toList
        { k := 3, lcsk_plus := false, mode := Mode.SINGLESTART, reverse := false } =
        some recon ∧
      recon.length = LcskSlowScore "ABCDExBCD".toList "ABCDEBCD".toList 3 ∧
      ∃ n, recon.length = 3 * n ∧
        (∃ ch, IsChain "ABCDExBCD".toList "ABCDEBCD".toList (fun q => decide (q = 3)) ch ∧
          ch.length = n) ∧
        ∀ ch, IsChain "ABCDExBCD".toList "ABCDEBCD".toList (fun q => decide (q = 3)) ch →
          ch.length ≤ n :=
  ⟨by decide,
    lcsk_score_agreement (fun _ _ => true) "ABCDExBCD".toList "ABCDEBCD".toList 3
      (by decide)⟩

/-- C11: monotonic table invariant. For every `k ≥ 1`, both variants, every choice of
query strategy and every match list whose rows are sorted by column and have no negative
column, after the sweep has processed any prefix of the rows (the first `n` rows, query
followed by `RowUpdate` for each) it has not failed, and the end columns of the
compressed table do not decrease with the slot index. -/
theorem table_columns_nondecreasing (use_amortized : Nat → Nat → Bool) (k : Nat)
    (lcsk_plus : Bool) (match_rows : List (List Int)) (n : Nat) (hk : 1 ≤ k)
    (hrows : RowsSorted match_rows) :
    ∃ s, sweepPrefix use_amortized k lcsk_plus match_rows n = some s ∧
      ∀ (i j : Nat) (N M : MatchPair), i ≤ j → s.compressed_table[i]? = some N →
        s.compressed_table[j]? = some M → N.end_col ≤ M.end_col := by
  obtain ⟨s, h1, h2, _⟩ := sweepPrefix_inv use_amortized lcsk_plus hk hrows n
  refine ⟨s, h1, ?_⟩
  intro i j N M hij hN hM
  have hj : j < s.compressed_table.length := by
    by_contra hcon
    rw [List.getElem?_eq_none (by omega)] at hM
    cases hM
  have := h2.table.mono i j hij hj
  rwa [colAt_eq_of_getElem? hN, colAt_eq_of_getElem? hM] at this

theorem table_columns_nondecreasing_witness :
    1 ≤ 2 ∧ RowsSorted [[0, 3], [1], [0, 2, 4], [], []] ∧
    ∃ s, sweepPrefix (fun _ _ => false) 2 true [[0, 3], [1], [0, 2, 4], [], []] 4 = some s ∧
      ∀ (i j : Nat) (N M : MatchPair), i ≤ j → s.compressed_table[i]? = some N →
        s.compressed_table[j]? = some M → N.end_col ≤ M.end_col :=
  ⟨by decide, by decide,
    table_columns_nondecreasing (fun _ _ => false) 2 true [[0, 3], [1], [0, 2, 4], [], []] 4
      (by decide) (by decide)⟩

/-- C12: LCSk slot-score invariant. In plain LCSk mode, for every `k ≥ 1`, every choice of
query strategy and every match list with sorted rows, after the sweep has processed any
prefix of the rows every slot `i` of the compressed table holds a node whose `dp` is
`k * i`. -/
theorem lcsk_slot_score (use_amortized : Nat → Nat → Bool) (k : Nat)
    (match_rows : List (List Int)) (n : Nat) (hk : 1 ≤ k) (hrows : RowsSorted match_rows) :
    ∃ s, sweepPrefix use_amortized k false match_rows n = some s ∧
      ∀ (i : Nat), i < s.compressed_table.length →
        ∃ N, s.compressed_table[i]? = some N ∧ N.dp = (k : Int) * i := by
  obtain ⟨s, h1, h2, _⟩ := sweepPrefix_inv use_amortized false hk hrows n
  refine ⟨s, h1, ?_⟩
  intro i hi
  refine ⟨_, getElem?_eq_getD hi, ?_⟩
  rcases Nat.eq_zero_or_pos i with h0 | h0
  · subst h0
    have := h2.table.head
    rw [getElem?_eq_getD hi] at this
    rw [Option.some.inj this]
    simp [sentinel, MatchPair.dp]
  · exact h2.table.slotPlain rfl i _ h0 (getElem?_eq_getD hi)

theorem lcsk_slot_score_witness :
    1 ≤ 2 ∧ RowsSorted [[0, 3], [1], [0, 2, 4], [], []] ∧
    ∃ s, sweepPrefix (fun _ _ => true) 2 false [[0, 3], [1], [0, 2, 4], [], []] 5 = some s ∧
      ∀ (i : Nat), i < s.compressed_table.length →
        ∃ N, s.compressed_table[i]? = some N ∧ N.dp = ((2 : Nat) : Int) * i :=
  ⟨by decide, by decide,
    lcsk_slot_score (fun _ _ => true) 2 [[0, 3], [1], [0, 2, 4], [], []] 5
      (by decide) (by decide)⟩

/-- C15: the two query strategies are interchangeable. On a compressed table whose slot 0
is the sentinel and whose end columns do not decrease, for a row whose begin events have
non-negative columns in increasing order, `AmortizedRowQuery` and `ElementwiseRowQuery`
both succeed and leave the same queue: no begin event, and after the end events that
were waiting, for each begin event `(row, j)` in order the end event
`(row + k - 1, j + k - 1, node)` with the same node, made from the last slot that ends
before column `j`. Consequently, on a match list with sorted rows the sweep and the
engine give the same result for any two choices of strategy. -/
theorem query_strategies_interchangeable (k : Nat) (row : Int) (table : List MatchPair)
    (cols : List Int) (ends : List EndEvent) (lcsk_plus : Bool)
    (match_rows : List (List Int)) (ua ua2 : Nat → Nat → Bool) (hk : 1 ≤ k)
    (hhead : table[0]? = some sentinel)
    (hmono : ∀ (s t : Nat), s ≤ t → t < table.length →
      (table.getD s .null).end_col ≤ (table.getD t .null).end_col)
    (hsorted : cols.Pairwise (fun x y => x ≤ y)) (hnonneg : ∀ j ∈ cols, 0 ≤ j)
    (hrows : RowsSorted match_rows) :
    AmortizedRowQuery k row
        { begin_events := cols.map (fun j => (row, j)), end_events := ends } table =
      some { begin_events := [],
             end_events := ends ++ cols.map (fun (j : Int) =>
               (row + k - 1, j + k - 1,
                 makeMatchPair k row j (table.getD (advanceThreshold j table 0 - 1) .null))) } ∧
    ElementwiseRowQuery k row
        { begin_events := cols.map (fun j => (row, j)), end_events := ends } table =
      AmortizedRowQuery k row
        { begin_events := cols.map (fun j => (row, j)), end_events := ends } table ∧
    sweep ua k lcsk_plus match_rows 0 initialState =
      sweep ua2 k lcsk_plus match_rows 0 initialState ∧
    LcskppSparseFastRealImpl ua k lcsk_plus match_rows =
      LcskppSparseFastRealImpl ua2 k lcsk_plus match_rows := by
  have hm : MonoCols table := hmono
  have h1 : AmortizedRowQuery k row
      { begin_events := cols.map (fun j => (row, j)), end_events := ends } table =
      some { begin_events := [], end_events := ends ++ queryEvents k table row cols } := by
    unfold AmortizedRowQuery
    simp only
    rw [amortized_loop_eq k row hhead cols 0 _ hsorted hnonneg (fun _ _ => Nat.zero_le _)]
    rfl
  have h2 : ElementwiseRowQuery k row
      { begin_events := cols.map (fun j => (row, j)), end_events := ends } table =
      some { begin_events := [], end_events := ends ++ queryEvents k table row cols } := by
    unfold ElementwiseRowQuery
    simp only
    rw [elementwise_loop_eq k row hhead hm cols _ hnonneg]
    rfl
  refine ⟨h1, by rw [h1, h2], ?_, ?_⟩
  · obtain ⟨s, g1, _, g3⟩ := sweep_inv ua hk hrows match_rows 0 initialState rfl
      (by simpa using initialState_inv k lcsk_plus match_rows)
    obtain ⟨s2, f1, _, f3⟩ := sweep_inv ua2 hk hrows match_rows 0 initialState rfl
      (by simpa using initialState_inv k lcsk_plus match_rows)
    have e1 : sweep ua k lcsk_plus match_rows 0 initialState = some s := by simpa using g1
    have e2 : sweep ua2 k lcsk_plus match_rows 0 initialState = some s2 := by simpa using f1
    have e3 : sweep (fun _ _ => true) k lcsk_plus match_rows 0 initialState = some s := by
      simpa using g3
    have e4 : sweep (fun _ _ => true) k lcsk_plus match_rows 0 initialState = some s2 := by
      simpa using f3
    rw [e1, e2, ← e3, e4]
  · obtain ⟨_, _, _, _, _, _, g1, g2⟩ := engine_good ua lcsk_plus hk hrows
    obtain ⟨_, _, _, _, _, _, f1, f2⟩ := engine_good ua2 lcsk_plus hk hrows
    rw [g1, f1, ← g2, f2]

theorem query_strategies_interchangeable_witness :
    AmortizedRowQuery 2 3
        { begin_events := [(1 : Int), 4].map (fun j => ((3 : Int), j)), end_events := [] }
        [sentinel, .node 1 1 2 .null, .node 1 1 2 .null] =
      some { begin_events := [],
             end_events := [] ++ [(1 : Int), 4].map (fun (j : Int) =>
               ((3 : Int) + (2 : Nat) - 1, j + (2 : Nat) - 1,
                 makeMatchPair 2 3 j
                   (([sentinel, .node 1 1 2 .null, .node 1 1 2 .null] : List MatchPair).getD
                     (advanceThreshold j [sentinel, .node 1 1 2 .null, .node 1 1 2 .null] 0 - 1)
                     .null))) } ∧
    ElementwiseRowQuery 2 3
        { begin_events := [(1 : Int), 4].map (fun j => ((3 : Int), j)), end_events := [] }
        [sentinel, .node 1 1 2 .null, .node 1 1 2 .null] =
      AmortizedRowQuery 2 3
        { begin_events := [(1 : Int), 4].map (fun j => ((3 : Int), j)), end_events := [] }
        [sentinel, .node 1 1 2 .null, .node 1 1 2 .null] ∧
    sweep (fun _ _ => true) 2 true [[0], [1], [], []] 0 initialState =
      sweep (fun _ _ => false) 2 true [[0], [1], [], []] 0 initialState ∧
    LcskppSparseFastRealImpl (fun _ _ => true) 2 true [[0], [1], [], []] =
      LcskppSparseFastRealImpl (fun _ _ => false) 2 true [[0], [1], [], []] :=
  query_strategies_interchangeable 2 3 [sentinel, .node 1 1 2 .null, .node 1 1 2 .null]
    [1, 4] [] true [[0], [1], [], []] (fun _ _ => true) (fun _ _ => false) (by decide)
    (by decide)
    (by
      intro s t hst ht
      simp only [List.length_cons, List.length_nil] at ht
      have hs : s = 0 ∨ s = 1 ∨ s = 2 := by omega
      have ht2 : t = 0 ∨ t = 1 ∨ t = 2 := by omega
      rcases hs with rfl | rfl | rfl <;> rcases ht2 with rfl | rfl | rfl <;>
        first
          | (exfalso; omega)
          | decide)
    (by decide) (by decide) (by decide)

/-- C18: the assertion of the reconstruction is unreachable. For every `k ≥ 1`, both
variants, every choice of query strategy and every match list whose rows are sorted by
column and have no negative column, the sweep ends with a best node, and every node on
the parent chain of the best node has no parent, or a parent that ends at least `k` rows
and `k` columns before it, or a parent that ends exactly one row and one column before
it; hence `FillLcskReconstruction` does not fail on the chain, and the engine returns
what it returns. -/
theorem reconstruction_assert_unreachable (use_amortized : Nat → Nat → Bool) (k : Nat)
    (lcsk_plus : Bool) (match_rows : List (List Int)) (hk : 1 ≤ k)
    (hrows : RowsSorted match_rows) :
    ∃ s best recon, sweep use_amortized k lcsk_plus match_rows 0 initialState = some s ∧
      bestOf s.compressed_table = some best ∧
      (∀ N ∈ chainNodes best, StepOk k N) ∧
      FillLcskReconstruction k best = some recon ∧
      LcskppSparseFastRealImpl use_amortized k lcsk_plus match_rows = some recon := by
  obtain ⟨s, best, h1, _, h3, h4, h5, _⟩ := engine_good use_amortized lcsk_plus hk hrows
  refine ⟨s, best, _, h1, h3, ?_, fill_good best h4, h5⟩
  intro N hN
  rcases h4 with h4 | h4
  · subst h4
    simp [chainNodes] at hN
  · exact (good_chain_stepOk best h4 N hN).1

theorem reconstruction_assert_unreachable_witness :
    1 ≤ 2 ∧ RowsSorted [[0, 3], [1], [0, 2, 4], [], []] ∧
    ∃ s best recon,
      sweep (fun _ _ => true) 2 true [[0, 3], [1], [0, 2, 4], [], []] 0 initialState = some s ∧
      bestOf s.compressed_table = some best ∧
      (∀ N ∈ chainNodes best, StepOk 2 N) ∧
      FillLcskReconstruction 2 best = some recon ∧
      LcskppSparseFastRealImpl (fun _ _ => true) 2 true [[0, 3], [1], [0, 2, 4], [], []] =
        some recon :=
  ⟨by decide, by decide,
    reconstruction_assert_unreachable (fun _ _ => true) 2 true
      [[0, 3], [1], [0, 2, 4], [], []] (by decide) (by decide)⟩

/-- C19: the length of the reconstruction is the score. For every `k ≥ 1`, both variants,
every choice of query strategy and every match list with sorted rows, for every node `N`
other than the sentinel in the compressed table at the end of the sweep,
`FillLcskReconstruction(k, N)` returns exactly `N.dp` pairs; and the number of pairs that
the engine returns is the `dp` of the last slot of the table. -/
theorem reconstruction_length_is_score (use_amortized : Nat → Nat → Bool) (k : Nat)
    (lcsk_plus : Bool) (match_rows : List (List Int)) (hk : 1 ≤ k)
    (hrows : RowsSorted match_rows) :
    ∃ s, sweep use_amortized k lcsk_plus match_rows 0 initialState = some s ∧
      (∀ N ∈ s.compressed_table, N ≠ sentinel →
        ∃ recon, FillLcskReconstruction k N = some recon ∧ (recon.length : Int) = N.dp) ∧
      ∃ last out, s.compressed_table.getLast? = some last ∧
        LcskppSparseFastRealImpl use_amortized k lcsk_plus match_rows = some out ∧
        (out.length : Int) = last.dp := by
  obtain ⟨s, best, h1, h2, h3, h4, h5, _⟩ := engine_good use_amortized lcsk_plus hk hrows
  have hpos : 0 < s.compressed_table.length := by
    have := h2.table.head
    by_contra hcon
    rw [List.getElem?_eq_none (by omega)] at this
    cases this
  refine ⟨s, h1, ?_, ?_⟩
  · intro N hN hne
    obtain ⟨i, hi⟩ := List.mem_iff_getElem?.mp hN
    rcases Nat.eq_zero_or_pos i with h0 | h0
    · subst h0
      rw [h2.table.head] at hi
      exact absurd (Option.some.inj hi).symm hne
    · obtain ⟨hg, _⟩ := h2.table.good i N h0 hi
      refine ⟨_, fill_good N (Or.inr hg), ?_⟩
      rw [List.length_reverse]
      exact pushed_length hk N hg
  · have hlast : s.compressed_table.getLast? =
        some (s.compressed_table.getD (s.compressed_table.length - 1) .null) := by
      rw [List.getLast?_eq_getElem?, getElem?_eq_getD (by omega)]
    refine ⟨_, _, hlast, h5, ?_⟩
    rw [List.length_reverse]
    unfold bestOf at h3
    rw [hlast] at h3
    simp only [Option.some.injEq] at h3
    by_cases h0 : s.compressed_table.length - 1 = 0
    · have hsent : s.compressed_table.getD (s.compressed_table.length - 1) .null = sentinel := by
        have := h2.table.head
        rw [h0]
        rw [getElem?_eq_getD hpos] at this
        exact Option.some.inj this
      rw [hsent] at h3 ⊢
      rw [← h3]
      simp [sentinel, MatchPair.end_row, MatchPair.dp, pushed]
    · have hlt : s.compressed_table.length - 1 < s.compressed_table.length := by omega
      obtain ⟨hg, _⟩ := h2.table.good (s.compressed_table.length - 1) _ (by omega)
        (getElem?_eq_getD hlt)
      have := (good_end_nonneg hk hg).1
      rw [if_pos (by omega)] at h3
      rw [← h3]
      exact pushed_length hk _ hg

theorem reconstruction_length_is_score_witness :
    1 ≤ 2 ∧ RowsSorted [[0, 3], [1], [0, 2, 4], [], []] ∧
    ∃ s, sweep (fun _ _ => true) 2 true [[0, 3], [1], [0, 2, 4], [], []] 0 initialState =
        some s ∧
      (∀ N ∈ s.compressed_table, N ≠ sentinel →
        ∃ recon, FillLcskReconstruction 2 N = some recon ∧ (recon.length : Int) = N.dp) ∧
      ∃ last out, s.compressed_table.getLast? = some last ∧
        LcskppSparseFastRealImpl (fun _ _ => true) 2 true [[0, 3], [1], [0, 2, 4], [], []] =
          some out ∧
        (out.length : Int) = last.dp :=
  ⟨by decide, by decide,
    reconstruction_length_is_score (fun _ _ => true) 2 true
      [[0, 3], [1], [0, 2, 4], [], []] (by decide) (by decide)⟩

/-- C20: table accesses stay in bounds. An access outside the table makes the embedded
sweep fail. For every `k ≥ 1`, both variants and every match list whose rows are sorted
by column and have no negative column, the sweep over any prefix of the rows does not
fail, whether every row uses the amortized query, every row uses the elementwise query,
or the rows choose in any other way; so every read
`compressed_table[curr_threshold_index - 1]`, every read of `lower_bound(...) - 1`, and
every slot that `RowUpdate` reads or writes is inside the table. On the table reached,
for every begin column `j ≥ 0`, the position that the amortized pointer reaches and the
position that `lower_bound` returns are the same, at least 1 and at most the table
size. -/
theorem table_accesses_in_bounds (use_amortized : Nat → Nat → Bool) (k : Nat)
    (lcsk_plus : Bool) (match_rows : List (List Int)) (n : Nat) (hk : 1 ≤ k)
    (hrows : RowsSorted match_rows) :
    ∃ s, sweepPrefix use_amortized k lcsk_plus match_rows n = some s ∧
      sweepPrefix (fun _ _ => true) k lcsk_plus match_rows n = some s ∧
      sweepPrefix (fun _ _ => false) k lcsk_plus match_rows n = some s ∧
      ∀ (j : Int), 0 ≤ j →
        1 ≤ advanceThreshold j s.compressed_table 0 ∧
        advanceThreshold j s.compressed_table 0 ≤ s.compressed_table.length ∧
        lower_bound s.compressed_table j s.compressed_table.length 0
            s.compressed_table.length = advanceThreshold j s.compressed_table 0 ∧
        (∀ (p : Nat), p ≤ advanceThreshold j s.compressed_table 0 →
          advanceThreshold j (s.compressed_table.drop p) p =
            advanceThreshold j s.compressed_table 0) := by
  obtain ⟨s, h1, h2, h3⟩ := sweepPrefix_inv use_amortized lcsk_plus hk hrows n
  refine ⟨s, h1, h3, ?_, ?_⟩
  · rw [sweepPrefix_strategy (fun _ _ => false) (fun _ _ => true) lcsk_plus hk hrows n]
    exact h3
  · intro j hj
    exact ⟨firstGE_pos h2.table.head hj, firstGE_le_length j _,
      lower_bound_table h2.table.mono j, fun p hp => advanceThreshold_drop j _ p hp⟩

theorem table_accesses_in_bounds_witness :
    1 ≤ 2 ∧ RowsSorted [[0, 3], [1], [0, 2, 4], [], []] ∧
    ∃ s, sweepPrefix (fun _ _ => true) 2 false [[0, 3], [1], [0, 2, 4], [], []] 3 = some s ∧
      sweepPrefix (fun _ _ => true) 2 false [[0, 3], [1], [0, 2, 4], [], []] 3 = some s ∧
      sweepPrefix (fun _ _ => false) 2 false [[0, 3], [1], [0, 2, 4], [], []] 3 = some s ∧
      ∀ (j : Int), 0 ≤ j →
        1 ≤ advanceThreshold j s.compressed_table 0 ∧
        advanceThreshold j s.compressed_table 0 ≤ s.compressed_table.length ∧
        lower_bound s.compressed_table j s.compressed_table.length 0
            s.compressed_table.length = advanceThreshold j s.compressed_table 0 ∧
        (∀ (p : Nat), p ≤ advanceThreshold j s.compressed_table 0 →
          advanceThreshold j (s.compressed_table.drop p) p =
            advanceThreshold j s.compressed_table 0) :=
  ⟨by decide, by decide,
    table_accesses_in_bounds (fun _ _ => true) 2 false [[0, 3], [1], [0, 2, 4], [], []] 3
      (by decide) (by decide)⟩

/-- C13, as stated, fails: with `k = 2` in LCSk++ mode, after the two rows of the match
list `[[0], []]` the table is `[sentinel, N, N]` for the one node `N` with `dp = 2`, so
slot 1 holds a node whose `dp` is not 1. -/
theorem lcskpp_slot_score_not_exact :
    RowsSorted [[0], []] ∧
    (sweepPrefix (fun _ _ => true) 2 true [[0], []] 2).map SweepState.compressed_table =
      some [sentinel, .node 1 1 2 .null, .node 1 1 2 .null] ∧
    (sweepPrefix (fun _ _ => false) 2 true [[0], []] 2).map SweepState.compressed_table =
      some [sentinel, .node 1 1 2 .null, .node 1 1 2 .null] ∧
    ¬ (∀ (i : Nat) (N : MatchPair),
        ([sentinel, .node 1 1 2 .null, .node 1 1 2 .null] : List MatchPair)[i]? = some N →
        N.dp = (i : Int)) := by
  refine ⟨by decide, by decide, by decide, ?_⟩
  intro h
  have := h 1 (.node 1 1 2 .null) rfl
  simp [MatchPair.dp] at this

/-- C13, amended: in LCSk++ mode, for every `k ≥ 1`, every choice of query strategy and
every match list with sorted rows, after the sweep has processed any prefix of the rows
slot 0 of the compressed table holds the sentinel, with `dp = 0`, and every slot `i ≥ 1`
holds a node whose `dp` is at least `i` and at most `i + k - 1`. -/
theorem lcskpp_slot_score_range (use_amortized : Nat → Nat → Bool) (k : Nat)
    (match_rows : List (List Int)) (n : Nat) (hk : 1 ≤ k) (hrows : RowsSorted match_rows) :
    ∃ s, sweepPrefix use_amortized k true match_rows n = some s ∧
      s.compressed_table[0]? = some sentinel ∧
      ∀ (i : Nat), 1 ≤ i → i < s.compressed_table.length →
        ∃ N, s.compressed_table[i]? = some N ∧ (i : Int) ≤ N.dp ∧ N.dp ≤ (i : Int) + k - 1 := by
  obtain ⟨s, h1, h2, h3⟩ := sweepPrefix_trace use_amortized true hk hrows n
  refine ⟨s, h1, h2.table.head, ?_⟩
  intro i hi hlen
  have hget := getElem?_eq_getD hlen
  refine ⟨_, hget, (h2.table.slotPlus rfl i _ hi hget).1, ?_⟩
  have := (h3.plusInv rfl).upper i _ hi hget
  omega

theorem lcskpp_slot_score_range_witness :
    1 ≤ 2 ∧ RowsSorted [[0, 3], [1], [0, 2, 4], [], []] ∧
    ∃ s, sweepPrefix (fun _ _ => true) 2 true [[0, 3], [1], [0, 2, 4], [], []] 4 = some s ∧
      s.compressed_table[0]? = some sentinel ∧
      ∀ (i : Nat), 1 ≤ i → i < s.compressed_table.length →
        ∃ N, s.compressed_table[i]? = some N ∧ (i : Int) ≤ N.dp ∧
          N.dp ≤ (i : Int) + (2 : Nat) - 1 :=
  ⟨by decide, by decide,
    lcskpp_slot_score_range (fun _ _ => true) 2 [[0, 3], [1], [0, 2, 4], [], []] 4
      (by decide) (by decide)⟩

/-- C14, as stated, fails in LCSk++ mode: with `k = 2`, after the two rows of the match
list `[[0], []]` slot 1 of the table ends in column 1, but the only matured node has
score 2, so no matured node of score 1 ends there. -/
theorem slot_column_not_of_exact_score :
    RowsSorted [[0], []] ∧
    (sweepPrefix (fun _ _ => true) 2 true [[0], []] 2).map SweepState.compressed_table =
      some [sentinel, .node 1 1 2 .null, .node 1 1 2 .null] ∧
    maturedPrefix (fun _ _ => true) 2 true [[0], []] 2 = [.node 1 1 2 .null] ∧
    ¬ ∃ X ∈ maturedPrefix (fun _ _ => true) 2 true [[0], []] 2,
        X.dp = 1 ∧ X.end_col = (MatchPair.node 1 1 2 .null).end_col := by
  refine ⟨by decide, by decide, by decide, ?_⟩
  have h : maturedPrefix (fun _ _ => true) 2 true [[0], []] 2 = [.node 1 1 2 .null] := by
    decide
  rw [h]
  simp [MatchPair.dp]

/-- C14, amended: for every `k ≥ 1`, every choice of query strategy and every match list
with sorted rows, after the sweep has processed any prefix of the rows every slot `i ≥ 1`
of the compressed table holds a matured node `N` (a node folded by an end event so far).
In LCSk mode `N` has score `k * i` and its end column is the least among the matured
nodes of score `k * i`. In LCSk++ mode `N` has a score from `i` to `i + k - 1` and its
end column is the least among the matured nodes of score at least `i`. -/
theorem slot_column_is_least (use_amortized : Nat → Nat → Bool) (k : Nat)
    (lcsk_plus : Bool) (match_rows : List (List Int)) (n : Nat) (hk : 1 ≤ k)
    (hrows : RowsSorted match_rows) :
    ∃ s, sweepPrefix use_amortized k lcsk_plus match_rows n = some s ∧
      ∀ (i : Nat), 1 ≤ i → i < s.compressed_table.length →
        ∃ N, s.compressed_table[i]? = some N ∧
          N ∈ maturedPrefix use_amortized k lcsk_plus match_rows n ∧
          (lcsk_plus = false → N.dp = (k : Int) * i ∧
            ∀ X ∈ maturedPrefix use_amortized k lcsk_plus match_rows n,
              X.dp = (k : Int) * i → N.end_col ≤ X.end_col) ∧
          (lcsk_plus = true → (i : Int) ≤ N.dp ∧ N.dp ≤ (i : Int) + k - 1 ∧
            ∀ X ∈ maturedPrefix use_amortized k lcsk_plus match_rows n,
              (i : Int) ≤ X.dp → N.end_col ≤ X.end_col) := by
  obtain ⟨s, h1, h2, h3⟩ := sweepPrefix_trace use_amortized lcsk_plus hk hrows n
  refine ⟨s, h1, ?_⟩
  intro i hi hlen
  have hget := getElem?_eq_getD hlen
  have hcolN := colAt_eq_of_getElem? hget
  refine ⟨_, hget, h3.matured.fromMatured i _ hi hget, ?_, ?_⟩
  · intro hp
    refine ⟨h2.table.slotPlain hp i _ hi hget, ?_⟩
    intro X hX hXd
    obtain ⟨t, _, b, c, d⟩ := h3.matured.lowerPlain hp X hX
    rw [b] at hXd
    have hk' : (0 : Int) < (k : Int) := by exact_mod_cast hk
    have : (t : Int) = (i : Int) := Int.eq_of_mul_eq_mul_left (ne_of_gt hk') hXd
    have hti : t = i := by exact_mod_cast this
    subst hti
    rw [← hcolN]
    exact d
  · intro hp
    subst hp
    have hup := (h3.plusInv rfl).upper i _ hi hget
    refine ⟨(h2.table.slotPlus rfl i _ hi hget).1, by omega, ?_⟩
    intro X hX hXd
    obtain ⟨a, b, c⟩ := h3.matured.lowerPlus rfl X hX
    have hd : X.dp.toNat < s.compressed_table.length := by omega
    have := h2.table.mono i X.dp.toNat (by omega) hd
    rw [← hcolN]
    omega

theorem slot_column_is_least_witness :
    1 ≤ 2 ∧ RowsSorted [[0, 3], [1], [0, 2, 4], [], []] ∧
    ∃ s, sweepPrefix (fun _ _ => true) 2 true [[0, 3], [1], [0, 2, 4], [], []] 4 = some s ∧
      ∀ (i : Nat), 1 ≤ i → i < s.compressed_table.length →
        ∃ N, s.compressed_table[i]? = some N ∧
          N ∈ maturedPrefix (fun _ _ => true) 2 true [[0, 3], [1], [0, 2, 4], [], []] 4 ∧
          (true = false → N.dp = ((2 : Nat) : Int) * i ∧
            ∀ X ∈ maturedPrefix (fun _ _ => true) 2 true [[0, 3], [1], [0, 2, 4], [], []] 4,
              X.dp = ((2 : Nat) : Int) * i → N.end_col ≤ X.end_col) ∧
          (true = true → (i : Int) ≤ N.dp ∧ N.dp ≤ (i : Int) + (2 : Nat) - 1 ∧
            ∀ X ∈ maturedPrefix (fun _ _ => true) 2 true [[0, 3], [1], [0, 2, 4], [], []] 4,
              (i : Int) ≤ X.dp → N.end_col ≤ X.end_col) :=
  ⟨by decide, by decide,
    slot_column_is_least (fun _ _ => true) 2 true [[0, 3], [1], [0, 2, 4], [], []] 4
      (by decide) (by decide)⟩

/-- C16: a query returns the best prior score. For every `k ≥ 1`, both variants and every
match list with sorted rows, on the table reached after any prefix of the rows, for a
row of begin events with non-negative columns in increasing order the query that the
heuristic chooses schedules for each begin event `(row, j)` the end event with the node
`queryNode`, and for every column `j ≥ 0` that node has as parent the node `P` of the
table that has the greatest `dp` among the nodes of the table with end column below `j`
(and is the only one with that `dp`), and `dp = P.dp + k`, when `P.dp > 0`; otherwise
`P` is the sentinel, no other node of the table has an end column below `j`, and the
node has no parent and `dp = k`. -/
theorem query_returns_best_prior (use_amortized : Nat → Nat → Bool) (k : Nat)
    (lcsk_plus : Bool) (match_rows : List (List Int)) (n : Nat) (row : Int)
    (cols : List Int) (hk : 1 ≤ k) (hrows : RowsSorted match_rows)
    (hsorted : cols.Pairwise (fun x y => x ≤ y)) (hnonneg : ∀ j ∈ cols, 0 ≤ j) :
    ∃ s, sweepPrefix use_amortized k lcsk_plus match_rows n = some s ∧
      queryStep use_amortized k row cols s =
        some { begin_events := [],
               end_events := s.events.end_events ++ cols.map (fun (j : Int) =>
                 (row + k - 1, j + k - 1, queryNode k s.compressed_table row j)) } ∧
      ∀ (j : Int), 0 ≤ j →
        ∃ P, P ∈ s.compressed_table ∧ P.end_col < j ∧
          (∀ X ∈ s.compressed_table, X.end_col < j → X.dp ≤ P.dp ∧ (X.dp = P.dp → X = P)) ∧
          ((0 < P.dp ∧
              queryNode k s.compressed_table row j =
                .node (row + k - 1) (j + k - 1) (P.dp + k) P) ∨
           (P = sentinel ∧ (∀ X ∈ s.compressed_table, X.end_col < j → X = sentinel) ∧
              queryNode k s.compressed_table row j =
                .node (row + k - 1) (j + k - 1) k .null)) := by
  obtain ⟨s, h1, h2, h3⟩ := sweepPrefix_trace use_amortized lcsk_plus hk hrows n
  refine ⟨s, h1, ?_, ?_⟩
  · exact queryStep_eq use_amortized k row cols s h2.begin_nil h2.table.head h2.table.mono
      hsorted hnonneg
  · intro j hj
    exact queryNode_best hk h2.table h3.plusInv row hj

theorem query_returns_best_prior_witness :
    1 ≤ 2 ∧ RowsSorted [[0, 3], [1], [0, 2, 4], [], []] ∧
    ([2, 5] : List Int).Pairwise (fun x y => x ≤ y) ∧ (∀ j ∈ ([2, 5] : List Int), 0 ≤ j) ∧
    ∃ s, sweepPrefix (fun _ _ => true) 2 true [[0, 3], [1], [0, 2, 4], [], []] 3 = some s ∧
      queryStep (fun _ _ => true) 2 3 [2, 5] s =
        some { begin_events := [],
               end_events := s.events.end_events ++ ([2, 5] : List Int).map (fun (j : Int) =>
                 ((3 : Int) + (2 : Nat) - 1, j + (2 : Nat) - 1,
                   queryNode 2 s.compressed_table 3 j)) } ∧
      ∀ (j : Int), 0 ≤ j →
        ∃ P, P ∈ s.compressed_table ∧ P.end_col < j ∧
          (∀ X ∈ s.compressed_table, X.end_col < j → X.dp ≤ P.dp ∧ (X.dp = P.dp → X = P)) ∧
          ((0 < P.dp ∧
              queryNode 2 s.compressed_table 3 j =
                .node ((3 : Int) + (2 : Nat) - 1) (j + (2 : Nat) - 1) (P.dp + (2 : Nat)) P) ∨
           (P = sentinel ∧ (∀ X ∈ s.compressed_table, X.end_col < j → X = sentinel) ∧
              queryNode 2 s.compressed_table 3 j =
                .node ((3 : Int) + (2 : Nat) - 1) (j + (2 : Nat) - 1) (2 : Nat) .null)) :=
  ⟨by decide, by decide, by decide, by decide,
    query_returns_best_prior (fun _ _ => true) 2 true [[0, 3], [1], [0, 2, 4], [], []] 3 3
      [2, 5] (by decide) (by decide) (by decide) (by decide)⟩

/-- C17, as stated, fails for `k = 1`: on the match list `[[0], [1]]` in LCSk++ mode the
node `P` matured at `(0, 0)` has score `p = 1`; the query of row 1 gives the node at
`(1, 1)` the score `q = 2` and the parent `P`; the continuation test leaves it as it is,
so the parent of the matured node is the `(0, 0)` node although `p + 1 > q` does not
hold. -/
theorem continuation_parent_not_exact :
    RowsSorted [[0], [1]] ∧
    (sweepPrefix (fun _ _ => true) 1 true [[0], [1]] 1).map SweepState.prev_row_match_pairs =
      some [.node 0 0 1 .null] ∧
    ((sweepPrefix (fun _ _ => true) 1 true [[0], [1]] 1).bind
        (queryStep (fun _ _ => true) 1 1 [1])).map MatchEventsQueue.end_events =
      some [(1, 1, .node 1 1 2 (.node 0 0 1 .null))] ∧
    (sweepPrefix (fun _ _ => true) 1 true [[0], [1]] 2).map SweepState.prev_row_match_pairs =
      some [.node 1 1 2 (.node 0 0 1 .null)] ∧
    (MatchPair.node 1 1 2 (.node 0 0 1 .null)).prev = .node 0 0 1 .null ∧
    ¬ ((MatchPair.node 0 0 1 .null).dp + 1 > (MatchPair.node 1 1 2 (.node 0 0 1 .null)).dp) := by
  decide

/-- C17, amended: the LCSk++ continuation rule. In LCSk++ mode, for every `k ≥ 1`, every
choice of query strategy and every match list with sorted rows, let `s` be the state
after the first `n` rows, `q` the queue after the query step of row `n`, and `s2` the
state after `RowUpdate` for row `n`. The nodes of the previous row of `s` end in row
`n - 1`. The previous row of `s2` holds, in order, one node `N` for each end event `e`
of row `n` popped from `q`, at the position of `e`. When a node `P` of the previous row
of `s` ends in the column before `e` then `N.dp = max(q, p + 1)` for the score `q` of
the node of `e` and the score `p` of `P`; the parent of `N` is `P` when `p + 1 > q`, and
otherwise `N` is the node of `e` unchanged, with the parent that the query gave it; for
`k ≥ 2` the parent of `N` is `P` exactly when `p + 1 > q`. When no node of the previous
row ends in the column before `e`, `N` is the node of `e` unchanged. -/
theorem continuation_rule (use_amortized : Nat → Nat → Bool) (k : Nat)
    (match_rows : List (List Int)) (n : Nat) (hk : 1 ≤ k) (hrows : RowsSorted match_rows)
    (hn : n < match_rows.length) :
    ∃ s q s2, sweepPrefix use_amortized k true match_rows n = some s ∧
      queryStep use_amortized k (n : Int) (match_rows.getD n []) s = some q ∧
      RowUpdate k (n : Int) true { s with events := q } = some s2 ∧
      sweepPrefix use_amortized k true match_rows (n + 1) = some s2 ∧
      (∀ P ∈ s.prev_row_match_pairs, P.end_row = (n : Int) - 1) ∧
      s2.prev_row_match_pairs.length =
        (q.end_events.takeWhile (fun e => decide (e.1 = (n : Int)))).length ∧
      ∀ (t : Nat) (e : EndEvent) (N : MatchPair),
        (q.end_events.takeWhile (fun e => decide (e.1 = (n : Int))))[t]? = some e →
        s2.prev_row_match_pairs[t]? = some N →
        N.end_row = (n : Int) ∧ N.end_col = e.2.1 ∧
        e.2.2.end_row = (n : Int) ∧ e.2.2.end_col = e.2.1 ∧
        (∀ P ∈ s.prev_row_match_pairs, P.end_col = e.2.1 - 1 →
          N.dp = max e.2.2.dp (P.dp + 1) ∧
          (P.dp + 1 > e.2.2.dp → N.prev = P) ∧
          (P.dp + 1 ≤ e.2.2.dp → N = e.2.2) ∧
          (2 ≤ k → (N.prev = P ↔ P.dp + 1 > e.2.2.dp))) ∧
        ((∀ P ∈ s.prev_row_match_pairs, P.end_col ≠ e.2.1 - 1) → N = e.2.2) := by
  obtain ⟨s, h1, h2, h3⟩ := sweepPrefix_trace use_amortized true hk hrows n
  have hlen : (match_rows.take n).length = n := by simp; omega
  rw [hlen] at h2 h3
  obtain ⟨s2, g1, g2, g3, _, _, g6, _, g8⟩ := rowStep_trace use_amortized hk hrows h2 h3
  refine ⟨s, _, s2, h1, g1, g2, ?_, ?_, ?_, ?_⟩
  · rw [sweepPrefix_succ use_amortized k true match_rows hn, h1, Option.some_bind]
    exact g3
  · intro P hP
    exact (h2.prevRow P hP).2.1
  · rw [g8 rfl, List.length_map]
  · intro t e N he hN
    simp only at he
    have hmem := List.getElem?_mem he
    have hpe := g6 e hmem
    rw [g8 rfl, List.getElem?_map, he] at hN
    simp only [Option.map_some', Option.some.injEq] at hN
    subst hN
    have hrow : e.1 = (n : Int) := by
      have := List.mem_takeWhile_imp hmem
      simpa using this
    obtain ⟨a, b⟩ := pending_node hpe
    obtain ⟨c, d⟩ := continueFrom_end s.prev_row_match_pairs
      (firstGE (e.2.1 - 1) s.prev_row_match_pairs) e.2.2
    obtain ⟨x, y⟩ := continuation_node h3.queue.prevSorted h3.queue.prevUniq h2.prevRow hpe
    exact ⟨by rw [c, a, hrow], by rw [d, b], by rw [a, hrow], b, x, y⟩

theorem continuation_rule_witness :
    1 ≤ 2 ∧ RowsSorted [[0, 3], [1], [0, 2, 4], [], []] ∧
    2 < ([[0, 3], [1], [0, 2, 4], [], []] : List (List Int)).length ∧
    ∃ s q s2,
      sweepPrefix (fun _ _ => true) 2 true [[0, 3], [1], [0, 2, 4], [], []] 2 = some s ∧
      queryStep (fun _ _ => true) 2 ((2 : Nat) : Int)
        (([[0, 3], [1], [0, 2, 4], [], []] : List (List Int)).getD 2 []) s = some q ∧
      RowUpdate 2 ((2 : Nat) : Int) true { s with events := q } = some s2 ∧
      sweepPrefix (fun _ _ => true) 2 true [[0, 3], [1], [0, 2, 4], [], []] (2 + 1) = some s2 ∧
      (∀ P ∈ s.prev_row_match_pairs, P.end_row = ((2 : Nat) : Int) - 1) ∧
      s2.prev_row_match_pairs.length =
        (q.end_events.takeWhile (fun e => decide (e.1 = ((2 : Nat) : Int)))).length ∧
      ∀ (t : Nat) (e : EndEvent) (N : MatchPair),
        (q.end_events.takeWhile (fun e => decide (e.1 = ((2 : Nat) : Int))))[t]? = some e →
        s2.prev_row_match_pairs[t]? = some N →
        N.end_row = ((2 : Nat) : Int) ∧ N.end_col = e.2.1 ∧
        e.2.2.end_row = ((2 : Nat) : Int) ∧ e.2.2.end_col = e.2.1 ∧
        (∀ P ∈ s.prev_row_match_pairs, P.end_col = e.2.1 - 1 →
          N.dp = max e.2.2.dp (P.dp + 1) ∧
          (P.dp + 1 > e.2.2.dp → N.prev = P) ∧
          (P.dp + 1 ≤ e.2.2.dp → N = e.2.2) ∧
          (2 ≤ 2 → (N.prev = P ↔ P.dp + 1 > e.2.2.dp))) ∧
        ((∀ P ∈ s.prev_row_match_pairs, P.end_col ≠ e.2.1 - 1) → N = e.2.2) :=
  ⟨by decide, by decide, by decide,
    continuation_rule (fun _ _ => true) 2 [[0, 3], [1], [0, 2, 4], [], []] 2
      (by decide) (by decide) (by decide)⟩

/-- The example of the continuation rule: on the match list `[[0], [1], [], []]` with
`k = 2` in LCSk++ mode the node matured at `(2, 2)` continues the node matured at
`(1, 1)`: its score is 3 and its parent is that node. -/
theorem continuation_example :
    (sweepPrefix (fun _ _ => true) 2 true [[0], [1], [], []] 2).map
        SweepState.prev_row_match_pairs = some [.node 1 1 2 .null] ∧
    (sweepPrefix (fun _ _ => true) 2 true [[0], [1], [], []] 3).map
        SweepState.prev_row_match_pairs = some [.node 2 2 3 (.node 1 1 2 .null)] := by
  decide

/-- C21: multistart extends single-start. For all strings `a`, `b`, every `k ≥ 1`, both
variants and every choice of query strategy, without the reverse pass, both the
single-start and the multistart-logarithmic mode return a sequence; the engine pass of
the multistart mode on all matches, sorted by column and row, returns the single-start
result; and every pair of the single-start result is in the multistart result. -/
theorem multistart_extends_single (use_amortized : Nat → Nat → Bool) (a b : List Char)
    (k : Nat) (lcsk_plus : Bool) (hk : 1 ≤ k) :
    ∃ single multi,
      LcskppSparseFast use_amortized a b
        { k := k, lcsk_plus := lcsk_plus, mode := Mode.SINGLESTART, reverse := false } =
        some single ∧
      LcskppSparseFast use_amortized a b
        { k := k, lcsk_plus := lcsk_plus, mode := Mode.MULTISTART_2D_LOGARITHMIC,
          reverse := false } = some multi ∧
      passRecon use_amortized k lcsk_plus (a.length + 1)
        ((allMatches a b k).insertionSort colRowLe) = some single ∧
      ∀ p ∈ single, p ∈ multi := by
  obtain ⟨single, multi, h1, h2, h3, h4⟩ :=
    single_subset_multistart use_amortized a b lcsk_plus hk
  refine ⟨single, multi, ?_, ?_, h3, h4⟩
  · simp only [LcskppSparseFast, h1]
    rfl
  · simp only [LcskppSparseFast, h2]
    rfl

theorem multistart_extends_single_witness :
    1 ≤ 3 ∧
    ∃ single multi,
      LcskppSparseFast (fun _ _ => true) "AAAxBBB".toList "BBBAAAxAAA".toList
        { k := 3, lcsk_plus := true, mode := Mode.SINGLESTART, reverse := false } =
        some single ∧
      LcskppSparseFast (fun _ _ => true) "AAAxBBB".toList "BBBAAAxAAA".toList
        { k := 3, lcsk_plus := true, mode := Mode.MULTISTART_2D_LOGARITHMIC,
          reverse := false } = some multi ∧
      passRecon (fun _ _ => true) 3 true ("AAAxBBB".toList.length + 1)
        ((allMatches "AAAxBBB".toList "BBBAAAxAAA".toList 3).insertionSort colRowLe) =
        some single ∧
      ∀ p ∈ single, p ∈ multi :=
  ⟨by decide,
    multistart_extends_single (fun _ _ => true) "AAAxBBB".toList "BBBAAAxAAA".toList 3 true
      (by decide)⟩

/-- The example of the two modes: on `"AAAxBBB"` and `"BBBAAAxAAA"` with `k = 3` the
single-start mode returns the block `AAAx`, and the multistart mode returns it together
with the pairs of the other blocks. -/
theorem multistart_extends_single_example :
    LcskppSparseFast (fun _ _ => true) "AAAxBBB".toList "BBBAAAxAAA".toList
        { k := 3, lcsk_plus := true, mode := Mode.SINGLESTART, reverse := false } =
      some [(0, 3), (1, 4), (2, 5), (3, 6)] ∧
    LcskppSparseFast (fun _ _ => true) "AAAxBBB".toList "BBBAAAxAAA".toList
        { k := 3, lcsk_plus := true, mode := Mode.MULTISTART_2D_LOGARITHMIC,
          reverse := false } =
      some [(0, 3), (0, 7), (1, 4), (1, 8), (2, 5), (2, 9), (3, 6), (4, 0), (5, 1), (6, 2)] := by
  decide

/-- C22: the LCSk++ slot-score window. In LCSk++ mode, for every `k ≥ 1`, every choice of
query strategy and every match list with sorted rows, take the state `s` after the first
`n` rows, the queue `q` after the query step of row `n`, and the loop of `RowUpdate` on
the first `m` end events of `q`: it does not fail, and in the table after these `m`
complete end events slot 0 holds the sentinel; every slot `i ≥ 1` holds a node that is
matured by then (it is among the nodes folded in the first `n` rows and by these `m`
events), has `i ≤ dp ≤ i + k - 1` and ends in a row up to `n`, so it is none of the
placeholders `MatchPair(n + 1, j + 1, idx, nullptr)` of this row; and the node of the
last slot has `dp` equal to its index, the table size minus 1. -/
theorem lcskpp_slot_window (use_amortized : Nat → Nat → Bool) (k : Nat)
    (match_rows : List (List Int)) (n m : Nat) (hk : 1 ≤ k) (hrows : RowsSorted match_rows)
    (hn : n < match_rows.length) :
    ∃ s q rest table curr_row,
      sweepPrefix use_amortized k true match_rows n = some s ∧
      queryStep use_amortized k (n : Int) (match_rows.getD n []) s = some q ∧
      RowUpdate.loop k (n : Int) true s.prev_row_match_pairs (q.end_events.take m)
        s.compressed_table [] 0 = some (rest, table, curr_row) ∧
      table[0]? = some sentinel ∧
      (∀ (i : Nat), 1 ≤ i → i < table.length →
        ∃ N, table[i]? = some N ∧
          N ∈ maturedPrefix use_amortized k true match_rows n ++
            RowUpdate.folded (n : Int) true s.prev_row_match_pairs (q.end_events.take m) 0 ∧
          (i : Int) ≤ N.dp ∧ N.dp ≤ (i : Int) + k - 1 ∧ N.end_row ≤ (n : Int)) ∧
      ∃ L, table.getLast? = some L ∧ L.dp = (table.length : Int) - 1 := by
  obtain ⟨s, h1, h2, h3⟩ := sweepPrefix_trace use_amortized true hk hrows n
  have hlen : (match_rows.take n).length = n := by simp; omega
  rw [hlen] at h2 h3
  obtain ⟨hsorted, hnn⟩ := rowsSorted_getD hrows n
  have hqs := queryStep_eq use_amortized k (n : Int) (match_rows.getD n []) s h2.begin_nil
    h2.table.head h2.table.mono hsorted hnn
  have hpend : ∀ e ∈ s.events.end_events ++
      queryEvents k s.compressed_table (n : Int) (match_rows.getD n []),
      Pending k true match_rows s.compressed_table e := by
    intro e he
    rcases List.mem_append.mp he with he | he
    · exact h2.pending e he
    · exact queryEvents_pending hk h2.table (fun j hj => ⟨hj, hnn j hj⟩) e he
  obtain ⟨rest, T2, cr2, g1, g2, g3, g4⟩ :=
    rowUpdate_take_window hk (tableInv_weaken h2.table (by omega)) hpend h2.prevRow
      (h3.plusInv rfl) h3.matured m
  exact ⟨s, _, rest, T2, cr2, h1, hqs, g1, g2, g3, g4⟩

theorem lcskpp_slot_window_witness :
    1 ≤ 2 ∧ RowsSorted [[0, 3], [1], [0, 2, 4], [], []] ∧
    2 < ([[0, 3], [1], [0, 2, 4], [], []] : List (List Int)).length ∧
    ∃ s q rest table curr_row,
      sweepPrefix (fun _ _ => true) 2 true [[0, 3], [1], [0, 2, 4], [], []] 2 = some s ∧
      queryStep (fun _ _ => true) 2 ((2 : Nat) : Int)
        (([[0, 3], [1], [0, 2, 4], [], []] : List (List Int)).getD 2 []) s = some q ∧
      RowUpdate.loop 2 ((2 : Nat) : Int) true s.prev_row_match_pairs (q.end_events.take 1)
        s.compressed_table [] 0 = some (rest, table, curr_row) ∧
      table[0]? = some sentinel ∧
      (∀ (i : Nat), 1 ≤ i → i < table.length →
        ∃ N, table[i]? = some N ∧
          N ∈ maturedPrefix (fun _ _ => true) 2 true [[0, 3], [1], [0, 2, 4], [], []] 2 ++
            RowUpdate.folded ((2 : Nat) : Int) true s.prev_row_match_pairs
              (q.end_events.take 1) 0 ∧
          (i : Int) ≤ N.dp ∧ N.dp ≤ (i : Int) + (2 : Nat) - 1 ∧
          N.end_row ≤ ((2 : Nat) : Int)) ∧
      ∃ L, table.getLast? = some L ∧ L.dp = (table.length : Int) - 1 :=
  ⟨by decide, by decide, by decide,
    lcskpp_slot_window (fun _ _ => true) 2 [[0, 3], [1], [0, 2, 4], [], []] 2 1
      (by decide) (by decide) (by decide)⟩

end Lcsk
